import Mathlib

/-!
# Witness complexes of the Gudhi library

A shallow embedding of the witness-complex construction engines

* `Witness_complex::witness_complex` and `Witness_complex::all_faces_in`
  (`src/branches/witness/src/Witness_complex/include/gudhi/Witness_complex.h`),
* the landmark selections `Witness_complex::landmark_choice_by_furthest_points`,
  `Witness_complex::landmark_choice_by_random_points` and the table
  `Witness_complex::nearest_landmarks` of the same file,
* `Strong_witness_complex::create_complex` and
  `Strong_witness_complex::add_all_faces_of_dimension`
  (`src/src/Witness_complex/include/gudhi/Strong_witness_complex.h`),

together with the properties the specification states about them.

Conventions of the embedding.

* Vertex handles and landmark ids are integers (`ℤ`); distances and filtration
  values are rationals (`ℚ`): every finite `double` is a rational number.
* The arithmetic of the number type `FT` is exact. The one conversion of the
  sources to a narrower type, the initialisation of the `float` variable
  `lim_dist2` of `create_complex`, is a parameter `narrow` of the embedding;
  `binary32` is the IEEE-754 conversion, rounding to nearest.
* A read outside a vector, the dereference of an exhausted range and a counting
  loop that can only stop by overflowing have no defined behaviour in C++; the
  embedded functions return `none` there.
* The distance `euclidean_distance` between points, the values of `rand()` and
  the container `std::priority_queue` are not part of the sources: the first two
  are parameters of the embedding, the third one is a parameter with the
  contract of the C++ standard.
* The simplicial complex (`Simplex_tree`, the model of
  `SimplicialComplexForWitness`) is not part of the sources; it is modelled
  from the specification.
-/

namespace Gudhi

/-! ## The complex store -/

/-- A mutating request received by the complex store. -/
inductive Request where
  | insert_simplex (vertices : List ℤ) (filtration : ℚ)
  | insert_simplex_and_subfaces (vertices : List ℤ) (filtration : ℚ)
  | set_dimension (d : ℤ)
deriving DecidableEq

/-- Modelled from the spec: the Complex Store (`Simplex_tree`, whose header is
not among the sources). It holds the inserted simplices, each a vertex set with
its filtration value, and the dimension recorded by `set_dimension`.
The field `log` is a trace: it lists, oldest first, every mutating request the
store has received together with the simplices it held right after serving it. -/
structure Simplex_tree where
  simplices : List (Finset ℤ × ℚ)
  dimension : ℤ
  log : List (Request × List (Finset ℤ × ℚ))
deriving DecidableEq

namespace Simplex_tree

/-- The empty complex. -/
def empty : Simplex_tree := ⟨[], 0, []⟩

/-- The filtration value stored for the simplex `s`, if `s` is in the complex. -/
def filtration (c : Simplex_tree) (s : Finset ℤ) : Option ℚ :=
  (c.simplices.find? (fun p => decide (p.1 = s))).map Prod.snd

/-- Modelled from the spec: `find(vertices) -> handle_or_null`. The vertex range
is read as a set; the handle is rendered by the stored filtration value and
`none` is the null simplex. -/
def find (c : Simplex_tree) (vertices : List ℤ) : Option ℚ :=
  c.filtration vertices.toFinset

/-- The simplex `s` occurs in a list of simplices with their values. -/
def MemL (l : List (Finset ℤ × ℚ)) (s : Finset ℤ) : Prop :=
  ∃ p ∈ l, p.1 = s

instance (l : List (Finset ℤ × ℚ)) (s : Finset ℤ) : Decidable (MemL l s) := by
  unfold MemL; infer_instance

/-- The simplex `s` is in the complex. -/
def Mem (c : Simplex_tree) (s : Finset ℤ) : Prop :=
  MemL c.simplices s

instance (c : Simplex_tree) (s : Finset ℤ) : Decidable (c.Mem s) := by
  unfold Mem; infer_instance

/-- The simplices held after adding `s` with value `f` unless `s` is present. -/
def add (l : List (Finset ℤ × ℚ)) (s : Finset ℤ) (f : ℚ) : List (Finset ℤ × ℚ) :=
  if l.any (fun p => decide (p.1 = s)) then l else l ++ [(s, f)]

/-- Modelled from the spec: `insert_simplex(vertices, filtration) ->
(handle, inserted: bool)`. The simplex alone is added; a simplex already
present keeps its value and the request reports `false`. -/
def insert_simplex (c : Simplex_tree) (vertices : List ℤ) (filtration : ℚ) :
    Simplex_tree × Bool :=
  let l := add c.simplices vertices.toFinset filtration
  (⟨l, c.dimension, c.log ++ [(Request.insert_simplex vertices filtration, l)]⟩,
    !(c.simplices.any (fun p => decide (p.1 = vertices.toFinset))))

/-- All non-empty faces of a vertex range, the range itself included. -/
def faces (vertices : List ℤ) : List (Finset ℤ) :=
  (vertices.sublists.filter (fun t => decide (t ≠ []))).map List.toFinset

/-- Modelled from the spec: `insert_simplex_and_subfaces(vertices, filtration)`
inserts the simplex and all its missing faces, idempotent: faces already present
keep their value. -/
def insert_simplex_and_subfaces (c : Simplex_tree) (vertices : List ℤ) (filtration : ℚ) :
    Simplex_tree :=
  let l := (faces vertices).foldl (fun l s => add l s filtration) c.simplices
  ⟨l, c.dimension, c.log ++ [(Request.insert_simplex_and_subfaces vertices filtration, l)]⟩

/-- Modelled from the spec: `num_vertices() -> count`, the number of
0-simplices. -/
def num_vertices (c : Simplex_tree) : ℕ :=
  (c.simplices.filter (fun p => decide (p.1.card = 1))).length

/-- Modelled from the spec: `set_dimension(d)`. -/
def set_dimension (c : Simplex_tree) (d : ℤ) : Simplex_tree :=
  ⟨c.simplices, d, c.log ++ [(Request.set_dimension d, c.simplices)]⟩

/-- The closure-insert requests of a trace, in order: the vertex range and the
filtration value passed to each `insert_simplex_and_subfaces`. -/
def closure_requests (log : List (Request × List (Finset ℤ × ℚ))) : List (List ℤ × ℚ) :=
  log.filterMap (fun e =>
    match e.1 with
    | Request.insert_simplex_and_subfaces vs f => some (vs, f)
    | _ => none)

/-- Downward closure: every non-empty face of a simplex of the list is in the list. -/
def ClosedList (l : List (Finset ℤ × ℚ)) : Prop :=
  ∀ s : Finset ℤ, MemL l s → ∀ t : Finset ℤ, t ⊆ s → t.Nonempty → MemL l t

end Simplex_tree

/-! ## The weak witness complex: `Witness_complex.h` -/

/-- The facet built by the inner loop of `all_faces_in`: the entries
`knn[witness_id][j]` for `j = 0, ..., k`, `j ≠ i`, in this order. -/
def all_faces_in_facet (row : List ℤ) (i : ℕ) : List ℕ → Option (List ℤ)
  | [] => some []
  | j :: js =>
    if j ≠ i then
      match row[j]?, all_faces_in_facet row i js with
      | some x, some facet => some (x :: facet)
      | _, _ => none
    else all_faces_in_facet row i js

/-- The outer loop of `all_faces_in` over the remaining indices `i`. -/
def all_faces_in_loop (c : Simplex_tree) (row : List ℤ) (k : ℕ) (inserted_vertex : ℤ) :
    List ℕ → Option Bool
  | [] => some true
  | i :: is =>
    match row[i]? with
    | none => none
    | some x =>
      if x ≠ inserted_vertex then
        match all_faces_in_facet row i (List.range (k + 1)) with
        | none => none
        | some facet =>
          if (c.find facet).isNone then some false
          else all_faces_in_loop c row k inserted_vertex is
      else all_faces_in_loop c row k inserted_vertex is

/-- `Witness_complex::all_faces_in`: are the facets of the `k`-dimensional
simplex witnessed by `witness_id` already in the complex? -/
def all_faces_in (c : Simplex_tree) (knn : List (List ℤ)) (witness_id k : ℕ)
    (inserted_vertex : ℤ) : Option Bool :=
  match knn[witness_id]? with
  | none => none
  | some row => all_faces_in_loop c row k inserted_vertex (List.range (k + 1))

/-- First loop of `witness_complex`: `for (int i = 0; i != nbL; ++i)` inserts the
vertex `i` with filtration `0`; the argument is the list of the values of `i`. -/
def insert_landmarks (c : Simplex_tree) : List ℕ → Simplex_tree
  | [] => c
  | i :: is => insert_landmarks (c.insert_simplex [(i : ℤ)] 0).1 is

/-- Second loop of `witness_complex`: the edge of the two nearest landmarks of
every witness is inserted with filtration `0`. -/
def insert_edges (c : Simplex_tree) : List (List ℤ) → Option Simplex_tree
  | [] => some c
  | row :: rows =>
    match row[0]?, row[1]? with
    | some u, some v => insert_edges (c.insert_simplex [u, v] 0).1 rows
    | _, _ => none

/-- Body of the third loop of `witness_complex` on one row: the two first
entries are exchanged when `knn[i][0] > knn[i][1]`. -/
def order_first_two (row : List ℤ) : Option (List ℤ) :=
  match row with
  | u :: v :: rest => if u > v then some (v :: u :: rest) else some (u :: v :: rest)
  | _ => none

/-- Third loop of `witness_complex`: every row gets its two first entries in
increasing order (the table `knn` is modified in place). -/
def order_rows : List (List ℤ) → Option (List (List ℤ))
  | [] => some []
  | row :: rows =>
    match order_first_two row, order_rows rows with
    | some r, some rs => some (r :: rs)
    | _, _ => none

/-- The vertices `knn[*it][0], ..., knn[*it][k]` pushed on `simplex_vector`. -/
def simplex_vector (row : List ℤ) : List ℕ → Option (List ℤ)
  | [] => some []
  | i :: is =>
    match row[i]?, simplex_vector row is with
    | some x, some vs => some (x :: vs)
    | _, _ => none

/-- One pass of the inner `while (it != active_w.end())` loop at dimension `k`:
the complex after the pass and the witnesses still active. -/
def witness_pass (knn : List (List ℤ)) (k : ℕ) :
    Simplex_tree → List ℕ → Option (Simplex_tree × List ℕ)
  | c, [] => some (c, [])
  | c, w :: ws =>
    match knn[w]? with
    | none => none
    | some row =>
      match row[k]? with
      | none => none
      | some inserted_vertex =>
        match all_faces_in c knn w k inserted_vertex with
        | none => none
        | some true =>
          match simplex_vector row (List.range (k + 1)) with
          | none => none
          | some sv =>
            match witness_pass knn k (c.insert_simplex sv 0).1 ws with
            | none => none
            | some (c', active) => some (c', w :: active)
        | some false => witness_pass knn k c ws

/-- The loop `while (!active_w.empty() && k < D)`; every iteration increases `k`,
so `fuel = D` iterations are never exhausted. -/
def witness_loop (knn : List (List ℤ)) (D : ℕ) :
    ℕ → ℕ → Simplex_tree → List ℕ → Option (Simplex_tree × List ℕ)
  | 0, k, c, active_w => if active_w ≠ [] ∧ k < D then none else some (c, active_w)
  | fuel + 1, k, c, active_w =>
    if active_w ≠ [] ∧ k < D then
      match witness_pass knn k c active_w with
      | none => none
      | some (c', active') => witness_loop knn D fuel (k + 1) c' active'
    else some (c, active_w)

/-- The outcome of `witness_complex`: the complex, the table `knn` as the call
leaves it, and the list of the witnesses still active. -/
structure Witness_result where
  complex : Simplex_tree
  knn : List (List ℤ)
  active_w : List ℕ

/-- `Witness_complex::witness_complex`: iterative construction of the witness
complex from the table `knn` of nearest landmarks, on the complex `c`, with
`nbL` landmarks. -/
def witness_complex (nbL : ℤ) (knn : List (List ℤ)) (c : Simplex_tree) :
    Option Witness_result :=
  if nbL < 0 then none
  else
    let c0 := insert_landmarks c (List.range nbL.toNat)
    let setup : Option (Simplex_tree × List (List ℤ) × List ℕ) :=
      if nbL > 1 then
        match insert_edges c0 knn with
        | none => none
        | some c1 =>
          match order_rows knn with
          | none => none
          | some knn1 => some (c1, knn1, List.range knn.length)
      else some (c0, knn, [])
    match setup with
    | none => none
    | some (c1, knn1, active_w) =>
      match knn1[0]? with
      | none => none
      | some row0 =>
        match witness_loop knn1 row0.length row0.length 2 c1 active_w with
        | none => none
        | some (c2, active) => some ⟨c2, knn1, active⟩

/-! ## The strong witness complex: `Strong_witness_complex.h` -/

/-- `Strong_witness_complex::add_all_faces_of_dimension`: adds recursively the
faces made of `dim` vertices of the range `[curr_it, vertices.end())` and of the
landmark `aw_it->first`. The list argument is that range; the state is the
scratch vector `simplex` and the complex `sc`. With `dim > 0` the remaining
iterations of the `while` loop, from `next_it` on, are those of a call at
`next_it` with the same `dim`: this is the third recursive call. -/
def add_all_faces_of_dimension (aw_first : ℤ) (filtration_value : ℚ) :
    ℤ → List ℤ → List ℤ × Simplex_tree → List ℤ × Simplex_tree
  | dim, [], st =>
    if dim > 0 then st
    else if dim = 0 then
      (((st.1 ++ [aw_first]).dropLast),
        st.2.insert_simplex_and_subfaces (st.1 ++ [aw_first]) filtration_value)
    else st
  | dim, v :: next, st =>
    if dim > 0 then
      let st1 := add_all_faces_of_dimension aw_first filtration_value (dim - 1) next
        (st.1 ++ [v], st.2)
      let st2 := add_all_faces_of_dimension aw_first filtration_value dim next
        (st1.1.dropLast, st1.2)
      add_all_faces_of_dimension aw_first filtration_value dim next st2
    else if dim = 0 then
      (((st.1 ++ [aw_first]).dropLast),
        st.2.insert_simplex_and_subfaces (st.1 ++ [aw_first]) filtration_value)
    else st

/-- The state of the loops of `create_complex` over one witness: the rest of the
range of nearest landmarks (from `aw_it` on), the vector `simplex` and the
complex. -/
structure Witness_state where
  aw : List (ℤ × ℚ)
  simplex : List ℤ
  complex : Simplex_tree

/-- First loop over a witness: `while ((Landmark_id)simplex.size() <=
limit_dimension + 1 && aw_it != aw.end() && aw_it->second < lim_dist2)`. -/
def grow_simplex (lim_dist2 d0 : ℚ) (limit_dimension : ℤ) :
    List (ℤ × ℚ) → List ℤ → Simplex_tree → Witness_state
  | [], simplex, c => ⟨[], simplex, c⟩
  | p :: rest, simplex, c =>
    if (simplex.length : ℤ) ≤ limit_dimension + 1 ∧ p.2 < lim_dist2 then
      grow_simplex lim_dist2 d0 limit_dimension rest (simplex ++ [p.1])
        (c.insert_simplex_and_subfaces (simplex ++ [p.1]) (p.2 - d0))
    else ⟨p :: rest, simplex, c⟩

/-- Second loop over a witness: `while (aw_it != aw.end() && aw_it->second <
lim_dist2)`, inserting the faces of dimension `limit_dimension` of the following
simplices. -/
def add_faces (lim_dist2 d0 : ℚ) (limit_dimension : ℤ) :
    List (ℤ × ℚ) → List ℤ → Simplex_tree → Witness_state
  | [], vertices, c => ⟨[], vertices, c⟩
  | p :: rest, vertices, c =>
    if p.2 < lim_dist2 then
      add_faces lim_dist2 d0 limit_dimension rest (vertices ++ [p.1])
        (add_all_faces_of_dimension p.1 (p.2 - d0) limit_dimension vertices ([], c)).2
    else ⟨p :: rest, vertices, c⟩

/-- Body of the loop `for (auto w: witnesses_)` of `create_complex` for the
witness whose incremental nearest-neighbour query yields the range `aw`. The
conversion `narrow` renders the initialisation of the `float` variable
`lim_dist2` from a value of the number type `FT`. -/
def witness_step (narrow : ℚ → ℚ) (max_alpha_square : ℚ) (limit_dimension : ℤ)
    (aw : List (ℤ × ℚ)) (c : Simplex_tree) : Option Witness_state :=
  match aw with
  | [] => none
  | first :: _ =>
    let lim_dist2 := narrow (first.2 + max_alpha_square)
    let s1 := grow_simplex lim_dist2 first.2 limit_dimension aw [] c
    some (add_faces lim_dist2 first.2 limit_dimension s1.aw s1.simplex s1.complex)

/-- The loop `for (auto w: witnesses_)` of `create_complex`, with the running
value of `complex_dim`. -/
def witnesses_loop (narrow : ℚ → ℚ) (max_alpha_square : ℚ) (limit_dimension : ℤ) :
    List (List (ℤ × ℚ)) → Simplex_tree → ℤ → Option (Simplex_tree × ℤ)
  | [], c, complex_dim => some (c, complex_dim)
  | aw :: aws, c, complex_dim =>
    match witness_step narrow max_alpha_square limit_dimension aw c with
    | none => none
    | some s =>
      witnesses_loop narrow max_alpha_square limit_dimension aws s.complex
        (if (s.simplex.length : ℤ) - 1 > complex_dim then (s.simplex.length : ℤ) - 1
         else complex_dim)

/-- `Strong_witness_complex::create_complex`: outputs the strong witness complex
of relaxation `max_alpha_square` in `complex`; the Boolean is the value returned.
`nbL` is `landmarks_.size()` and `witnesses` lists, for every witness, the range
of `(landmark id, squared distance)` pairs of its incremental nearest-neighbour
query on the landmarks. -/
def create_complex (narrow : ℚ → ℚ) (nbL : ℕ) (witnesses : List (List (ℤ × ℚ)))
    (complex : Simplex_tree) (max_alpha_square : ℚ) (limit_dimension : ℤ) :
    Option (Bool × Simplex_tree) :=
  if complex.num_vertices > 0 then some (false, complex)
  else if max_alpha_square < 0 then some (false, complex)
  else if limit_dimension < 0 then some (false, complex)
  else
    match witnesses_loop narrow max_alpha_square limit_dimension witnesses
        (insert_landmarks complex (List.range nbL)) 0 with
    | none => none
    | some (c, complex_dim) => some (true, c.set_dimension complex_dim)

/-! ### The conversion from `double` to `float` -/

/-- Rounding of a rational to the nearest integer, ties to the even one. -/
def round_half_even (q : ℚ) : ℤ :=
  if q - ⌊q⌋ < 1 / 2 then ⌊q⌋
  else if 1 / 2 < q - ⌊q⌋ then ⌊q⌋ + 1
  else if ⌊q⌋ % 2 = 0 then ⌊q⌋ else ⌊q⌋ + 1

/-- The binary exponent `e` of `q ≥ 1`, with `2 ^ e ≤ q < 2 ^ (e + 1)`, capped by
the fuel. -/
def exponent_up : ℕ → ℚ → ℤ
  | 0, _ => 0
  | n + 1, q => if 2 ≤ q then exponent_up n (q / 2) + 1 else 0

/-- The binary exponent of `0 < q < 1`, not below minus the fuel. -/
def exponent_down : ℕ → ℚ → ℤ
  | 0, _ => 0
  | n + 1, q => if q < 1 then exponent_down n (2 * q) - 1 else 0

/-- The value of a positive rational after conversion to IEEE-754 binary32
(24-bit significand, exponents from `-126` to `127`, round to nearest, ties to
even). -/
def binary32_pos (q : ℚ) : ℚ :=
  let e : ℤ := if 1 ≤ q then exponent_up 127 q else exponent_down 126 q
  (round_half_even (q / (2 : ℚ) ^ (e - 23)) : ℚ) * (2 : ℚ) ^ (e - 23)

/-- The value of a `double` after conversion to `float` and back, for magnitudes
in the finite range of `float`: IEEE-754 round to nearest, ties to even. -/
def binary32 (q : ℚ) : ℚ :=
  if q = 0 then 0 else if q < 0 then - binary32_pos (- q) else binary32_pos q

/-! ## The vocabulary of the specification -/

/-- The set of the first `m` entries of a row of nearest landmarks. -/
def firsts (row : List ℤ) (m : ℕ) : Finset ℤ :=
  (row.take m).toFinset

/-- The set `s` of landmarks is witnessed: it is the set of the first `|s|`
entries of the row of some witness. -/
def Witnessed (knn : List (List ℤ)) (s : Finset ℤ) : Prop :=
  ∃ row ∈ knn, firsts row s.card = s

/-- The set `s` is witnessed and so is every face of `s` with at least two
vertices. -/
def WitnessedWithFaces (knn : List (List ℤ)) (s : Finset ℤ) : Prop :=
  Witnessed knn s ∧ ∀ t : Finset ℤ, t ⊆ s → 2 ≤ t.card → Witnessed knn t

/-- A table of nearest landmarks whose rows all have length `D` and list
pairwise distinct landmark ids of `[0, nbL)`. -/
def IsTable (nbL : ℤ) (D : ℕ) (knn : List (List ℤ)) : Prop :=
  knn ≠ [] ∧ ∀ row ∈ knn, row.length = D ∧ row.Nodup ∧ ∀ x ∈ row, 0 ≤ x ∧ x < nbL

instance (nbL : ℤ) (D : ℕ) (knn : List (List ℤ)) : Decidable (IsTable nbL D knn) := by
  unfold IsTable; infer_instance

/-- The rows of a table all have length `D` and pairwise distinct entries. -/
def RowsDistinct (D : ℕ) (knn : List (List ℤ)) : Prop :=
  ∀ row ∈ knn, row.length = D ∧ row.Nodup

/-- The state of the weak engine when the loop of `witness_complex` reaches the
dimension `k`: the simplices with at least two vertices are those, of at most `k`
vertices, that are witnessed with their faces, and the active witnesses are those
whose sets of first entries, up to `k` entries, are all such simplices. -/
structure WeakInv (knn : List (List ℤ)) (k : ℕ) (c : Simplex_tree) (active : List ℕ) :
    Prop where
  small : ∀ s, c.Mem s →
    s.card = 1 ∨ (2 ≤ s.card ∧ s.card ≤ k ∧ WitnessedWithFaces knn s)
  good : ∀ s : Finset ℤ, 2 ≤ s.card → s.card ≤ k → WitnessedWithFaces knn s → c.Mem s
  active_good : ∀ w ∈ active, w < knn.length ∧
    ∀ row, knn[w]? = some row → WitnessedWithFaces knn (firsts row k)
  active_all : ∀ w row, knn[w]? = some row →
    (∀ j, 2 ≤ j → j ≤ k → WitnessedWithFaces knn (firsts row j)) → w ∈ active

/-- The reads of `witness_complex` stay inside the table: there is a first row
and, when there are at least two landmarks, every row has at least two entries
and at least as many as the first row. -/
def ReadsInRange (nbL : ℤ) (knn : List (List ℤ)) : Prop :=
  0 ≤ nbL ∧ ∃ row0 rest, knn = row0 :: rest ∧
    (1 < nbL → ∀ row ∈ knn, 2 ≤ row.length ∧ row0.length ≤ row.length)

/-- The distance from a witness to its nearest landmark: `aw.begin()->second`. -/
def nearest_distance (aw : List (ℤ × ℚ)) : ℚ :=
  match aw with
  | [] => 0
  | first :: _ => first.2

/-- Every vertex of `s` is a landmark of the range `aw` of a witness at distance
strictly less than `bound`. -/
def Within (aw : List (ℤ × ℚ)) (bound : ℚ) (s : Finset ℤ) : Prop :=
  ∀ v ∈ s, ∃ p ∈ aw, p.1 = v ∧ p.2 < bound

/-- The faces of at most `m + 1` vertices of the vector `vertices` are in the
complex. -/
def SmallFacesIn (m : ℤ) (vertices : List ℤ) (c : Simplex_tree) : Prop :=
  ∀ t : Finset ℤ, t ⊆ vertices.toFinset → t.Nonempty → (t.card : ℤ) ≤ m + 1 → c.Mem t

/-! ## The active witnesses along the loop of `witness_complex` -/

/-- The contents of `active_w` at the start of the successive iterations of the
loop `while (!active_w.empty() && k < D)` of `witness_complex`, followed by its
contents when the loop is left. The recursion is that of `witness_loop`. -/
def witness_loop_actives (knn : List (List ℤ)) (D : ℕ) :
    ℕ → ℕ → Simplex_tree → List ℕ → Option (List (List ℕ))
  | 0, k, _, active_w => if active_w ≠ [] ∧ k < D then none else some [active_w]
  | fuel + 1, k, c, active_w =>
    if active_w ≠ [] ∧ k < D then
      match witness_pass knn k c active_w with
      | none => none
      | some (c', active') =>
        match witness_loop_actives knn D fuel (k + 1) c' active' with
        | none => none
        | some history => some (active_w :: history)
    else some [active_w]

/-! ## Landmark selection by furthest points: `Witness_complex.h`

Points are vectors of coordinates; `euclidean_distance`, declared in a header
which is not part of the sources, is a parameter `ed` of the definitions. The
value returned by `rand()` is the parameter `rand`. -/

/-- What `landmark_choice_by_furthest_points` keeps for the point `i`: the
vectors `WL[i]` and `wit_land_dist[i]`, which the code extends and swaps
together, as one list of pairs (landmark id, distance), and `dist_to_L[i]`,
infinite until a landmark is chosen. -/
structure Point_state where
  row : List (ℤ × ℚ)
  dist_to_L : WithTop ℚ

/-- The loop `while (j > 0 && wit_land_dist[i][j-1] > wit_land_dist[i][j])` of
`landmark_choice_by_furthest_points`, which swaps the entries `j - 1` and `j` of
the row and decrements `j`; `none` when a read is outside the row. -/
def sort_new_entry : ℕ → List (ℤ × ℚ) → Option (List (ℤ × ℚ))
  | 0, row => some row
  | j + 1, row =>
    match row[j]?, row[j + 1]? with
    | some a, some b =>
      if a.2 > b.2 then sort_new_entry j ((row.set (j + 1) a).set j b) else some row
    | _, _ => none

/-- The body of the loop over the points, for the landmark of id
`current_number_of_landmarks` at distance `curr_dist` from the point. -/
def update_point (curr_dist : ℚ) (current_number_of_landmarks : ℕ) (p : Point_state) :
    Option Point_state :=
  match sort_new_entry current_number_of_landmarks
      (p.row ++ [((current_number_of_landmarks : ℤ), curr_dist)]) with
  | none => none
  | some row =>
    some ⟨row, if (curr_dist : WithTop ℚ) < p.dist_to_L then (curr_dist : WithTop ℚ)
      else p.dist_to_L⟩

/-- The loop `for (int i = 0; i < nbP; ++i)` which updates the distance vectors,
from the point `i` on; `landmark` is the point
`W[chosen_landmarks[current_number_of_landmarks]]`. -/
def update_points (ed : List ℚ → List ℚ → ℚ) (W : List (List ℚ)) (landmark : List ℚ)
    (current_number_of_landmarks : ℕ) : ℕ → List Point_state → Option (List Point_state)
  | _, [] => some []
  | i, p :: ps =>
    match W[i]? with
    | none => none
    | some w =>
      match update_point (ed w landmark) current_number_of_landmarks p with
      | none => none
      | some p' =>
        match update_points ed W landmark current_number_of_landmarks (i + 1) ps with
        | none => none
        | some ps' => some (p' :: ps')

/-- The loop `for (int i = 0; i < nbP; ++i) if (dist_to_L[i] > curr_max_dist) ...`,
from the point `i` on, on the pair (`curr_max_dist`, `curr_max_w`). -/
def furthest_point : ℕ → List (WithTop ℚ) → WithTop ℚ × ℕ → WithTop ℚ × ℕ
  | _, [], acc => acc
  | i, d :: ds, acc =>
    if d > acc.1 then furthest_point (i + 1) ds (d, i) else furthest_point (i + 1) ds acc

/-- The variables of `landmark_choice_by_furthest_points` between two iterations
of its outer loop. -/
structure Furthest_state where
  chosen_landmarks : List ℕ
  points : List Point_state
  curr_max_dist : WithTop ℚ
  curr_max_w : ℕ

/-- The output table `WL` of `landmark_choice_by_furthest_points`. -/
def Furthest_state.WL (s : Furthest_state) : List (List ℤ) :=
  s.points.map (fun p => p.row.map Prod.fst)

/-- The table `wit_land_dist` of `landmark_choice_by_furthest_points`. -/
def Furthest_state.wit_land_dist (s : Furthest_state) : List (List ℚ) :=
  s.points.map (fun p => p.row.map Prod.snd)

/-- The vector `dist_to_L` of `landmark_choice_by_furthest_points`. -/
def Furthest_state.dist_to_L (s : Furthest_state) : List (WithTop ℚ) :=
  s.points.map Point_state.dist_to_L

/-- One iteration of the outer loop of `landmark_choice_by_furthest_points`. The
loop `for (auto v: WL) v.push_back(...)` works on copies of the rows and leaves
`WL` as it is. -/
def furthest_step (ed : List ℚ → List ℚ → ℚ) (W : List (List ℚ))
    (current_number_of_landmarks : ℕ) (s : Furthest_state) : Option Furthest_state :=
  let chosen_landmarks := s.chosen_landmarks ++ [s.curr_max_w]
  match chosen_landmarks[current_number_of_landmarks]? with
  | none => none
  | some l =>
    match W[l]? with
    | none => none
    | some landmark =>
      match update_points ed W landmark current_number_of_landmarks 0 s.points with
      | none => none
      | some points =>
        let r := furthest_point 0 (points.map Point_state.dist_to_L) (0, s.curr_max_w)
        some ⟨chosen_landmarks, points, r.1, r.2⟩

/-- The state of `landmark_choice_by_furthest_points` after the given number of
iterations of its outer loop, from the state `s`. -/
def furthest_loop (ed : List ℚ → List ℚ → ℚ) (W : List (List ℚ)) (s : Furthest_state) :
    ℕ → Option Furthest_state
  | 0 => some s
  | t + 1 =>
    match furthest_loop ed W s t with
    | none => none
    | some s' => furthest_step ed W t s'

/-- `Witness_complex::landmark_choice_by_furthest_points`: landmark choice by
iteratively adding the point the furthest from the current landmark set, for
`nbL` landmarks among the first `nbP` points of `W`. The result is `none` when
`nbP <= 0` (`rand() % nbP`, size of the vectors), when `nbL < 0` (the counter never
meets `nbL`) and when a read is out of range. -/
def landmark_choice_by_furthest_points (ed : List ℚ → List ℚ → ℚ) (rand : ℕ) (nbL : ℤ)
    (W : List (List ℚ)) (nbP : ℤ) : Option Furthest_state :=
  if nbP ≤ 0 ∨ nbL < 0 then none
  else
    furthest_loop ed W
      ⟨[], List.replicate nbP.toNat ⟨[], ⊤⟩, 0, rand % nbP.toNat⟩ nbL.toNat

/-- A distance between points of the line, for the examples: the absolute value of
the difference of the first coordinates. -/
def line_distance (p q : List ℚ) : ℚ := |p.headD 0 - q.headD 0|

/-- The distance from the point `w` to the set of the landmarks `chosen` (indices
into `W`): the minimum of the distances to them, infinite when there is none. -/
def dist_to_landmarks (ed : List ℚ → List ℚ → ℚ) (W : List (List ℚ)) (chosen : List ℕ)
    (w : List ℚ) : WithTop ℚ :=
  (chosen.map (fun l => ed w (W.getD l []))).minimum

/-- The order in which the swaps of `landmark_choice_by_furthest_points` leave the
entries of a row: by distance, and by landmark id at equal distances. -/
def RowOrder (a b : ℤ × ℚ) : Prop := a.2 < b.2 ∨ (a.2 = b.2 ∧ a.1 < b.1)

/-- What holds of the state of the point `w` between two iterations of
`landmark_choice_by_furthest_points`, the landmarks `chosen` being those chosen so
far: its row holds one entry for each landmark, its id (the rank in `chosen`)
with its distance to `w`, in the order of the swaps, and `dist_to_L` is the
distance from `w` to the set of the landmarks. -/
def PointInv (ed : List ℚ → List ℚ → ℚ) (W : List (List ℚ)) (chosen : List ℕ)
    (w : List ℚ) (p : Point_state) : Prop :=
  p.row.Perm (chosen.enum.map (fun lc => ((lc.1 : ℤ), ed w (W.getD lc.2 [])))) ∧
  p.row.Pairwise RowOrder ∧ p.dist_to_L = dist_to_landmarks ed W chosen w

/-- What holds of the state of `landmark_choice_by_furthest_points` after `t`
iterations of its outer loop on the first `n` points of `W`. -/
structure FurthestInv (ed : List ℚ → List ℚ → ℚ) (W : List (List ℚ)) (n t : ℕ)
    (s : Furthest_state) : Prop where
  length_chosen : s.chosen_landmarks.length = t
  chosen_lt : ∀ l ∈ s.chosen_landmarks, l < n
  curr_max_w_lt : s.curr_max_w < n
  points : List.Forall₂ (PointInv ed W s.chosen_landmarks) (W.take n) s.points

/-! ## Landmark selection by random points: `Witness_complex.h`

The set `L` (a `std::set<int>`) is the list of its elements in increasing order.
The successive values of `rand()`, whatever the seeds given to `srand`, are the
values `rand 0`, `rand 1`, ... of the parameter `rand`. -/

/-- `std::set<int>::insert` on the increasing list of the elements. -/
def set_insert (x : ℤ) : List ℤ → List ℤ
  | [] => [x]
  | y :: ys => if x < y then x :: y :: ys else if x = y then y :: ys else y :: set_insert x ys

/-- The loop `while (L.find(chosen_landmark) != L.end())` of
`landmark_choice_by_random_points`, which draws `rand() % nbP` again: the landmark
it leaves and the number of values drawn so far; `none` when the loop is not left
within `fuel` draws. -/
def draw_landmark (rand : ℕ → ℕ) (nbP : ℤ) (L : List ℤ) : ℕ → ℕ → ℤ → Option (ℤ × ℕ)
  | 0, n, chosen_landmark => if chosen_landmark ∈ L then none else some (chosen_landmark, n)
  | fuel + 1, n, chosen_landmark =>
    if chosen_landmark ∈ L then draw_landmark rand nbP L fuel (n + 1) (Int.tmod (rand n) nbP)
    else some (chosen_landmark, n)

/-- The outer loop of `landmark_choice_by_random_points`, for the given number of
landmarks still to choose. -/
def random_loop (rand : ℕ → ℕ) (nbP : ℤ) (fuel : ℕ) :
    ℕ → List ℤ → ℕ → ℤ → Option (List ℤ)
  | 0, L, _, _ => some L
  | k + 1, L, n, chosen_landmark =>
    match draw_landmark rand nbP L fuel n chosen_landmark with
    | none => none
    | some (l, n') => random_loop rand nbP fuel k (set_insert l L) n' l

/-- `Witness_complex::landmark_choice_by_random_points`: landmark choice by taking
random vertices, added to the set `L`. Each loop on a landmark already chosen
may draw `fuel` values; the result is `none` when one of them does not end within
them, when `nbP = 0` (`rand() % nbP`) and when `nbL < 0`. -/
def landmark_choice_by_random_points (rand : ℕ → ℕ) (fuel : ℕ) (nbL : ℤ) (nbP : ℤ)
    (L : List ℤ) : Option (List ℤ) :=
  if nbP = 0 ∨ nbL < 0 then none
  else random_loop rand nbP fuel nbL.toNat L 1 (Int.tmod (rand 0) nbP)

/-! ## The table of the nearest landmarks: `Witness_complex.h` -/

/-- The comparison given to the heap of `nearest_landmarks`:
`[&](dist_i j1, dist_i j2){return j1.first > j2.first;}`. -/
def dist_comp (j1 j2 : ℚ × ℤ) : Bool := decide (j1.1 > j2.1)

/-- `std::priority_queue<dist_i, std::vector<dist_i>, comp>`: a container of the
C++ standard library, taken with the contract of the standard. `content` is the
collection of the elements held; `top` is an element which `comp` puts before no
other one, `pop` removes it, and both are undefined (`none`) on an empty queue. -/
structure Priority_queue (comp : ℚ × ℤ → ℚ × ℤ → Bool) where
  σ : Type
  empty : σ
  push : ℚ × ℤ → σ → σ
  top : σ → Option (ℚ × ℤ)
  pop : σ → Option σ
  content : σ → Multiset (ℚ × ℤ)
  content_empty : content empty = 0
  content_push : ∀ x q, content (push x q) = Multiset.cons x (content q)
  top_eq_none : ∀ q, top q = none ↔ content q = 0
  top_mem : ∀ q x, top q = some x → x ∈ content q ∧ ∀ y ∈ content q, comp x y = false
  pop_eq_none : ∀ q, pop q = none ↔ content q = 0
  content_pop : ∀ q x q', top q = some x → pop q = some q' →
    content q = Multiset.cons x (content q')

/-- The loop over the landmarks of `nearest_landmarks` for the witness `w`, from
the landmark of rank `L_i` on: it pushes the pair (distance, rank) on the heap. -/
def fill_heap {comp : ℚ × ℤ → ℚ × ℤ → Bool} (Q : Priority_queue comp)
    (ed : List ℚ → List ℚ → ℚ) (W : List (List ℚ)) (w : List ℚ) :
    List ℤ → ℤ → Q.σ → Option Q.σ
  | [], _, l_heap => some l_heap
  | l :: ls, L_i, l_heap =>
    if l < 0 then none
    else
      match W[l.toNat]? with
      | none => none
      | some p => fill_heap Q ed W w ls (L_i + 1) (Q.push (ed w p, L_i) l_heap)

/-- The loop `for (int i = 0; i < D+1; i++)` of `nearest_landmarks`, for the
given number of iterations: the ranks it pushes on the row of the witness. -/
def drain_heap {comp : ℚ × ℤ → ℚ × ℤ → Bool} (Q : Priority_queue comp) :
    ℕ → Q.σ → Option (List ℤ)
  | 0, _ => some []
  | n + 1, l_heap =>
    match Q.top l_heap, Q.pop l_heap with
    | some dist, some l_heap' =>
      match drain_heap Q n l_heap' with
      | none => none
      | some row => some (dist.2 :: row)
    | _, _ => none

/-- The loop over the witnesses of `nearest_landmarks`, from the given witnesses
on. -/
def nearest_rows {comp : ℚ × ℤ → ℚ × ℤ → Bool} (Q : Priority_queue comp)
    (ed : List ℚ → List ℚ → ℚ) (W : List (List ℚ)) (L : List ℤ) (D : ℕ) :
    List (List ℚ) → Option (List (List ℤ))
  | [] => some []
  | w :: ws =>
    match fill_heap Q ed W w L 0 Q.empty with
    | none => none
    | some l_heap =>
      match drain_heap Q (D + 1) l_heap with
      | none => none
      | some row =>
        match nearest_rows Q ed W L D ws with
        | none => none
        | some rows => some (row :: rows)

/-- `Witness_complex::nearest_landmarks`: the matrix `|W| x (D+1)` of the `D+1`
closest landmarks, `D = W[0].size()`; `L` lists the elements of the set of
landmarks in increasing order. The result is `none` when `W` is empty, when a
landmark is not an index into `W` and when the heap is read while empty. -/
def nearest_landmarks {comp : ℚ × ℤ → ℚ × ℤ → Bool} (Q : Priority_queue comp)
    (ed : List ℚ → List ℚ → ℚ) (W : List (List ℚ)) (L : List ℤ) :
    Option (List (List ℤ)) :=
  match W[0]? with
  | none => none
  | some w0 => nearest_rows Q ed W L w0.length W

/-- The distance from the witness `w` to the landmark of rank `r`, the rank being
the position in the ordered set `L`. -/
def landmark_distance (ed : List ℚ → List ℚ → ℚ) (W : List (List ℚ)) (L : List ℤ)
    (w : List ℚ) (r : ℤ) : ℚ :=
  ed w (W.getD (L.getD r.toNat 0).toNat [])

/-- What is expected of the row of `D + 1` nearest landmarks of the witness `w`:
`D + 1` pairwise distinct ranks of `[0, |L|)`, in non-decreasing order of the
distance to `w`, no landmark out of the row being nearer than one of the row. -/
def NearestRow (ed : List ℚ → List ℚ → ℚ) (W : List (List ℚ)) (L : List ℤ) (D : ℕ)
    (w : List ℚ) (row : List ℤ) : Prop :=
  row.length = D + 1 ∧ row.Nodup ∧ (∀ r ∈ row, 0 ≤ r ∧ r < L.length) ∧
  (row.map (landmark_distance ed W L w)).Pairwise (· ≤ ·) ∧
  ∀ r ∈ row, ∀ r' : ℤ, 0 ≤ r' → r' < L.length → r' ∉ row →
    landmark_distance ed W L w r ≤ landmark_distance ed W L w r'

/-- The top of a queue kept as the list of its elements: an element of least
distance, the one nearest to the front of the list among them. -/
def list_top : List (ℚ × ℤ) → Option (ℚ × ℤ)
  | [] => none
  | x :: xs =>
    match list_top xs with
    | none => some x
    | some y => if dist_comp x y then some y else some x

/-- The list without the first occurrence of `x`. -/
def list_remove (x : ℚ × ℤ) : List (ℚ × ℤ) → List (ℚ × ℤ)
  | [] => []
  | y :: ys => if x = y then ys else y :: list_remove x ys

/-- A priority queue for the examples: the list of the elements held. -/
def list_queue : Priority_queue dist_comp where
  σ := List (ℚ × ℤ)
  empty := []
  push x q := x :: q
  top := list_top
  pop q := (list_top q).map (fun x => list_remove x q)
  content q := (q : Multiset (ℚ × ℤ))
  content_empty := rfl
  content_push _ _ := rfl
  top_eq_none q := by
    cases q with
    | nil => simp [list_top]
    | cons x xs =>
      cases h : list_top xs with
      | none => simp [list_top, h]
      | some y => by_cases hc : dist_comp x y = true <;> simp [list_top, h, hc]
  top_mem q := by
    induction q with
    | nil => intro x h; simp [list_top] at h
    | cons a xs ih =>
      intro x h
      cases hy : list_top xs with
      | none =>
        have hxs : xs = [] := by
          cases xs with
          | nil => rfl
          | cons b bs =>
            exfalso
            cases hb : list_top bs with
            | none => simp [list_top, hb] at hy
            | some z => by_cases hc : dist_comp b z = true <;> simp [list_top, hb, hc] at hy
        subst hxs
        simp only [list_top, Option.some.injEq] at h
        subst h
        simp [dist_comp]
      | some y =>
        obtain ⟨hmem, hmin⟩ := ih y hy
        simp only [Multiset.mem_coe] at hmem hmin
        simp only [dist_comp, decide_eq_false_iff_not, not_lt, gt_iff_lt] at hmin
        by_cases hc : dist_comp a y = true
        · simp only [list_top, hy, hc, if_true, Option.some.injEq] at h
          subst h
          simp only [dist_comp, decide_eq_true_eq, gt_iff_lt] at hc
          refine ⟨by simp [hmem], ?_⟩
          intro z hz
          simp only [Multiset.mem_coe, List.mem_cons] at hz
          simp only [dist_comp, decide_eq_false_iff_not, not_lt, gt_iff_lt]
          rcases hz with rfl | hz
          · exact le_of_lt hc
          · exact hmin z hz
        · simp only [list_top, hy, hc, Bool.false_eq_true, if_false, Option.some.injEq] at h
          subst h
          simp only [dist_comp, decide_eq_true_eq, gt_iff_lt, not_lt] at hc
          refine ⟨by simp, ?_⟩
          intro z hz
          simp only [Multiset.mem_coe, List.mem_cons] at hz
          simp only [dist_comp, decide_eq_false_iff_not, not_lt, gt_iff_lt]
          rcases hz with rfl | hz
          · exact le_refl _
          · exact le_trans hc (hmin z hz)
  pop_eq_none q := by
    cases q with
    | nil => simp [list_top]
    | cons x xs =>
      cases h : list_top xs with
      | none => simp [list_top, h]
      | some y => by_cases hc : dist_comp x y = true <;> simp [list_top, h, hc]
  content_pop q x q' ht hp := by
    have hmem : x ∈ q := by
      clear hp
      induction q generalizing x with
      | nil => simp [list_top] at ht
      | cons a xs ih =>
        cases hy : list_top xs with
        | none =>
          simp only [list_top, hy, Option.some.injEq] at ht
          simp [ht]
        | some y =>
          by_cases hc : dist_comp a y = true
          · simp only [list_top, hy, hc, if_true, Option.some.injEq] at ht
            subst ht
            exact List.mem_cons_of_mem _ (ih y hy)
          · simp only [list_top, hy, hc, Bool.false_eq_true, if_false, Option.some.injEq] at ht
            simp [ht]
    simp only [ht, Option.map_some', Option.some.injEq] at hp
    subst hp
    show (q : Multiset (ℚ × ℤ)) = ((x :: list_remove x q : List (ℚ × ℤ)) : Multiset (ℚ × ℤ))
    refine Multiset.coe_eq_coe.2 ?_
    clear ht
    induction q with
    | nil => simp at hmem
    | cons a xs ih =>
      by_cases hxa : x = a
      · simp [list_remove, hxa]
      · have hx : x ∈ xs := by
          rcases List.mem_cons.1 hmem with h | h
          · exact absurd h hxa
          · exact h
        simp only [list_remove, if_neg hxa]
        exact ((ih hx).cons a).trans (List.Perm.swap x a _)

/-! ## Further vocabulary of the specification -/

/-- Between the complexes `c` and `c'` the store has only received requests
`insert_simplex` with the filtration value `0`; when every simplex of `c` has the
value `0`, so has every simplex of `c'`. -/
def ZeroInserts (c c' : Simplex_tree) : Prop :=
  ∃ new : List (Request × List (Finset ℤ × ℚ)), c'.log = c.log ++ new ∧
    (∀ e ∈ new, ∃ vs, e.1 = Request.insert_simplex vs 0) ∧
    ((∀ p ∈ c.simplices, p.2 = 0) → ∀ p ∈ c'.simplices, p.2 = 0)

/-- The largest dimension of a simplex of the complex, `-1` for the complex
without simplex. -/
def Simplex_tree.largest_dimension (c : Simplex_tree) : ℤ :=
  c.simplices.foldl (fun d p => max d ((p.1.card : ℤ) - 1)) (-1)

/-! ## Lemmas on the complex store -/

namespace Simplex_tree

theorem any_iff_memL (l : List (Finset ℤ × ℚ)) (s : Finset ℤ) :
    l.any (fun p => decide (p.1 = s)) = true ↔ MemL l s := by
  simp [MemL, List.any_eq_true]

theorem memL_add (l : List (Finset ℤ × ℚ)) (s t : Finset ℤ) (f : ℚ) :
    MemL (add l s f) t ↔ MemL l t ∨ t = s := by
  unfold add
  by_cases h : l.any (fun p => decide (p.1 = s)) = true
  · rw [if_pos h]
    constructor
    · exact Or.inl
    · rintro (h1 | h1)
      · exact h1
      · subst h1; exact (any_iff_memL l t).1 h
  · rw [if_neg h]
    simp only [MemL, List.mem_append, List.mem_singleton]
    constructor
    · rintro ⟨p, hp | hp, rfl⟩
      · exact Or.inl ⟨p, hp, rfl⟩
      · subst hp; exact Or.inr rfl
    · rintro (⟨p, hp, rfl⟩ | rfl)
      · exact ⟨p, Or.inl hp, rfl⟩
      · exact ⟨(t, f), Or.inr rfl, rfl⟩

theorem memL_add_of_memL {l : List (Finset ℤ × ℚ)} {t : Finset ℤ} (s : Finset ℤ) (f : ℚ)
    (h : MemL l t) : MemL (add l s f) t :=
  (memL_add l s t f).2 (Or.inl h)

theorem insert_simplex_simplices (c : Simplex_tree) (vs : List ℤ) (f : ℚ) :
    (c.insert_simplex vs f).1.simplices = add c.simplices vs.toFinset f := rfl

theorem insert_simplex_log (c : Simplex_tree) (vs : List ℤ) (f : ℚ) :
    (c.insert_simplex vs f).1.log
      = c.log ++ [(Request.insert_simplex vs f, (c.insert_simplex vs f).1.simplices)] := rfl

theorem mem_insert_simplex (c : Simplex_tree) (vs : List ℤ) (f : ℚ) (t : Finset ℤ) :
    (c.insert_simplex vs f).1.Mem t ↔ c.Mem t ∨ t = vs.toFinset := by
  unfold Mem
  rw [insert_simplex_simplices, memL_add]

theorem mem_insert_simplex_of_mem {c : Simplex_tree} {t : Finset ℤ} (vs : List ℤ) (f : ℚ)
    (h : c.Mem t) : (c.insert_simplex vs f).1.Mem t :=
  (mem_insert_simplex c vs f t).2 (Or.inl h)

theorem filtration_isSome_iff (c : Simplex_tree) (s : Finset ℤ) :
    (c.filtration s).isSome = true ↔ c.Mem s := by
  unfold filtration Mem MemL
  simp [List.find?_isSome]

theorem find_isNone_iff (c : Simplex_tree) (vs : List ℤ) :
    (c.find vs).isNone = true ↔ ¬ c.Mem vs.toFinset := by
  unfold find
  rw [← filtration_isSome_iff]
  cases c.filtration vs.toFinset <;> simp

theorem not_mem_empty (s : Finset ℤ) : ¬ empty.Mem s := by
  simp [Mem, MemL, empty]

theorem closedList_nil : ClosedList [] := by
  intro s hs
  simp [MemL] at hs

/-- Adding a simplex whose non-empty proper faces are present keeps a list closed. -/
theorem closedList_add {l : List (Finset ℤ × ℚ)} (hl : ClosedList l) (s : Finset ℤ) (f : ℚ)
    (hs : ∀ t : Finset ℤ, t ⊆ s → t ≠ s → t.Nonempty → MemL l t) :
    ClosedList (add l s f) := by
  intro u hu t htu htne
  rcases (memL_add l s u f).1 hu with h | h
  · exact memL_add_of_memL s f (hl u h t htu htne)
  · subst h
    by_cases htu' : t = u
    · subst htu'; exact hu
    · exact memL_add_of_memL u f (hs t htu htu' htne)

end Simplex_tree

/-! ## Closure-insert requests and filtration values -/

namespace Simplex_tree

theorem mem_faces (vs : List ℤ) (t : Finset ℤ) :
    t ∈ faces vs ↔ t ⊆ vs.toFinset ∧ t.Nonempty := by
  unfold faces
  simp only [List.mem_map, List.mem_filter, List.mem_sublists, decide_eq_true_eq]
  constructor
  · rintro ⟨l, ⟨hl, hne⟩, rfl⟩
    refine ⟨fun x hx => ?_, ?_⟩
    · rw [List.mem_toFinset] at hx ⊢
      exact hl.subset hx
    · obtain ⟨x, hx⟩ := List.exists_mem_of_ne_nil l hne
      exact ⟨x, List.mem_toFinset.2 hx⟩
  · rintro ⟨hsub, x, hx⟩
    refine ⟨vs.filter (fun y => decide (y ∈ t)), ⟨List.filter_sublist vs, ?_⟩, ?_⟩
    · intro hnil
      have hxv : x ∈ vs := List.mem_toFinset.1 (hsub hx)
      have : x ∈ vs.filter (fun y => decide (y ∈ t)) := by
        rw [List.mem_filter]; exact ⟨hxv, by simpa using hx⟩
      rw [hnil] at this
      simp at this
    · ext y
      rw [List.mem_toFinset, List.mem_filter]
      constructor
      · rintro ⟨-, h⟩; simpa using h
      · intro h; exact ⟨List.mem_toFinset.1 (hsub h), by simpa using h⟩

theorem memL_foldl_add (f : ℚ) (ss : List (Finset ℤ)) :
    ∀ (l : List (Finset ℤ × ℚ)) (t : Finset ℤ),
      MemL (ss.foldl (fun l s => add l s f) l) t ↔ MemL l t ∨ t ∈ ss := by
  induction ss with
  | nil => intro l t; simp
  | cons s ss ih =>
    intro l t
    rw [List.foldl_cons, ih, memL_add, List.mem_cons]
    tauto

/-- The value stored for a simplex in a list of simplices. -/
theorem filtration_eq (c : Simplex_tree) (s : Finset ℤ) :
    c.filtration s = (c.simplices.find? (fun p => decide (p.1 = s))).map Prod.snd := rfl

theorem find?_add_of_memL {l : List (Finset ℤ × ℚ)} {t : Finset ℤ} (s : Finset ℤ) (f : ℚ)
    (h : MemL l t) :
    (add l s f).find? (fun p => decide (p.1 = t)) = l.find? (fun p => decide (p.1 = t)) := by
  unfold add
  split
  · rfl
  · rw [List.find?_append]
    have : (l.find? (fun p => decide (p.1 = t))).isSome = true := by
      rw [List.find?_isSome]
      obtain ⟨p, hp, hpt⟩ := h
      exact ⟨p, hp, by simpa using hpt⟩
    obtain ⟨q, hq⟩ := Option.isSome_iff_exists.1 this
    rw [hq]
    rfl

theorem find?_add_of_not_memL {l : List (Finset ℤ × ℚ)} {s : Finset ℤ} (f : ℚ)
    (h : ¬ MemL l s) :
    (add l s f).find? (fun p => decide (p.1 = s)) = some (s, f) := by
  unfold add
  have hany : ¬ (l.any (fun p => decide (p.1 = s)) = true) := fun h' =>
    h ((any_iff_memL l s).1 h')
  rw [if_neg hany, List.find?_append]
  have : l.find? (fun p => decide (p.1 = s)) = none := by
    rw [List.find?_eq_none]
    intro p hp hps
    exact h ⟨p, hp, by simpa using hps⟩
  rw [this]
  simp

theorem find?_foldl_add_of_memL (f : ℚ) (ss : List (Finset ℤ)) :
    ∀ (l : List (Finset ℤ × ℚ)) (t : Finset ℤ), MemL l t →
      (ss.foldl (fun l s => add l s f) l).find? (fun p => decide (p.1 = t))
        = l.find? (fun p => decide (p.1 = t)) := by
  induction ss with
  | nil => intro l t _; rfl
  | cons s ss ih =>
    intro l t h
    rw [List.foldl_cons, ih _ t (memL_add_of_memL s f h), find?_add_of_memL s f h]

theorem find?_foldl_add_of_not_memL (f : ℚ) (ss : List (Finset ℤ)) :
    ∀ (l : List (Finset ℤ × ℚ)) (t : Finset ℤ), ¬ MemL l t → t ∈ ss →
      (ss.foldl (fun l s => add l s f) l).find? (fun p => decide (p.1 = t)) = some (t, f) := by
  induction ss with
  | nil => intro l t _ h; simp at h
  | cons s ss ih =>
    intro l t hnot hmem
    rw [List.foldl_cons]
    by_cases hts : t = s
    · subst hts
      rw [find?_foldl_add_of_memL f ss _ t ((memL_add l t t f).2 (Or.inr rfl)),
        find?_add_of_not_memL f hnot]
    · rcases List.mem_cons.1 hmem with h | h
      · exact absurd h hts
      · refine ih _ t (fun h' => ?_) h
        rcases (memL_add l s t f).1 h' with h1 | h1
        · exact hnot h1
        · exact hts h1

theorem insert_simplex_and_subfaces_simplices (c : Simplex_tree) (vs : List ℤ) (f : ℚ) :
    (c.insert_simplex_and_subfaces vs f).simplices
      = (faces vs).foldl (fun l s => add l s f) c.simplices := rfl

theorem insert_simplex_and_subfaces_log (c : Simplex_tree) (vs : List ℤ) (f : ℚ) :
    (c.insert_simplex_and_subfaces vs f).log
      = c.log ++ [(Request.insert_simplex_and_subfaces vs f,
          (c.insert_simplex_and_subfaces vs f).simplices)] := rfl

/-- The simplices after a closure-insert request: the former ones and the non-empty
faces of the inserted simplex. -/
theorem mem_insert_simplex_and_subfaces (c : Simplex_tree) (vs : List ℤ) (f : ℚ)
    (t : Finset ℤ) :
    (c.insert_simplex_and_subfaces vs f).Mem t ↔ c.Mem t ∨ (t ⊆ vs.toFinset ∧ t.Nonempty) := by
  unfold Mem
  rw [insert_simplex_and_subfaces_simplices, memL_foldl_add, mem_faces]

/-- A closure-insert request keeps the value of a simplex already present. -/
theorem filtration_insert_of_mem (c : Simplex_tree) (vs : List ℤ) (f : ℚ) {t : Finset ℤ}
    (h : c.Mem t) : (c.insert_simplex_and_subfaces vs f).filtration t = c.filtration t := by
  rw [filtration_eq, filtration_eq, insert_simplex_and_subfaces_simplices,
    find?_foldl_add_of_memL f _ _ t h]

/-- A closure-insert request gives its value to the faces it adds. -/
theorem filtration_insert_of_not_mem (c : Simplex_tree) (vs : List ℤ) (f : ℚ) {t : Finset ℤ}
    (h : ¬ c.Mem t) (hsub : t ⊆ vs.toFinset) (hne : t.Nonempty) :
    (c.insert_simplex_and_subfaces vs f).filtration t = some f := by
  rw [filtration_eq, insert_simplex_and_subfaces_simplices,
    find?_foldl_add_of_not_memL f _ _ t h ((mem_faces vs t).2 ⟨hsub, hne⟩)]
  rfl

theorem mem_of_filtration_eq_some {c : Simplex_tree} {t : Finset ℤ} {v : ℚ}
    (h : c.filtration t = some v) : c.Mem t := by
  rw [← filtration_isSome_iff, h]
  rfl

theorem closure_requests_append (l₁ l₂ : List (Request × List (Finset ℤ × ℚ))) :
    closure_requests (l₁ ++ l₂) = closure_requests l₁ ++ closure_requests l₂ := by
  unfold closure_requests
  rw [List.filterMap_append]

/-- Serving a list of closure-insert requests, in order. -/
theorem closure_requests_foldl (calls : List (List ℤ × ℚ)) :
    ∀ c : Simplex_tree,
      closure_requests
          (calls.foldl (fun c p => c.insert_simplex_and_subfaces p.1 p.2) c).log
        = closure_requests c.log ++ calls := by
  induction calls with
  | nil => intro c; simp
  | cons p calls ih =>
    intro c
    rw [List.foldl_cons, ih, insert_simplex_and_subfaces_log, closure_requests_append]
    simp [closure_requests]

/-- Filtration monotonicity of a run of closure-insert requests with non-decreasing
values: among the simplices the run adds, a face never gets a larger value. -/
theorem filtration_mono_foldl (c0 : Simplex_tree) (calls : List (List ℤ × ℚ)) :
    ∀ c : Simplex_tree, (calls.map Prod.snd).Pairwise (· ≤ ·) →
      (∀ t, c0.Mem t → c.Mem t) →
      (∀ g, c.Mem g → ¬ c0.Mem g → ∃ vg, c.filtration g = some vg ∧
        (∀ v ∈ calls.map Prod.snd, vg ≤ v) ∧
        ∀ f, f ⊆ g → f.Nonempty → ¬ c0.Mem f → ∃ vf, c.filtration f = some vf ∧ vf ≤ vg) →
      ∀ g, (calls.foldl (fun c p => c.insert_simplex_and_subfaces p.1 p.2) c).Mem g →
        ¬ c0.Mem g →
        ∃ vg, (calls.foldl (fun c p => c.insert_simplex_and_subfaces p.1 p.2) c).filtration g
            = some vg ∧
          ∀ f, f ⊆ g → f.Nonempty → ¬ c0.Mem f →
            ∃ vf, (calls.foldl (fun c p => c.insert_simplex_and_subfaces p.1 p.2) c).filtration f
              = some vf ∧ vf ≤ vg := by
  induction calls with
  | nil =>
    intro c _ _ hinv g hg hg0
    obtain ⟨vg, h1, -, h3⟩ := hinv g hg hg0
    exact ⟨vg, h1, h3⟩
  | cons p calls ih =>
    intro c hsorted hmono hinv
    rw [List.map_cons, List.pairwise_cons] at hsorted
    rw [List.foldl_cons]
    refine ih _ hsorted.2 (fun t ht => ?_) ?_
    · rw [mem_insert_simplex_and_subfaces]; exact Or.inl (hmono t ht)
    · intro g hg hg0
      by_cases hgc : c.Mem g
      · obtain ⟨vg, h1, h2, h3⟩ := hinv g hgc hg0
        refine ⟨vg, (filtration_insert_of_mem c p.1 p.2 hgc).trans h1,
          fun v hv => h2 v (by rw [List.map_cons]; exact List.mem_cons_of_mem _ hv), ?_⟩
        intro f hfg hfne hf0
        obtain ⟨vf, h4, h5⟩ := h3 f hfg hfne hf0
        exact ⟨vf, (filtration_insert_of_mem c p.1 p.2 (mem_of_filtration_eq_some h4)).trans h4,
          h5⟩
      · rcases (mem_insert_simplex_and_subfaces c p.1 p.2 g).1 hg with h | ⟨hsub, hne⟩
        · exact absurd h hgc
        · refine ⟨p.2, filtration_insert_of_not_mem c p.1 p.2 hgc hsub hne,
            fun v hv => hsorted.1 v hv, ?_⟩
          intro f hfg hfne hf0
          by_cases hfc : c.Mem f
          · obtain ⟨vf, h1, h2, -⟩ := hinv f hfc hf0
            exact ⟨vf, (filtration_insert_of_mem c p.1 p.2 hfc).trans h1, h2 p.2 (by simp)⟩
          · exact ⟨p.2, filtration_insert_of_not_mem c p.1 p.2 hfc (hfg.trans hsub) hfne,
              le_rfl⟩

end Simplex_tree

/-! ## Rows of nearest landmarks -/

theorem mem_firsts (row : List ℤ) (m : ℕ) (x : ℤ) :
    x ∈ firsts row m ↔ ∃ j, j < m ∧ row[j]? = some x := by
  unfold firsts
  rw [List.mem_toFinset, List.mem_iff_getElem?]
  constructor
  · rintro ⟨j, hj⟩
    rw [List.getElem?_take] at hj
    by_cases h : j < m
    · rw [if_pos h] at hj; exact ⟨j, h, hj⟩
    · rw [if_neg h] at hj; cases hj
  · rintro ⟨j, h, hj⟩
    refine ⟨j, ?_⟩
    rw [List.getElem?_take, if_pos h]; exact hj

theorem firsts_mono (row : List ℤ) {m n : ℕ} (h : m ≤ n) : firsts row m ⊆ firsts row n := by
  intro x hx
  rw [mem_firsts] at hx ⊢
  obtain ⟨j, hj, hx⟩ := hx
  exact ⟨j, lt_of_lt_of_le hj h, hx⟩

theorem card_firsts {row : List ℤ} (hnd : row.Nodup) {m : ℕ} (hm : m ≤ row.length) :
    (firsts row m).card = m := by
  unfold firsts
  rw [List.toFinset_card_of_nodup (hnd.sublist (List.take_sublist m row))]
  simp [hm]

theorem getElem?_inj_of_nodup {row : List ℤ} (hnd : row.Nodup) {i j : ℕ} {x : ℤ}
    (hi : row[i]? = some x) (hj : row[j]? = some x) : i = j := by
  obtain ⟨hi1, hi2⟩ := List.getElem?_eq_some.1 hi
  obtain ⟨hj1, hj2⟩ := List.getElem?_eq_some.1 hj
  exact (List.Nodup.getElem_inj_iff hnd).1 (hi2.trans hj2.symm)

theorem firsts_succ_erase {row : List ℤ} (hnd : row.Nodup) {k : ℕ} {xk : ℤ}
    (hk : row[k]? = some xk) : (firsts row (k + 1)).erase xk = firsts row k := by
  ext x
  rw [Finset.mem_erase, mem_firsts, mem_firsts]
  constructor
  · rintro ⟨hne, j, hj, hx⟩
    refine ⟨j, ?_, hx⟩
    rcases Nat.lt_succ_iff_lt_or_eq.1 hj with h | h
    · exact h
    · subst h; rw [hk] at hx; cases hx; exact absurd rfl hne
  · rintro ⟨j, hj, hx⟩
    refine ⟨?_, j, Nat.lt_succ_of_lt hj, hx⟩
    rintro rfl
    have := getElem?_inj_of_nodup hnd hx hk
    omega

/-- A set is witnessed by a row exactly when it is one of its sets of first entries. -/
theorem witnessed_firsts {knn : List (List ℤ)} {row : List ℤ} (hrow : row ∈ knn)
    (hnd : row.Nodup) {m : ℕ} (hm : m ≤ row.length) : Witnessed knn (firsts row m) :=
  ⟨row, hrow, by rw [card_firsts hnd hm]⟩

/-- The faces of a simplex that is witnessed with its faces are so too. -/
theorem WitnessedWithFaces.face {knn : List (List ℤ)} {s t : Finset ℤ}
    (hs : WitnessedWithFaces knn s) (hts : t ⊆ s) (ht : 2 ≤ t.card) :
    WitnessedWithFaces knn t :=
  ⟨hs.2 t hts ht, fun u hu hu2 => hs.2 u (hu.trans hts) hu2⟩

/-- A witnessed simplex is witnessed with its faces as soon as its facets are. -/
theorem witnessedWithFaces_of_facets {knn : List (List ℤ)} {s : Finset ℤ}
    (hw : Witnessed knn s) (hf : ∀ x ∈ s, WitnessedWithFaces knn (s.erase x)) :
    WitnessedWithFaces knn s := by
  refine ⟨hw, fun t hts ht2 => ?_⟩
  by_cases h : t = s
  · subst h; exact hw
  · have hss : t ⊂ s := Finset.ssubset_iff_subset_ne.2 ⟨hts, h⟩
    obtain ⟨x, hxs, hxt⟩ := Finset.exists_of_ssubset hss
    have hsub : t ⊆ s.erase x := by
      intro y hy
      rw [Finset.mem_erase]
      exact ⟨fun hyx => hxt (hyx ▸ hy), hts hy⟩
    by_cases h2 : t = s.erase x
    · rw [h2]; exact (hf x hxs).1
    · exact (hf x hxs).2 t hsub ht2

/-- An edge is witnessed with its faces as soon as it is witnessed. -/
theorem witnessedWithFaces_of_card_two {knn : List (List ℤ)} {s : Finset ℤ}
    (hw : Witnessed knn s) (hc : s.card = 2) : WitnessedWithFaces knn s := by
  refine ⟨hw, fun t hts ht2 => ?_⟩
  have : t = s := Finset.eq_of_subset_of_card_le hts (by omega)
  rw [this]; exact hw

/-! ## `all_faces_in` -/

theorem all_faces_in_facet_spec (row : List ℤ) (i : ℕ) (js : List ℕ)
    (hjs : ∀ j ∈ js, j < row.length) :
    ∃ facet, all_faces_in_facet row i js = some facet ∧
      ∀ x, x ∈ facet ↔ ∃ j ∈ js, j ≠ i ∧ row[j]? = some x := by
  induction js with
  | nil => exact ⟨[], rfl, by simp⟩
  | cons j js ih =>
    obtain ⟨facet, hf, hmem⟩ := ih (fun j hj => hjs j (List.mem_cons_of_mem _ hj))
    have hj : j < row.length := hjs j (List.mem_cons_self _ _)
    by_cases hji : j = i
    · refine ⟨facet, ?_, ?_⟩
      · simp [all_faces_in_facet, hji, hf]
      · intro x
        rw [hmem]
        constructor
        · rintro ⟨j', hj', h1, h2⟩
          exact ⟨j', List.mem_cons_of_mem _ hj', h1, h2⟩
        · rintro ⟨j', hj', h1, h2⟩
          rcases List.mem_cons.1 hj' with h | h
          · subst h; exact absurd hji h1
          · exact ⟨j', h, h1, h2⟩
    · refine ⟨row[j] :: facet, ?_, ?_⟩
      · simp [all_faces_in_facet, hji, hf, List.getElem?_eq_getElem hj]
      · intro x
        rw [List.mem_cons, hmem]
        constructor
        · rintro (h | ⟨j', hj', h1, h2⟩)
          · exact ⟨j, List.mem_cons_self _ _, hji, by rw [List.getElem?_eq_getElem hj, h]⟩
          · exact ⟨j', List.mem_cons_of_mem _ hj', h1, h2⟩
        · rintro ⟨j', hj', h1, h2⟩
          rcases List.mem_cons.1 hj' with h | h
          · subst h
            rw [List.getElem?_eq_getElem hj] at h2
            exact Or.inl (Option.some.inj h2).symm
          · exact Or.inr ⟨j', h, h1, h2⟩

/-- With pairwise distinct entries, the facet built for the index `i` is the set of
the `k + 1` first entries without the entry `i`. -/
theorem all_faces_in_facet_toFinset {row : List ℤ} (hnd : row.Nodup) {k i : ℕ} {xi : ℤ}
    (hk : k < row.length) (hi : row[i]? = some xi) :
    ∃ facet, all_faces_in_facet row i (List.range (k + 1)) = some facet ∧
      facet.toFinset = (firsts row (k + 1)).erase xi := by
  obtain ⟨facet, hf, hmem⟩ := all_faces_in_facet_spec row i (List.range (k + 1))
    (fun j hj => by rw [List.mem_range] at hj; omega)
  refine ⟨facet, hf, ?_⟩
  ext x
  rw [List.mem_toFinset, hmem, Finset.mem_erase, mem_firsts]
  constructor
  · rintro ⟨j, hj, hji, hx⟩
    rw [List.mem_range] at hj
    refine ⟨?_, j, hj, hx⟩
    rintro rfl
    exact hji (getElem?_inj_of_nodup hnd hx hi)
  · rintro ⟨hne, j, hj, hx⟩
    refine ⟨j, List.mem_range.2 hj, ?_, hx⟩
    rintro rfl
    rw [hi] at hx
    exact hne (Option.some.inj hx).symm

/-- The loop of `all_faces_in` returns, and returns `true` exactly when every facet
it builds is found. -/
theorem all_faces_in_loop_spec (c : Simplex_tree) (row : List ℤ) (k : ℕ) (xk : ℤ)
    (hk : k < row.length) (is : List ℕ) (his : ∀ i ∈ is, i < row.length) :
    ∃ b, all_faces_in_loop c row k xk is = some b ∧
      (b = true ↔ ∀ i ∈ is, ∀ xi facet, row[i]? = some xi → xi ≠ xk →
        all_faces_in_facet row i (List.range (k + 1)) = some facet → c.Mem facet.toFinset) := by
  induction is with
  | nil => exact ⟨true, rfl, by simp⟩
  | cons i is ih =>
    obtain ⟨b, hb, hbiff⟩ := ih (fun j hj => his j (List.mem_cons_of_mem _ hj))
    have hi : i < row.length := his i (List.mem_cons_self _ _)
    have hget : row[i]? = some row[i] := List.getElem?_eq_getElem hi
    obtain ⟨facet, hf, -⟩ := all_faces_in_facet_spec row i (List.range (k + 1))
      (fun j hj => by rw [List.mem_range] at hj; omega)
    by_cases hx : row[i] = xk
    · refine ⟨b, ?_, ?_⟩
      · simp [all_faces_in_loop, hget, hx, hb]
      · rw [hbiff]
        constructor
        · intro h j hj xi fc h1 h2 h3
          rcases List.mem_cons.1 hj with hji | hji
          · subst hji
            rw [hget] at h1
            exact absurd ((Option.some.inj h1).symm.trans hx) h2
          · exact h j hji xi fc h1 h2 h3
        · intro h j hj
          exact h j (List.mem_cons_of_mem _ hj)
    · by_cases hfound : (c.find facet).isNone = true
      · refine ⟨false, ?_, ?_⟩
        · simp [all_faces_in_loop, hget, hx, hf, hfound]
        · constructor
          · intro h; cases h
          · intro h
            exfalso
            exact (Simplex_tree.find_isNone_iff c facet).1 hfound
              (h i (List.mem_cons_self _ _) row[i] facet hget hx hf)
      · refine ⟨b, ?_, ?_⟩
        · simp [all_faces_in_loop, hget, hx, hf, hfound, hb]
        · rw [hbiff]
          constructor
          · intro h j hj xi fc h1 h2 h3
            rcases List.mem_cons.1 hj with hji | hji
            · subst hji
              rw [hf] at h3
              cases h3
              by_contra hcon
              exact hfound ((Simplex_tree.find_isNone_iff c facet).2 hcon)
            · exact h j hji xi fc h1 h2 h3
          · intro h j hj
            exact h j (List.mem_cons_of_mem _ hj)

/-- `all_faces_in` returns for every row that has an entry `k`. -/
theorem all_faces_in_total (c : Simplex_tree) (knn : List (List ℤ)) (w k : ℕ) (xk : ℤ)
    {row : List ℤ} (hrow : knn[w]? = some row) (hk : k < row.length) :
    ∃ b, all_faces_in c knn w k xk = some b := by
  obtain ⟨b, hb, -⟩ := all_faces_in_loop_spec c row k xk hk (List.range (k + 1))
    (fun j hj => by rw [List.mem_range] at hj; omega)
  exact ⟨b, by simp [all_faces_in, hrow, hb]⟩

/-- On a row of pairwise distinct entries `all_faces_in` answers whether the facets
that leave out one of the `k` first entries are all in the complex. -/
theorem all_faces_in_spec (c : Simplex_tree) (knn : List (List ℤ)) (w k : ℕ) (xk : ℤ)
    {row : List ℤ} (hrow : knn[w]? = some row) (hnd : row.Nodup) (hk : row[k]? = some xk) :
    ∃ b, all_faces_in c knn w k xk = some b ∧
      (b = true ↔ ∀ i, i < k → ∀ xi, row[i]? = some xi →
        c.Mem ((firsts row (k + 1)).erase xi)) := by
  have hklt : k < row.length := (List.getElem?_eq_some.1 hk).1
  obtain ⟨b, hb, hbiff⟩ := all_faces_in_loop_spec c row k xk hklt (List.range (k + 1))
    (fun j hj => by rw [List.mem_range] at hj; omega)
  refine ⟨b, by simp [all_faces_in, hrow, hb], ?_⟩
  rw [hbiff]
  constructor
  · intro h i hi xi hxi
    obtain ⟨facet, hf, hfs⟩ := all_faces_in_facet_toFinset hnd hklt hxi
    rw [← hfs]
    refine h i (List.mem_range.2 (by omega)) xi facet hxi ?_ hf
    rintro rfl
    have := getElem?_inj_of_nodup hnd hxi hk
    omega
  · intro h i hi xi facet hxi hne hf
    obtain ⟨facet', hf', hfs⟩ := all_faces_in_facet_toFinset hnd hklt hxi
    rw [hf] at hf'
    cases hf'
    rw [hfs]
    rw [List.mem_range] at hi
    refine h i ?_ xi hxi
    rcases Nat.lt_succ_iff_lt_or_eq.1 hi with h1 | h1
    · exact h1
    · subst h1
      rw [hk] at hxi
      exact absurd (Option.some.inj hxi).symm hne

/-- The vector `simplex_vector` of the `k + 1` first entries of a row. -/
theorem simplex_vector_spec (row : List ℤ) (is : List ℕ) (his : ∀ i ∈ is, i < row.length) :
    ∃ sv, simplex_vector row is = some sv ∧
      ∀ x, x ∈ sv ↔ ∃ i ∈ is, row[i]? = some x := by
  induction is with
  | nil => exact ⟨[], rfl, by simp⟩
  | cons i is ih =>
    obtain ⟨sv, hsv, hmem⟩ := ih (fun j hj => his j (List.mem_cons_of_mem _ hj))
    have hi : i < row.length := his i (List.mem_cons_self _ _)
    refine ⟨row[i] :: sv, by simp [simplex_vector, hsv, List.getElem?_eq_getElem hi], ?_⟩
    intro x
    rw [List.mem_cons, hmem]
    constructor
    · rintro (h | ⟨j, hj, hx⟩)
      · exact ⟨i, List.mem_cons_self _ _, by rw [List.getElem?_eq_getElem hi, h]⟩
      · exact ⟨j, List.mem_cons_of_mem _ hj, hx⟩
    · rintro ⟨j, hj, hx⟩
      rcases List.mem_cons.1 hj with h | h
      · subst h
        rw [List.getElem?_eq_getElem hi] at hx
        exact Or.inl (Option.some.inj hx).symm
      · exact Or.inr ⟨j, h, hx⟩

theorem simplex_vector_toFinset (row : List ℤ) (k : ℕ) (hk : k < row.length) :
    ∃ sv, simplex_vector row (List.range (k + 1)) = some sv ∧
      sv.toFinset = firsts row (k + 1) := by
  obtain ⟨sv, hsv, hmem⟩ := simplex_vector_spec row (List.range (k + 1))
    (fun j hj => by rw [List.mem_range] at hj; omega)
  refine ⟨sv, hsv, ?_⟩
  ext x
  rw [List.mem_toFinset, hmem, mem_firsts]
  simp only [List.mem_range]

/-! ## One pass of the weak engine -/

theorem witness_pass_nil (knn : List (List ℤ)) (k : ℕ) (c : Simplex_tree) :
    witness_pass knn k c [] = some (c, []) := rfl

theorem witness_pass_cons_true {knn : List (List ℤ)} {k w : ℕ} {c : Simplex_tree}
    {row sv : List ℤ} {xk : ℤ} (ws : List ℕ) (hrow : knn[w]? = some row)
    (hk : row[k]? = some xk) (hb : all_faces_in c knn w k xk = some true)
    (hsv : simplex_vector row (List.range (k + 1)) = some sv) :
    witness_pass knn k c (w :: ws)
      = (witness_pass knn k (c.insert_simplex sv 0).1 ws).map (fun r => (r.1, w :: r.2)) := by
  simp only [witness_pass, hrow, hk, hb, hsv]
  cases witness_pass knn k (c.insert_simplex sv 0).1 ws <;> rfl

theorem witness_pass_cons_false {knn : List (List ℤ)} {k w : ℕ} {c : Simplex_tree}
    {row : List ℤ} {xk : ℤ} (ws : List ℕ) (hrow : knn[w]? = some row)
    (hk : row[k]? = some xk) (hb : all_faces_in c knn w k xk = some false) :
    witness_pass knn k c (w :: ws) = witness_pass knn k c ws := by
  simp only [witness_pass, hrow, hk, hb]

/-- What a pass that returns went through on its first witness. -/
theorem witness_pass_cons_inv {knn : List (List ℤ)} {k w : ℕ} {c : Simplex_tree}
    {ws : List ℕ} {r : Simplex_tree × List ℕ} (h : witness_pass knn k c (w :: ws) = some r) :
    ∃ row xk, knn[w]? = some row ∧ row[k]? = some xk ∧
      ((all_faces_in c knn w k xk = some false ∧ witness_pass knn k c ws = some r) ∨
       (∃ sv r', all_faces_in c knn w k xk = some true ∧
          simplex_vector row (List.range (k + 1)) = some sv ∧
          witness_pass knn k (c.insert_simplex sv 0).1 ws = some r' ∧
          r = (r'.1, w :: r'.2))) := by
  cases hrow : knn[w]? with
  | none => simp [witness_pass, hrow] at h
  | some row =>
    cases hk : row[k]? with
    | none => simp [witness_pass, hrow, hk] at h
    | some xk =>
      refine ⟨row, xk, rfl, hk, ?_⟩
      cases hb : all_faces_in c knn w k xk with
      | none => simp [witness_pass, hrow, hk, hb] at h
      | some b =>
        cases b with
        | false =>
          rw [witness_pass_cons_false ws hrow hk hb] at h
          exact Or.inl ⟨rfl, h⟩
        | true =>
          cases hsv : simplex_vector row (List.range (k + 1)) with
          | none => simp [witness_pass, hrow, hk, hb, hsv] at h
          | some sv =>
            rw [witness_pass_cons_true ws hrow hk hb hsv] at h
            cases hr : witness_pass knn k (c.insert_simplex sv 0).1 ws with
            | none => rw [hr] at h; cases h
            | some r' =>
              rw [hr] at h
              exact Or.inr ⟨sv, r', rfl, rfl, hr, (Option.some.inj h).symm⟩

/-- A pass only adds simplices and only removes witnesses from the active list. -/
theorem witness_pass_mono (knn : List (List ℤ)) (k : ℕ) (ws : List ℕ) :
    ∀ (c : Simplex_tree) (r : Simplex_tree × List ℕ), witness_pass knn k c ws = some r →
      (∀ s, c.Mem s → r.1.Mem s) ∧ r.2.Sublist ws := by
  induction ws with
  | nil =>
    intro c r h
    rw [witness_pass_nil] at h
    cases h
    exact ⟨fun s hs => hs, List.Sublist.refl _⟩
  | cons w ws ih =>
    intro c r h
    obtain ⟨row, xk, -, -, h1 | ⟨sv, r', -, -, hr', rfl⟩⟩ := witness_pass_cons_inv h
    · obtain ⟨hm, hs⟩ := ih c r h1.2
      exact ⟨hm, hs.cons w⟩
    · obtain ⟨hm, hs⟩ := ih _ r' hr'
      exact ⟨fun s hs => hm s (Simplex_tree.mem_insert_simplex_of_mem sv 0 hs), hs.cons₂ w⟩

/-- A pass returns as soon as every active witness has a row with an entry `k`. -/
theorem witness_pass_total (knn : List (List ℤ)) (k : ℕ) (ws : List ℕ)
    (hws : ∀ w ∈ ws, ∃ row, knn[w]? = some row ∧ k < row.length) :
    ∀ c : Simplex_tree, ∃ r, witness_pass knn k c ws = some r := by
  induction ws with
  | nil => intro c; exact ⟨_, rfl⟩
  | cons w ws ih =>
    intro c
    obtain ⟨row, hrow, hk⟩ := hws w (List.mem_cons_self _ _)
    have ih' := ih (fun w hw => hws w (List.mem_cons_of_mem _ hw))
    have hget : row[k]? = some row[k] := List.getElem?_eq_getElem hk
    obtain ⟨b, hb⟩ := all_faces_in_total c knn w k row[k] hrow hk
    cases b with
    | false =>
      rw [witness_pass_cons_false ws hrow hget hb]
      exact ih' c
    | true =>
      obtain ⟨sv, hsv, -⟩ := simplex_vector_toFinset row k hk
      rw [witness_pass_cons_true ws hrow hget hb hsv]
      obtain ⟨r, hr⟩ := ih' (c.insert_simplex sv 0).1
      exact ⟨_, by rw [hr]; rfl⟩

theorem mem_of_getElem?_eq_some {knn : List (List ℤ)} {w : ℕ} {row : List ℤ}
    (h : knn[w]? = some row) : row ∈ knn :=
  List.getElem?_mem h

/-- A proper non-empty face lies in a facet. -/
theorem subset_erase_of_ssubset {s t : Finset ℤ} (hts : t ⊆ s) (hne : t ≠ s) :
    ∃ x ∈ s, t ⊆ s.erase x := by
  have hss : t ⊂ s := Finset.ssubset_iff_subset_ne.2 ⟨hts, hne⟩
  obtain ⟨x, hxs, hxt⟩ := Finset.exists_of_ssubset hss
  refine ⟨x, hxs, fun y hy => ?_⟩
  rw [Finset.mem_erase]
  exact ⟨fun hyx => hxt (hyx ▸ hy), hts hy⟩

/-- When `all_faces_in` accepts the simplex of an active witness, all its facets are
in the complex. -/
theorem facets_mem_of_all_faces_in {c : Simplex_tree} {knn : List (List ℤ)} {w k : ℕ}
    {xk : ℤ} {row : List ℤ} (hrow : knn[w]? = some row) (hnd : row.Nodup)
    (hk : row[k]? = some xk) (hb : all_faces_in c knn w k xk = some true)
    (hact : c.Mem (firsts row k)) :
    ∀ x ∈ firsts row (k + 1), c.Mem ((firsts row (k + 1)).erase x) := by
  obtain ⟨b, hb', hiff⟩ := all_faces_in_spec c knn w k xk hrow hnd hk
  rw [hb] at hb'
  cases hb'
  have hall := hiff.1 rfl
  intro x hx
  rw [mem_firsts] at hx
  obtain ⟨j, hj, hxj⟩ := hx
  rcases Nat.lt_succ_iff_lt_or_eq.1 hj with h | h
  · exact hall j h x hxj
  · subst h
    rw [hk] at hxj
    cases hxj
    rw [firsts_succ_erase hnd hk]
    exact hact

/-- A pass keeps the complex closed after each of its insertions. -/
theorem witness_pass_closed {knn : List (List ℤ)} {D k : ℕ} (hrows : RowsDistinct D knn)
    (ws : List ℕ) :
    ∀ (c : Simplex_tree) (r : Simplex_tree × List ℕ), witness_pass knn k c ws = some r →
      Simplex_tree.ClosedList c.simplices → (∀ e ∈ c.log, Simplex_tree.ClosedList e.2) →
      (∀ w ∈ ws, ∀ row, knn[w]? = some row → c.Mem (firsts row k)) →
      Simplex_tree.ClosedList r.1.simplices ∧ (∀ e ∈ r.1.log, Simplex_tree.ClosedList e.2) ∧
        (∀ w ∈ r.2, ∀ row, knn[w]? = some row → r.1.Mem (firsts row (k + 1))) := by
  induction ws with
  | nil =>
    intro c r h hc hlog _
    rw [witness_pass_nil] at h
    cases h
    exact ⟨hc, hlog, fun w hw => by simp at hw⟩
  | cons w ws ih =>
    intro c r h hc hlog hact
    obtain ⟨row, xk, hrow, hk, h1 | ⟨sv, r', hb, hsv, hr', rfl⟩⟩ := witness_pass_cons_inv h
    · exact ih c r h1.2 hc hlog (fun w' hw' => hact w' (List.mem_cons_of_mem _ hw'))
    · have hnd : row.Nodup := (hrows row (mem_of_getElem?_eq_some hrow)).2
      have hklt : k < row.length := (List.getElem?_eq_some.1 hk).1
      obtain ⟨sv', hsv', hsvset⟩ := simplex_vector_toFinset row k hklt
      rw [hsv] at hsv'
      cases hsv'
      have hfac := facets_mem_of_all_faces_in hrow hnd hk hb
        (hact w (List.mem_cons_self _ _) row hrow)
      have hc1 : Simplex_tree.ClosedList (c.insert_simplex sv 0).1.simplices := by
        rw [Simplex_tree.insert_simplex_simplices]
        refine Simplex_tree.closedList_add hc _ 0 (fun t hts hne htne => ?_)
        rw [hsvset] at hts hne
        obtain ⟨x, hx, htx⟩ := subset_erase_of_ssubset hts hne
        exact hc _ (hfac x hx) t htx htne
      have hlog1 : ∀ e ∈ (c.insert_simplex sv 0).1.log, Simplex_tree.ClosedList e.2 := by
        intro e he
        rw [Simplex_tree.insert_simplex_log, List.mem_append, List.mem_singleton] at he
        rcases he with he | he
        · exact hlog e he
        · subst he; exact hc1
      obtain ⟨h1, h2, h3⟩ := ih _ r' hr' hc1 hlog1
        (fun w' hw' row' hrow' => Simplex_tree.mem_insert_simplex_of_mem sv 0
          (hact w' (List.mem_cons_of_mem _ hw') row' hrow'))
      refine ⟨h1, h2, fun w' hw' row' hrow' => ?_⟩
      rcases List.mem_cons.1 hw' with hw | hw
      · subst hw
        rw [hrow] at hrow'
        cases hrow'
        refine (witness_pass_mono knn k ws _ r' hr').1 _ ?_
        rw [Simplex_tree.mem_insert_simplex, hsvset]
        exact Or.inr rfl
      · exact h3 w' hw row' hrow'

/-- The witnesses a pass keeps and the simplices it adds. -/
theorem witness_pass_spec {knn : List (List ℤ)} {D k : ℕ} (hrows : RowsDistinct D knn)
    (hkD : k < D) (ws : List ℕ) :
    ∀ c : Simplex_tree, (∀ w ∈ ws, w < knn.length) →
      ∃ r, witness_pass knn k c ws = some r ∧
        (∀ w, w ∈ r.2 ↔ w ∈ ws ∧ ∀ row, knn[w]? = some row → ∀ i, i < k → ∀ xi,
          row[i]? = some xi → c.Mem ((firsts row (k + 1)).erase xi)) ∧
        (∀ s, r.1.Mem s ↔ c.Mem s ∨
          ∃ w ∈ r.2, ∃ row, knn[w]? = some row ∧ s = firsts row (k + 1)) := by
  induction ws with
  | nil =>
    intro c _
    exact ⟨(c, []), rfl, by simp, by simp⟩
  | cons w ws ih =>
    intro c hws
    have hw : w < knn.length := hws w (List.mem_cons_self _ _)
    have hrow : knn[w]? = some knn[w] := List.getElem?_eq_getElem hw
    obtain ⟨hlen, hnd⟩ := hrows knn[w] (mem_of_getElem?_eq_some hrow)
    have hklt : k < knn[w].length := by omega
    have hk : knn[w][k]? = some knn[w][k] := List.getElem?_eq_getElem hklt
    have hws' : ∀ w ∈ ws, w < knn.length := fun w hw => hws w (List.mem_cons_of_mem _ hw)
    obtain ⟨b, hb, hbiff⟩ := all_faces_in_spec c knn w k knn[w][k] hrow hnd hk
    cases b with
    | false =>
      obtain ⟨r, hr, hact, hmem⟩ := ih c hws'
      refine ⟨r, by rw [witness_pass_cons_false ws hrow hk hb]; exact hr, ?_, hmem⟩
      intro w'
      rw [hact, List.mem_cons]
      constructor
      · rintro ⟨h1, h2⟩; exact ⟨Or.inr h1, h2⟩
      · rintro ⟨h1 | h1, h2⟩
        · subst h1
          exfalso
          have := hbiff.2 (fun i hi xi hxi => h2 _ hrow i hi xi hxi)
          cases this
        · exact ⟨h1, h2⟩
    | true =>
      obtain ⟨sv, hsv, hsvset⟩ := simplex_vector_toFinset knn[w] k hklt
      obtain ⟨r, hr, hact, hmem⟩ := ih (c.insert_simplex sv 0).1 hws'
      -- the inserted simplex has `k + 1` vertices, the facets tested have `k`
      have hinv : ∀ (w' : ℕ) (row : List ℤ), knn[w']? = some row → ∀ i, i < k → ∀ xi,
          row[i]? = some xi → ((c.insert_simplex sv 0).1.Mem ((firsts row (k + 1)).erase xi)
            ↔ c.Mem ((firsts row (k + 1)).erase xi)) := by
        intro w' row hrow' i hi xi hxi
        rw [Simplex_tree.mem_insert_simplex, hsvset]
        constructor
        · rintro (h | h)
          · exact h
          · exfalso
            obtain ⟨hlen', hnd'⟩ := hrows row (mem_of_getElem?_eq_some hrow')
            have hc1 := card_firsts hnd' (show k + 1 ≤ row.length by omega)
            have hc2 := card_firsts hnd (show k + 1 ≤ knn[w].length by omega)
            have hxi' : xi ∈ firsts row (k + 1) := (mem_firsts _ _ _).2 ⟨i, by omega, hxi⟩
            have hc3 := Finset.card_erase_of_mem hxi'
            rw [h, hc2] at hc3
            omega
        · exact Or.inl
      refine ⟨(r.1, w :: r.2), ?_, ?_, ?_⟩
      · rw [witness_pass_cons_true ws hrow hk hb hsv, hr]; rfl
      · intro w'
        show w' ∈ w :: r.2 ↔ _
        rw [List.mem_cons, hact, List.mem_cons]
        constructor
        · rintro (h | ⟨h1, h2⟩)
          · subst h
            refine ⟨Or.inl rfl, fun row hrow' i hi xi hxi => ?_⟩
            rw [hrow] at hrow'
            cases hrow'
            exact hbiff.1 rfl i hi xi hxi
          · exact ⟨Or.inr h1, fun row hrow' i hi xi hxi =>
              (hinv w' row hrow' i hi xi hxi).1 (h2 row hrow' i hi xi hxi)⟩
        · rintro ⟨h1 | h1, h2⟩
          · exact Or.inl h1
          · exact Or.inr ⟨h1, fun row hrow' i hi xi hxi =>
              (hinv w' row hrow' i hi xi hxi).2 (h2 row hrow' i hi xi hxi)⟩
      · intro s
        show r.1.Mem s ↔ c.Mem s ∨ ∃ w' ∈ w :: r.2, _
        rw [hmem, Simplex_tree.mem_insert_simplex, hsvset]
        constructor
        · rintro ((h | h) | ⟨w', hw', row, hrow', hs⟩)
          · exact Or.inl h
          · exact Or.inr ⟨w, List.mem_cons_self _ _, knn[w], hrow, h⟩
          · exact Or.inr ⟨w', List.mem_cons_of_mem _ hw', row, hrow', hs⟩
        · rintro (h | ⟨w', hw', row, hrow', hs⟩)
          · exact Or.inl (Or.inl h)
          · rcases List.mem_cons.1 hw' with h | h
            · subst h
              rw [hrow] at hrow'
              cases hrow'
              exact Or.inl (Or.inr hs)
            · exact Or.inr ⟨w', h, row, hrow', hs⟩

/-! ## The loop of the weak engine -/

/-- For an active witness, the facets tested by `all_faces_in` are in the complex
exactly when its next simplex is witnessed with its faces. -/
theorem facets_iff_witnessedWithFaces {knn : List (List ℤ)} {D k : ℕ} {c : Simplex_tree}
    {active : List ℕ} (hrows : RowsDistinct D knn) (hk2 : 2 ≤ k) (hkD : k < D)
    (hinv : WeakInv knn k c active) {w : ℕ} {row : List ℤ} (hrow : knn[w]? = some row)
    (hgood : WitnessedWithFaces knn (firsts row k)) :
    (∀ i, i < k → ∀ xi, row[i]? = some xi → c.Mem ((firsts row (k + 1)).erase xi))
      ↔ WitnessedWithFaces knn (firsts row (k + 1)) := by
  have hmem := mem_of_getElem?_eq_some hrow
  obtain ⟨hlen, hnd⟩ := hrows row hmem
  have hcard : (firsts row (k + 1)).card = k + 1 := card_firsts hnd (by omega)
  have hklt : k < row.length := by omega
  have hk : row[k]? = some row[k] := List.getElem?_eq_getElem hklt
  constructor
  · intro h
    refine witnessedWithFaces_of_facets (witnessed_firsts hmem hnd (by omega)) ?_
    intro x hx
    have hx' := hx
    rw [mem_firsts] at hx'
    obtain ⟨j, hj, hxj⟩ := hx'
    rcases Nat.lt_succ_iff_lt_or_eq.1 hj with hlt | heq
    · have hc := Finset.card_erase_of_mem hx
      rcases hinv.small _ (h j hlt x hxj) with h1 | ⟨-, -, h3⟩
      · rw [hc, hcard] at h1; omega
      · exact h3
    · subst heq
      rw [hk] at hxj
      cases hxj
      rw [firsts_succ_erase hnd hk]
      exact hgood
  · intro h i hi xi hxi
    have hx : xi ∈ firsts row (k + 1) := (mem_firsts _ _ _).2 ⟨i, by omega, hxi⟩
    have hc := Finset.card_erase_of_mem hx
    rw [hcard] at hc
    exact hinv.good _ (by omega) (by omega) (h.face (Finset.erase_subset _ _) (by omega))

/-- The sets of first entries of a row whose first `m` entries are witnessed with
their faces are so too. -/
theorem witnessedWithFaces_firsts {knn : List (List ℤ)} {D : ℕ} (hrows : RowsDistinct D knn)
    {row : List ℤ} (hrow : row ∈ knn) {m j : ℕ} (hm : m ≤ D)
    (h : WitnessedWithFaces knn (firsts row m)) (hj2 : 2 ≤ j) (hjm : j ≤ m) :
    WitnessedWithFaces knn (firsts row j) := by
  obtain ⟨hlen, hnd⟩ := hrows row hrow
  exact h.face (firsts_mono row hjm) (by rw [card_firsts hnd (by omega)]; exact hj2)

/-- One pass takes the invariant from dimension `k` to dimension `k + 1`. -/
theorem weakInv_step {knn : List (List ℤ)} {D k : ℕ} {c : Simplex_tree} {active : List ℕ}
    (hrows : RowsDistinct D knn) (hk2 : 2 ≤ k) (hkD : k < D)
    (hinv : WeakInv knn k c active) :
    ∃ r, witness_pass knn k c active = some r ∧ WeakInv knn (k + 1) r.1 r.2 := by
  obtain ⟨r, hr, hact, hmem⟩ := witness_pass_spec hrows hkD active c
    (fun w hw => (hinv.active_good w hw).1)
  have hkey : ∀ w, w ∈ r.2 ↔ w ∈ active ∧
      ∀ row, knn[w]? = some row → WitnessedWithFaces knn (firsts row (k + 1)) := by
    intro w
    rw [hact]
    constructor
    · rintro ⟨h1, h2⟩
      refine ⟨h1, fun row hrow => ?_⟩
      exact (facets_iff_witnessedWithFaces hrows hk2 hkD hinv hrow
        ((hinv.active_good w h1).2 row hrow)).1 (h2 row hrow)
    · rintro ⟨h1, h2⟩
      refine ⟨h1, fun row hrow => ?_⟩
      exact (facets_iff_witnessedWithFaces hrows hk2 hkD hinv hrow
        ((hinv.active_good w h1).2 row hrow)).2 (h2 row hrow)
  refine ⟨r, hr, ?_, ?_, ?_, ?_⟩
  · intro s hs
    rcases (hmem s).1 hs with h | ⟨w, hw, row, hrow, rfl⟩
    · rcases hinv.small s h with h1 | ⟨h1, h2, h3⟩
      · exact Or.inl h1
      · exact Or.inr ⟨h1, by omega, h3⟩
    · obtain ⟨hlen, hnd⟩ := hrows row (mem_of_getElem?_eq_some hrow)
      have hcard : (firsts row (k + 1)).card = k + 1 := card_firsts hnd (by omega)
      exact Or.inr ⟨by omega, by omega, ((hkey w).1 hw).2 row hrow⟩
  · intro s hs2 hsk hgood
    rw [hmem]
    by_cases hle : s.card ≤ k
    · exact Or.inl (hinv.good s hs2 hle hgood)
    · have hcard : s.card = k + 1 := by omega
      obtain ⟨row, hrow, hfs⟩ := hgood.1
      rw [hcard] at hfs
      obtain ⟨w, hw⟩ := List.mem_iff_getElem?.1 hrow
      have hgood' : WitnessedWithFaces knn (firsts row (k + 1)) := by rw [hfs]; exact hgood
      have hwact : w ∈ active := hinv.active_all w row hw (fun j hj2 hjk =>
        witnessedWithFaces_firsts hrows hrow (by omega) hgood' hj2 (by omega))
      refine Or.inr ⟨w, (hkey w).2 ⟨hwact, fun row' hrow' => ?_⟩, row, hw, hfs.symm⟩
      rw [hw] at hrow'
      cases hrow'
      exact hgood'
  · intro w hw
    obtain ⟨h1, h2⟩ := (hkey w).1 hw
    exact ⟨(hinv.active_good w h1).1, h2⟩
  · intro w row hrow hall
    refine (hkey w).2 ⟨hinv.active_all w row hrow (fun j hj2 hjk => hall j hj2 (by omega)), ?_⟩
    intro row' hrow'
    rw [hrow] at hrow'
    cases hrow'
    exact hall (k + 1) (by omega) le_rfl

/-- The loop returns; its complex holds, among the sets of `2` to `D` landmarks,
exactly those witnessed with their faces, and it is closed after every insertion. -/
theorem witness_loop_spec {knn : List (List ℤ)} {D : ℕ} (hrows : RowsDistinct D knn) :
    ∀ (fuel k : ℕ) (c : Simplex_tree) (active : List ℕ), D ≤ k + fuel → 2 ≤ k → k ≤ D →
      WeakInv knn k c active → Simplex_tree.ClosedList c.simplices →
      (∀ e ∈ c.log, Simplex_tree.ClosedList e.2) →
      ∃ r, witness_loop knn D fuel k c active = some r ∧
        (∀ s : Finset ℤ, 2 ≤ s.card → s.card ≤ D → (r.1.Mem s ↔ WitnessedWithFaces knn s)) ∧
        Simplex_tree.ClosedList r.1.simplices ∧
        (∀ e ∈ r.1.log, Simplex_tree.ClosedList e.2) := by
  -- the state reached when the loop condition fails
  have hexit : ∀ (k : ℕ) (c : Simplex_tree) (active : List ℕ), k ≤ D → WeakInv knn k c active →
      ¬ (active ≠ [] ∧ k < D) →
      ∀ s : Finset ℤ, 2 ≤ s.card → s.card ≤ D → (c.Mem s ↔ WitnessedWithFaces knn s) := by
    intro k c active hkD hinv hcond s hs2 hsD
    constructor
    · intro hs
      rcases hinv.small s hs with h | ⟨-, -, h⟩
      · omega
      · exact h
    · intro hgood
      by_cases hle : s.card ≤ k
      · exact hinv.good s hs2 hle hgood
      · exfalso
        obtain ⟨row, hrow, hfs⟩ := hgood.1
        obtain ⟨w, hw⟩ := List.mem_iff_getElem?.1 hrow
        have hgood' : WitnessedWithFaces knn (firsts row s.card) := by rw [hfs]; exact hgood
        have hwact : w ∈ active := hinv.active_all w row hw (fun j hj2 hjk =>
          witnessedWithFaces_firsts hrows hrow hsD hgood' hj2 (by omega))
        apply hcond
        refine ⟨?_, by omega⟩
        rintro rfl
        simp at hwact
  intro fuel
  induction fuel with
  | zero =>
    intro k c active hfuel hk2 hkD hinv hc hlog
    have hcond : ¬ (active ≠ [] ∧ k < D) := by omega
    refine ⟨(c, active), ?_, hexit k c active hkD hinv hcond, hc, hlog⟩
    simp only [witness_loop]
    rw [if_neg hcond]
  | succ fuel ih =>
    intro k c active hfuel hk2 hkD hinv hc hlog
    by_cases hcond : active ≠ [] ∧ k < D
    · obtain ⟨r, hr, hinv'⟩ := weakInv_step hrows hk2 hcond.2 hinv
      obtain ⟨hc', hlog', -⟩ := witness_pass_closed hrows active c r hr hc hlog
        (fun w hw row hrow => by
          obtain ⟨hlen, hnd⟩ := hrows row (mem_of_getElem?_eq_some hrow)
          exact hinv.good _ (by rw [card_firsts hnd (by omega)]; exact hk2)
            (by rw [card_firsts hnd (by omega)]) ((hinv.active_good w hw).2 row hrow))
      obtain ⟨r', hr', h1, h2, h3⟩ := ih (k + 1) r.1 r.2 (by omega) (by omega) (by omega)
        hinv' hc' hlog'
      refine ⟨r', ?_, h1, h2, h3⟩
      simp only [witness_loop]
      rw [if_pos hcond, hr]
      exact hr'
    · refine ⟨(c, active), ?_, hexit k c active hkD hinv hcond, hc, hlog⟩
      simp only [witness_loop]
      rw [if_neg hcond]

/-- The loop only adds simplices. -/
theorem witness_loop_mono (knn : List (List ℤ)) (D : ℕ) :
    ∀ (fuel k : ℕ) (c : Simplex_tree) (active : List ℕ) (r : Simplex_tree × List ℕ),
      witness_loop knn D fuel k c active = some r →
      (∀ s, c.Mem s → r.1.Mem s) ∧ r.2.Sublist active := by
  intro fuel
  induction fuel with
  | zero =>
    intro k c active r h
    simp only [witness_loop] at h
    split at h
    · cases h
    · cases h; exact ⟨fun s hs => hs, List.Sublist.refl _⟩
  | succ fuel ih =>
    intro k c active r h
    simp only [witness_loop] at h
    split at h
    · cases hp : witness_pass knn k c active with
      | none => rw [hp] at h; cases h
      | some r1 =>
        rw [hp] at h
        obtain ⟨h1, h2⟩ := witness_pass_mono knn k active c r1 hp
        obtain ⟨h3, h4⟩ := ih (k + 1) r1.1 r1.2 r h
        exact ⟨fun s hs => h3 s (h1 s hs), h4.trans h2⟩
    · cases h; exact ⟨fun s hs => hs, List.Sublist.refl _⟩

/-- The loop returns as soon as the rows of the active witnesses have `D` entries. -/
theorem witness_loop_total (knn : List (List ℤ)) (D : ℕ) :
    ∀ (fuel k : ℕ) (c : Simplex_tree) (active : List ℕ), D ≤ k + fuel →
      (∀ w ∈ active, ∃ row, knn[w]? = some row ∧ D ≤ row.length) →
      ∃ r, witness_loop knn D fuel k c active = some r := by
  intro fuel
  induction fuel with
  | zero =>
    intro k c active hfuel _
    have hcond : ¬ (active ≠ [] ∧ k < D) := by omega
    exact ⟨(c, active), by simp only [witness_loop]; rw [if_neg hcond]⟩
  | succ fuel ih =>
    intro k c active hfuel hact
    by_cases hcond : active ≠ [] ∧ k < D
    · obtain ⟨r, hr⟩ := witness_pass_total knn k active (fun w hw => by
        obtain ⟨row, h1, h2⟩ := hact w hw
        exact ⟨row, h1, by omega⟩) c
      obtain ⟨-, hsub⟩ := witness_pass_mono knn k active c r hr
      obtain ⟨r', hr'⟩ := ih (k + 1) r.1 r.2 (by omega) (fun w hw => hact w (hsub.subset hw))
      refine ⟨r', ?_⟩
      simp only [witness_loop]
      rw [if_pos hcond, hr]
      exact hr'
    · exact ⟨(c, active), by simp only [witness_loop]; rw [if_neg hcond]⟩

/-! ## The set-up of the weak engine: vertices, first edges, ordering of the rows -/

theorem mem_insert_landmarks (is : List ℕ) :
    ∀ (c : Simplex_tree) (s : Finset ℤ),
      (insert_landmarks c is).Mem s ↔ c.Mem s ∨ ∃ i ∈ is, s = {(i : ℤ)} := by
  induction is with
  | nil => intro c s; simp [insert_landmarks]
  | cons i is ih =>
    intro c s
    simp only [insert_landmarks]
    rw [ih, Simplex_tree.mem_insert_simplex]
    simp only [List.toFinset_cons, List.toFinset_nil, insert_emptyc_eq, List.mem_cons,
      exists_eq_or_imp]
    tauto

theorem mem_insert_landmarks_of_mem (is : List ℕ) {c : Simplex_tree} {s : Finset ℤ}
    (h : c.Mem s) : (insert_landmarks c is).Mem s :=
  (mem_insert_landmarks is c s).2 (Or.inl h)

theorem insert_landmarks_closed (is : List ℕ) :
    ∀ c : Simplex_tree, Simplex_tree.ClosedList c.simplices →
      (∀ e ∈ c.log, Simplex_tree.ClosedList e.2) →
      Simplex_tree.ClosedList (insert_landmarks c is).simplices ∧
        ∀ e ∈ (insert_landmarks c is).log, Simplex_tree.ClosedList e.2 := by
  induction is with
  | nil => intro c hc hlog; exact ⟨hc, hlog⟩
  | cons i is ih =>
    intro c hc hlog
    simp only [insert_landmarks]
    have hc1 : Simplex_tree.ClosedList (c.insert_simplex [(i : ℤ)] 0).1.simplices := by
      rw [Simplex_tree.insert_simplex_simplices]
      refine Simplex_tree.closedList_add hc _ 0 (fun t hts hne htne => ?_)
      exfalso
      simp only [List.toFinset_cons, List.toFinset_nil, insert_emptyc_eq] at hts hne
      rcases Finset.subset_singleton_iff.1 hts with h | h
      · rw [h] at htne; exact Finset.not_nonempty_empty htne
      · exact hne h
    refine ih _ hc1 (fun e he => ?_)
    rw [Simplex_tree.insert_simplex_log, List.mem_append, List.mem_singleton] at he
    rcases he with he | he
    · exact hlog e he
    · subst he; exact hc1

theorem firsts_two_of_getElem? {row : List ℤ} {u v : ℤ} (hu : row[0]? = some u)
    (hv : row[1]? = some v) : [u, v].toFinset = firsts row 2 := by
  match row, hu, hv with
  | a :: b :: rest, hu, hv =>
    simp only [List.getElem?_cons_zero, List.getElem?_cons_succ, Option.some.injEq] at hu hv
    subst hu; subst hv
    simp [firsts]

theorem insert_edges_cons_inv {c c' : Simplex_tree} {row : List ℤ} {rows : List (List ℤ)}
    (h : insert_edges c (row :: rows) = some c') :
    ∃ u v, row[0]? = some u ∧ row[1]? = some v ∧
      insert_edges (c.insert_simplex [u, v] 0).1 rows = some c' := by
  cases hu : row[0]? with
  | none => simp [insert_edges, hu] at h
  | some u =>
    cases hv : row[1]? with
    | none => simp [insert_edges, hu, hv] at h
    | some v =>
      simp only [insert_edges, hu, hv] at h
      exact ⟨u, v, rfl, rfl, h⟩

theorem insert_edges_total (rows : List (List ℤ)) (hrows : ∀ row ∈ rows, 2 ≤ row.length) :
    ∀ c : Simplex_tree, ∃ c', insert_edges c rows = some c' := by
  induction rows with
  | nil => intro c; exact ⟨c, rfl⟩
  | cons row rows ih =>
    intro c
    have h2 := hrows row (List.mem_cons_self _ _)
    have h0 : row[0]? = some row[0] := List.getElem?_eq_getElem (by omega)
    have h1 : row[1]? = some row[1] := List.getElem?_eq_getElem (by omega)
    obtain ⟨c', hc'⟩ := ih (fun r hr => hrows r (List.mem_cons_of_mem _ hr))
      (c.insert_simplex [row[0], row[1]] 0).1
    exact ⟨c', by simp only [insert_edges, h0, h1]; exact hc'⟩

theorem mem_insert_edges (rows : List (List ℤ)) :
    ∀ (c c' : Simplex_tree), insert_edges c rows = some c' →
      ∀ s, c'.Mem s ↔ c.Mem s ∨ ∃ row ∈ rows, s = firsts row 2 := by
  induction rows with
  | nil =>
    intro c c' h s
    simp only [insert_edges] at h
    cases h
    simp
  | cons row rows ih =>
    intro c c' h s
    obtain ⟨u, v, hu, hv, h'⟩ := insert_edges_cons_inv h
    rw [ih _ c' h' s, Simplex_tree.mem_insert_simplex, firsts_two_of_getElem? hu hv]
    simp only [List.mem_cons, exists_eq_or_imp]
    tauto

theorem insert_edges_closed (rows : List (List ℤ)) :
    ∀ (c c' : Simplex_tree), insert_edges c rows = some c' →
      (∀ row ∈ rows, ∀ x ∈ row, c.Mem {x}) →
      Simplex_tree.ClosedList c.simplices → (∀ e ∈ c.log, Simplex_tree.ClosedList e.2) →
      Simplex_tree.ClosedList c'.simplices ∧ ∀ e ∈ c'.log, Simplex_tree.ClosedList e.2 := by
  induction rows with
  | nil =>
    intro c c' h _ hc hlog
    simp only [insert_edges] at h
    cases h
    exact ⟨hc, hlog⟩
  | cons row rows ih =>
    intro c c' h hvert hc hlog
    obtain ⟨u, v, hu, hv, h'⟩ := insert_edges_cons_inv h
    have hur : u ∈ row := List.getElem?_mem hu
    have hvr : v ∈ row := List.getElem?_mem hv
    have hc1 : Simplex_tree.ClosedList (c.insert_simplex [u, v] 0).1.simplices := by
      rw [Simplex_tree.insert_simplex_simplices]
      refine Simplex_tree.closedList_add hc _ 0 (fun t hts hne htne => ?_)
      obtain ⟨x, hx, htx⟩ := subset_erase_of_ssubset hts hne
      obtain ⟨y, hy⟩ := htne
      have hcard : t.card ≤ 1 := by
        have h1 := Finset.card_le_card htx
        have h2 := Finset.card_erase_of_mem hx
        have h3 : ([u, v].toFinset).card ≤ 2 := by
          simp only [List.toFinset_cons, List.toFinset_nil, insert_emptyc_eq]
          exact Finset.card_le_two
        omega
      have ht : t = {y} := by
        rw [Finset.eq_singleton_iff_unique_mem]
        exact ⟨hy, fun z hz => Finset.card_le_one.1 hcard z hz y hy⟩
      rw [ht]
      have hyuv : y ∈ [u, v].toFinset := hts hy
      simp only [List.toFinset_cons, List.toFinset_nil, insert_emptyc_eq,
        Finset.mem_insert, Finset.mem_singleton] at hyuv
      rcases hyuv with rfl | rfl
      · exact hvert row (List.mem_cons_self _ _) _ hur
      · exact hvert row (List.mem_cons_self _ _) _ hvr
    refine ih _ c' h' (fun r hr x hx => Simplex_tree.mem_insert_simplex_of_mem _ 0
      (hvert r (List.mem_cons_of_mem _ hr) x hx)) hc1 (fun e he => ?_)
    rw [Simplex_tree.insert_simplex_log, List.mem_append, List.mem_singleton] at he
    rcases he with he | he
    · exact hlog e he
    · subst he; exact hc1

/-! ### Ordering of the two first entries -/

theorem order_first_two_spec {row row1 : List ℤ} (h : order_first_two row = some row1) :
    row1.length = row.length ∧ row1.Perm row ∧ ∀ m, 2 ≤ m → firsts row1 m = firsts row m := by
  match row, h with
  | u :: v :: rest, h =>
    simp only [order_first_two] at h
    split at h
    · cases h
      refine ⟨rfl, List.Perm.swap _ _ _, fun m hm => ?_⟩
      obtain ⟨n, rfl⟩ : ∃ n, m = n + 2 := ⟨m - 2, by omega⟩
      simp only [firsts, List.take_succ_cons, List.toFinset_cons]
      exact Finset.Insert.comm _ _ _
    · cases h
      exact ⟨rfl, List.Perm.refl _, fun m _ => rfl⟩

theorem order_first_two_total {row : List ℤ} (h : 2 ≤ row.length) :
    ∃ row1, order_first_two row = some row1 := by
  match row, h with
  | u :: v :: rest, _ =>
    simp only [order_first_two]
    split <;> exact ⟨_, rfl⟩

theorem order_rows_spec (knn : List (List ℤ)) :
    ∀ knn1, order_rows knn = some knn1 →
      List.Forall₂ (fun row row1 => order_first_two row = some row1) knn knn1 := by
  induction knn with
  | nil =>
    intro knn1 h
    simp only [order_rows] at h
    cases h
    exact List.Forall₂.nil
  | cons row rows ih =>
    intro knn1 h
    cases h1 : order_first_two row with
    | none => simp [order_rows, h1] at h
    | some r =>
      cases h2 : order_rows rows with
      | none => simp [order_rows, h1, h2] at h
      | some rs =>
        simp only [order_rows, h1, h2] at h
        cases h
        exact List.Forall₂.cons h1 (ih rs h2)

theorem order_rows_total (knn : List (List ℤ)) (hrows : ∀ row ∈ knn, 2 ≤ row.length) :
    ∃ knn1, order_rows knn = some knn1 := by
  induction knn with
  | nil => exact ⟨[], rfl⟩
  | cons row rows ih =>
    obtain ⟨r, hr⟩ := order_first_two_total (hrows row (List.mem_cons_self _ _))
    obtain ⟨rs, hrs⟩ := ih (fun r hr => hrows r (List.mem_cons_of_mem _ hr))
    exact ⟨r :: rs, by simp only [order_rows, hr, hrs]⟩

theorem forall₂_mem_left {knn knn1 : List (List ℤ)}
    (h : List.Forall₂ (fun row row1 => order_first_two row = some row1) knn knn1)
    {row : List ℤ} (hrow : row ∈ knn) : ∃ row1 ∈ knn1, order_first_two row = some row1 := by
  induction h with
  | nil => simp at hrow
  | cons h1 _ ih =>
    rcases List.mem_cons.1 hrow with h | h
    · subst h; exact ⟨_, List.mem_cons_self _ _, h1⟩
    · obtain ⟨r, hr, hr'⟩ := ih h
      exact ⟨r, List.mem_cons_of_mem _ hr, hr'⟩

theorem forall₂_mem_right {knn knn1 : List (List ℤ)}
    (h : List.Forall₂ (fun row row1 => order_first_two row = some row1) knn knn1)
    {row1 : List ℤ} (hrow : row1 ∈ knn1) : ∃ row ∈ knn, order_first_two row = some row1 := by
  induction h with
  | nil => simp at hrow
  | cons h1 _ ih =>
    rcases List.mem_cons.1 hrow with h | h
    · subst h; exact ⟨_, List.mem_cons_self _ _, h1⟩
    · obtain ⟨r, hr, hr'⟩ := ih h
      exact ⟨r, List.mem_cons_of_mem _ hr, hr'⟩

/-- Ordering the two first entries of the rows does not change which sets of at
least two landmarks are witnessed. -/
theorem witnessed_order_rows {knn knn1 : List (List ℤ)}
    (h : List.Forall₂ (fun row row1 => order_first_two row = some row1) knn knn1)
    {s : Finset ℤ} (hs : 2 ≤ s.card) : Witnessed knn1 s ↔ Witnessed knn s := by
  constructor
  · rintro ⟨row1, hrow1, hfs⟩
    obtain ⟨row, hrow, ho⟩ := forall₂_mem_right h hrow1
    exact ⟨row, hrow, by rw [← (order_first_two_spec ho).2.2 _ hs]; exact hfs⟩
  · rintro ⟨row, hrow, hfs⟩
    obtain ⟨row1, hrow1, ho⟩ := forall₂_mem_left h hrow
    exact ⟨row1, hrow1, by rw [(order_first_two_spec ho).2.2 _ hs]; exact hfs⟩

theorem witnessedWithFaces_order_rows {knn knn1 : List (List ℤ)}
    (h : List.Forall₂ (fun row row1 => order_first_two row = some row1) knn knn1)
    {s : Finset ℤ} (hs : 2 ≤ s.card) :
    WitnessedWithFaces knn1 s ↔ WitnessedWithFaces knn s := by
  unfold WitnessedWithFaces
  rw [witnessed_order_rows h hs]
  constructor
  · rintro ⟨h1, h2⟩
    exact ⟨h1, fun t hts ht => (witnessed_order_rows h ht).1 (h2 t hts ht)⟩
  · rintro ⟨h1, h2⟩
    exact ⟨h1, fun t hts ht => (witnessed_order_rows h ht).2 (h2 t hts ht)⟩

theorem rowsDistinct_order_rows {knn knn1 : List (List ℤ)} {D : ℕ}
    (h : List.Forall₂ (fun row row1 => order_first_two row = some row1) knn knn1)
    (hrows : RowsDistinct D knn) : RowsDistinct D knn1 := by
  intro row1 hrow1
  obtain ⟨row, hrow, ho⟩ := forall₂_mem_right h hrow1
  obtain ⟨h1, h2, -⟩ := order_first_two_spec ho
  obtain ⟨h3, h4⟩ := hrows row hrow
  exact ⟨by omega, h2.nodup_iff.2 h4⟩

/-! ### The number of logged requests -/

theorem insert_simplex_log_length (c : Simplex_tree) (vs : List ℤ) (f : ℚ) :
    (c.insert_simplex vs f).1.log.length = c.log.length + 1 := by
  rw [Simplex_tree.insert_simplex_log, List.length_append, List.length_singleton]

theorem insert_landmarks_log_length (is : List ℕ) :
    ∀ c : Simplex_tree, (insert_landmarks c is).log.length = c.log.length + is.length := by
  induction is with
  | nil => intro c; rfl
  | cons i is ih =>
    intro c
    simp only [insert_landmarks]
    rw [ih, insert_simplex_log_length, List.length_cons]
    omega

theorem insert_edges_log_length (rows : List (List ℤ)) :
    ∀ (c c' : Simplex_tree), insert_edges c rows = some c' →
      c'.log.length = c.log.length + rows.length := by
  induction rows with
  | nil =>
    intro c c' h
    simp only [insert_edges] at h
    cases h
    rfl
  | cons row rows ih =>
    intro c c' h
    obtain ⟨u, v, -, -, h'⟩ := insert_edges_cons_inv h
    rw [ih _ c' h', insert_simplex_log_length, List.length_cons]
    omega

theorem witness_pass_log_length (knn : List (List ℤ)) (k : ℕ) (ws : List ℕ) :
    ∀ (c : Simplex_tree) (r : Simplex_tree × List ℕ), witness_pass knn k c ws = some r →
      c.log.length ≤ r.1.log.length := by
  induction ws with
  | nil =>
    intro c r h
    rw [witness_pass_nil] at h
    cases h
    exact le_rfl
  | cons w ws ih =>
    intro c r h
    obtain ⟨row, xk, -, -, h1 | ⟨sv, r', -, -, hr', rfl⟩⟩ := witness_pass_cons_inv h
    · exact ih c r h1.2
    · have := ih _ r' hr'
      rw [insert_simplex_log_length] at this
      show c.log.length ≤ r'.1.log.length
      omega

theorem witness_loop_log_length (knn : List (List ℤ)) (D : ℕ) :
    ∀ (fuel k : ℕ) (c : Simplex_tree) (active : List ℕ) (r : Simplex_tree × List ℕ),
      witness_loop knn D fuel k c active = some r → c.log.length ≤ r.1.log.length := by
  intro fuel
  induction fuel with
  | zero =>
    intro k c active r h
    simp only [witness_loop] at h
    split at h
    · cases h
    · cases h; exact le_rfl
  | succ fuel ih =>
    intro k c active r h
    simp only [witness_loop] at h
    split at h
    · cases hp : witness_pass knn k c active with
      | none => rw [hp] at h; cases h
      | some r1 =>
        rw [hp] at h
        exact (witness_pass_log_length knn k active c r1 hp).trans (ih (k + 1) r1.1 r1.2 r h)
    · cases h; exact le_rfl

/-! ## `witness_complex` on a table of nearest landmarks -/

/-- How `witness_complex` computes its result when there are at least two landmarks. -/
theorem witness_complex_eq {nbL : ℤ} {knn knn1 : List (List ℤ)} {c c1 : Simplex_tree}
    {row0 : List ℤ} {r : Simplex_tree × List ℕ} (hL : 1 < nbL)
    (he : insert_edges (insert_landmarks c (List.range nbL.toNat)) knn = some c1)
    (ho : order_rows knn = some knn1) (h0 : knn1[0]? = some row0)
    (hl : witness_loop knn1 row0.length row0.length 2 c1 (List.range knn.length) = some r) :
    witness_complex nbL knn c = some ⟨r.1, knn1, r.2⟩ := by
  have hneg : ¬ nbL < 0 := by omega
  have hgt : nbL > 1 := hL
  simp only [witness_complex, if_neg hneg, if_pos hgt, he, ho, h0, hl]

/-- How `witness_complex` computes its result when there is at most one landmark. -/
theorem witness_complex_eq_small {nbL : ℤ} {knn : List (List ℤ)} {c : Simplex_tree}
    {row0 : List ℤ} {r : Simplex_tree × List ℕ} (hL0 : 0 ≤ nbL) (hL : ¬ 1 < nbL)
    (h0 : knn[0]? = some row0)
    (hl : witness_loop knn row0.length row0.length 2
      (insert_landmarks c (List.range nbL.toNat)) [] = some r) :
    witness_complex nbL knn c = some ⟨r.1, knn, r.2⟩ := by
  have hneg : ¬ nbL < 0 := by omega
  have hgt : ¬ nbL > 1 := hL
  simp only [witness_complex, if_neg hneg, if_neg hgt, h0, hl]

/-- A table with rows of at least two distinct landmark ids has two landmarks. -/
theorem one_lt_nbL_of_isTable {nbL : ℤ} {D : ℕ} {knn : List (List ℤ)} (hD : 2 ≤ D)
    (hT : IsTable nbL D knn) : 1 < nbL := by
  obtain ⟨hne, hrows⟩ := hT
  obtain ⟨row, hrow⟩ := List.exists_mem_of_ne_nil knn hne
  obtain ⟨hlen, hnd, hrange⟩ := hrows row hrow
  match row, hlen, hnd, hrange with
  | u :: v :: rest, _, hnd, hrange =>
    have hu := hrange u (by simp)
    have hv := hrange v (by simp)
    have huv : u ≠ v := by
      intro h
      rw [h] at hnd
      simp at hnd
    omega
  | [], hlen, _, _ => simp at hlen; omega
  | [u], hlen, _, _ => simp at hlen; omega

/-- The complex built by `witness_complex` from a table, on the empty complex. -/
theorem witness_complex_table {nbL : ℤ} {D : ℕ} {knn : List (List ℤ)} (hD : 2 ≤ D)
    (hT : IsTable nbL D knn) :
    ∃ r, witness_complex nbL knn Simplex_tree.empty = some r ∧
      (∀ s : Finset ℤ, 2 ≤ s.card → s.card ≤ D →
        (r.complex.Mem s ↔ WitnessedWithFaces knn s)) ∧
      Simplex_tree.ClosedList r.complex.simplices ∧
      (∀ e ∈ r.complex.log, Simplex_tree.ClosedList e.2) ∧
      nbL.toNat + knn.length ≤ r.complex.log.length := by
  have hL := one_lt_nbL_of_isTable hD hT
  obtain ⟨hne, hrows⟩ := hT
  have hdist : RowsDistinct D knn := fun row hrow => ⟨(hrows row hrow).1, (hrows row hrow).2.1⟩
  have hlen2 : ∀ row ∈ knn, 2 ≤ row.length := fun row hrow => by
    rw [(hrows row hrow).1]; exact hD
  -- the vertices
  have hc0 := mem_insert_landmarks (List.range nbL.toNat) Simplex_tree.empty
  obtain ⟨hcl0, hlog0⟩ := insert_landmarks_closed (List.range nbL.toNat) Simplex_tree.empty
    Simplex_tree.closedList_nil (fun e he => by simp [Simplex_tree.empty] at he)
  have hvert : ∀ row ∈ knn, ∀ x ∈ row,
      (insert_landmarks Simplex_tree.empty (List.range nbL.toNat)).Mem {x} := by
    intro row hrow x hx
    obtain ⟨hx0, hxL⟩ := (hrows row hrow).2.2 x hx
    rw [hc0]
    refine Or.inr ⟨x.toNat, List.mem_range.2 (by omega), ?_⟩
    rw [Int.toNat_of_nonneg hx0]
  -- the first edges
  obtain ⟨c1, he⟩ := insert_edges_total knn hlen2
    (insert_landmarks Simplex_tree.empty (List.range nbL.toNat))
  have hc1 := mem_insert_edges knn _ c1 he
  obtain ⟨hcl1, hlog1⟩ := insert_edges_closed knn _ c1 he hvert hcl0 hlog0
  -- the ordered rows
  obtain ⟨knn1, ho⟩ := order_rows_total knn hlen2
  have hF := order_rows_spec knn knn1 ho
  have hdist1 := rowsDistinct_order_rows hF hdist
  have hlen1 : knn1.length = knn.length := hF.length_eq.symm
  have hpos : 0 < knn.length := List.length_pos.2 hne
  have h0 : knn1[0]? = some knn1[0] := List.getElem?_eq_getElem (by omega)
  have hD0 : (knn1[0]).length = D := (hdist1 _ (List.getElem?_mem h0)).1
  -- the invariant of the loop at dimension 2
  have hinv : WeakInv knn1 2 c1 (List.range knn.length) := by
    refine ⟨?_, ?_, ?_, ?_⟩
    · intro s hs
      rcases (hc1 s).1 hs with h | ⟨row, hrow, rfl⟩
      · rcases (hc0 s).1 h with h | ⟨i, -, rfl⟩
        · exact absurd h (Simplex_tree.not_mem_empty s)
        · exact Or.inl (Finset.card_singleton _)
      · obtain ⟨hl, hnd⟩ := hdist row hrow
        have hcard : (firsts row 2).card = 2 := card_firsts hnd (by omega)
        refine Or.inr ⟨by omega, by omega, ?_⟩
        rw [witnessedWithFaces_order_rows hF (by omega)]
        exact witnessedWithFaces_of_card_two (witnessed_firsts hrow hnd (by omega)) hcard
    · intro s hs2 hsk hgood
      rw [witnessedWithFaces_order_rows hF hs2] at hgood
      obtain ⟨row, hrow, hfs⟩ := hgood.1
      rw [hc1]
      refine Or.inr ⟨row, hrow, ?_⟩
      rw [← hfs]
      congr 1
      omega
    · intro w hw
      rw [List.mem_range] at hw
      refine ⟨by omega, fun row hrow => ?_⟩
      have hmem := List.getElem?_mem hrow
      obtain ⟨hl, hnd⟩ := hdist1 row hmem
      exact witnessedWithFaces_of_card_two (witnessed_firsts hmem hnd (by omega))
        (card_firsts hnd (by omega))
    · intro w row hrow _
      rw [List.mem_range, ← hlen1]
      exact (List.getElem?_eq_some.1 hrow).1
  obtain ⟨r, hr, hiff, hcl, hlog⟩ := witness_loop_spec hdist1 D 2 c1 (List.range knn.length)
    (by omega) le_rfl hD hinv hcl1 hlog1
  refine ⟨⟨r.1, knn1, r.2⟩, ?_, ?_, hcl, hlog, ?_⟩
  · refine witness_complex_eq hL he ho h0 ?_
    rw [hD0]
    exact hr
  · intro s hs2 hsD
    rw [hiff s hs2 hsD, witnessedWithFaces_order_rows hF hs2]
  · have h1 := witness_loop_log_length knn1 D D 2 c1 _ r hr
    have h2 := insert_edges_log_length knn _ c1 he
    have h3 := insert_landmarks_log_length (List.range nbL.toNat) Simplex_tree.empty
    rw [List.length_range] at h3
    have h4 : Simplex_tree.empty.log.length = 0 := rfl
    show nbL.toNat + knn.length ≤ r.1.log.length
    omega

theorem insert_edges_mono (rows : List (List ℤ)) :
    ∀ (c c' : Simplex_tree), insert_edges c rows = some c' → ∀ s, c.Mem s → c'.Mem s := by
  intro c c' h s hs
  exact (mem_insert_edges rows c c' h s).2 (Or.inl hs)

/-- The complex returned by `witness_complex` contains the one left by its first
loop, which inserts the landmarks. -/
theorem witness_complex_mono {nbL : ℤ} {knn : List (List ℤ)} {c : Simplex_tree}
    {r : Witness_result} (h : witness_complex nbL knn c = some r) :
    0 ≤ nbL ∧ ∀ s, (insert_landmarks c (List.range nbL.toNat)).Mem s → r.complex.Mem s := by
  unfold witness_complex at h
  by_cases hneg : nbL < 0
  · rw [if_pos hneg] at h; cases h
  · rw [if_neg hneg] at h
    refine ⟨by omega, ?_⟩
    by_cases hgt : nbL > 1
    · simp only [if_pos hgt] at h
      cases he : insert_edges (insert_landmarks c (List.range nbL.toNat)) knn with
      | none => simp [he] at h
      | some c1 =>
        cases ho : order_rows knn with
        | none => simp [he, ho] at h
        | some knn1 =>
          cases h0 : knn1[0]? with
          | none => simp [he, ho, h0] at h
          | some row0 =>
            cases hl : witness_loop knn1 row0.length row0.length 2 c1
                (List.range knn.length) with
            | none => simp [he, ho, h0, hl] at h
            | some r' =>
              simp only [he, ho, h0, hl, Option.some.injEq] at h
              subst h
              intro s hs
              exact (witness_loop_mono _ _ _ _ _ _ r' hl).1 s (insert_edges_mono knn _ c1 he s hs)
    · simp only [if_neg hgt] at h
      cases h0 : knn[0]? with
      | none => simp [h0] at h
      | some row0 =>
        cases hl : witness_loop knn row0.length row0.length 2
            (insert_landmarks c (List.range nbL.toNat)) [] with
        | none => simp [h0, hl] at h
        | some r' =>
          simp only [h0, hl, Option.some.injEq] at h
          subst h
          intro s hs
          exact (witness_loop_mono _ _ _ _ _ _ r' hl).1 s hs

theorem forall₂_getElem? {knn knn1 : List (List ℤ)}
    (h : List.Forall₂ (fun row row1 => order_first_two row = some row1) knn knn1) :
    ∀ (w : ℕ) (row1 : List ℤ), knn1[w]? = some row1 →
      ∃ row, knn[w]? = some row ∧ order_first_two row = some row1 := by
  induction h with
  | nil => intro w row1 hw; simp at hw
  | cons h1 _ ih =>
    intro w row1 hw
    cases w with
    | zero =>
      simp only [List.getElem?_cons_zero, Option.some.injEq] at hw
      subst hw
      exact ⟨_, by simp, h1⟩
    | succ w =>
      simp only [List.getElem?_cons_succ] at hw
      obtain ⟨row, hrow, ho⟩ := ih w row1 hw
      exact ⟨row, by simpa using hrow, ho⟩

/-- `witness_complex` returns on every table whose reads stay in range. -/
theorem witness_complex_total {nbL : ℤ} {knn : List (List ℤ)} (c : Simplex_tree)
    (h : ReadsInRange nbL knn) : ∃ r, witness_complex nbL knn c = some r := by
  obtain ⟨hL0, row0, rest, hknn, hrows⟩ := h
  by_cases hL : 1 < nbL
  · have hr := hrows hL
    have hlen2 : ∀ row ∈ knn, 2 ≤ row.length := fun row hrow => (hr row hrow).1
    obtain ⟨c1, he⟩ := insert_edges_total knn hlen2
      (insert_landmarks c (List.range nbL.toNat))
    obtain ⟨knn1, ho⟩ := order_rows_total knn hlen2
    have hF := order_rows_spec knn knn1 ho
    have hlen1 : knn1.length = knn.length := hF.length_eq.symm
    have hpos : 0 < knn.length := by rw [hknn]; simp
    have h0 : knn1[0]? = some knn1[0] := List.getElem?_eq_getElem (by omega)
    obtain ⟨r0, hr0, ho0⟩ := forall₂_getElem? hF 0 _ h0
    have hr0' : r0 = row0 := by
      rw [hknn] at hr0
      simpa using hr0.symm
    have hD0 : (knn1[0]).length = row0.length := by
      rw [(order_first_two_spec ho0).1, hr0']
    obtain ⟨r, hl⟩ := witness_loop_total knn1 (knn1[0]).length (knn1[0]).length 2 c1
      (List.range knn.length) (by omega) (fun w hw => by
        rw [List.mem_range] at hw
        have hw1 : knn1[w]? = some knn1[w] := List.getElem?_eq_getElem (by omega)
        obtain ⟨row, hrow, ho'⟩ := forall₂_getElem? hF w _ hw1
        refine ⟨knn1[w], hw1, ?_⟩
        rw [(order_first_two_spec ho').1, hD0]
        exact (hr row (List.getElem?_mem hrow)).2)
    exact ⟨_, witness_complex_eq hL he ho h0 hl⟩
  · have h0 : knn[0]? = some row0 := by rw [hknn]; simp
    obtain ⟨r, hl⟩ := witness_loop_total knn row0.length row0.length 2
      (insert_landmarks c (List.range nbL.toNat)) [] (by omega) (fun w hw => by simp at hw)
    exact ⟨_, witness_complex_eq_small hL0 hL h0 hl⟩

/-! ## The claims on the weak engine -/

/-- C1: for a table `knn` whose rows all have the same length `D ≥ 2` and list
pairwise distinct landmark ids of `[0, nbL)` (so that `nbL > 1`), `witness_complex`
started on the empty complex returns, and a set `s` of landmarks with
`2 ≤ |s| ≤ D` is a simplex of the complex it builds if and only if `s` is
witnessed and every face of `s` with at least two vertices is witnessed. -/
theorem witness_complex_simplices (nbL : ℤ) (D : ℕ) (knn : List (List ℤ)) (hD : 2 ≤ D)
    (hT : IsTable nbL D knn) :
    ∃ r, witness_complex nbL knn Simplex_tree.empty = some r ∧
      ∀ s : Finset ℤ, 2 ≤ s.card → s.card ≤ D →
        (r.complex.Mem s ↔ WitnessedWithFaces knn s) := by
  obtain ⟨r, hr, h, -⟩ := witness_complex_table hD hT
  exact ⟨r, hr, h⟩

/-- An instance of the characterisation: three witnesses, three landmarks. -/
theorem witness_complex_simplices_witness :
    2 ≤ 3 ∧ IsTable 3 3 [[0, 1, 2], [1, 0, 2], [2, 0, 1]] ∧
    ∃ r, witness_complex 3 [[0, 1, 2], [1, 0, 2], [2, 0, 1]] Simplex_tree.empty = some r ∧
      ∀ s : Finset ℤ, 2 ≤ s.card → s.card ≤ 3 →
        (r.complex.Mem s ↔ WitnessedWithFaces [[0, 1, 2], [1, 0, 2], [2, 0, 1]] s) :=
  ⟨by decide, by decide,
    witness_complex_simplices 3 3 [[0, 1, 2], [1, 0, 2], [2, 0, 1]] (by decide) (by decide)⟩

/-- C2: closure invariant of the weak engine. For a table `knn` with rows of equal
length `D ≥ 2` of pairwise distinct landmark ids of `[0, nbL)`, `witness_complex`
started on the empty complex returns; after every insertion it performed (the
log of the store holds the simplices present after each request, at least one
per landmark and one per witness) and at the end, every simplex of the complex
has all its non-empty faces in the complex. -/
theorem witness_complex_closed (nbL : ℤ) (D : ℕ) (knn : List (List ℤ)) (hD : 2 ≤ D)
    (hT : IsTable nbL D knn) :
    ∃ r, witness_complex nbL knn Simplex_tree.empty = some r ∧
      (∀ e ∈ r.complex.log, Simplex_tree.ClosedList e.2) ∧
      Simplex_tree.ClosedList r.complex.simplices ∧
      nbL.toNat + knn.length ≤ r.complex.log.length := by
  obtain ⟨r, hr, -, h1, h2, h3⟩ := witness_complex_table hD hT
  exact ⟨r, hr, h2, h1, h3⟩

/-- An instance of the closure invariant: three witnesses, four landmarks. -/
theorem witness_complex_closed_witness :
    2 ≤ 3 ∧ IsTable 4 3 [[0, 1, 2], [1, 3, 2], [2, 0, 1]] ∧
    ∃ r, witness_complex 4 [[0, 1, 2], [1, 3, 2], [2, 0, 1]] Simplex_tree.empty = some r ∧
      (∀ e ∈ r.complex.log, Simplex_tree.ClosedList e.2) ∧
      Simplex_tree.ClosedList r.complex.simplices ∧
      (4 : ℤ).toNat + [[(0 : ℤ), 1, 2], [1, 3, 2], [2, 0, 1]].length ≤ r.complex.log.length :=
  ⟨by decide, by decide,
    witness_complex_closed 4 3 [[0, 1, 2], [1, 3, 2], [2, 0, 1]] (by decide) (by decide)⟩

/-- C10: landmark presence in the weak engine. For every `nbL`, every table `knn`
and every starting complex, every landmark index `i` of `[0, nbL)` is a
0-simplex of the complex as soon as the first loop of `witness_complex` is over,
and of the complex returned whenever the call returns, whether or not a witness
has `i` among its nearest landmarks; and the call does return whenever its reads
stay inside the table. -/
theorem witness_complex_landmarks (nbL : ℤ) (knn : List (List ℤ)) (c : Simplex_tree) :
    (∀ i : ℤ, 0 ≤ i → i < nbL → (insert_landmarks c (List.range nbL.toNat)).Mem {i}) ∧
    (∀ r, witness_complex nbL knn c = some r →
      ∀ i : ℤ, 0 ≤ i → i < nbL → r.complex.Mem {i}) ∧
    (ReadsInRange nbL knn → ∃ r, witness_complex nbL knn c = some r) := by
  have h1 : ∀ i : ℤ, 0 ≤ i → i < nbL →
      (insert_landmarks c (List.range nbL.toNat)).Mem {i} := by
    intro i hi0 hiL
    rw [mem_insert_landmarks]
    refine Or.inr ⟨i.toNat, List.mem_range.2 (by omega), ?_⟩
    rw [Int.toNat_of_nonneg hi0]
  exact ⟨h1, fun r hr i hi0 hiL => (witness_complex_mono hr).2 _ (h1 i hi0 hiL),
    witness_complex_total c⟩

/-! ## `create_complex`: the guards -/

theorem witness_step_total (narrow : ℚ → ℚ) (max_alpha_square : ℚ) (limit_dimension : ℤ)
    {aw : List (ℤ × ℚ)} (h : aw ≠ []) (c : Simplex_tree) :
    ∃ s, witness_step narrow max_alpha_square limit_dimension aw c = some s := by
  match aw, h with
  | first :: rest, _ => exact ⟨_, rfl⟩

theorem witnesses_loop_total (narrow : ℚ → ℚ) (max_alpha_square : ℚ) (limit_dimension : ℤ)
    (witnesses : List (List (ℤ × ℚ))) (h : ∀ aw ∈ witnesses, aw ≠ []) :
    ∀ (c : Simplex_tree) (complex_dim : ℤ),
      ∃ r, witnesses_loop narrow max_alpha_square limit_dimension witnesses c complex_dim
        = some r := by
  induction witnesses with
  | nil => intro c d; exact ⟨_, rfl⟩
  | cons aw aws ih =>
    intro c d
    obtain ⟨s, hs⟩ := witness_step_total narrow max_alpha_square limit_dimension
      (h aw (List.mem_cons_self _ _)) c
    obtain ⟨r, hr⟩ := ih (fun a ha => h a (List.mem_cons_of_mem _ ha)) s.complex
      (if (s.simplex.length : ℤ) - 1 > d then (s.simplex.length : ℤ) - 1 else d)
    exact ⟨r, by simp only [witnesses_loop, hs]; exact hr⟩

/-- The value returned by `create_complex` when one of its guards fires. -/
theorem create_complex_of_guard (narrow : ℚ → ℚ) (nbL : ℕ) (witnesses : List (List (ℤ × ℚ)))
    (complex : Simplex_tree) (max_alpha_square : ℚ) (limit_dimension : ℤ)
    (h : complex.num_vertices > 0 ∨ max_alpha_square < 0 ∨ limit_dimension < 0) :
    create_complex narrow nbL witnesses complex max_alpha_square limit_dimension
      = some (false, complex) := by
  unfold create_complex
  by_cases h1 : complex.num_vertices > 0
  · rw [if_pos h1]
  · rw [if_neg h1]
    by_cases h2 : max_alpha_square < 0
    · rw [if_pos h2]
    · rw [if_neg h2]
      by_cases h3 : limit_dimension < 0
      · rw [if_pos h3]
      · exfalso; tauto

/-- What `create_complex` computes when no guard fires. -/
theorem create_complex_of_not_guard (narrow : ℚ → ℚ) (nbL : ℕ)
    (witnesses : List (List (ℤ × ℚ))) (complex : Simplex_tree) (max_alpha_square : ℚ)
    (limit_dimension : ℤ)
    (h : ¬ (complex.num_vertices > 0 ∨ max_alpha_square < 0 ∨ limit_dimension < 0)) :
    create_complex narrow nbL witnesses complex max_alpha_square limit_dimension
      = (witnesses_loop narrow max_alpha_square limit_dimension witnesses
          (insert_landmarks complex (List.range nbL)) 0).map
          (fun r => (true, r.1.set_dimension r.2)) := by
  unfold create_complex
  have h1 : ¬ complex.num_vertices > 0 := fun h' => h (Or.inl h')
  have h2 : ¬ max_alpha_square < 0 := fun h' => h (Or.inr (Or.inl h'))
  have h3 : ¬ limit_dimension < 0 := fun h' => h (Or.inr (Or.inr h'))
  rw [if_neg h1, if_neg h2, if_neg h3]
  cases witnesses_loop narrow max_alpha_square limit_dimension witnesses
    (insert_landmarks complex (List.range nbL)) 0 <;> rfl

/-! ## The claims on the guards of `create_complex` -/

/-- C7: atomicity of `create_complex` on failure. Whenever the call returns
`false`, the complex it leaves is the one it was given, trace of requests
included: no insertion and no `set_dimension` request has been served. This is
what happens on a non-empty complex, a negative `max_alpha_square` or a negative
`limit_dimension`. -/
theorem create_complex_failure_atomic (narrow : ℚ → ℚ) (nbL : ℕ)
    (witnesses : List (List (ℤ × ℚ))) (complex : Simplex_tree) (max_alpha_square : ℚ)
    (limit_dimension : ℤ) :
    (∀ c, create_complex narrow nbL witnesses complex max_alpha_square limit_dimension
        = some (false, c) → c = complex ∧ c.log = complex.log) ∧
    ((complex.num_vertices > 0 ∨ max_alpha_square < 0 ∨ limit_dimension < 0) →
      create_complex narrow nbL witnesses complex max_alpha_square limit_dimension
        = some (false, complex)) := by
  refine ⟨fun c hc => ?_, create_complex_of_guard _ _ _ _ _ _⟩
  by_cases h : complex.num_vertices > 0 ∨ max_alpha_square < 0 ∨ limit_dimension < 0
  · rw [create_complex_of_guard _ _ _ _ _ _ h] at hc
    cases hc
    exact ⟨rfl, rfl⟩
  · exfalso
    rw [create_complex_of_not_guard _ _ _ _ _ _ h] at hc
    cases hw : witnesses_loop narrow max_alpha_square limit_dimension witnesses
        (insert_landmarks complex (List.range nbL)) 0 with
    | none => rw [hw] at hc; cases hc
    | some r' => rw [hw] at hc; cases hc

/-! ## The closure-insert requests of the strong engine -/

/-- Serving the requests `calls` in order, from the complex `c`. -/
theorem foldl_requests_append (calls₁ calls₂ : List (List ℤ × ℚ)) (c : Simplex_tree) :
    (calls₁ ++ calls₂).foldl (fun c p => c.insert_simplex_and_subfaces p.1 p.2) c
      = calls₂.foldl (fun c p => c.insert_simplex_and_subfaces p.1 p.2)
          (calls₁.foldl (fun c p => c.insert_simplex_and_subfaces p.1 p.2) c) :=
  List.foldl_append _ _ _ _

/-- `add_all_faces_of_dimension` only serves closure-insert requests, all with the
filtration value it was given. -/
theorem add_all_faces_of_dimension_calls (aw_first : ℤ) (filtration_value : ℚ)
    (next : List ℤ) :
    ∀ (dim : ℤ) (st : List ℤ × Simplex_tree),
      ∃ calls : List (List ℤ × ℚ),
        (add_all_faces_of_dimension aw_first filtration_value dim next st).2
          = calls.foldl (fun c p => c.insert_simplex_and_subfaces p.1 p.2) st.2 ∧
        ∀ p ∈ calls, p.2 = filtration_value := by
  induction next with
  | nil =>
    intro dim st
    by_cases h1 : dim > 0
    · exact ⟨[], by simp [add_all_faces_of_dimension, h1], by simp⟩
    · by_cases h2 : dim = 0
      · exact ⟨[(st.1 ++ [aw_first], filtration_value)],
          by simp [add_all_faces_of_dimension, h2], by simp⟩
      · exact ⟨[], by simp [add_all_faces_of_dimension, h1, h2], by simp⟩
  | cons v next ih =>
    intro dim st
    by_cases h1 : dim > 0
    · obtain ⟨c1, hc1, hv1⟩ := ih (dim - 1) (st.1 ++ [v], st.2)
      obtain ⟨c2, hc2, hv2⟩ := ih dim
        ((add_all_faces_of_dimension aw_first filtration_value (dim - 1) next
          (st.1 ++ [v], st.2)).1.dropLast,
         (add_all_faces_of_dimension aw_first filtration_value (dim - 1) next
          (st.1 ++ [v], st.2)).2)
      obtain ⟨c3, hc3, hv3⟩ := ih dim
        (add_all_faces_of_dimension aw_first filtration_value dim next
          ((add_all_faces_of_dimension aw_first filtration_value (dim - 1) next
            (st.1 ++ [v], st.2)).1.dropLast,
           (add_all_faces_of_dimension aw_first filtration_value (dim - 1) next
            (st.1 ++ [v], st.2)).2))
      refine ⟨c1 ++ (c2 ++ c3), ?_, ?_⟩
      · simp only [add_all_faces_of_dimension, if_pos h1]
        rw [hc3, hc2, hc1, foldl_requests_append, foldl_requests_append]
      · intro p hp
        rcases List.mem_append.1 hp with h | h
        · exact hv1 p h
        · rcases List.mem_append.1 h with h | h
          · exact hv2 p h
          · exact hv3 p h
    · by_cases h2 : dim = 0
      · exact ⟨[(st.1 ++ [aw_first], filtration_value)],
          by simp [add_all_faces_of_dimension, h2], by simp⟩
      · exact ⟨[], by simp [add_all_faces_of_dimension, h1, h2], by simp⟩

/-- The requests of the first loop over a witness whose nearest landmarks come in
ascending order of distance: their values are non-decreasing, each is the
distance of a landmark of the range minus `d0`, and none exceeds the value of a
landmark left in the range. -/
theorem grow_simplex_calls (lim_dist2 d0 : ℚ) (limit_dimension : ℤ) (aw : List (ℤ × ℚ)) :
    aw.Pairwise (fun p q => p.2 ≤ q.2) →
    ∀ (simplex : List ℤ) (c : Simplex_tree),
      ∃ calls : List (List ℤ × ℚ),
        (grow_simplex lim_dist2 d0 limit_dimension aw simplex c).complex
          = calls.foldl (fun c p => c.insert_simplex_and_subfaces p.1 p.2) c ∧
        (calls.map Prod.snd).Pairwise (· ≤ ·) ∧
        (∀ v ∈ calls.map Prod.snd, ∃ p ∈ aw, v = p.2 - d0) ∧
        (grow_simplex lim_dist2 d0 limit_dimension aw simplex c).aw.Sublist aw ∧
        (grow_simplex lim_dist2 d0 limit_dimension aw simplex c).aw.Pairwise
          (fun p q => p.2 ≤ q.2) ∧
        ∀ v ∈ calls.map Prod.snd,
          ∀ q ∈ (grow_simplex lim_dist2 d0 limit_dimension aw simplex c).aw, v ≤ q.2 - d0 := by
  induction aw with
  | nil =>
    intro _ simplex c
    exact ⟨[], rfl, by simp, by simp, by simp [grow_simplex], by simp [grow_simplex], by simp⟩
  | cons p rest ih =>
    intro hsorted simplex c
    rw [List.pairwise_cons] at hsorted
    by_cases hcond : (simplex.length : ℤ) ≤ limit_dimension + 1 ∧ p.2 < lim_dist2
    · obtain ⟨calls, h1, h2, h3, h4, h5, h6⟩ := ih hsorted.2 (simplex ++ [p.1])
        (c.insert_simplex_and_subfaces (simplex ++ [p.1]) (p.2 - d0))
      refine ⟨(simplex ++ [p.1], p.2 - d0) :: calls, ?_, ?_, ?_, ?_, ?_, ?_⟩
      · simp only [grow_simplex, if_pos hcond, List.foldl_cons]
        exact h1
      · rw [List.map_cons, List.pairwise_cons]
        refine ⟨fun v hv => ?_, h2⟩
        obtain ⟨q, hq, rfl⟩ := h3 v hv
        have := hsorted.1 q hq
        show p.2 - d0 ≤ q.2 - d0
        linarith
      · intro v hv
        rw [List.map_cons, List.mem_cons] at hv
        rcases hv with rfl | hv
        · exact ⟨p, List.mem_cons_self _ _, rfl⟩
        · obtain ⟨q, hq, rfl⟩ := h3 v hv
          exact ⟨q, List.mem_cons_of_mem _ hq, rfl⟩
      · simp only [grow_simplex, if_pos hcond]
        exact h4.cons p
      · simp only [grow_simplex, if_pos hcond]
        exact h5
      · intro v hv q hq
        simp only [grow_simplex, if_pos hcond] at hq
        rw [List.map_cons, List.mem_cons] at hv
        rcases hv with rfl | hv
        · have := hsorted.1 q (h4.subset hq)
          show p.2 - d0 ≤ q.2 - d0
          linarith
        · exact h6 v hv q hq
    · refine ⟨[], ?_, by simp, by simp, ?_, ?_, by simp⟩
      · simp only [grow_simplex, if_neg hcond, List.foldl_nil]
      · simp only [grow_simplex, if_neg hcond]
        exact List.Sublist.refl _
      · simp only [grow_simplex, if_neg hcond]
        exact List.pairwise_cons.2 hsorted

/-- The requests of the second loop over a witness whose remaining nearest
landmarks come in ascending order of distance. -/
theorem add_faces_calls (lim_dist2 d0 : ℚ) (limit_dimension : ℤ) (aw : List (ℤ × ℚ)) :
    aw.Pairwise (fun p q => p.2 ≤ q.2) →
    ∀ (vertices : List ℤ) (c : Simplex_tree),
      ∃ calls : List (List ℤ × ℚ),
        (add_faces lim_dist2 d0 limit_dimension aw vertices c).complex
          = calls.foldl (fun c p => c.insert_simplex_and_subfaces p.1 p.2) c ∧
        (calls.map Prod.snd).Pairwise (· ≤ ·) ∧
        (∀ v ∈ calls.map Prod.snd, ∃ p ∈ aw, v = p.2 - d0) := by
  induction aw with
  | nil =>
    intro _ vertices c
    exact ⟨[], rfl, by simp, by simp⟩
  | cons p rest ih =>
    intro hsorted vertices c
    rw [List.pairwise_cons] at hsorted
    by_cases hcond : p.2 < lim_dist2
    · obtain ⟨calls1, hc1, hv1⟩ := add_all_faces_of_dimension_calls p.1 (p.2 - d0) vertices
        limit_dimension ([], c)
      obtain ⟨calls, h1, h2, h3⟩ := ih hsorted.2 (vertices ++ [p.1])
        (add_all_faces_of_dimension p.1 (p.2 - d0) limit_dimension vertices ([], c)).2
      have hv1' : ∀ v ∈ calls1.map Prod.snd, v = p.2 - d0 := by
        intro v hv
        obtain ⟨q, hq, rfl⟩ := List.mem_map.1 hv
        exact hv1 q hq
      refine ⟨calls1 ++ calls, ?_, ?_, ?_⟩
      · simp only [add_faces, if_pos hcond]
        rw [h1, hc1, foldl_requests_append]
      · rw [List.map_append, List.pairwise_append]
        refine ⟨?_, h2, ?_⟩
        · rw [List.pairwise_iff_forall_sublist]
          intro a b hab
          have ha := hv1' a (hab.subset (by simp))
          have hb := hv1' b (hab.subset (by simp))
          rw [ha, hb]
        · intro a ha b hb
          rw [hv1' a ha]
          obtain ⟨q, hq, rfl⟩ := h3 b hb
          have := hsorted.1 q hq
          linarith
      · intro v hv
        rw [List.map_append, List.mem_append] at hv
        rcases hv with hv | hv
        · exact ⟨p, List.mem_cons_self _ _, hv1' v hv⟩
        · obtain ⟨q, hq, rfl⟩ := h3 v hv
          exact ⟨q, List.mem_cons_of_mem _ hq, rfl⟩
    · exact ⟨[], by simp only [add_faces, if_neg hcond, List.foldl_nil], by simp, by simp⟩

/-- The requests served for one witness whose nearest landmarks come in ascending
order of distance: their filtration values are non-decreasing. -/
theorem witness_step_calls (narrow : ℚ → ℚ) (max_alpha_square : ℚ) (limit_dimension : ℤ)
    (first : ℤ × ℚ) (rest : List (ℤ × ℚ))
    (hsorted : (first :: rest).Pairwise (fun p q => p.2 ≤ q.2)) (c : Simplex_tree) :
    ∃ (s : Witness_state) (calls : List (List ℤ × ℚ)),
      witness_step narrow max_alpha_square limit_dimension (first :: rest) c = some s ∧
      s.complex = calls.foldl (fun c p => c.insert_simplex_and_subfaces p.1 p.2) c ∧
      (calls.map Prod.snd).Pairwise (· ≤ ·) := by
  obtain ⟨calls1, h1, h2, -, -, h5, h6⟩ := grow_simplex_calls
    (narrow (first.2 + max_alpha_square)) first.2 limit_dimension (first :: rest) hsorted [] c
  obtain ⟨calls2, g1, g2, g3⟩ := add_faces_calls
    (narrow (first.2 + max_alpha_square)) first.2 limit_dimension _ h5
    (grow_simplex (narrow (first.2 + max_alpha_square)) first.2 limit_dimension
      (first :: rest) [] c).simplex
    (grow_simplex (narrow (first.2 + max_alpha_square)) first.2 limit_dimension
      (first :: rest) [] c).complex
  refine ⟨_, calls1 ++ calls2, rfl, ?_, ?_⟩
  · rw [foldl_requests_append, ← h1]
    exact g1
  · rw [List.map_append, List.pairwise_append]
    refine ⟨h2, g2, fun a ha b hb => ?_⟩
    obtain ⟨q, hq, rfl⟩ := g3 b hb
    exact h6 a ha q hq

/-! ## The faces enumerated by `add_all_faces_of_dimension` -/

theorem foldl_requests_mono (calls : List (List ℤ × ℚ)) :
    ∀ (c : Simplex_tree) (t : Finset ℤ), c.Mem t →
      (calls.foldl (fun c p => c.insert_simplex_and_subfaces p.1 p.2) c).Mem t := by
  induction calls with
  | nil => intro c t h; exact h
  | cons p calls ih =>
    intro c t h
    rw [List.foldl_cons]
    exact ih _ t ((Simplex_tree.mem_insert_simplex_and_subfaces c p.1 p.2 t).2 (Or.inl h))

/-- `add_all_faces_of_dimension` only adds simplices. -/
theorem add_all_faces_of_dimension_mono (aw_first : ℤ) (filtration_value : ℚ) (dim : ℤ)
    (next : List ℤ) (st : List ℤ × Simplex_tree) (t : Finset ℤ) (h : st.2.Mem t) :
    (add_all_faces_of_dimension aw_first filtration_value dim next st).2.Mem t := by
  obtain ⟨calls, hc, -⟩ := add_all_faces_of_dimension_calls aw_first filtration_value next dim st
  rw [hc]
  exact foldl_requests_mono calls st.2 t h

/-- On return the scratch vector `simplex` has the value it had at entry. -/
theorem add_all_faces_of_dimension_scratch (aw_first : ℤ) (filtration_value : ℚ)
    (next : List ℤ) :
    ∀ (dim : ℤ) (st : List ℤ × Simplex_tree),
      (add_all_faces_of_dimension aw_first filtration_value dim next st).1 = st.1 := by
  induction next with
  | nil =>
    intro dim st
    by_cases h1 : dim > 0
    · simp [add_all_faces_of_dimension, h1]
    · by_cases h2 : dim = 0
      · simp [add_all_faces_of_dimension, h2]
      · simp [add_all_faces_of_dimension, h1, h2]
  | cons v next ih =>
    intro dim st
    by_cases h1 : dim > 0
    · simp only [add_all_faces_of_dimension, if_pos h1]
      rw [ih, ih, ih]
      simp
    · by_cases h2 : dim = 0
      · simp [add_all_faces_of_dimension, h2]
      · simp [add_all_faces_of_dimension, h1, h2]

/-- Every choice of `dim` vertices of the range, completed by the scratch vector
and the new landmark, is inserted with all its faces. -/
theorem add_all_faces_of_dimension_covers (aw_first : ℤ) (filtration_value : ℚ)
    (next : List ℤ) :
    ∀ (dim : ℤ) (st : List ℤ × Simplex_tree) (S : List ℤ), S.Sublist next →
      (S.length : ℤ) = dim →
      ∀ t : Finset ℤ, t ⊆ (st.1 ++ S ++ [aw_first]).toFinset → t.Nonempty →
        (add_all_faces_of_dimension aw_first filtration_value dim next st).2.Mem t := by
  have hbase : ∀ (l : List ℤ) (st : List ℤ × Simplex_tree) (t : Finset ℤ),
      t ⊆ (st.1 ++ [] ++ [aw_first]).toFinset → t.Nonempty →
      (add_all_faces_of_dimension aw_first filtration_value 0 l st).2.Mem t := by
    intro l st t ht hne
    have : (add_all_faces_of_dimension aw_first filtration_value 0 l st).2
        = st.2.insert_simplex_and_subfaces (st.1 ++ [aw_first]) filtration_value := by
      cases l <;> simp [add_all_faces_of_dimension]
    rw [this, Simplex_tree.mem_insert_simplex_and_subfaces]
    exact Or.inr ⟨by simpa using ht, hne⟩
  induction next with
  | nil =>
    intro dim st S hS hlen t ht hne
    have hS' : S = [] := List.sublist_nil.1 hS
    subst hS'
    simp only [List.length_nil, Nat.cast_zero] at hlen
    subst hlen
    exact hbase [] st t ht hne
  | cons v next ih =>
    intro dim st S hS hlen t ht hne
    by_cases h1 : dim > 0
    · simp only [add_all_faces_of_dimension, if_pos h1]
      cases hS with
      | cons _ hS' =>
        -- the choice does not take `v`
        apply add_all_faces_of_dimension_mono
        refine ih dim _ S hS' hlen t ?_ hne
        rw [add_all_faces_of_dimension_scratch]
        simpa using ht
      | cons₂ _ hS' =>
        -- the choice takes `v`
        rename_i S'
        apply add_all_faces_of_dimension_mono
        apply add_all_faces_of_dimension_mono
        refine ih (dim - 1) _ S' hS' ?_ t ?_ hne
        · rw [List.length_cons] at hlen
          push_cast at hlen
          omega
        · simpa using ht
    · have hdim : dim = 0 := by
        have : (0 : ℤ) ≤ S.length := Int.natCast_nonneg _
        omega
      subst hdim
      have hS' : S = [] := by
        have : S.length = 0 := by exact_mod_cast hlen
        exact List.length_eq_zero.1 this
      subst hS'
      exact hbase (v :: next) st t ht hne

/-- Every simplex that `add_all_faces_of_dimension` adds is made of vertices of
the scratch vector, of the range and of the new landmark. -/
theorem add_all_faces_of_dimension_upper (aw_first : ℤ) (filtration_value : ℚ)
    (next : List ℤ) :
    ∀ (dim : ℤ) (st : List ℤ × Simplex_tree) (t : Finset ℤ),
      (add_all_faces_of_dimension aw_first filtration_value dim next st).2.Mem t →
      st.2.Mem t ∨ (t ⊆ (st.1 ++ next ++ [aw_first]).toFinset ∧ t.Nonempty) := by
  have hbase : ∀ (l : List ℤ) (st : List ℤ × Simplex_tree) (t : Finset ℤ),
      (add_all_faces_of_dimension aw_first filtration_value 0 l st).2.Mem t →
      st.2.Mem t ∨ (t ⊆ (st.1 ++ l ++ [aw_first]).toFinset ∧ t.Nonempty) := by
    intro l st t ht
    have : (add_all_faces_of_dimension aw_first filtration_value 0 l st).2
        = st.2.insert_simplex_and_subfaces (st.1 ++ [aw_first]) filtration_value := by
      cases l <;> simp [add_all_faces_of_dimension]
    rw [this, Simplex_tree.mem_insert_simplex_and_subfaces] at ht
    rcases ht with h | ⟨h1, h2⟩
    · exact Or.inl h
    · refine Or.inr ⟨fun y hy => ?_, h2⟩
      have := h1 hy
      simp only [List.toFinset_append, Finset.mem_union, List.mem_toFinset] at this ⊢
      tauto
  induction next with
  | nil =>
    intro dim st t ht
    by_cases h1 : dim > 0
    · simp only [add_all_faces_of_dimension, if_pos h1] at ht
      exact Or.inl ht
    · by_cases h2 : dim = 0
      · subst h2; exact hbase [] st t ht
      · simp only [add_all_faces_of_dimension, if_neg h1, if_neg h2] at ht
        exact Or.inl ht
  | cons v next ih =>
    intro dim st t ht
    by_cases h1 : dim > 0
    · simp only [add_all_faces_of_dimension, if_pos h1] at ht
      have hsub : ∀ {u : Finset ℤ}, u ⊆ (st.1 ++ next ++ [aw_first]).toFinset →
          u ⊆ (st.1 ++ (v :: next) ++ [aw_first]).toFinset := by
        intro u hu y hy
        have := hu hy
        simp only [List.toFinset_append, List.toFinset_cons, Finset.mem_union,
          Finset.mem_insert, List.mem_toFinset] at this ⊢
        tauto
      rcases ih dim _ t ht with h | ⟨h, hne⟩
      · rcases ih dim _ t h with h' | ⟨h', hne⟩
        · rcases ih (dim - 1) _ t h' with h'' | ⟨h'', hne⟩
          · exact Or.inl h''
          · refine Or.inr ⟨fun y hy => ?_, hne⟩
            have := h'' hy
            simp only [List.toFinset_append, List.toFinset_cons, Finset.mem_union,
              Finset.mem_insert, List.mem_toFinset, List.toFinset_nil,
              insert_emptyc_eq, Finset.mem_singleton] at this ⊢
            tauto
        · rw [add_all_faces_of_dimension_scratch] at h'
          simp only [List.dropLast_concat] at h'
          exact Or.inr ⟨hsub h', hne⟩
      · rw [add_all_faces_of_dimension_scratch, add_all_faces_of_dimension_scratch] at h
        simp only [List.dropLast_concat] at h
        exact Or.inr ⟨hsub h, hne⟩
    · by_cases h2 : dim = 0
      · subst h2; exact hbase (v :: next) st t ht
      · simp only [add_all_faces_of_dimension, if_neg h1, if_neg h2] at ht
        exact Or.inl ht

/-- A set of at most `n` elements of a list of at least `n` entries lies in a
choice of `n` entries of the list. -/
theorem exists_sublist_of_card_le (l : List ℤ) :
    ∀ (T : Finset ℤ) (n : ℕ), T ⊆ l.toFinset → T.card ≤ n → n ≤ l.length →
      ∃ S : List ℤ, S.Sublist l ∧ S.length = n ∧ T ⊆ S.toFinset := by
  induction l with
  | nil =>
    intro T n hT _ hn
    have hn0 : n = 0 := by simpa using hn
    subst hn0
    exact ⟨[], List.Sublist.refl _, rfl, hT⟩
  | cons a l ih =>
    intro T n hT hcard hn
    cases n with
    | zero =>
      have hT0 : T = ∅ := Finset.card_eq_zero.1 (by omega)
      exact ⟨[], List.nil_sublist _, rfl, by rw [hT0]; exact Finset.empty_subset _⟩
    | succ n =>
      rw [List.length_cons] at hn
      by_cases ha : a ∈ T
      · have hT' : T.erase a ⊆ l.toFinset := by
          intro y hy
          rw [Finset.mem_erase] at hy
          have := hT hy.2
          rw [List.toFinset_cons, Finset.mem_insert] at this
          rcases this with h | h
          · exact absurd h hy.1
          · exact h
        have hc := Finset.card_erase_of_mem ha
        obtain ⟨S, hS, hlen, hTS⟩ := ih (T.erase a) n hT' (by omega) (by omega)
        refine ⟨a :: S, hS.cons₂ a, by rw [List.length_cons, hlen], fun y hy => ?_⟩
        rw [List.toFinset_cons, Finset.mem_insert]
        by_cases hya : y = a
        · exact Or.inl hya
        · exact Or.inr (hTS (Finset.mem_erase.2 ⟨hya, hy⟩))
      · have hT' : T ⊆ l.toFinset := by
          intro y hy
          have := hT hy
          rw [List.toFinset_cons, Finset.mem_insert] at this
          rcases this with h | h
          · exact absurd (h ▸ hy) ha
          · exact h
        by_cases hc : T.card ≤ n
        · obtain ⟨S, hS, hlen, hTS⟩ := ih T n hT' hc (by omega)
          refine ⟨a :: S, hS.cons₂ a, by rw [List.length_cons, hlen], fun y hy => ?_⟩
          rw [List.toFinset_cons, Finset.mem_insert]
          exact Or.inr (hTS hy)
        · have h1 := Finset.card_le_card hT'
          have h2 := List.toFinset_card_le l
          obtain ⟨S, hS, hlen, hTS⟩ := ih T (n + 1) hT' (by omega) (by omega)
          exact ⟨S, hS.cons a, hlen, hTS⟩

/-! ## The strong engine with a conversion to `float` that does not round up -/

theorem mem_set_dimension (c : Simplex_tree) (d : ℤ) (s : Finset ℤ) :
    (c.set_dimension d).Mem s ↔ c.Mem s := Iff.rfl

/-- With `max_alpha_square = 0` and a bound that is not rounded up, a witness
inserts nothing. -/
theorem witness_step_zero_alpha (narrow : ℚ → ℚ) (hnarrow : ∀ x, narrow x ≤ x)
    (limit_dimension : ℤ) (aw : List (ℤ × ℚ)) (c : Simplex_tree) (s : Witness_state)
    (h : witness_step narrow 0 limit_dimension aw c = some s) : s.complex = c := by
  match aw, h with
  | first :: rest, h =>
    have hlim : ¬ first.2 < narrow (first.2 + 0) := by
      have := hnarrow (first.2 + 0)
      rw [add_zero] at this ⊢
      exact not_lt.2 this
    simp only [witness_step, Option.some.injEq] at h
    subst h
    have hg : grow_simplex (narrow (first.2 + 0)) first.2 limit_dimension (first :: rest) [] c
        = ⟨first :: rest, [], c⟩ := by
      simp only [grow_simplex]
      rw [if_neg (fun hc => hlim hc.2)]
    rw [hg]
    simp only [add_faces]
    rw [if_neg hlim]

theorem witnesses_loop_zero_alpha (narrow : ℚ → ℚ) (hnarrow : ∀ x, narrow x ≤ x)
    (limit_dimension : ℤ) (witnesses : List (List (ℤ × ℚ))) :
    ∀ (c : Simplex_tree) (d : ℤ) (r : Simplex_tree × ℤ),
      witnesses_loop narrow 0 limit_dimension witnesses c d = some r → r.1 = c := by
  induction witnesses with
  | nil =>
    intro c d r h
    simp only [witnesses_loop, Option.some.injEq] at h
    subst h
    rfl
  | cons aw aws ih =>
    intro c d r h
    cases hs : witness_step narrow 0 limit_dimension aw c with
    | none => simp [witnesses_loop, hs] at h
    | some s =>
      simp only [witnesses_loop, hs] at h
      rw [ih _ _ r h]
      exact witness_step_zero_alpha narrow hnarrow limit_dimension aw c s hs

/-- With `max_alpha_square = 0` and a conversion to `float` that never rounds up
(an exact one for instance), a successful `create_complex` only adds the vertices
of the landmarks: no edge and no higher simplex is inserted. -/
theorem create_complex_zero_alpha_of_not_rounded_up (narrow : ℚ → ℚ)
    (hnarrow : ∀ x, narrow x ≤ x) (nbL : ℕ) (witnesses : List (List (ℤ × ℚ)))
    (complex : Simplex_tree) (limit_dimension : ℤ) (c : Simplex_tree)
    (h : create_complex narrow nbL witnesses complex 0 limit_dimension = some (true, c)) :
    ∀ s, c.Mem s ↔ complex.Mem s ∨ ∃ i ∈ List.range nbL, s = {(i : ℤ)} := by
  by_cases hg : complex.num_vertices > 0 ∨ (0 : ℚ) < 0 ∨ limit_dimension < 0
  · rw [create_complex_of_guard _ _ _ _ _ _ hg] at h
    cases h
  · rw [create_complex_of_not_guard _ _ _ _ _ _ hg] at h
    cases hw : witnesses_loop narrow 0 limit_dimension witnesses
        (insert_landmarks complex (List.range nbL)) 0 with
    | none => rw [hw] at h; cases h
    | some r' =>
      rw [hw] at h
      cases h
      intro s
      show (r'.1.set_dimension r'.2).Mem s ↔ _
      rw [mem_set_dimension, witnesses_loop_zero_alpha narrow hnarrow _ _ _ _ r' hw,
        mem_insert_landmarks]

/-! ## The two loops of `create_complex` over one witness -/

/-- The first loop over a witness: what it consumes of the range, the vector
`simplex` it leaves, the simplices it adds and why it stops. -/
theorem grow_simplex_spec (lim_dist2 d0 : ℚ) (limit_dimension : ℤ) (aw : List (ℤ × ℚ)) :
    ∀ (simplex : List ℤ) (c : Simplex_tree),
      ∃ consumed : List (ℤ × ℚ),
        aw = consumed ++ (grow_simplex lim_dist2 d0 limit_dimension aw simplex c).aw ∧
        (grow_simplex lim_dist2 d0 limit_dimension aw simplex c).simplex
          = simplex ++ consumed.map Prod.fst ∧
        (∀ p ∈ consumed, p.2 < lim_dist2) ∧
        (∀ t, c.Mem t → (grow_simplex lim_dist2 d0 limit_dimension aw simplex c).complex.Mem t) ∧
        (∀ t, (grow_simplex lim_dist2 d0 limit_dimension aw simplex c).complex.Mem t →
          c.Mem t ∨
            (t ⊆ (grow_simplex lim_dist2 d0 limit_dimension aw simplex c).simplex.toFinset ∧
              t.Nonempty)) ∧
        ((∀ t : Finset ℤ, t ⊆ simplex.toFinset → t.Nonempty → c.Mem t) →
          ∀ t : Finset ℤ,
            t ⊆ (grow_simplex lim_dist2 d0 limit_dimension aw simplex c).simplex.toFinset →
            t.Nonempty →
            (grow_simplex lim_dist2 d0 limit_dimension aw simplex c).complex.Mem t) ∧
        ((grow_simplex lim_dist2 d0 limit_dimension aw simplex c).aw = [] ∨
          ∃ p rest, (grow_simplex lim_dist2 d0 limit_dimension aw simplex c).aw = p :: rest ∧
            (¬ p.2 < lim_dist2 ∨ limit_dimension + 1 <
              ((grow_simplex lim_dist2 d0 limit_dimension aw simplex c).simplex.length : ℤ))) := by
  induction aw with
  | nil =>
    intro simplex c
    refine ⟨[], by simp [grow_simplex], by simp [grow_simplex], by simp, fun t h => h,
      fun t h => Or.inl h, fun h t ht hne => h t ht hne, Or.inl rfl⟩
  | cons p rest ih =>
    intro simplex c
    by_cases hcond : (simplex.length : ℤ) ≤ limit_dimension + 1 ∧ p.2 < lim_dist2
    · obtain ⟨consumed, h1, h2, h3, h4, h5, h6, h7⟩ := ih (simplex ++ [p.1])
        (c.insert_simplex_and_subfaces (simplex ++ [p.1]) (p.2 - d0))
      have hstep : grow_simplex lim_dist2 d0 limit_dimension (p :: rest) simplex c
          = grow_simplex lim_dist2 d0 limit_dimension rest (simplex ++ [p.1])
              (c.insert_simplex_and_subfaces (simplex ++ [p.1]) (p.2 - d0)) := by
        simp only [grow_simplex, if_pos hcond]
      rw [hstep]
      refine ⟨p :: consumed, ?_, ?_, ?_, ?_, ?_, ?_, h7⟩
      · rw [List.cons_append, ← h1]
      · rw [h2]; simp
      · intro q hq
        rcases List.mem_cons.1 hq with rfl | hq
        · exact hcond.2
        · exact h3 q hq
      · intro t ht
        exact h4 t ((Simplex_tree.mem_insert_simplex_and_subfaces _ _ _ t).2 (Or.inl ht))
      · intro t ht
        rcases h5 t ht with h | h
        · rcases (Simplex_tree.mem_insert_simplex_and_subfaces _ _ _ t).1 h with h' | ⟨h', hne⟩
          · exact Or.inl h'
          · refine Or.inr ⟨fun y hy => ?_, hne⟩
            have := h' hy
            rw [h2]
            simp only [List.toFinset_append, Finset.mem_union] at this ⊢
            exact Or.inl (by simpa using this)
        · exact Or.inr h
      · intro _ t ht hne
        refine h6 (fun u hu hune => ?_) t ht hne
        exact (Simplex_tree.mem_insert_simplex_and_subfaces _ _ _ u).2 (Or.inr ⟨hu, hune⟩)
    · have hstep : grow_simplex lim_dist2 d0 limit_dimension (p :: rest) simplex c
          = ⟨p :: rest, simplex, c⟩ := by
        simp only [grow_simplex, if_neg hcond]
      rw [hstep]
      refine ⟨[], by simp, by simp, by simp, fun t h => h, fun t h => Or.inl h,
        fun h t ht hne => h t ht hne, Or.inr ⟨p, rest, rfl, ?_⟩⟩
      by_cases hp : p.2 < lim_dist2
      · right
        have : ¬ (simplex.length : ℤ) ≤ limit_dimension + 1 := fun h => hcond ⟨h, hp⟩
        show limit_dimension + 1 < (simplex.length : ℤ)
        omega
      · exact Or.inl hp

/-- The second loop over a witness: what it consumes of the range, the vector
`vertices` it leaves, the simplices it adds and why it stops. -/
theorem add_faces_spec (lim_dist2 d0 : ℚ) (limit_dimension : ℤ) (hm : 0 ≤ limit_dimension)
    (aw : List (ℤ × ℚ)) :
    ∀ (vertices : List ℤ) (c : Simplex_tree),
      ((∃ p rest, aw = p :: rest ∧ p.2 < lim_dist2) →
        limit_dimension ≤ (vertices.length : ℤ)) →
      ∃ consumed : List (ℤ × ℚ),
        aw = consumed ++ (add_faces lim_dist2 d0 limit_dimension aw vertices c).aw ∧
        (add_faces lim_dist2 d0 limit_dimension aw vertices c).simplex
          = vertices ++ consumed.map Prod.fst ∧
        (∀ p ∈ consumed, p.2 < lim_dist2) ∧
        (∀ t, c.Mem t → (add_faces lim_dist2 d0 limit_dimension aw vertices c).complex.Mem t) ∧
        (∀ t, (add_faces lim_dist2 d0 limit_dimension aw vertices c).complex.Mem t →
          c.Mem t ∨
            (t ⊆ (add_faces lim_dist2 d0 limit_dimension aw vertices c).simplex.toFinset ∧
              t.Nonempty)) ∧
        (SmallFacesIn limit_dimension vertices c →
          SmallFacesIn limit_dimension
            (add_faces lim_dist2 d0 limit_dimension aw vertices c).simplex
            (add_faces lim_dist2 d0 limit_dimension aw vertices c).complex) ∧
        ((add_faces lim_dist2 d0 limit_dimension aw vertices c).aw = [] ∨
          ∃ p rest, (add_faces lim_dist2 d0 limit_dimension aw vertices c).aw = p :: rest ∧
            ¬ p.2 < lim_dist2) := by
  induction aw with
  | nil =>
    intro vertices c _
    refine ⟨[], by simp [add_faces], by simp [add_faces], by simp, fun t h => h,
      fun t h => Or.inl h, fun h => h, Or.inl rfl⟩
  | cons p rest ih =>
    intro vertices c hlen
    by_cases hcond : p.2 < lim_dist2
    · have hlen' : limit_dimension ≤ (vertices.length : ℤ) := hlen ⟨p, rest, rfl, hcond⟩
      obtain ⟨consumed, h1, h2, h3, h4, h5, h6, h7⟩ := ih (vertices ++ [p.1])
        (add_all_faces_of_dimension p.1 (p.2 - d0) limit_dimension vertices ([], c)).2
        (fun _ => by rw [List.length_append, List.length_singleton]; push_cast; omega)
      have hstep : add_faces lim_dist2 d0 limit_dimension (p :: rest) vertices c
          = add_faces lim_dist2 d0 limit_dimension rest (vertices ++ [p.1])
              (add_all_faces_of_dimension p.1 (p.2 - d0) limit_dimension vertices ([], c)).2 := by
        simp only [add_faces, if_pos hcond]
      rw [hstep]
      refine ⟨p :: consumed, ?_, ?_, ?_, ?_, ?_, ?_, h7⟩
      · rw [List.cons_append, ← h1]
      · rw [h2]; simp
      · intro q hq
        rcases List.mem_cons.1 hq with rfl | hq
        · exact hcond
        · exact h3 q hq
      · intro t ht
        exact h4 t (add_all_faces_of_dimension_mono _ _ _ _ ([], c) t ht)
      · intro t ht
        rcases h5 t ht with h | h
        · rcases add_all_faces_of_dimension_upper _ _ _ _ ([], c) t h with h' | ⟨h', hne⟩
          · exact Or.inl h'
          · refine Or.inr ⟨fun y hy => ?_, hne⟩
            have := h' hy
            rw [h2]
            simp only [List.nil_append, List.toFinset_append, Finset.mem_union] at this ⊢
            exact Or.inl this
        · exact Or.inr h
      · intro hsmall
        refine h6 (fun T hT hne hcard => ?_)
        by_cases hx : p.1 ∈ T
        · -- a face with the new landmark: completed into a choice of `limit_dimension`
          -- former vertices
          have hT' : T.erase p.1 ⊆ vertices.toFinset := by
            intro y hy
            rw [Finset.mem_erase] at hy
            have := hT hy.2
            simp only [List.toFinset_append, Finset.mem_union, List.mem_toFinset,
              List.mem_singleton] at this ⊢
            rcases this with h | h
            · exact h
            · exact absurd h hy.1
          have hc := Finset.card_erase_of_mem hx
          have hpos : 0 < T.card := Finset.card_pos.2 hne
          obtain ⟨S, hS, hSlen, hTS⟩ := exists_sublist_of_card_le vertices (T.erase p.1)
            limit_dimension.toNat hT' (by omega) (by omega)
          refine add_all_faces_of_dimension_covers p.1 (p.2 - d0) vertices limit_dimension
            ([], c) S hS (by rw [hSlen]; exact Int.toNat_of_nonneg hm) T (fun y hy => ?_) hne
          simp only [List.nil_append, List.toFinset_append, Finset.mem_union, List.mem_toFinset,
            List.mem_singleton]
          by_cases hyx : y = p.1
          · exact Or.inr hyx
          · exact Or.inl (List.mem_toFinset.1 (hTS (Finset.mem_erase.2 ⟨hyx, hy⟩)))
        · apply add_all_faces_of_dimension_mono
          refine hsmall T (fun y hy => ?_) hne hcard
          have := hT hy
          simp only [List.toFinset_append, Finset.mem_union, List.mem_toFinset,
            List.mem_singleton] at this ⊢
          rcases this with h | h
          · exact h
          · exact absurd (h ▸ hy) hx
    · have hstep : add_faces lim_dist2 d0 limit_dimension (p :: rest) vertices c
          = ⟨p :: rest, vertices, c⟩ := by
        simp only [add_faces, if_neg hcond]
      rw [hstep]
      exact ⟨[], by simp, by simp, by simp, fun t h => h, fun t h => Or.inl h,
        fun h => h, Or.inr ⟨p, rest, rfl, hcond⟩⟩

/-! ## The strong engine with an exact bound -/

/-- The simplices added for one witness whose nearest landmarks come in ascending
order of distance, when the bound `lim_dist2` is exactly the distance to the
nearest landmark plus `max_alpha_square`: they are made of landmarks strictly
below the bound, and every such set of at most `limit_dimension + 1` landmarks is
added. -/
theorem witness_step_exact (narrow : ℚ → ℚ) (hexact : ∀ x, narrow x = x)
    (max_alpha_square : ℚ) (limit_dimension : ℤ) (hm : 0 ≤ limit_dimension)
    (aw : List (ℤ × ℚ)) (hsorted : aw.Pairwise (fun p q => p.2 ≤ q.2)) (c : Simplex_tree)
    (s : Witness_state)
    (h : witness_step narrow max_alpha_square limit_dimension aw c = some s) :
    (∀ t, c.Mem t → s.complex.Mem t) ∧
    (∀ t, s.complex.Mem t →
      c.Mem t ∨ (t.Nonempty ∧ Within aw (nearest_distance aw + max_alpha_square) t)) ∧
    (∀ t : Finset ℤ, t.Nonempty → (t.card : ℤ) ≤ limit_dimension + 1 →
      Within aw (nearest_distance aw + max_alpha_square) t → s.complex.Mem t) := by
  match aw, hsorted, h with
  | first :: rest, hsorted, h =>
    simp only [witness_step, Option.some.injEq] at h
    rw [hexact] at h
    subst h
    simp only [nearest_distance]
    obtain ⟨cons1, g1, g2, g3, g4, g5, g6, g7⟩ := grow_simplex_spec
      (first.2 + max_alpha_square) first.2 limit_dimension (first :: rest) [] c
    have hpre : (∃ p rest', (grow_simplex (first.2 + max_alpha_square) first.2 limit_dimension
          (first :: rest) [] c).aw = p :: rest' ∧ p.2 < first.2 + max_alpha_square) →
        limit_dimension ≤ ((grow_simplex (first.2 + max_alpha_square) first.2 limit_dimension
          (first :: rest) [] c).simplex.length : ℤ) := by
      rintro ⟨p, rest', hp, hlt⟩
      rcases g7 with h | ⟨q, rest'', hq, hq'⟩
      · rw [h] at hp; cases hp
      · rw [hq] at hp
        cases hp
        rcases hq' with h | h
        · exact absurd hlt h
        · omega
    obtain ⟨cons2, f1, f2, f3, f4, f5, f6, f7⟩ := add_faces_spec
      (first.2 + max_alpha_square) first.2 limit_dimension hm _ _ _ hpre
    have hsmall : SmallFacesIn limit_dimension
        (grow_simplex (first.2 + max_alpha_square) first.2 limit_dimension
          (first :: rest) [] c).simplex
        (grow_simplex (first.2 + max_alpha_square) first.2 limit_dimension
          (first :: rest) [] c).complex := by
      intro t ht hne _
      refine g6 (fun u hu hune => ?_) t ht hne
      exfalso
      rw [List.toFinset_nil, Finset.subset_empty] at hu
      rw [hu] at hune
      exact Finset.not_nonempty_empty hune
    have hfinal := f6 hsmall
    -- the vertices of the final vector are the landmarks consumed
    have hverts : ∀ y, y ∈ (add_faces (first.2 + max_alpha_square) first.2 limit_dimension
          (grow_simplex (first.2 + max_alpha_square) first.2 limit_dimension
            (first :: rest) [] c).aw
          (grow_simplex (first.2 + max_alpha_square) first.2 limit_dimension
            (first :: rest) [] c).simplex
          (grow_simplex (first.2 + max_alpha_square) first.2 limit_dimension
            (first :: rest) [] c).complex).simplex.toFinset ↔
        ∃ p ∈ cons1 ++ cons2, p.1 = y := by
      intro y
      rw [f2, g2]
      simp only [List.nil_append, List.toFinset_append, Finset.mem_union, List.mem_toFinset,
        List.mem_map, List.mem_append]
      constructor
      · rintro (⟨p, hp, rfl⟩ | ⟨p, hp, rfl⟩)
        · exact ⟨p, Or.inl hp, rfl⟩
        · exact ⟨p, Or.inr hp, rfl⟩
      · rintro ⟨p, hp | hp, rfl⟩
        · exact Or.inl ⟨p, hp, rfl⟩
        · exact Or.inr ⟨p, hp, rfl⟩
    have hall : first :: rest = (cons1 ++ cons2) ++
        (add_faces (first.2 + max_alpha_square) first.2 limit_dimension
          (grow_simplex (first.2 + max_alpha_square) first.2 limit_dimension
            (first :: rest) [] c).aw
          (grow_simplex (first.2 + max_alpha_square) first.2 limit_dimension
            (first :: rest) [] c).simplex
          (grow_simplex (first.2 + max_alpha_square) first.2 limit_dimension
            (first :: rest) [] c).complex).aw := by
      rw [List.append_assoc, ← f1, ← g1]
    refine ⟨fun t ht => f4 t (g4 t ht), fun t ht => ?_, fun t hne hcard hwithin => ?_⟩
    · rcases f5 t ht with h | ⟨h, hne⟩
      · rcases g5 t h with h' | ⟨h', hne⟩
        · exact Or.inl h'
        · refine Or.inr ⟨hne, fun v hv => ?_⟩
          have hv' := h' hv
          rw [g2] at hv'
          simp only [List.nil_append, List.mem_toFinset, List.mem_map] at hv'
          obtain ⟨p, hp, rfl⟩ := hv'
          exact ⟨p, by rw [g1]; exact List.mem_append_left _ hp, rfl, g3 p hp⟩
      · refine Or.inr ⟨hne, fun v hv => ?_⟩
        obtain ⟨p, hp, rfl⟩ := (hverts v).1 (h hv)
        refine ⟨p, by rw [hall]; exact List.mem_append_left _ hp, rfl, ?_⟩
        rcases List.mem_append.1 hp with hp | hp
        · exact g3 p hp
        · exact f3 p hp
    · refine hfinal t (fun v hv => ?_) hne hcard
      obtain ⟨p, hp, hpv, hlt⟩ := hwithin v hv
      rw [hverts]
      refine ⟨p, ?_, hpv⟩
      rw [hall, List.mem_append] at hp
      rcases hp with hp | hp
      · exact hp
      · exfalso
        rcases f7 with h | ⟨q, rest', hq, hq'⟩
        · rw [h] at hp; cases hp
        · rw [hall, hq] at hsorted
          have hs2 := (List.pairwise_append.1 hsorted).2.1
          rw [hq] at hp
          rcases List.mem_cons.1 hp with rfl | hp
          · exact hq' hlt
          · have := (List.pairwise_cons.1 hs2).1 p hp
            exact hq' (lt_of_le_of_lt this hlt)

/-- The simplices added by the loop over the witnesses, with an exact bound. -/
theorem witnesses_loop_exact (narrow : ℚ → ℚ) (hexact : ∀ x, narrow x = x)
    (max_alpha_square : ℚ) (limit_dimension : ℤ) (hm : 0 ≤ limit_dimension)
    (witnesses : List (List (ℤ × ℚ))) :
    (∀ aw ∈ witnesses, aw.Pairwise (fun p q => p.2 ≤ q.2)) →
    ∀ (c : Simplex_tree) (d : ℤ) (r : Simplex_tree × ℤ),
      witnesses_loop narrow max_alpha_square limit_dimension witnesses c d = some r →
      (∀ t, c.Mem t → r.1.Mem t) ∧
      (∀ t, r.1.Mem t → c.Mem t ∨ ∃ aw ∈ witnesses,
        t.Nonempty ∧ Within aw (nearest_distance aw + max_alpha_square) t) ∧
      (∀ aw ∈ witnesses, ∀ t : Finset ℤ, t.Nonempty → (t.card : ℤ) ≤ limit_dimension + 1 →
        Within aw (nearest_distance aw + max_alpha_square) t → r.1.Mem t) := by
  induction witnesses with
  | nil =>
    intro _ c d r h
    simp only [witnesses_loop, Option.some.injEq] at h
    subst h
    exact ⟨fun t ht => ht, fun t ht => Or.inl ht, fun aw haw => by simp at haw⟩
  | cons aw aws ih =>
    intro hsorted c d r h
    cases hs : witness_step narrow max_alpha_square limit_dimension aw c with
    | none => simp [witnesses_loop, hs] at h
    | some s =>
      simp only [witnesses_loop, hs] at h
      obtain ⟨w1, w2, w3⟩ := witness_step_exact narrow hexact max_alpha_square limit_dimension
        hm aw (hsorted aw (List.mem_cons_self _ _)) c s hs
      obtain ⟨i1, i2, i3⟩ := ih (fun a ha => hsorted a (List.mem_cons_of_mem _ ha)) _ _ r h
      refine ⟨fun t ht => i1 t (w1 t ht), fun t ht => ?_, fun a ha t hne hcard hw => ?_⟩
      · rcases i2 t ht with h' | ⟨a, ha, hne, hw⟩
        · rcases w2 t h' with h'' | ⟨hne, hw⟩
          · exact Or.inl h''
          · exact Or.inr ⟨aw, List.mem_cons_self _ _, hne, hw⟩
        · exact Or.inr ⟨a, List.mem_cons_of_mem _ ha, hne, hw⟩
      · rcases List.mem_cons.1 ha with rfl | ha
        · exact i1 t (w3 t hne hcard hw)
        · exact i3 a ha t hne hcard hw

/-- What a successful `create_complex` computes. -/
theorem create_complex_success {narrow : ℚ → ℚ} {nbL : ℕ} {witnesses : List (List (ℤ × ℚ))}
    {complex c : Simplex_tree} {max_alpha_square : ℚ} {limit_dimension : ℤ}
    (h : create_complex narrow nbL witnesses complex max_alpha_square limit_dimension
      = some (true, c)) :
    ¬ (complex.num_vertices > 0 ∨ max_alpha_square < 0 ∨ limit_dimension < 0) ∧
    ∃ r, witnesses_loop narrow max_alpha_square limit_dimension witnesses
        (insert_landmarks complex (List.range nbL)) 0 = some r ∧
      c = r.1.set_dimension r.2 := by
  by_cases hg : complex.num_vertices > 0 ∨ max_alpha_square < 0 ∨ limit_dimension < 0
  · rw [create_complex_of_guard _ _ _ _ _ _ hg] at h
    cases h
  · refine ⟨hg, ?_⟩
    rw [create_complex_of_not_guard _ _ _ _ _ _ hg] at h
    cases hw : witnesses_loop narrow max_alpha_square limit_dimension witnesses
        (insert_landmarks complex (List.range nbL)) 0 with
    | none => rw [hw] at h; cases h
    | some r =>
      rw [hw] at h
      cases h
      exact ⟨r, rfl, rfl⟩

/-- With an exact conversion of the bound, the bounded strong engine loses no face
of at most `limit_dimension + 1` vertices: every non-empty set of such a size made
of landmarks strictly below `dist(w, nearest landmark) + max_alpha_square` for a
witness `w` is a simplex of the complex of a successful call. -/
theorem create_complex_exact_faces (narrow : ℚ → ℚ) (hexact : ∀ x, narrow x = x) (nbL : ℕ)
    (witnesses : List (List (ℤ × ℚ))) (complex c : Simplex_tree) (max_alpha_square : ℚ)
    (limit_dimension : ℤ)
    (hsorted : ∀ aw ∈ witnesses, aw.Pairwise (fun p q => p.2 ≤ q.2))
    (h : create_complex narrow nbL witnesses complex max_alpha_square limit_dimension
      = some (true, c)) :
    ∀ aw ∈ witnesses, ∀ s : Finset ℤ, s.Nonempty → (s.card : ℤ) ≤ limit_dimension + 1 →
      Within aw (nearest_distance aw + max_alpha_square) s → c.Mem s := by
  obtain ⟨hg, r, hr, rfl⟩ := create_complex_success h
  have hm : 0 ≤ limit_dimension := by
    by_contra hneg
    exact hg (Or.inr (Or.inr (by omega)))
  obtain ⟨-, -, h3⟩ := witnesses_loop_exact narrow hexact max_alpha_square limit_dimension hm
    witnesses hsorted _ _ r hr
  intro aw haw s hne hcard hw
  rw [mem_set_dimension]
  exact h3 aw haw s hne hcard hw

/-- With an exact conversion of the bound and no effective dimension cap
(`limit_dimension` at least the number of landmarks, of which every witness lists
at most that many), a set of at least two landmarks is a simplex of the complex
built on the empty complex if and only if some witness has all its vertices
strictly below `dist(w, nearest landmark) + max_alpha_square`. -/
theorem create_complex_exact_simplices (narrow : ℚ → ℚ) (hexact : ∀ x, narrow x = x)
    (nbL : ℕ) (witnesses : List (List (ℤ × ℚ))) (c : Simplex_tree) (max_alpha_square : ℚ)
    (limit_dimension : ℤ)
    (hsorted : ∀ aw ∈ witnesses, aw.Pairwise (fun p q => p.2 ≤ q.2))
    (hrows : ∀ aw ∈ witnesses, aw.length ≤ nbL) (hcap : (nbL : ℤ) ≤ limit_dimension)
    (h : create_complex narrow nbL witnesses Simplex_tree.empty max_alpha_square
      limit_dimension = some (true, c)) :
    ∀ s : Finset ℤ, 2 ≤ s.card →
      (c.Mem s ↔ ∃ aw ∈ witnesses, Within aw (nearest_distance aw + max_alpha_square) s) := by
  obtain ⟨hg, r, hr, rfl⟩ := create_complex_success h
  have hm : 0 ≤ limit_dimension := by
    by_contra hneg
    exact hg (Or.inr (Or.inr (by omega)))
  obtain ⟨-, h2, h3⟩ := witnesses_loop_exact narrow hexact max_alpha_square limit_dimension hm
    witnesses hsorted _ _ r hr
  intro s hs
  rw [mem_set_dimension]
  constructor
  · intro hmem
    rcases h2 s hmem with h' | ⟨aw, haw, -, hw⟩
    · exfalso
      rcases (mem_insert_landmarks _ _ s).1 h' with h'' | ⟨i, -, rfl⟩
      · exact Simplex_tree.not_mem_empty s h''
      · rw [Finset.card_singleton] at hs
        omega
    · exact ⟨aw, haw, hw⟩
  · rintro ⟨aw, haw, hw⟩
    have hne : s.Nonempty := Finset.card_pos.1 (by omega)
    refine h3 aw haw s hne ?_ hw
    have hsub : s ⊆ (aw.map Prod.fst).toFinset := by
      intro v hv
      obtain ⟨p, hp, rfl, -⟩ := hw v hv
      exact List.mem_toFinset.2 (List.mem_map_of_mem _ hp)
    have h1 := Finset.card_le_card hsub
    have h2' := List.toFinset_card_le (aw.map Prod.fst)
    rw [List.length_map] at h2'
    have h3' := hrows aw haw
    have : (s.card : ℤ) ≤ (nbL : ℤ) := by exact_mod_cast (by omega : s.card ≤ nbL)
    omega

/-! ## The claims on the insertions of `create_complex` -/

/-- C9: filtration monotonicity of the strong engine. For a witness whose nearest
landmarks come in ascending order of distance, the body of the loop of
`create_complex` returns, the filtration values it passes to its successive
closure-insert requests are non-decreasing, and for two faces `f ⊆ g` that the
witness adds to the complex (the store keeps the value of a simplex already
present) the value of `f` is at most the value of `g`. -/
theorem create_complex_filtration_monotone (narrow : ℚ → ℚ) (max_alpha_square : ℚ)
    (limit_dimension : ℤ) (first : ℤ × ℚ) (rest : List (ℤ × ℚ))
    (hsorted : (first :: rest).Pairwise (fun p q => p.2 ≤ q.2)) (c : Simplex_tree) :
    ∃ (s : Witness_state) (calls : List (List ℤ × ℚ)),
      witness_step narrow max_alpha_square limit_dimension (first :: rest) c = some s ∧
      Simplex_tree.closure_requests s.complex.log
        = Simplex_tree.closure_requests c.log ++ calls ∧
      (calls.map Prod.snd).Pairwise (· ≤ ·) ∧
      ∀ f g : Finset ℤ, f ⊆ g → f.Nonempty → ¬ c.Mem f → ¬ c.Mem g → s.complex.Mem g →
        ∃ vf vg, s.complex.filtration f = some vf ∧ s.complex.filtration g = some vg ∧
          vf ≤ vg := by
  obtain ⟨s, calls, hs, hfold, hmono⟩ := witness_step_calls narrow max_alpha_square
    limit_dimension first rest hsorted c
  refine ⟨s, calls, hs, ?_, hmono, ?_⟩
  · rw [hfold, Simplex_tree.closure_requests_foldl]
  · intro f g hfg hfne hf0 hg0 hg
    rw [hfold] at hg ⊢
    obtain ⟨vg, h1, h2⟩ := Simplex_tree.filtration_mono_foldl c calls c hmono
      (fun t ht => ht) (fun g' hg' hg0' => absurd hg' hg0') g hg hg0
    obtain ⟨vf, h3, h4⟩ := h2 f hfg hfne hf0
    exact ⟨vf, vg, h3, h1, h4⟩

/-- An instance of the filtration monotonicity: four landmarks at squared distances
`0`, `1`, `2`, `3`, relaxation `4`, `limit_dimension = 1`. -/
theorem create_complex_filtration_monotone_witness :
    ([((0 : ℤ), (0 : ℚ)), (1, 1), (2, 2), (3, 3)]).Pairwise (fun p q => p.2 ≤ q.2) ∧
    ∃ (s : Witness_state) (calls : List (List ℤ × ℚ)),
      witness_step binary32 4 1 [(0, 0), (1, 1), (2, 2), (3, 3)]
        (insert_landmarks Simplex_tree.empty (List.range 4)) = some s ∧
      Simplex_tree.closure_requests s.complex.log
        = Simplex_tree.closure_requests
            (insert_landmarks Simplex_tree.empty (List.range 4)).log ++ calls ∧
      (calls.map Prod.snd).Pairwise (· ≤ ·) ∧
      ∀ f g : Finset ℤ, f ⊆ g → f.Nonempty →
        ¬ (insert_landmarks Simplex_tree.empty (List.range 4)).Mem f →
        ¬ (insert_landmarks Simplex_tree.empty (List.range 4)).Mem g → s.complex.Mem g →
        ∃ vf vg, s.complex.filtration f = some vf ∧ s.complex.filtration g = some vg ∧
          vf ≤ vg :=
  ⟨by norm_num, create_complex_filtration_monotone binary32 4 1 (0, 0)
    [(1, 1), (2, 2), (3, 3)] (by norm_num) _⟩

/-- C4 (what the code does): with `limit_dimension = 1` and one witness whose three
nearest landmarks, at squared distances `0`, `1`, `2`, are below the bound
`0 + 4`, `create_complex` succeeds and the triangle `{0, 1, 2}`, of dimension
`2`, is in the complex, whether the bound is converted to `float` or kept exact:
the first loop runs while `simplex.size() <= limit_dimension + 1`. -/
theorem create_complex_limit_one_triangle :
    (create_complex binary32 3 [[(0, 0), (1, 1), (2, 2)]] Simplex_tree.empty 4 1).map
      (fun r => (r.1, decide (r.2.Mem {0, 1, 2}))) = some (true, true) ∧
    (create_complex id 3 [[(0, 0), (1, 1), (2, 2)]] Simplex_tree.empty 4 1).map
      (fun r => (r.1, decide (r.2.Mem {0, 1, 2}))) = some (true, true) := by
  decide!

/-- C8 (what the code does): with `max_alpha_square = 0` and a witness at squared
distance `0.09` (the `double` nearest to it) from its two nearest landmarks, the
bound stored in the `float` variable `lim_dist2` is rounded up, both landmarks
pass the strict test and `create_complex` inserts the edge `{0, 1}`; with an
exact conversion no edge is inserted
(`create_complex_zero_alpha_of_not_rounded_up`). -/
theorem create_complex_zero_alpha_tie :
    (create_complex binary32 2
        [[(0, 3242591731706757 / 36028797018963968), (1, 3242591731706757 / 36028797018963968)]]
        Simplex_tree.empty 0 1).map
      (fun r => (r.1, decide (r.2.Mem {0, 1}))) = some (true, true) ∧
    (create_complex id 2
        [[(0, 3242591731706757 / 36028797018963968), (1, 3242591731706757 / 36028797018963968)]]
        Simplex_tree.empty 0 1).map
      (fun r => (r.1, decide (r.2.Mem {0, 1}))) = some (true, false) := by
  decide!

/-- C3 (what the code does): without an effective dimension cap
(`limit_dimension = 2` for two landmarks), with a witness at squared distance `0`
from landmark `0` and `0.09` from landmark `1` and `max_alpha_square = 0.09`,
the edge `{0, 1}` is in the complex although landmark `1` is not strictly below
`0 + max_alpha_square`: the bound stored in the `float` variable `lim_dist2` is
rounded up. With an exact conversion the edge is not inserted. -/
theorem create_complex_bound_not_strict :
    (create_complex binary32 2 [[(0, 0), (1, 3242591731706757 / 36028797018963968)]]
        Simplex_tree.empty (3242591731706757 / 36028797018963968) 2).map
      (fun r => (r.1, decide (r.2.Mem {0, 1}))) = some (true, true) ∧
    ¬ ((3242591731706757 / 36028797018963968 : ℚ)
        < 0 + 3242591731706757 / 36028797018963968) ∧
    (create_complex id 2 [[(0, 0), (1, 3242591731706757 / 36028797018963968)]]
        Simplex_tree.empty (3242591731706757 / 36028797018963968) 2).map
      (fun r => (r.1, decide (r.2.Mem {0, 1}))) = some (true, false) := by
  decide!

/-- C5 (what the code does): with `limit_dimension = 1`, `max_alpha_square = 0.7`
and a witness at squared distance `0` from landmark `0` and `0.6999999899...`
from landmark `1`, both landmarks are strictly below `0 + max_alpha_square`, yet
the edge `{0, 1}` is not in the complex: the bound stored in the `float` variable
`lim_dist2` is rounded down. With an exact conversion the edge is inserted, and the
claim holds (`create_complex_exact_faces`). -/
theorem create_complex_face_lost :
    (create_complex binary32 2 [[(0, 0), (1, 1576259846843387 / 2251799813685248)]]
        Simplex_tree.empty (3152519739159347 / 4503599627370496) 1).map
      (fun r => (r.1, decide (r.2.Mem {0, 1}))) = some (true, false) ∧
    ((1576259846843387 / 2251799813685248 : ℚ) < 0 + 3152519739159347 / 4503599627370496) ∧
    (create_complex id 2 [[(0, 0), (1, 1576259846843387 / 2251799813685248)]]
        Simplex_tree.empty (3152519739159347 / 4503599627370496) 1).map
      (fun r => (r.1, decide (r.2.Mem {0, 1}))) = some (true, true) := by
  decide!

/-! ## Landmark presence in the strong engine -/

theorem grow_simplex_mono (lim_dist2 d0 : ℚ) (limit_dimension : ℤ) (aw : List (ℤ × ℚ)) :
    ∀ (simplex : List ℤ) (c : Simplex_tree) (t : Finset ℤ), c.Mem t →
      (grow_simplex lim_dist2 d0 limit_dimension aw simplex c).complex.Mem t := by
  induction aw with
  | nil => intro simplex c t h; exact h
  | cons p rest ih =>
    intro simplex c t h
    by_cases hcond : (simplex.length : ℤ) ≤ limit_dimension + 1 ∧ p.2 < lim_dist2
    · simp only [grow_simplex, if_pos hcond]
      exact ih _ _ t ((Simplex_tree.mem_insert_simplex_and_subfaces _ _ _ t).2 (Or.inl h))
    · simp only [grow_simplex, if_neg hcond]
      exact h

theorem add_faces_mono (lim_dist2 d0 : ℚ) (limit_dimension : ℤ) (aw : List (ℤ × ℚ)) :
    ∀ (vertices : List ℤ) (c : Simplex_tree) (t : Finset ℤ), c.Mem t →
      (add_faces lim_dist2 d0 limit_dimension aw vertices c).complex.Mem t := by
  induction aw with
  | nil => intro vertices c t h; exact h
  | cons p rest ih =>
    intro vertices c t h
    by_cases hcond : p.2 < lim_dist2
    · simp only [add_faces, if_pos hcond]
      exact ih _ _ t (add_all_faces_of_dimension_mono _ _ _ _ ([], c) t h)
    · simp only [add_faces, if_neg hcond]
      exact h

/-- The body of the loop over the witnesses only adds simplices. -/
theorem witness_step_mono (narrow : ℚ → ℚ) (max_alpha_square : ℚ) (limit_dimension : ℤ)
    (aw : List (ℤ × ℚ)) (c : Simplex_tree) (s : Witness_state)
    (h : witness_step narrow max_alpha_square limit_dimension aw c = some s)
    (t : Finset ℤ) (ht : c.Mem t) : s.complex.Mem t := by
  match aw, h with
  | first :: rest, h =>
    simp only [witness_step, Option.some.injEq] at h
    subst h
    exact add_faces_mono _ _ _ _ _ _ t (grow_simplex_mono _ _ _ _ _ _ t ht)

/-- The loop over the witnesses only adds simplices. -/
theorem witnesses_loop_mono (narrow : ℚ → ℚ) (max_alpha_square : ℚ) (limit_dimension : ℤ)
    (witnesses : List (List (ℤ × ℚ))) :
    ∀ (c : Simplex_tree) (d : ℤ) (r : Simplex_tree × ℤ),
      witnesses_loop narrow max_alpha_square limit_dimension witnesses c d = some r →
      ∀ t, c.Mem t → r.1.Mem t := by
  induction witnesses with
  | nil =>
    intro c d r h t ht
    simp only [witnesses_loop, Option.some.injEq] at h
    subst h
    exact ht
  | cons aw aws ih =>
    intro c d r h t ht
    cases hs : witness_step narrow max_alpha_square limit_dimension aw c with
    | none => simp [witnesses_loop, hs] at h
    | some s =>
      simp only [witnesses_loop, hs] at h
      exact ih _ _ r h t (witness_step_mono _ _ _ aw c s hs t ht)

/-- C11: landmark presence in the strong engine. After every successful
`create_complex` call every landmark index `i` of `[0, nbL)`, `nbL` the number
of landmarks, is a 0-simplex of the complex; and with no witness at all the call
succeeds as soon as its three guards let it through. -/
theorem create_complex_landmarks (narrow : ℚ → ℚ) (nbL : ℕ)
    (witnesses : List (List (ℤ × ℚ))) (complex : Simplex_tree) (max_alpha_square : ℚ)
    (limit_dimension : ℤ) :
    (∀ c, create_complex narrow nbL witnesses complex max_alpha_square limit_dimension
        = some (true, c) → ∀ i : ℤ, 0 ≤ i → i < nbL → c.Mem {i}) ∧
    (¬ (complex.num_vertices > 0 ∨ max_alpha_square < 0 ∨ limit_dimension < 0) →
      ∃ c, create_complex narrow nbL [] complex max_alpha_square limit_dimension
          = some (true, c) ∧ ∀ i : ℤ, 0 ≤ i → i < nbL → c.Mem {i}) := by
  have hland : ∀ i : ℤ, 0 ≤ i → i < nbL →
      (insert_landmarks complex (List.range nbL)).Mem {i} := by
    intro i hi0 hiL
    rw [mem_insert_landmarks]
    refine Or.inr ⟨i.toNat, List.mem_range.2 (by omega), ?_⟩
    rw [Int.toNat_of_nonneg hi0]
  constructor
  · intro c h i hi0 hiL
    obtain ⟨-, r, hr, rfl⟩ := create_complex_success h
    rw [mem_set_dimension]
    exact witnesses_loop_mono _ _ _ _ _ _ r hr _ (hland i hi0 hiL)
  · intro hg
    refine ⟨(insert_landmarks complex (List.range nbL)).set_dimension 0, ?_, ?_⟩
    · rw [create_complex_of_not_guard _ _ _ _ _ _ hg]
      rfl
    · intro i hi0 hiL
      rw [mem_set_dimension]
      exact hland i hi0 hiL

/-! ## Monotone pruning in the weak engine -/

/-- The history of the active list starts with the list the loop is entered with,
and the loop returns exactly when the history exists, leaving its last list. -/
theorem witness_loop_actives_spec (knn : List (List ℤ)) (D : ℕ) :
    ∀ (fuel k : ℕ) (c : Simplex_tree) (active : List ℕ),
      (∀ history, witness_loop_actives knn D fuel k c active = some history →
        history.head? = some active ∧
        List.Chain' (fun a b : List ℕ => b.Sublist a) history ∧
        ∃ r, witness_loop knn D fuel k c active = some r ∧
          history.getLast? = some r.2) ∧
      (∀ r, witness_loop knn D fuel k c active = some r →
        ∃ history, witness_loop_actives knn D fuel k c active = some history) := by
  intro fuel
  induction fuel with
  | zero =>
    intro k c active
    by_cases hcond : active ≠ [] ∧ k < D
    · constructor
      · intro history h
        simp only [witness_loop_actives, if_pos hcond] at h
        cases h
      · intro r h
        simp only [witness_loop, if_pos hcond] at h
        cases h
    · constructor
      · intro history h
        simp only [witness_loop_actives, if_neg hcond, Option.some.injEq] at h
        subst h
        refine ⟨rfl, List.chain'_singleton _, (c, active), ?_, rfl⟩
        simp only [witness_loop, if_neg hcond]
      · intro r _
        exact ⟨[active], by simp only [witness_loop_actives, if_neg hcond]⟩
  | succ fuel ih =>
    intro k c active
    by_cases hcond : active ≠ [] ∧ k < D
    · cases hp : witness_pass knn k c active with
      | none =>
        constructor
        · intro history h
          simp [witness_loop_actives, hcond, hp] at h
        · intro r h
          simp [witness_loop, hcond, hp] at h
      | some r1 =>
        obtain ⟨ih1, ih2⟩ := ih (k + 1) r1.1 r1.2
        have hsub := (witness_pass_mono knn k active c r1 hp).2
        constructor
        · intro history h
          cases hh : witness_loop_actives knn D fuel (k + 1) r1.1 r1.2 with
          | none => simp [witness_loop_actives, hcond, hp, hh] at h
          | some tail =>
            simp only [witness_loop_actives, if_pos hcond, hp, hh, Option.some.injEq] at h
            subst h
            obtain ⟨h1, h2, r, h3, h4⟩ := ih1 tail hh
            refine ⟨rfl, ?_, r, ?_, ?_⟩
            · cases tail with
              | nil => exact List.chain'_singleton _
              | cons b tail' =>
                simp only [List.head?_cons, Option.some.injEq] at h1
                subst h1
                exact List.Chain'.cons hsub h2
            · simp only [witness_loop, if_pos hcond, hp]
              exact h3
            · cases tail with
              | nil => simp at h1
              | cons b tail' =>
                rw [List.getLast?_cons_cons]
                exact h4
        · intro r h
          simp only [witness_loop, if_pos hcond, hp] at h
          obtain ⟨tail, ht⟩ := ih2 r h
          exact ⟨active :: tail, by simp only [witness_loop_actives, if_pos hcond, hp, ht]⟩
    · constructor
      · intro history h
        simp only [witness_loop_actives, if_neg hcond, Option.some.injEq] at h
        subst h
        refine ⟨rfl, List.chain'_singleton _, (c, active), ?_, rfl⟩
        simp only [witness_loop, if_neg hcond]
      · intro r _
        exact ⟨[active], by simp only [witness_loop_actives, if_neg hcond]⟩

/-- What a returning call of `witness_complex` went through: the loop, entered with
the table and the complex the setup left and with every witness active when
there are at least two landmarks, no witness otherwise. -/
theorem witness_complex_inv {nbL : ℤ} {knn : List (List ℤ)} {c : Simplex_tree}
    {r : Witness_result} (h : witness_complex nbL knn c = some r) :
    ∃ (row0 : List ℤ) (c1 : Simplex_tree), r.knn[0]? = some row0 ∧
      witness_loop r.knn row0.length row0.length 2 c1
        (if nbL > 1 then List.range knn.length else []) = some (r.complex, r.active_w) := by
  unfold witness_complex at h
  split at h
  · cases h
  · by_cases hL : nbL > 1
    · simp only [if_pos hL] at h ⊢
      cases he : insert_edges (insert_landmarks c (List.range nbL.toNat)) knn with
      | none => simp [he] at h
      | some c1 =>
        cases ho : order_rows knn with
        | none => simp [he, ho] at h
        | some knn1 =>
          cases h0 : knn1[0]? with
          | none => simp [he, ho, h0] at h
          | some row0 =>
            cases hl : witness_loop knn1 row0.length row0.length 2 c1
                (List.range knn.length) with
            | none => simp [he, ho, h0, hl] at h
            | some q =>
              simp only [he, ho, h0, hl, Option.some.injEq] at h
              subst h
              exact ⟨row0, c1, h0, hl⟩
    · simp only [if_neg hL] at h ⊢
      cases h0 : knn[0]? with
      | none => simp [h0] at h
      | some row0 =>
        cases hl : witness_loop knn row0.length row0.length 2
            (insert_landmarks c (List.range nbL.toNat)) [] with
        | none => simp [h0, hl] at h
        | some q =>
          simp only [h0, hl, Option.some.injEq] at h
          subst h
          exact ⟨row0, _, h0, hl⟩

/-- C20: monotone pruning. In every run of `witness_complex` that returns, the
lists of active witnesses at the start of the successive iterations of the loop
(ended by the list the call leaves) are such that each one is a sublist of the one
before it: every witness active at the start of iteration `k + 1` was active at
the start of iteration `k`, and the number of active witnesses does not
increase. The first list holds every witness when there are at least two
landmarks and none otherwise. -/
theorem witness_complex_pruning (nbL : ℤ) (knn : List (List ℤ)) (c : Simplex_tree)
    (r : Witness_result) (h : witness_complex nbL knn c = some r) :
    ∃ (row0 : List ℤ) (c1 : Simplex_tree) (history : List (List ℕ)),
      r.knn[0]? = some row0 ∧
      witness_loop r.knn row0.length row0.length 2 c1
        (if nbL > 1 then List.range knn.length else []) = some (r.complex, r.active_w) ∧
      witness_loop_actives r.knn row0.length row0.length 2 c1
        (if nbL > 1 then List.range knn.length else []) = some history ∧
      history.head? = some (if nbL > 1 then List.range knn.length else []) ∧
      history.getLast? = some r.active_w ∧
      List.Chain' (fun a b : List ℕ =>
        b.Sublist a ∧ (∀ w ∈ b, w ∈ a) ∧ b.length ≤ a.length) history := by
  obtain ⟨row0, c1, h0, hl⟩ := witness_complex_inv h
  obtain ⟨h1, h2⟩ := witness_loop_actives_spec r.knn row0.length row0.length 2 c1
    (if nbL > 1 then List.range knn.length else [])
  obtain ⟨history, hh⟩ := h2 _ hl
  obtain ⟨g1, g2, q, g3, g4⟩ := h1 history hh
  rw [hl, Option.some.injEq] at g3
  subst g3
  refine ⟨row0, c1, history, h0, hl, hh, g1, g4, ?_⟩
  exact g2.imp (fun {a b} hab => ⟨hab, fun w hw => hab.subset hw, hab.length_le⟩)

/-- An instance of the pruning property: three witnesses, three landmarks. -/
theorem witness_complex_pruning_witness :
    ∃ r, witness_complex 3 [[0, 1, 2], [1, 0, 2], [2, 0, 1]] Simplex_tree.empty = some r ∧
      ∃ (row0 : List ℤ) (c1 : Simplex_tree) (history : List (List ℕ)),
        r.knn[0]? = some row0 ∧
        witness_loop r.knn row0.length row0.length 2 c1
          (if (3 : ℤ) > 1 then List.range [[(0 : ℤ), 1, 2], [1, 0, 2], [2, 0, 1]].length
            else []) = some (r.complex, r.active_w) ∧
        witness_loop_actives r.knn row0.length row0.length 2 c1
          (if (3 : ℤ) > 1 then List.range [[(0 : ℤ), 1, 2], [1, 0, 2], [2, 0, 1]].length
            else []) = some history ∧
        history.head? = some (if (3 : ℤ) > 1 then
          List.range [[(0 : ℤ), 1, 2], [1, 0, 2], [2, 0, 1]].length else []) ∧
        history.getLast? = some r.active_w ∧
        List.Chain' (fun a b : List ℕ =>
          b.Sublist a ∧ (∀ w ∈ b, w ∈ a) ∧ b.length ≤ a.length) history :=
  let ⟨r, hr, _⟩ := witness_complex_table (D := 3) (by decide)
    (by decide : IsTable 3 3 [[0, 1, 2], [1, 0, 2], [2, 0, 1]])
  ⟨r, hr, witness_complex_pruning 3 _ _ r hr⟩

/-- An instance of landmark presence: two landmarks, no witness. -/
theorem create_complex_landmarks_witness :
    ∃ c, create_complex id 2 [] Simplex_tree.empty 1 1 = some (true, c) ∧
      c.Mem {(1 : ℤ)} :=
  let ⟨c, hc, _⟩ := (create_complex_landmarks id 2 [] Simplex_tree.empty 1 1).2 (by decide!)
  ⟨c, hc, (create_complex_landmarks id 2 [] Simplex_tree.empty 1 1).1 c hc 1
    (by decide) (by decide)⟩

/-! ## Landmark selection by furthest points: the rows -/

/-- The swaps of `sort_new_entry` started on the entry `x`, which follows the
entries `front`, never read outside the row; they leave `x` before the entries
of `front` further than it which end `front`. -/
theorem sort_new_entry_spec (x : ℤ × ℚ) (front : List (ℤ × ℚ)) :
    ∀ back : List (ℤ × ℚ), ∃ A B : List (ℤ × ℚ), A ++ B = front ∧
      (∀ b ∈ B, x.2 < b.2) ∧ (∀ a, A.getLast? = some a → a.2 ≤ x.2) ∧
      sort_new_entry front.length (front ++ x :: back) = some (A ++ x :: (B ++ back)) := by
  induction front using List.reverseRecOn with
  | nil =>
    intro back
    exact ⟨[], [], rfl, by simp, by simp, by simp [sort_new_entry]⟩
  | append_singleton f y ih =>
    intro back
    have hrow : f ++ [y] ++ x :: back = f ++ y :: x :: back := by simp
    have h0 : (f ++ y :: x :: back)[f.length]? = some y := by
      rw [List.getElem?_append_right (le_refl _)]; simp
    have h1 : (f ++ y :: x :: back)[f.length + 1]? = some x := by
      rw [List.getElem?_append_right (Nat.le_succ _)]; simp
    rw [List.length_append, List.length_singleton, hrow]
    by_cases hgt : y.2 > x.2
    · obtain ⟨A, B, hAB, hB, hA, hs⟩ := ih (y :: back)
      refine ⟨A, B ++ [y], by rw [← List.append_assoc, hAB], ?_, hA, ?_⟩
      · intro b hb
        rcases List.mem_append.1 hb with h | h
        · exact hB b h
        · rw [List.mem_singleton.1 h]; exact hgt
      · have hset : ((f ++ y :: x :: back).set (f.length + 1) y).set f.length x
            = f ++ x :: y :: back := by
          rw [List.set_append_right _ _ (Nat.le_succ _),
            List.set_append_right _ _ (le_refl _)]
          simp
        simp only [sort_new_entry, h0, h1, if_pos hgt, hset]
        rw [hs]
        simp
    · refine ⟨f ++ [y], [], by simp, by simp, ?_, ?_⟩
      · intro a ha
        rw [List.getLast?_concat, Option.some.injEq] at ha
        subst ha
        exact not_lt.1 hgt
      · simp only [sort_new_entry, h0, h1, if_neg hgt]
        simp

/-- In a row in the order of the swaps, no entry is further than the last one. -/
theorem rowOrder_le_last {A : List (ℤ × ℚ)} (hA : A.Pairwise RowOrder) {z : ℤ × ℚ}
    (hz : A.getLast? = some z) : ∀ a ∈ A, a.2 ≤ z.2 := by
  obtain ⟨ys, rfl⟩ := List.getLast?_eq_some_iff.1 hz
  intro a ha
  rcases List.mem_append.1 ha with h | h
  · rcases (List.pairwise_append.1 hA).2.2 a h z (by simp) with h1 | h1
    · exact le_of_lt h1
    · exact le_of_eq h1.1
  · rw [List.mem_singleton.1 h]

/-- The new entry, of an id above those of the row, lands in the order of the
swaps. -/
theorem rowOrder_insert {A B : List (ℤ × ℚ)} {x : ℤ × ℚ} (hrow : (A ++ B).Pairwise RowOrder)
    (hid : ∀ e ∈ A ++ B, e.1 < x.1) (hB : ∀ b ∈ B, x.2 < b.2)
    (hA : ∀ a, A.getLast? = some a → a.2 ≤ x.2) : (A ++ x :: B).Pairwise RowOrder := by
  obtain ⟨hAp, hBp, hAB⟩ := List.pairwise_append.1 hrow
  have hle : ∀ a ∈ A, a.2 ≤ x.2 := by
    intro a ha
    cases hl : A.getLast? with
    | none => rw [List.getLast?_eq_none_iff.1 hl] at ha; simp at ha
    | some z => exact le_trans (rowOrder_le_last hAp hl a ha) (hA z hl)
  refine List.pairwise_append.2 ⟨hAp, List.pairwise_cons.2 ⟨?_, hBp⟩, ?_⟩
  · intro b hb
    exact Or.inl (hB b hb)
  · intro a ha b hb
    rcases List.mem_cons.1 hb with h | h
    · subst h
      rcases lt_or_eq_of_le (hle a ha) with h1 | h1
      · exact Or.inl h1
      · exact Or.inr ⟨h1, hid a (List.mem_append_left _ ha)⟩
    · exact hAB a ha b h

/-- The rows of a point which satisfies the invariant have one entry for each
landmark chosen. -/
theorem PointInv.length_row {ed : List ℚ → List ℚ → ℚ} {W : List (List ℚ)}
    {chosen : List ℕ} {w : List ℚ} {p : Point_state} (h : PointInv ed W chosen w p) :
    p.row.length = chosen.length := by
  rw [h.1.length_eq, List.length_map, List.enum_length]

/-- The ids of a row which satisfies the invariant are below the number of
landmarks chosen. -/
theorem PointInv.id_lt {ed : List ℚ → List ℚ → ℚ} {W : List (List ℚ)}
    {chosen : List ℕ} {w : List ℚ} {p : Point_state} (h : PointInv ed W chosen w p) :
    ∀ e ∈ p.row, e.1 < (chosen.length : ℤ) := by
  intro e he
  obtain ⟨lc, hlc, rfl⟩ := List.mem_map.1 (h.1.mem_iff.1 he)
  exact Int.ofNat_lt.2 (List.fst_lt_of_mem_enum hlc)

/-- The body of the loop over the points keeps the invariant of the point, for
the landmark `c` added to those chosen. -/
theorem update_point_spec {ed : List ℚ → List ℚ → ℚ} {W : List (List ℚ)}
    {chosen : List ℕ} {w : List ℚ} {p : Point_state} (h : PointInv ed W chosen w p)
    (c : ℕ) :
    ∃ p', update_point (ed w (W.getD c [])) chosen.length p = some p' ∧
      PointInv ed W (chosen ++ [c]) w p' := by
  obtain ⟨A, B, hAB, hB, hA, hs⟩ :=
    sort_new_entry_spec ((chosen.length : ℤ), ed w (W.getD c [])) p.row []
  rw [h.length_row, List.append_nil] at hs
  have hu : update_point (ed w (W.getD c [])) chosen.length p
      = some ⟨A ++ ((chosen.length : ℤ), ed w (W.getD c [])) :: B,
          if ((ed w (W.getD c []) : ℚ) : WithTop ℚ) < p.dist_to_L
          then ((ed w (W.getD c []) : ℚ) : WithTop ℚ) else p.dist_to_L⟩ := by
    simp only [update_point, hs]
  refine ⟨_, hu, ?_, ?_, ?_⟩
  · refine List.perm_middle.trans ?_
    rw [hAB, List.enum_append, List.map_append, List.enumFrom_singleton, List.map_singleton]
    exact ((h.1.cons _).trans (List.perm_append_singleton _ _).symm)
  · refine rowOrder_insert (by rw [hAB]; exact h.2.1) ?_ hB hA
    rw [hAB]
    exact h.id_lt
  · show (if ((ed w (W.getD c []) : ℚ) : WithTop ℚ) < p.dist_to_L
        then ((ed w (W.getD c []) : ℚ) : WithTop ℚ) else p.dist_to_L) = _
    rw [dist_to_landmarks, List.map_append, List.map_singleton, List.minimum_concat,
      ← dist_to_landmarks, ← h.2.2]
    by_cases hlt : ((ed w (W.getD c []) : ℚ) : WithTop ℚ) < p.dist_to_L
    · rw [if_pos hlt, inf_eq_right.2 (le_of_lt hlt)]
    · rw [if_neg hlt, inf_eq_left.2 (not_lt.1 hlt)]

/-- The loop over the points reads inside `W` and keeps the invariant of every
point, for the landmark `c` added to those chosen. -/
theorem update_points_spec {ed : List ℚ → List ℚ → ℚ} {W : List (List ℚ)}
    {chosen : List ℕ} (c : ℕ) {ws : List (List ℚ)} {ps : List Point_state}
    (h : List.Forall₂ (PointInv ed W chosen) ws ps) :
    ∀ i : ℕ, (∀ k, k < ws.length → W[i + k]? = ws[k]?) →
      ∃ ps', update_points ed W (W.getD c []) chosen.length i ps = some ps' ∧
        List.Forall₂ (PointInv ed W (chosen ++ [c])) ws ps' := by
  induction h with
  | nil =>
    intro i _
    exact ⟨[], rfl, List.Forall₂.nil⟩
  | @cons w p ws ps hp _ ih =>
    intro i hW
    have h0 : W[i]? = some w := by
      have := hW 0 (by simp)
      simpa using this
    obtain ⟨p', hp', hinv⟩ := update_point_spec hp c
    obtain ⟨ps', hps', hall⟩ := ih (i + 1) (fun k hk => by
      have := hW (k + 1) (by simpa using hk)
      rw [List.getElem?_cons_succ] at this
      rw [← this]
      congr 1
      omega)
    exact ⟨p' :: ps', by simp only [update_points, h0, hp', hps'], List.Forall₂.cons hinv hall⟩

/-! ## Landmark selection by furthest points: the furthest point -/

/-- The search of the furthest point leaves the greatest of `curr_max_dist` and
the distances; when no distance is above `curr_max_dist` it changes nothing; when
one is, it leaves the first point at the greatest distance. -/
theorem furthest_point_spec (ds : List (WithTop ℚ)) :
    ∀ (i : ℕ) (acc : WithTop ℚ × ℕ),
      (acc.1 ≤ (furthest_point i ds acc).1 ∧ ∀ d ∈ ds, d ≤ (furthest_point i ds acc).1) ∧
      ((∀ d ∈ ds, d ≤ acc.1) → furthest_point i ds acc = acc) ∧
      ((∃ d ∈ ds, acc.1 < d) →
        i ≤ (furthest_point i ds acc).2 ∧
        ds[(furthest_point i ds acc).2 - i]? = some (furthest_point i ds acc).1 ∧
        ∀ k, k < (furthest_point i ds acc).2 - i → ∀ d, ds[k]? = some d →
          d < (furthest_point i ds acc).1) := by
  induction ds with
  | nil =>
    intro i acc
    refine ⟨⟨le_refl _, by simp⟩, fun _ => rfl, ?_⟩
    rintro ⟨d, hd, -⟩
    simp at hd
  | cons d ds ih =>
    intro i acc
    by_cases hgt : d > acc.1
    · have hr : furthest_point i (d :: ds) acc = furthest_point (i + 1) ds (d, i) := by
        simp only [furthest_point, if_pos hgt]
      rw [hr]
      obtain ⟨⟨h1, h2⟩, h3, h4⟩ := ih (i + 1) (d, i)
      refine ⟨⟨le_trans (le_of_lt hgt) h1, ?_⟩, ?_, ?_⟩
      · intro e he
        rcases List.mem_cons.1 he with rfl | he
        · exact h1
        · exact h2 e he
      · intro hall
        exact absurd (hall d (List.mem_cons_self _ _)) (not_le.2 hgt)
      · intro _
        by_cases hall : ∀ e ∈ ds, e ≤ d
        · rw [h3 hall]
          refine ⟨le_refl _, by simp, ?_⟩
          intro k hk
          simp at hk
        · push_neg at hall
          obtain ⟨e, he, hde⟩ := hall
          obtain ⟨g1, g2, g3⟩ := h4 ⟨e, he, hde⟩
          have hsub : (furthest_point (i + 1) ds (d, i)).2 - i
              = ((furthest_point (i + 1) ds (d, i)).2 - (i + 1)) + 1 := by omega
          refine ⟨by omega, ?_, ?_⟩
          · rw [hsub, List.getElem?_cons_succ]
            exact g2
          · intro k hk x hx
            cases k with
            | zero =>
              simp only [List.getElem?_cons_zero, Option.some.injEq] at hx
              subst hx
              exact lt_of_lt_of_le hde (h2 e he)
            | succ k =>
              rw [List.getElem?_cons_succ] at hx
              exact g3 k (by omega) x hx
    · have hr : furthest_point i (d :: ds) acc = furthest_point (i + 1) ds acc := by
        simp only [furthest_point, if_neg hgt]
      rw [hr]
      obtain ⟨⟨h1, h2⟩, h3, h4⟩ := ih (i + 1) acc
      refine ⟨⟨h1, ?_⟩, ?_, ?_⟩
      · intro e he
        rcases List.mem_cons.1 he with rfl | he
        · exact le_trans (not_lt.1 hgt) h1
        · exact h2 e he
      · intro hall
        exact h3 (fun e he => hall e (List.mem_cons_of_mem _ he))
      · rintro ⟨e, he, hae⟩
        have he' : e ∈ ds := by
          rcases List.mem_cons.1 he with rfl | he
          · exact absurd hae hgt
          · exact he
        obtain ⟨g1, g2, g3⟩ := h4 ⟨e, he', hae⟩
        have hsub : (furthest_point (i + 1) ds acc).2 - i
            = ((furthest_point (i + 1) ds acc).2 - (i + 1)) + 1 := by omega
        refine ⟨by omega, ?_, ?_⟩
        · rw [hsub, List.getElem?_cons_succ]
          exact g2
        · intro k hk x hx
          cases k with
          | zero =>
            simp only [List.getElem?_cons_zero, Option.some.injEq] at hx
            subst hx
            exact lt_of_le_of_lt (not_lt.1 hgt) (lt_of_lt_of_le hae (h2 e he'))
          | succ k =>
            rw [List.getElem?_cons_succ] at hx
            exact g3 k (by omega) x hx

/-- Under the invariant of the points, `dist_to_L` lists the distances from the
points to the set of the landmarks chosen. -/
theorem dist_to_L_eq {ed : List ℚ → List ℚ → ℚ} {W : List (List ℚ)} {chosen : List ℕ}
    {ws : List (List ℚ)} {ps : List Point_state}
    (h : List.Forall₂ (PointInv ed W chosen) ws ps) :
    ps.map Point_state.dist_to_L = ws.map (dist_to_landmarks ed W chosen) := by
  induction h with
  | nil => rfl
  | cons hp _ ih => rw [List.map_cons, List.map_cons, ih, hp.2.2]

/-- Before the first iteration the invariant of the points holds. -/
theorem pointInv_replicate (ed : List ℚ → List ℚ → ℚ) (W : List (List ℚ))
    (ws : List (List ℚ)) :
    List.Forall₂ (PointInv ed W []) ws (List.replicate ws.length ⟨[], ⊤⟩) := by
  induction ws with
  | nil => exact List.Forall₂.nil
  | cons w ws ih =>
    refine List.Forall₂.cons ⟨?_, List.Pairwise.nil, ?_⟩ ih
    · exact List.Perm.refl _
    · simp [dist_to_landmarks]

/-- The invariant holds before the first iteration of
`landmark_choice_by_furthest_points`. -/
theorem furthestInv_start (ed : List ℚ → List ℚ → ℚ) (W : List (List ℚ)) (rand : ℕ) {n : ℕ}
    (hn : 0 < n) (hW : n ≤ W.length) :
    FurthestInv ed W n 0 ⟨[], List.replicate n ⟨[], ⊤⟩, 0, rand % n⟩ := by
  refine ⟨rfl, by simp, Nat.mod_lt _ hn, ?_⟩
  have hlen : (W.take n).length = n := by rw [List.length_take]; exact min_eq_left hW
  have := pointInv_replicate ed W (W.take n)
  rw [hlen] at this
  exact this

/-- One iteration of the outer loop reads inside `W`, adds the point `curr_max_w` to
the landmarks chosen, keeps the invariant, and leaves in `curr_max_dist` and
`curr_max_w` the outcome of the search of the furthest point, started from `0` and
the landmark just added. -/
theorem furthest_step_spec {ed : List ℚ → List ℚ → ℚ} {W : List (List ℚ)} {n t : ℕ}
    {s : Furthest_state} (hW : n ≤ W.length) (h : FurthestInv ed W n t s) :
    ∃ s', furthest_step ed W t s = some s' ∧
      s'.chosen_landmarks = s.chosen_landmarks ++ [s.curr_max_w] ∧
      FurthestInv ed W n (t + 1) s' ∧
      (s'.curr_max_dist, s'.curr_max_w)
        = furthest_point 0 ((W.take n).map (dist_to_landmarks ed W s'.chosen_landmarks))
            (0, s.curr_max_w) := by
  have hlen : (W.take n).length = n := by rw [List.length_take]; exact min_eq_left hW
  have hc : (s.chosen_landmarks ++ [s.curr_max_w])[t]? = some s.curr_max_w := by
    rw [← h.length_chosen, List.getElem?_append_right (le_refl _)]; simp
  have hlt : s.curr_max_w < W.length := lt_of_lt_of_le h.curr_max_w_lt hW
  have hl : W[s.curr_max_w]? = some (W.getD s.curr_max_w []) := by
    rw [List.getD_eq_getElem?_getD, List.getElem?_eq_getElem hlt]; rfl
  obtain ⟨ps', hps', hall⟩ := update_points_spec s.curr_max_w h.points 0 (fun k hk => by
    rw [hlen] at hk
    rw [Nat.zero_add, List.getElem?_take, if_pos hk])
  rw [h.length_chosen] at hps'
  have hd := dist_to_L_eq hall
  obtain ⟨-, h2, h3⟩ := furthest_point_spec (ps'.map Point_state.dist_to_L) 0 (0, s.curr_max_w)
  refine ⟨⟨s.chosen_landmarks ++ [s.curr_max_w], ps',
      (furthest_point 0 (ps'.map Point_state.dist_to_L) (0, s.curr_max_w)).1,
      (furthest_point 0 (ps'.map Point_state.dist_to_L) (0, s.curr_max_w)).2⟩,
    ?_, rfl, ⟨?_, ?_, ?_, hall⟩, ?_⟩
  · simp only [furthest_step, hc, hl, hps']
  · simp [h.length_chosen]
  · intro l hl'
    rcases List.mem_append.1 hl' with hm | hm
    · exact h.chosen_lt l hm
    · rw [List.mem_singleton.1 hm]; exact h.curr_max_w_lt
  · show (furthest_point 0 (ps'.map Point_state.dist_to_L) (0, s.curr_max_w)).2 < n
    by_cases hex : ∃ d ∈ ps'.map Point_state.dist_to_L, (0 : WithTop ℚ) < d
    · obtain ⟨-, g2, -⟩ := h3 hex
      have := (List.getElem?_eq_some.1 g2).1
      rw [List.length_map, ← hall.length_eq, hlen] at this
      omega
    · push_neg at hex
      rw [h2 (fun d hd' => hex d hd')]
      exact h.curr_max_w_lt
  · show (_, _) = furthest_point 0 _ _
    rw [← hd]

/-- Every number of iterations of the outer loop is reached, with the invariant. -/
theorem furthest_loop_spec {ed : List ℚ → List ℚ → ℚ} {W : List (List ℚ)} {n : ℕ}
    {s0 : Furthest_state} (hW : n ≤ W.length) (h0 : FurthestInv ed W n 0 s0) :
    ∀ t, ∃ s, furthest_loop ed W s0 t = some s ∧ FurthestInv ed W n t s := by
  intro t
  induction t with
  | zero => exact ⟨s0, rfl, h0⟩
  | succ t ih =>
    obtain ⟨s, hs, hinv⟩ := ih
    obtain ⟨s', hs', -, hinv', -⟩ := furthest_step_spec hW hinv
    exact ⟨s', by simp only [furthest_loop, hs, hs'], hinv'⟩

/-- The landmarks chosen after `t` iterations are the first `t` landmarks chosen
after `m ≥ t` iterations, and the next one is the point `curr_max_w` left by the
iteration `t`. -/
theorem furthest_loop_take {ed : List ℚ → List ℚ → ℚ} {W : List (List ℚ)} {n : ℕ}
    {s0 : Furthest_state} (hW : n ≤ W.length) (h0 : FurthestInv ed W n 0 s0) :
    ∀ (m : ℕ) (s : Furthest_state), furthest_loop ed W s0 m = some s →
      ∀ t, t ≤ m → ∃ st, furthest_loop ed W s0 t = some st ∧ FurthestInv ed W n t st ∧
        st.chosen_landmarks = s.chosen_landmarks.take t ∧
        (t < m → s.chosen_landmarks[t]? = some st.curr_max_w) := by
  intro m
  induction m with
  | zero =>
    intro s hs t ht
    obtain rfl : t = 0 := by omega
    simp only [furthest_loop, Option.some.injEq] at hs
    subst hs
    refine ⟨s0, rfl, h0, ?_, by omega⟩
    rw [List.take_zero]
    exact List.length_eq_zero.1 h0.length_chosen
  | succ m ih =>
    intro s hs t ht
    obtain ⟨sm, hsm, hinv⟩ := furthest_loop_spec hW h0 m
    obtain ⟨s', hs', hch, hinv', -⟩ := furthest_step_spec hW hinv
    have hss : s = s' := by
      simp only [furthest_loop, hsm, hs'] at hs
      exact (Option.some.inj hs).symm
    subst hss
    by_cases htm : t ≤ m
    · obtain ⟨st, g1, g2, g3, g4⟩ := ih sm hsm t htm
      refine ⟨st, g1, g2, ?_, ?_⟩
      · rw [g3, hch, List.take_append_of_le_length (by rw [hinv.length_chosen]; exact htm)]
      · intro _
        rcases Nat.lt_or_ge t m with hlt | hge
        · rw [hch, List.getElem?_append_left (by rw [hinv.length_chosen]; exact hlt)]
          exact g4 hlt
        · obtain rfl : t = m := by omega
          have hst : st = sm := by
            rw [hsm] at g1
            exact (Option.some.inj g1).symm
          rw [hch, hst, List.getElem?_append_right (by rw [hinv.length_chosen])]
          simp [hinv.length_chosen]
    · obtain rfl : t = m + 1 := by omega
      refine ⟨s, ?_, hinv', ?_, by omega⟩
      · simp only [furthest_loop, hsm, hs']
      · rw [List.take_of_length_le (by rw [hinv'.length_chosen])]

/-! ## Landmark selection by furthest points: the outcome -/

/-- With at least one point and a number of landmarks which is not negative,
`landmark_choice_by_furthest_points` is its outer loop run `nbL` times. -/
theorem landmark_choice_by_furthest_points_eq (ed : List ℚ → List ℚ → ℚ) (rand : ℕ)
    {nbL nbP : ℤ} (W : List (List ℚ)) (hP : 1 ≤ nbP) (hL : 0 ≤ nbL) :
    landmark_choice_by_furthest_points ed rand nbL W nbP
      = furthest_loop ed W ⟨[], List.replicate nbP.toNat ⟨[], ⊤⟩, 0, rand % nbP.toNat⟩
          nbL.toNat := by
  have hg : ¬ (nbP ≤ 0 ∨ nbL < 0) := by omega
  simp only [landmark_choice_by_furthest_points, if_neg hg]

/-- With at least one point, all of them in `W`, and a number of landmarks which is
not negative, `landmark_choice_by_furthest_points` returns, and the invariant
holds of what it leaves. -/
theorem landmark_choice_by_furthest_points_inv (ed : List ℚ → List ℚ → ℚ) (rand : ℕ)
    {nbL nbP : ℤ} {W : List (List ℚ)} (hP : 1 ≤ nbP) (hW : nbP ≤ W.length) (hL : 0 ≤ nbL) :
    ∃ s, landmark_choice_by_furthest_points ed rand nbL W nbP = some s ∧
      FurthestInv ed W nbP.toNat nbL.toNat s := by
  rw [landmark_choice_by_furthest_points_eq ed rand W hP hL]
  exact furthest_loop_spec (by omega) (furthestInv_start ed W rand (by omega) (by omega)) _

/-- Entries at the same place of two lists related entry by entry are related. -/
theorem forall₂_getElem?_right {α β : Type} {R : α → β → Prop} {l₁ : List α} {l₂ : List β}
    (h : List.Forall₂ R l₁ l₂) :
    ∀ (i : ℕ) (b : β), l₂[i]? = some b → ∃ a, l₁[i]? = some a ∧ R a b := by
  induction h with
  | nil => intro i b hb; simp at hb
  | cons hab _ ih =>
    intro i b hb
    cases i with
    | zero =>
      simp only [List.getElem?_cons_zero, Option.some.injEq] at hb
      subst hb
      exact ⟨_, List.getElem?_cons_zero, hab⟩
    | succ i =>
      rw [List.getElem?_cons_succ] at hb
      obtain ⟨a, ha, hR⟩ := ih i b hb
      exact ⟨a, by rw [List.getElem?_cons_succ]; exact ha, hR⟩

/-- The point of index `i` among the first `n` points of `W`. -/
theorem getElem?_take_eq_getD {W : List (List ℚ)} {n i : ℕ} {w : List ℚ}
    (h : (W.take n)[i]? = some w) : i < n ∧ w = W.getD i [] := by
  rw [List.getElem?_take] at h
  by_cases hi : i < n
  · rw [if_pos hi] at h
    refine ⟨hi, ?_⟩
    rw [List.getD_eq_getElem?_getD, h]
    rfl
  · rw [if_neg hi] at h
    cases h

/-- The row of a point which satisfies the invariant lists every landmark id once,
and the distance kept with an id is the distance to the landmark of this id. -/
theorem PointInv.row_spec {ed : List ℚ → List ℚ → ℚ} {W : List (List ℚ)}
    {chosen : List ℕ} {w : List ℚ} {p : Point_state} (h : PointInv ed W chosen w p) :
    (p.row.map Prod.fst).Perm ((List.range chosen.length).map Int.ofNat) ∧
    ∀ e ∈ p.row, e.2 = ed w (W.getD (chosen.getD e.1.toNat 0) []) := by
  constructor
  · have := h.1.map Prod.fst
    rw [List.map_map] at this
    have hf : (Prod.fst ∘ fun lc : ℕ × ℕ => ((lc.1 : ℤ), ed w (W.getD lc.2 [])))
        = Int.ofNat ∘ Prod.fst := rfl
    rw [hf, ← List.map_map, List.enum_map_fst] at this
    exact this
  · intro e he
    obtain ⟨lc, hlc, rfl⟩ := List.mem_map.1 (h.1.mem_iff.1 he)
    have hget : chosen[lc.1]? = some lc.2 := List.mk_mem_enum_iff_getElem?.1 hlc
    show ed w (W.getD lc.2 []) = ed w (W.getD (chosen.getD (Int.toNat (lc.1 : ℤ)) 0) [])
    have hD : chosen.getD lc.1 0 = lc.2 := by
      rw [List.getD_eq_getElem?_getD, hget]
      rfl
    rw [Int.toNat_ofNat, hD]

/-- C15: with `nbL = 0` and at least one point, `landmark_choice_by_furthest_points`
returns without a read of `W`; no landmark is chosen and the output table `WL`
has `nbP` rows, all empty. -/
theorem furthest_points_no_landmark (ed : List ℚ → List ℚ → ℚ) (rand : ℕ)
    (W : List (List ℚ)) (nbP : ℤ) (hP : 1 ≤ nbP) :
    ∃ s, landmark_choice_by_furthest_points ed rand 0 W nbP = some s ∧
      s.chosen_landmarks = [] ∧ s.WL.length = nbP.toNat ∧ (∀ row ∈ s.WL, row = []) ∧
      s.WL = List.replicate nbP.toNat [] := by
  refine ⟨⟨[], List.replicate nbP.toNat ⟨[], ⊤⟩, 0, rand % nbP.toNat⟩, ?_, rfl, ?_, ?_, ?_⟩
  · rw [landmark_choice_by_furthest_points_eq ed rand W hP (le_refl 0)]
    rfl
  · simp [Furthest_state.WL]
  · intro row hrow
    simp only [Furthest_state.WL, List.map_replicate, List.map_nil] at hrow
    exact (List.mem_replicate.1 hrow).2
  · simp [Furthest_state.WL]

/-- An instance of the empty selection: two points of the line. -/
theorem furthest_points_no_landmark_witness :
    (1 : ℤ) ≤ 2 ∧
    ∃ s, landmark_choice_by_furthest_points line_distance 7 0 [[0], [1]] 2 = some s ∧
      s.chosen_landmarks = [] ∧ s.WL.length = (2 : ℤ).toNat ∧ (∀ row ∈ s.WL, row = []) ∧
      s.WL = List.replicate (2 : ℤ).toNat [] :=
  ⟨by decide, furthest_points_no_landmark line_distance 7 [[0], [1]] 2 (by decide)⟩

/-- C16: for at least one point, all of them in `W`, and `nbL ≥ 0`,
`landmark_choice_by_furthest_points` returns; `nbL` landmarks are chosen, the table
`WL` has `nbP` rows, and each row `WL[i]` lists every landmark id of `0..nbL-1`
exactly once, the id `t` being that of the `t`-th landmark chosen, in
non-decreasing order of the distance from the point `i` to the landmark. -/
theorem furthest_points_rows (ed : List ℚ → List ℚ → ℚ) (rand : ℕ) (nbL nbP : ℤ)
    (W : List (List ℚ)) (hP : 1 ≤ nbP) (hW : nbP ≤ W.length) (hL : 0 ≤ nbL) :
    ∃ s, landmark_choice_by_furthest_points ed rand nbL W nbP = some s ∧
      s.chosen_landmarks.length = nbL.toNat ∧ s.WL.length = nbP.toNat ∧
      ∀ (i : ℕ) (row : List ℤ), s.WL[i]? = some row →
        row.Perm ((List.range nbL.toNat).map Int.ofNat) ∧
        (row.map (fun l => ed (W.getD i [])
          (W.getD (s.chosen_landmarks.getD l.toNat 0) []))).Pairwise (· ≤ ·) := by
  obtain ⟨s, hs, hinv⟩ := landmark_choice_by_furthest_points_inv ed rand hP hW hL
  refine ⟨s, hs, hinv.length_chosen, ?_, ?_⟩
  · rw [Furthest_state.WL, List.length_map, ← hinv.points.length_eq, List.length_take]
    exact min_eq_left (by omega)
  · intro i row hrow
    rw [Furthest_state.WL, List.getElem?_map] at hrow
    cases hp : s.points[i]? with
    | none => rw [hp] at hrow; cases hrow
    | some p =>
      rw [hp, Option.map_some', Option.some.injEq] at hrow
      subst hrow
      obtain ⟨w, hw, hpi⟩ := forall₂_getElem?_right hinv.points i p hp
      obtain ⟨-, rfl⟩ := getElem?_take_eq_getD hw
      obtain ⟨h1, h2⟩ := hpi.row_spec
      rw [hinv.length_chosen] at h1
      refine ⟨h1, ?_⟩
      rw [List.map_map, List.pairwise_map]
      refine hpi.2.1.imp_of_mem ?_
      intro a b ha hb hab
      show ed _ _ ≤ ed _ _
      rw [← h2 a ha, ← h2 b hb]
      rcases hab with h | h
      · exact le_of_lt h
      · exact le_of_eq h.1

/-- An instance of the rows: six points of the line, four landmarks. -/
theorem furthest_points_rows_witness :
    (1 : ℤ) ≤ 6 ∧ (6 : ℤ) ≤ [[(0 : ℚ)], [1], [2], [3], [4], [5]].length ∧ (0 : ℤ) ≤ 4 ∧
    ∃ s, landmark_choice_by_furthest_points line_distance 0 4
        [[0], [1], [2], [3], [4], [5]] 6 = some s ∧
      s.chosen_landmarks.length = (4 : ℤ).toNat ∧ s.WL.length = (6 : ℤ).toNat ∧
      ∀ (i : ℕ) (row : List ℤ), s.WL[i]? = some row →
        row.Perm ((List.range (4 : ℤ).toNat).map Int.ofNat) ∧
        (row.map (fun l => line_distance (List.getD [[0], [1], [2], [3], [4], [5]] i [])
          (List.getD [[0], [1], [2], [3], [4], [5]]
            (s.chosen_landmarks.getD l.toNat 0) []))).Pairwise (· ≤ ·) :=
  ⟨by decide, by decide, by decide,
    furthest_points_rows line_distance 0 4 6 [[0], [1], [2], [3], [4], [5]]
      (by decide) (by decide) (by decide)⟩

/-! ## Landmark selection by furthest points: the landmarks chosen -/

/-- A list of fewer than `n` numbers misses a number below `n`. -/
theorem exists_lt_not_mem (l : List ℕ) (n : ℕ) (h : l.length < n) : ∃ i, i < n ∧ i ∉ l := by
  by_contra hcon
  push_neg at hcon
  have hsub : Finset.range n ⊆ l.toFinset := by
    intro i hi
    exact List.mem_toFinset.2 (hcon i (Finset.mem_range.1 hi))
  have := Finset.card_le_card hsub
  rw [Finset.card_range] at this
  exact absurd (le_trans this (List.toFinset_card_le l)) (not_le.2 h)

/-- A list without repetition of numbers below `n` has at most `n` entries. -/
theorem length_le_of_nodup_lt (l : List ℕ) (n : ℕ) (hl : ∀ x ∈ l, x < n) (hn : l.Nodup) :
    l.length ≤ n := by
  have hsub : l.toFinset ⊆ Finset.range n := by
    intro i hi
    exact Finset.mem_range.2 (hl i (List.mem_toFinset.1 hi))
  have := Finset.card_le_card hsub
  rwa [Finset.card_range, List.toFinset_card_of_nodup hn] at this

/-- A bound strictly below every entry of a list is strictly below its minimum. -/
theorem coe_lt_minimum (l : List ℚ) (b : ℚ) (h : ∀ a ∈ l, b < a) :
    (b : WithTop ℚ) < l.minimum := by
  cases hm : l.minimum with
  | top => exact WithTop.coe_lt_top b
  | coe m => exact WithTop.coe_lt_coe.2 (h m (List.minimum_mem hm))

/-- The entry of index `k` of the list of the distances from the first `n` points
to the set of the landmarks. -/
theorem dist_list_getElem? (f : List ℚ → WithTop ℚ) {W : List (List ℚ)} {n k : ℕ}
    (hW : n ≤ W.length) (hk : k < n) :
    ((W.take n).map f)[k]? = some (f (W.getD k [])) := by
  have hkW : k < W.length := lt_of_lt_of_le hk hW
  rw [List.getElem?_map, List.getElem?_take, if_pos hk, List.getElem?_eq_getElem hkW,
    List.getD_eq_getElem _ _ hkW]
  rfl

/-- When the points are pairwise at strictly positive distance, and each at
distance `0` from itself, the landmarks chosen are pairwise distinct as long as
there are not more of them than points, and the next landmark is a new one. -/
theorem furthest_loop_nodup {ed : List ℚ → List ℚ → ℚ} {W : List (List ℚ)} {n : ℕ}
    {s0 : Furthest_state} (hW : n ≤ W.length) (h0 : FurthestInv ed W n 0 s0)
    (hpos : ∀ i j, i < n → j < n → i ≠ j → 0 < ed (W.getD i []) (W.getD j []))
    (hzero : ∀ i, i < n → ed (W.getD i []) (W.getD i []) ≤ 0) :
    ∀ t, t ≤ n → ∀ s, furthest_loop ed W s0 t = some s →
      s.chosen_landmarks.Nodup ∧ (t < n → s.curr_max_w ∉ s.chosen_landmarks) := by
  intro t
  induction t with
  | zero =>
    intro _ s hs
    simp only [furthest_loop, Option.some.injEq] at hs
    subst hs
    rw [List.length_eq_zero.1 h0.length_chosen]
    exact ⟨List.nodup_nil, fun _ => List.not_mem_nil _⟩
  | succ t ih =>
    intro ht s hs
    obtain ⟨sm, hsm, hinv⟩ := furthest_loop_spec hW h0 t
    obtain ⟨s', hs', hch, hinv', hfp⟩ := furthest_step_spec hW hinv
    have hss : s = s' := by
      simp only [furthest_loop, hsm, hs'] at hs
      exact (Option.some.inj hs).symm
    subst hss
    obtain ⟨hnd, hnot⟩ := ih (by omega) sm hsm
    have hnd' : s.chosen_landmarks.Nodup := by
      rw [hch]
      exact List.nodup_append.2
        ⟨hnd, List.nodup_singleton _, List.disjoint_singleton.2 (hnot (by omega))⟩
    refine ⟨hnd', ?_⟩
    intro ht1 hmem
    obtain ⟨i, hi, hil⟩ := exists_lt_not_mem s.chosen_landmarks n
      (by rw [hinv'.length_chosen]; exact ht1)
    have hfar : (0 : WithTop ℚ) < dist_to_landmarks ed W s.chosen_landmarks (W.getD i []) := by
      refine coe_lt_minimum _ 0 ?_
      intro a ha
      obtain ⟨c, hc, rfl⟩ := List.mem_map.1 ha
      exact hpos i c hi (hinv'.chosen_lt c hc) (fun h => hil (h ▸ hc))
    obtain ⟨⟨-, g1⟩, -, g3⟩ := furthest_point_spec
      ((W.take n).map (dist_to_landmarks ed W s.chosen_landmarks)) 0 (0, sm.curr_max_w)
    rw [← hfp] at g1 g3
    have hi_mem := List.getElem?_mem (dist_list_getElem?
      (dist_to_landmarks ed W s.chosen_landmarks) hW hi)
    obtain ⟨-, g4, -⟩ := g3 ⟨_, hi_mem, hfar⟩
    rw [Nat.sub_zero, dist_list_getElem? _ hW hinv'.curr_max_w_lt, Option.some.injEq] at g4
    have hle : dist_to_landmarks ed W s.chosen_landmarks (W.getD s.curr_max_w [])
        ≤ ((ed (W.getD s.curr_max_w []) (W.getD s.curr_max_w []) : ℚ) : WithTop ℚ) :=
      List.minimum_le_of_mem' (List.mem_map.2 ⟨s.curr_max_w, hmem, rfl⟩)
    have h0' : ((ed (W.getD s.curr_max_w []) (W.getD s.curr_max_w []) : ℚ) : WithTop ℚ)
        ≤ 0 := WithTop.coe_le_coe.2 (hzero _ hinv'.curr_max_w_lt)
    have hcontra := lt_of_lt_of_le hfar (g1 _ hi_mem)
    rw [← g4] at hcontra
    exact absurd (le_trans hle h0') (not_le.2 hcontra)

/-- C12 (what the code does): on two points at the same place, with the first pick
`1` and `nbL = nbP = 2`, the landmarks chosen are the point `1` twice: when no
point is at a strictly positive distance from the landmarks, the search of the
furthest point keeps the last landmark. -/
theorem furthest_points_repeated :
    (1 : ℤ) ≤ 2 ∧ (0 : ℤ) ≤ 2 ∧ (2 : ℤ) ≤ 2 ∧ [[(0 : ℚ)], [0]].length = 2 ∧
    (landmark_choice_by_furthest_points line_distance 1 2 [[0], [0]] 2).map
      (fun s => s.chosen_landmarks) = some [1, 1] ∧
    ¬ ([1, 1] : List ℕ).Nodup := by
  decide!

/-- C12 (amended): for at least one point, all of them in `W`, and
`0 ≤ nbL ≤ nbP`, `landmark_choice_by_furthest_points` returns and the landmarks
chosen are `nbL` indices of `[0, nbP)`, for every first pick; they are pairwise
distinct when the points are pairwise at strictly positive distance, each of them
at distance `0` from itself. -/
theorem furthest_points_distinct (ed : List ℚ → List ℚ → ℚ) (rand : ℕ) (nbL nbP : ℤ)
    (W : List (List ℚ)) (hP : 1 ≤ nbP) (hW : nbP ≤ W.length) (hL : 0 ≤ nbL)
    (hLP : nbL ≤ nbP) :
    ∃ s, landmark_choice_by_furthest_points ed rand nbL W nbP = some s ∧
      s.chosen_landmarks.length = nbL.toNat ∧
      (∀ l ∈ s.chosen_landmarks, l < nbP.toNat) ∧
      ((∀ i, i < nbP.toNat → ∀ j, j < nbP.toNat → i ≠ j →
          0 < ed (W.getD i []) (W.getD j [])) →
        (∀ i, i < nbP.toNat → ed (W.getD i []) (W.getD i []) ≤ 0) →
        s.chosen_landmarks.Nodup) := by
  obtain ⟨s, hs, hinv⟩ := landmark_choice_by_furthest_points_inv ed rand hP hW hL
  refine ⟨s, hs, hinv.length_chosen, hinv.chosen_lt, ?_⟩
  intro hpos hzero
  rw [landmark_choice_by_furthest_points_eq ed rand W hP hL] at hs
  exact (furthest_loop_nodup (by omega) (furthestInv_start ed W rand (by omega) (by omega))
    (fun i j hi hj => hpos i hi j hj) hzero nbL.toNat (by omega) s hs).1

/-- An instance of the distinct landmarks: four points of the line, three
landmarks. -/
theorem furthest_points_distinct_witness :
    (1 : ℤ) ≤ 4 ∧ (4 : ℤ) ≤ [[(0 : ℚ)], [1], [3], [7]].length ∧ (0 : ℤ) ≤ 3 ∧ (3 : ℤ) ≤ 4 ∧
    ∃ s, landmark_choice_by_furthest_points line_distance 2 3 [[0], [1], [3], [7]] 4
        = some s ∧
      s.chosen_landmarks.length = (3 : ℤ).toNat ∧
      (∀ l ∈ s.chosen_landmarks, l < (4 : ℤ).toNat) ∧ s.chosen_landmarks.Nodup :=
  let ⟨s, h1, h2, h3, h4⟩ := furthest_points_distinct line_distance 2 3 4
    [[0], [1], [3], [7]] (by decide) (by decide) (by decide) (by decide)
  ⟨by decide, by decide, by decide, by decide, s, h1, h2, h3, h4 (by decide!) (by decide!)⟩

/-- C14 (what the code does): with `nbL = 3` landmarks asked among `nbP = 2` points
the call returns: the landmarks chosen are `0`, `1`, `1`, and each row of the
table lists three ids. -/
theorem furthest_points_more_landmarks_than_points :
    (landmark_choice_by_furthest_points line_distance 0 3 [[0], [1]] 2).map
      (fun s => (s.chosen_landmarks, s.WL))
      = some ([0, 1, 1], [[0, 1, 2], [1, 2, 0]]) := by
  decide!

/-- C14 (amended): called with `nbL > nbP`, for at least one point, all of them
in `W`, `landmark_choice_by_furthest_points` does not fail: it returns `nbL`
landmarks, indices of `[0, nbP)` one of which at least is repeated, and a table
of `nbP` rows of `nbL` ids. -/
theorem furthest_points_no_guard (ed : List ℚ → List ℚ → ℚ) (rand : ℕ) (nbL nbP : ℤ)
    (W : List (List ℚ)) (hP : 1 ≤ nbP) (hW : nbP ≤ W.length) (hLP : nbP < nbL) :
    ∃ s, landmark_choice_by_furthest_points ed rand nbL W nbP = some s ∧
      s.chosen_landmarks.length = nbL.toNat ∧
      (∀ l ∈ s.chosen_landmarks, l < nbP.toNat) ∧ ¬ s.chosen_landmarks.Nodup ∧
      s.WL.length = nbP.toNat ∧ ∀ row ∈ s.WL, row.length = nbL.toNat := by
  obtain ⟨s, hs, hinv⟩ :=
    landmark_choice_by_furthest_points_inv ed rand hP hW (by omega : 0 ≤ nbL)
  refine ⟨s, hs, hinv.length_chosen, hinv.chosen_lt, ?_, ?_, ?_⟩
  · intro hnd
    have := length_le_of_nodup_lt _ _ hinv.chosen_lt hnd
    rw [hinv.length_chosen] at this
    omega
  · rw [Furthest_state.WL, List.length_map, ← hinv.points.length_eq, List.length_take]
    exact min_eq_left (by omega)
  · intro row hrow
    obtain ⟨p, hp, rfl⟩ := List.mem_map.1 hrow
    obtain ⟨i, hi⟩ := List.mem_iff_getElem?.1 hp
    obtain ⟨w, -, hpi⟩ := forall₂_getElem?_right hinv.points i p hi
    rw [List.length_map, hpi.length_row, hinv.length_chosen]

/-- An instance of the call with more landmarks than points: two points, three
landmarks. -/
theorem furthest_points_no_guard_witness :
    (1 : ℤ) ≤ 2 ∧ (2 : ℤ) ≤ [[(0 : ℚ)], [1]].length ∧ (2 : ℤ) < 3 ∧
    ∃ s, landmark_choice_by_furthest_points line_distance 0 3 [[0], [1]] 2 = some s ∧
      s.chosen_landmarks.length = (3 : ℤ).toNat ∧
      (∀ l ∈ s.chosen_landmarks, l < (2 : ℤ).toNat) ∧ ¬ s.chosen_landmarks.Nodup ∧
      s.WL.length = (2 : ℤ).toNat ∧ ∀ row ∈ s.WL, row.length = (3 : ℤ).toNat :=
  ⟨by decide, by decide, by decide,
    furthest_points_no_guard line_distance 0 3 2 [[0], [1]] (by decide) (by decide)
      (by decide)⟩

/-! ## Landmark selection by furthest points: the greedy step -/

/-- The landmark chosen after `t ≥ 1` landmarks is the outcome of the search of
the furthest point from these landmarks, started from `0` and the landmark `t`. -/
theorem furthest_loop_next {ed : List ℚ → List ℚ → ℚ} {W : List (List ℚ)} {n : ℕ}
    {s0 : Furthest_state} (hW : n ≤ W.length) (h0 : FurthestInv ed W n 0 s0)
    {m : ℕ} {s : Furthest_state} (hs : furthest_loop ed W s0 m = some s)
    {t : ℕ} (htm : t + 1 < m) :
    ∃ prev l d, s.chosen_landmarks[t]? = some prev ∧ s.chosen_landmarks[t + 1]? = some l ∧
      l < n ∧
      (d, l) = furthest_point 0
        ((W.take n).map (dist_to_landmarks ed W (s.chosen_landmarks.take (t + 1))))
        (0, prev) := by
  obtain ⟨st, hst, -, -, hprev⟩ := furthest_loop_take hW h0 m s hs t (by omega)
  obtain ⟨st', hst', hinv', htake, hnext⟩ := furthest_loop_take hW h0 m s hs (t + 1) (by omega)
  obtain ⟨sm, hsm, hinv⟩ := furthest_loop_spec hW h0 t
  obtain ⟨s', hs', -, -, hfp⟩ := furthest_step_spec hW hinv
  have e1 : st = sm := by
    rw [hsm] at hst
    exact (Option.some.inj hst).symm
  have e2 : st' = s' := by
    simp only [furthest_loop, hsm, hs'] at hst'
    exact (Option.some.inj hst').symm
  subst e1
  subst e2
  refine ⟨st.curr_max_w, st'.curr_max_w, st'.curr_max_dist, hprev (by omega),
    hnext (by omega), hinv'.curr_max_w_lt, ?_⟩
  rw [← htake]
  exact hfp

/-- C13 (what the code does): on the points `0`, `0`, `5` of the line, with the
first pick `1` and `nbL = 3`, the landmarks chosen are `1`, `2`, `2`: every point
is at distance `0` from the set of the first two landmarks, so that the point `0`
is the lowest-index point at maximal distance, and the third landmark is the
point `2`, the second landmark again. -/
theorem furthest_points_not_lowest :
    (landmark_choice_by_furthest_points line_distance 1 3 [[0], [0], [5]] 3).map
      (fun s => s.chosen_landmarks) = some [1, 2, 2] ∧
    (∀ i, i < 3 →
      dist_to_landmarks line_distance [[0], [0], [5]] [1, 2] (List.getD [[0], [0], [5]] i [])
        ≤ dist_to_landmarks line_distance [[0], [0], [5]] [1, 2]
            (List.getD [[0], [0], [5]] 0 [])) ∧
    (0 : ℕ) ≠ 2 := by
  decide!

/-- C13 (amended): greedy step of `landmark_choice_by_furthest_points`. For at
least one point, all of them in `W`, every first pick and every step `t ≥ 1`
before the last one, the `(t+1)`-th landmark `l` is a point of `[0, nbP)` such
that, the distance of a point to the set of the first `t` landmarks being the
minimum over them: when some point is at a strictly positive distance from
this set, `l` is the lowest-index point among those whose distance to the set is
maximal; when none is, `l` is the `t`-th landmark again. On the points
`0, 1, 2, 3, 4, 5` of the line with first pick `0` and `nbL = 2` the second
landmark is the point `5`. -/
theorem furthest_points_greedy (ed : List ℚ → List ℚ → ℚ) (rand : ℕ) (nbL nbP : ℤ)
    (W : List (List ℚ)) (hP : 1 ≤ nbP) (hW : nbP ≤ W.length) (hL : 0 ≤ nbL)
    (t : ℕ) (ht : 1 ≤ t) (htL : t < nbL.toNat) :
    (∃ s l, landmark_choice_by_furthest_points ed rand nbL W nbP = some s ∧
      s.chosen_landmarks[t]? = some l ∧ l < nbP.toNat ∧
      ((∃ i, i < nbP.toNat ∧
          0 < dist_to_landmarks ed W (s.chosen_landmarks.take t) (W.getD i [])) →
        (∀ i, i < nbP.toNat →
          dist_to_landmarks ed W (s.chosen_landmarks.take t) (W.getD i [])
            ≤ dist_to_landmarks ed W (s.chosen_landmarks.take t) (W.getD l [])) ∧
        (∀ i, i < l →
          dist_to_landmarks ed W (s.chosen_landmarks.take t) (W.getD i [])
            < dist_to_landmarks ed W (s.chosen_landmarks.take t) (W.getD l []))) ∧
      ((∀ i, i < nbP.toNat →
          dist_to_landmarks ed W (s.chosen_landmarks.take t) (W.getD i []) ≤ 0) →
        s.chosen_landmarks[t - 1]? = some l)) ∧
    (landmark_choice_by_furthest_points line_distance 0 2
        [[0], [1], [2], [3], [4], [5]] 6).map (fun s => s.chosen_landmarks.getD 1 0)
      = some 5 := by
  refine ⟨?_, by decide!⟩
  obtain ⟨s, hs, hinv⟩ := landmark_choice_by_furthest_points_inv ed rand hP hW hL
  have hs' := hs
  rw [landmark_choice_by_furthest_points_eq ed rand W hP hL] at hs'
  have hWn : nbP.toNat ≤ W.length := by omega
  obtain ⟨u, rfl⟩ : ∃ u, t = u + 1 := ⟨t - 1, by omega⟩
  obtain ⟨prev, l, d, hprev, hl, hln, hfp⟩ := furthest_loop_next hWn
    (furthestInv_start ed W rand (by omega) (by omega)) hs' (show u + 1 < nbL.toNat from htL)
  obtain ⟨⟨-, g1⟩, g2, g3⟩ := furthest_point_spec
    ((W.take nbP.toNat).map (dist_to_landmarks ed W (s.chosen_landmarks.take (u + 1))))
    0 (0, prev)
  rw [← hfp] at g1 g2 g3
  refine ⟨s, l, hs, hl, hln, ?_, ?_⟩
  · rintro ⟨i, hi, hfar⟩
    have hi_mem := List.getElem?_mem (dist_list_getElem?
      (dist_to_landmarks ed W (s.chosen_landmarks.take (u + 1))) hWn hi)
    obtain ⟨-, g4, g5⟩ := g3 ⟨_, hi_mem, hfar⟩
    rw [Nat.sub_zero, dist_list_getElem? _ hWn hln, Option.some.injEq] at g4
    rw [Nat.sub_zero] at g5
    constructor
    · intro j hj
      rw [g4]
      exact g1 _ (List.getElem?_mem (dist_list_getElem? _ hWn hj))
    · intro j hj
      rw [g4]
      exact g5 j hj _ (dist_list_getElem? _ hWn (lt_trans hj hln))
  · intro hall
    have hle : ∀ e ∈ (W.take nbP.toNat).map
        (dist_to_landmarks ed W (s.chosen_landmarks.take (u + 1))), e ≤ (0 : WithTop ℚ) := by
      intro e he
      obtain ⟨k, hk⟩ := List.mem_iff_getElem?.1 he
      have hkn : k < nbP.toNat := by
        have := (List.getElem?_eq_some.1 hk).1
        rw [List.length_map, List.length_take] at this
        exact lt_of_lt_of_le this (min_le_left _ _)
      rw [dist_list_getElem? _ hWn hkn, Option.some.injEq] at hk
      rw [← hk]
      exact hall k hkn
    have := congrArg Prod.snd (g2 hle)
    simp only at this
    rw [Nat.add_sub_cancel, hprev, this]

/-- An instance of the greedy step: the second landmark among six points of the
line. -/
theorem furthest_points_greedy_witness :
    (1 : ℤ) ≤ 6 ∧ (6 : ℤ) ≤ [[(0 : ℚ)], [1], [2], [3], [4], [5]].length ∧ (0 : ℤ) ≤ 2 ∧
    1 ≤ 1 ∧ 1 < (2 : ℤ).toNat ∧
    ∃ s l, landmark_choice_by_furthest_points line_distance 0 2
        [[0], [1], [2], [3], [4], [5]] 6 = some s ∧
      s.chosen_landmarks[1]? = some l ∧ l < (6 : ℤ).toNat :=
  let ⟨s, l, h1, h2, h3, _⟩ := (furthest_points_greedy line_distance 0 2 6
    [[0], [1], [2], [3], [4], [5]] (by decide) (by decide) (by decide) 1 (by decide)
    (by decide)).1
  ⟨by decide, by decide, by decide, by decide, by decide, s, l, h1, h2, h3⟩

/-! ## Landmark selection by random points -/

/-- The elements of the set after an insertion. -/
theorem mem_set_insert (x : ℤ) (L : List ℤ) (y : ℤ) : y ∈ set_insert x L ↔ y = x ∨ y ∈ L := by
  induction L with
  | nil => simp [set_insert]
  | cons a L ih =>
    by_cases h1 : x < a
    · simp [set_insert, h1]
    · by_cases h2 : x = a
      · subst h2
        simp [set_insert]
      · simp only [set_insert, if_neg h1, if_neg h2, List.mem_cons, ih]
        tauto

/-- The insertion of a new element adds one element and no repetition. -/
theorem set_insert_of_not_mem (x : ℤ) (L : List ℤ) (hx : x ∉ L) (hL : L.Nodup) :
    (set_insert x L).length = L.length + 1 ∧ (set_insert x L).Nodup := by
  induction L with
  | nil => simp [set_insert]
  | cons a L ih =>
    have hxa : x ≠ a := fun h => hx (h ▸ List.mem_cons_self _ _)
    have hxL : x ∉ L := fun h => hx (List.mem_cons_of_mem _ h)
    by_cases h1 : x < a
    · simp only [set_insert, if_pos h1]
      exact ⟨rfl, List.nodup_cons.2 ⟨hx, hL⟩⟩
    · obtain ⟨ih1, ih2⟩ := ih hxL (List.nodup_cons.1 hL).2
      simp only [set_insert, if_neg h1, if_neg hxa, List.length_cons, ih1]
      refine ⟨trivial, List.nodup_cons.2 ⟨?_, ih2⟩⟩
      intro hmem
      rcases (mem_set_insert x L a).1 hmem with h | h
      · exact hxa h.symm
      · exact (List.nodup_cons.1 hL).1 h

/-- A value of `rand() % nbP` is an index of `[0, nbP)` when `nbP > 0`. -/
theorem tmod_rand_range (r : ℕ) {nbP : ℤ} (hP : 0 < nbP) :
    0 ≤ Int.tmod (r : ℤ) nbP ∧ Int.tmod (r : ℤ) nbP < nbP :=
  ⟨Int.tmod_nonneg _ (Int.ofNat_nonneg r), Int.tmod_lt_of_pos _ hP⟩

/-- The landmark left by the loop on the landmarks already chosen is a new one,
and an index of `[0, nbP)`. -/
theorem draw_landmark_spec (rand : ℕ → ℕ) {nbP : ℤ} (hP : 0 < nbP) (L : List ℤ) :
    ∀ (fuel n : ℕ) (c : ℤ) (r : ℤ × ℕ), 0 ≤ c ∧ c < nbP →
      draw_landmark rand nbP L fuel n c = some r → r.1 ∉ L ∧ 0 ≤ r.1 ∧ r.1 < nbP := by
  intro fuel
  induction fuel with
  | zero =>
    intro n c r hc h
    by_cases hm : c ∈ L
    · simp [draw_landmark, hm] at h
    · simp only [draw_landmark, if_neg hm, Option.some.injEq] at h
      subst h
      exact ⟨hm, hc⟩
  | succ fuel ih =>
    intro n c r hc h
    by_cases hm : c ∈ L
    · simp only [draw_landmark, if_pos hm] at h
      exact ih (n + 1) _ r (tmod_rand_range (rand n) hP) h
    · simp only [draw_landmark, if_neg hm, Option.some.injEq] at h
      subst h
      exact ⟨hm, hc⟩

/-- Whenever the outer loop returns, it has added one new index of `[0, nbP)` for
each of its iterations. -/
theorem random_loop_spec (rand : ℕ → ℕ) {nbP : ℤ} (hP : 0 < nbP) (fuel : ℕ) :
    ∀ (k : ℕ) (L : List ℤ) (n : ℕ) (c : ℤ) (L' : List ℤ), L.Nodup →
      (∀ l ∈ L, 0 ≤ l ∧ l < nbP) → 0 ≤ c ∧ c < nbP →
      random_loop rand nbP fuel k L n c = some L' →
      L'.length = L.length + k ∧ L'.Nodup ∧ ∀ l ∈ L', 0 ≤ l ∧ l < nbP := by
  intro k
  induction k with
  | zero =>
    intro L n c L' hnd hr _ h
    simp only [random_loop, Option.some.injEq] at h
    subst h
    exact ⟨rfl, hnd, hr⟩
  | succ k ih =>
    intro L n c L' hnd hr hc h
    cases hd : draw_landmark rand nbP L fuel n c with
    | none => simp [random_loop, hd] at h
    | some r =>
      simp only [random_loop, hd] at h
      obtain ⟨h1, h2⟩ := draw_landmark_spec rand hP L fuel n c r hc hd
      obtain ⟨g1, g2⟩ := set_insert_of_not_mem r.1 L h1 hnd
      obtain ⟨e1, e2, e3⟩ := ih (set_insert r.1 L) r.2 r.1 L' g2 (fun l hl => by
        rcases (mem_set_insert r.1 L l).1 hl with h | h
        · rw [h]; exact h2
        · exact hr l h) h2 h
      exact ⟨by rw [e1, g1]; omega, e2, e3⟩

/-- C19: random landmark strategy. Started with an empty set `L` and
`0 ≤ nbL ≤ nbP`, whenever `landmark_choice_by_random_points` returns, whatever the
values `rand` of the pseudo-random draws and the number `fuel` of draws the call
was given, `L` holds exactly `nbL` pairwise distinct indices, each in
`[0, nbP)`. -/
theorem random_points_distinct (rand : ℕ → ℕ) (fuel : ℕ) (nbL nbP : ℤ) (L : List ℤ)
    (hL : 0 ≤ nbL) (hLP : nbL ≤ nbP)
    (h : landmark_choice_by_random_points rand fuel nbL nbP [] = some L) :
    L.length = nbL.toNat ∧ L.Nodup ∧ ∀ l ∈ L, 0 ≤ l ∧ l < nbP := by
  by_cases hg : nbP = 0 ∨ nbL < 0
  · simp [landmark_choice_by_random_points, hg] at h
  · simp only [landmark_choice_by_random_points, if_neg hg] at h
    have hP : 0 < nbP := by omega
    obtain ⟨h1, h2, h3⟩ := random_loop_spec rand hP fuel nbL.toNat [] 1 _ L List.nodup_nil
      (by simp) (tmod_rand_range (rand 0) hP) h
    exact ⟨by simpa using h1, h2, h3⟩

/-- An instance of the random strategy: five landmarks among five points, the
draws being `3`, `10`, `17`, ... -/
theorem random_points_distinct_witness :
    (0 : ℤ) ≤ 5 ∧ (5 : ℤ) ≤ 5 ∧
    landmark_choice_by_random_points (fun n => 7 * n + 3) 10 5 5 [] = some [0, 1, 2, 3, 4] ∧
    [(0 : ℤ), 1, 2, 3, 4].length = (5 : ℤ).toNat ∧ [(0 : ℤ), 1, 2, 3, 4].Nodup ∧
    ∀ l ∈ [(0 : ℤ), 1, 2, 3, 4], 0 ≤ l ∧ l < 5 :=
  ⟨by decide, by decide, by decide,
    random_points_distinct (fun n => 7 * n + 3) 10 5 5 [0, 1, 2, 3, 4] (by decide) (by decide)
      (by decide)⟩

/-! ## The table of the nearest landmarks: the heap -/

/-- Whenever the loop over the landmarks returns, the heap holds, besides what it
held, one pair (distance, rank) for each landmark. -/
theorem fill_heap_spec {comp : ℚ × ℤ → ℚ × ℤ → Bool} (Q : Priority_queue comp)
    (ed : List ℚ → List ℚ → ℚ) (W : List (List ℚ)) (w : List ℚ) :
    ∀ (ls : List ℤ) (n : ℕ) (h h' : Q.σ), fill_heap Q ed W w ls (n : ℤ) h = some h' →
      Q.content h' = Q.content h +
        ((ls.enumFrom n).map
          (fun kl => (ed w (W.getD kl.2.toNat []), (kl.1 : ℤ))) : List (ℚ × ℤ)) := by
  intro ls
  induction ls with
  | nil =>
    intro n h h' hf
    simp only [fill_heap, Option.some.injEq] at hf
    subst hf
    simp
  | cons l ls ih =>
    intro n h h' hf
    by_cases hl : l < 0
    · simp [fill_heap, hl] at hf
    · cases hp : W[l.toNat]? with
      | none => simp [fill_heap, hl, hp] at hf
      | some p =>
        simp only [fill_heap, if_neg hl, hp] at hf
        have hcast : ((n : ℤ) + 1) = ((n + 1 : ℕ) : ℤ) := by push_cast; rfl
        rw [hcast] at hf
        rw [ih (n + 1) _ h' hf, Q.content_push]
        have hD : W.getD l.toNat [] = p := by
          rw [List.getD_eq_getElem?_getD, hp]; rfl
        simp only [List.enumFrom_cons, List.map_cons, hD]
        rw [← Multiset.cons_coe, Multiset.cons_add, Multiset.add_cons]

/-- The loop over the landmarks returns when every landmark is an index into
`W`. -/
theorem fill_heap_total {comp : ℚ × ℤ → ℚ × ℤ → Bool} (Q : Priority_queue comp)
    (ed : List ℚ → List ℚ → ℚ) (W : List (List ℚ)) (w : List ℚ) :
    ∀ (ls : List ℤ) (L_i : ℤ) (h : Q.σ), (∀ l ∈ ls, 0 ≤ l ∧ l < W.length) →
      ∃ h', fill_heap Q ed W w ls L_i h = some h' := by
  intro ls
  induction ls with
  | nil => intro L_i h _; exact ⟨h, rfl⟩
  | cons l ls ih =>
    intro L_i h hr
    obtain ⟨h0, h1⟩ := hr l (List.mem_cons_self _ _)
    have hl : ¬ l < 0 := by omega
    have hlt : l.toNat < W.length := by omega
    obtain ⟨h', hh⟩ := ih (L_i + 1) (Q.push (ed w W[l.toNat], L_i) h)
      (fun x hx => hr x (List.mem_cons_of_mem _ hx))
    exact ⟨h', by simp only [fill_heap, if_neg hl, List.getElem?_eq_getElem hlt, hh]⟩

/-- Whenever the loop of the extractions returns, the row lists the ranks of the
pairs taken off the heap, which are in non-decreasing order of distance and not
further than any pair left on the heap. -/
theorem drain_heap_spec (Q : Priority_queue dist_comp) :
    ∀ (n : ℕ) (h : Q.σ) (row : List ℤ), drain_heap Q n h = some row →
      ∃ (taken : List (ℚ × ℤ)) (rest : Multiset (ℚ × ℤ)),
        Q.content h = (taken : Multiset (ℚ × ℤ)) + rest ∧ row = taken.map Prod.snd ∧
        taken.length = n ∧ taken.Pairwise (fun a b => a.1 ≤ b.1) ∧
        ∀ x ∈ taken, ∀ y ∈ rest, x.1 ≤ y.1 := by
  intro n
  induction n with
  | zero =>
    intro h row hd
    simp only [drain_heap, Option.some.injEq] at hd
    subst hd
    exact ⟨[], Q.content h, by simp, rfl, rfl, List.Pairwise.nil, by simp⟩
  | succ n ih =>
    intro h row hd
    cases ht : Q.top h with
    | none => simp [drain_heap, ht] at hd
    | some d =>
      cases hp : Q.pop h with
      | none => simp [drain_heap, ht, hp] at hd
      | some h' =>
        cases hr : drain_heap Q n h' with
        | none => simp [drain_heap, ht, hp, hr] at hd
        | some row' =>
          simp only [drain_heap, ht, hp, hr, Option.some.injEq] at hd
          subst hd
          obtain ⟨taken, rest, hc, hrow, hlen, hsort, hrest⟩ := ih h' row' hr
          have hcont := Q.content_pop h d h' ht hp
          have hmin : ∀ y ∈ Q.content h, d.1 ≤ y.1 := by
            intro y hy
            have := (Q.top_mem h d ht).2 y hy
            simpa [dist_comp] using this
          have hsub : ∀ y, y ∈ Q.content h' → y ∈ Q.content h := by
            intro y hy
            rw [hcont]
            exact Multiset.mem_cons_of_mem hy
          refine ⟨d :: taken, rest, ?_, by rw [hrow]; rfl, by rw [List.length_cons, hlen],
            List.pairwise_cons.2 ⟨?_, hsort⟩, ?_⟩
          · rw [hcont, hc, ← Multiset.cons_coe, Multiset.cons_add]
          · intro y hy
            refine hmin y (hsub y ?_)
            rw [hc]
            exact Multiset.mem_add.2 (Or.inl (Multiset.mem_coe.2 hy))
          · intro x hx y hy
            rcases List.mem_cons.1 hx with rfl | hx
            · refine hmin y (hsub y ?_)
              rw [hc]
              exact Multiset.mem_add.2 (Or.inr hy)
            · exact hrest x hx y hy

/-- The loop of the extractions returns when the heap holds at least as many
pairs as there are extractions. -/
theorem drain_heap_total {comp : ℚ × ℤ → ℚ × ℤ → Bool} (Q : Priority_queue comp) :
    ∀ (n : ℕ) (h : Q.σ), n ≤ Multiset.card (Q.content h) →
      ∃ row, drain_heap Q n h = some row := by
  intro n
  induction n with
  | zero => intro h _; exact ⟨[], rfl⟩
  | succ n ih =>
    intro h hn
    have hne : Q.content h ≠ 0 := by
      intro h0
      rw [h0, Multiset.card_zero] at hn
      omega
    cases ht : Q.top h with
    | none => exact absurd ((Q.top_eq_none h).1 ht) hne
    | some d =>
      cases hp : Q.pop h with
      | none => exact absurd ((Q.pop_eq_none h).1 hp) hne
      | some h' =>
        have hcont := Q.content_pop h d h' ht hp
        rw [hcont, Multiset.card_cons] at hn
        obtain ⟨row, hrow⟩ := ih h' (by omega)
        exact ⟨d.2 :: row, by simp only [drain_heap, ht, hp, hrow]⟩

/-! ## The table of the nearest landmarks: the rows -/

/-- The pairs (distance, rank) pushed on the heap for the witness `w`: each has
the distance from `w` to the landmark of its rank, a rank of `[0, |L|)`. -/
theorem mem_landmark_pairs {ed : List ℚ → List ℚ → ℚ} {W : List (List ℚ)} {L : List ℤ}
    {w : List ℚ} {x : ℚ × ℤ}
    (hx : x ∈ L.enum.map (fun kl => (ed w (W.getD kl.2.toNat []), (kl.1 : ℤ)))) :
    x.1 = landmark_distance ed W L w x.2 ∧ 0 ≤ x.2 ∧ x.2 < L.length := by
  obtain ⟨kl, hkl, rfl⟩ := List.mem_map.1 hx
  have hget : L[kl.1]? = some kl.2 := List.mk_mem_enum_iff_getElem?.1 hkl
  have hD : L.getD kl.1 0 = kl.2 := by
    rw [List.getD_eq_getElem?_getD, hget]; rfl
  refine ⟨?_, Int.ofNat_nonneg _, Int.ofNat_lt.2 (List.fst_lt_of_mem_enum hkl)⟩
  show ed w (W.getD kl.2.toNat []) = ed w (W.getD (L.getD (Int.toNat (kl.1 : ℤ)) 0).toNat [])
  rw [Int.toNat_ofNat, hD]

/-- Every rank of `[0, |L|)` is the rank of a pair pushed on the heap. -/
theorem exists_landmark_pair (ed : List ℚ → List ℚ → ℚ) (W : List (List ℚ)) {L : List ℤ}
    (w : List ℚ) {r : ℤ} (h0 : 0 ≤ r) (h1 : r < L.length) :
    ∃ x ∈ L.enum.map (fun kl => (ed w (W.getD kl.2.toNat []), (kl.1 : ℤ))), x.2 = r := by
  have hlt : r.toNat < L.length := by omega
  refine ⟨_, List.mem_map.2 ⟨(r.toNat, L[r.toNat]), ?_, rfl⟩, ?_⟩
  · exact List.mk_mem_enum_iff_getElem?.2 (List.getElem?_eq_getElem hlt)
  · exact Int.toNat_of_nonneg h0

/-- The ranks of the pairs pushed on the heap are pairwise distinct. -/
theorem nodup_landmark_pairs (ed : List ℚ → List ℚ → ℚ) (W : List (List ℚ)) (L : List ℤ)
    (w : List ℚ) :
    ((L.enum.map (fun kl => (ed w (W.getD kl.2.toNat []), (kl.1 : ℤ)))).map Prod.snd).Nodup := by
  rw [List.map_map]
  have hf : (Prod.snd ∘ fun kl : ℕ × ℤ => (ed w (W.getD kl.2.toNat []), (kl.1 : ℤ)))
      = Int.ofNat ∘ Prod.fst := rfl
  rw [hf, ← List.map_map, List.enum_map_fst]
  exact (List.nodup_range _).map (fun a b h => Int.ofNat.inj h)

/-- For a witness `w`, when every landmark is an index into `W` and there are at
least `D + 1` landmarks, the two loops of `nearest_landmarks` return and the row
is as expected. -/
theorem nearest_row_spec (Q : Priority_queue dist_comp) (ed : List ℚ → List ℚ → ℚ)
    {W : List (List ℚ)} {L : List ℤ} {D : ℕ} (w : List ℚ)
    (hL : ∀ l ∈ L, 0 ≤ l ∧ l < W.length) (hD : D + 1 ≤ L.length) :
    ∃ h row, fill_heap Q ed W w L 0 Q.empty = some h ∧
      drain_heap Q (D + 1) h = some row ∧ NearestRow ed W L D w row := by
  obtain ⟨h, hh⟩ := fill_heap_total Q ed W w L 0 Q.empty hL
  have hc := fill_heap_spec Q ed W w L 0 Q.empty h hh
  rw [Q.content_empty, zero_add] at hc
  change Q.content h = ((L.enum.map
    (fun kl => (ed w (W.getD kl.2.toNat []), (kl.1 : ℤ))) : List (ℚ × ℤ)) : Multiset (ℚ × ℤ))
    at hc
  obtain ⟨row, hrow⟩ := drain_heap_total Q (D + 1) h (by
    rw [hc, Multiset.coe_card, List.length_map, List.enum_length]
    exact hD)
  obtain ⟨taken, rest, hsplit, hr, hlen, hsort, hrest⟩ := drain_heap_spec Q (D + 1) h row hrow
  rw [hc] at hsplit
  have hmem : ∀ x ∈ taken,
      x ∈ L.enum.map (fun kl => (ed w (W.getD kl.2.toNat []), (kl.1 : ℤ))) := by
    intro x hx
    rw [← Multiset.mem_coe, hsplit]
    exact Multiset.mem_add.2 (Or.inl (Multiset.mem_coe.2 hx))
  refine ⟨h, row, hh, hrow, ?_, ?_, ?_, ?_, ?_⟩
  · rw [hr, List.length_map, hlen]
  · have hle : (taken : Multiset (ℚ × ℤ)) ≤ ((L.enum.map
        (fun kl => (ed w (W.getD kl.2.toNat []), (kl.1 : ℤ))) : List (ℚ × ℤ)) :
        Multiset (ℚ × ℤ)) := by
      rw [hsplit]
      exact Multiset.le_add_right _ _
    have := Multiset.nodup_of_le (Multiset.map_le_map hle)
      (Multiset.coe_nodup.2 (nodup_landmark_pairs ed W L w))
    rw [hr]
    exact Multiset.coe_nodup.1 this
  · intro r hrr
    rw [hr] at hrr
    obtain ⟨x, hx, rfl⟩ := List.mem_map.1 hrr
    exact (mem_landmark_pairs (hmem x hx)).2
  · rw [hr, List.map_map, List.pairwise_map]
    refine hsort.imp_of_mem ?_
    intro a b ha hb hab
    show landmark_distance ed W L w a.2 ≤ landmark_distance ed W L w b.2
    rw [← (mem_landmark_pairs (hmem a ha)).1, ← (mem_landmark_pairs (hmem b hb)).1]
    exact hab
  · intro r hrr r' h0 h1 hnot
    rw [hr] at hrr hnot
    obtain ⟨x, hx, rfl⟩ := List.mem_map.1 hrr
    obtain ⟨x', hx', rfl⟩ := exists_landmark_pair ed W w h0 h1
    rw [(mem_landmark_pairs hx').1.symm, (mem_landmark_pairs (hmem x hx)).1.symm]
    have hx'' : x' ∈ (taken : Multiset (ℚ × ℤ)) + rest := by
      rw [← hsplit]
      exact Multiset.mem_coe.2 hx'
    rcases Multiset.mem_add.1 hx'' with hin | hin
    · exact absurd (List.mem_map.2 ⟨x', Multiset.mem_coe.1 hin, rfl⟩) hnot
    · exact hrest x hx x' hin

/-- The loop over the witnesses returns, with a row as expected for each witness,
when every landmark is an index into `W` and there are at least `D + 1`
landmarks. -/
theorem nearest_rows_spec (Q : Priority_queue dist_comp) (ed : List ℚ → List ℚ → ℚ)
    {W : List (List ℚ)} {L : List ℤ} {D : ℕ}
    (hL : ∀ l ∈ L, 0 ≤ l ∧ l < W.length) (hD : D + 1 ≤ L.length) :
    ∀ ws : List (List ℚ), ∃ rows, nearest_rows Q ed W L D ws = some rows ∧
      List.Forall₂ (NearestRow ed W L D) ws rows := by
  intro ws
  induction ws with
  | nil => exact ⟨[], rfl, List.Forall₂.nil⟩
  | cons w ws ih =>
    obtain ⟨h, row, h1, h2, h3⟩ := nearest_row_spec Q ed w hL hD
    obtain ⟨rows, g1, g2⟩ := ih
    exact ⟨row :: rows, by simp only [nearest_rows, h1, h2, g1], List.Forall₂.cons h3 g2⟩

/-- When `W` is not empty, every landmark is an index into `W` and there are at
least `D + 1` landmarks, `D` the dimension of the first witness,
`nearest_landmarks` returns one row for each witness, as expected. -/
theorem nearest_landmarks_spec (Q : Priority_queue dist_comp) (ed : List ℚ → List ℚ → ℚ)
    {W : List (List ℚ)} {L : List ℤ} {w0 : List ℚ} (hW : W[0]? = some w0)
    (hL : ∀ l ∈ L, 0 ≤ l ∧ l < W.length) (hD : w0.length + 1 ≤ L.length) :
    ∃ rows, nearest_landmarks Q ed W L = some rows ∧ rows.length = W.length ∧
      ∀ (i : ℕ) (row : List ℤ), rows[i]? = some row →
        NearestRow ed W L w0.length (W.getD i []) row := by
  obtain ⟨rows, h1, h2⟩ := nearest_rows_spec Q ed hL hD W
  refine ⟨rows, by simp only [nearest_landmarks, hW, h1], h2.length_eq.symm, ?_⟩
  intro i row hrow
  obtain ⟨w, hw, hR⟩ := forall₂_getElem?_right h2 i row hrow
  have : W.getD i [] = w := by
    rw [List.getD_eq_getElem?_getD, hw]; rfl
  rw [this]
  exact hR

/-! ## The table of the nearest landmarks: the outcome -/

/-- C17 (what the code does): for the witnesses `0`, `1`, `-1` of the line
(`D = 1`) and the two landmarks `1` and `-1`, both at distance `1` from the
witness `0`, the row of the witness `0` lists the two landmarks: the distances
along the row are `1`, `1`, which is not strictly ascending. -/
theorem nearest_landmarks_tie :
    nearest_landmarks list_queue line_distance [[0], [1], [-1]] [1, 2]
      = some [[1, 0], [0, 1], [1, 0]] ∧
    [(1 : ℤ), 0].map (landmark_distance line_distance [[0], [1], [-1]] [1, 2] [0]) = [1, 1] ∧
    ¬ ([(1 : ℤ), 0].map
      (landmark_distance line_distance [[0], [1], [-1]] [1, 2] [0])).Pairwise (· < ·) := by
  decide!

/-- C17 (amended): ordering contract of `nearest_landmarks`. For every queue
which keeps the contract of `std::priority_queue`, every non-empty witness set `W`
and every set `L` of at least `D + 1` landmarks, indices into `W` (`D` the
dimension of the first witness), `nearest_landmarks` returns one row for each
witness, and each row is ascending by distance from the witness to the landmarks
listed, landmarks at the same distance apart: the distances along the row never
decrease. -/
theorem nearest_landmarks_ascending (Q : Priority_queue dist_comp)
    (ed : List ℚ → List ℚ → ℚ) (W : List (List ℚ)) (L : List ℤ) (w0 : List ℚ)
    (hW : W[0]? = some w0) (hL : ∀ l ∈ L, 0 ≤ l ∧ l < W.length)
    (hD : w0.length + 1 ≤ L.length) :
    ∃ rows, nearest_landmarks Q ed W L = some rows ∧ rows.length = W.length ∧
      ∀ (i : ℕ) (row : List ℤ), rows[i]? = some row →
        (row.map (landmark_distance ed W L (W.getD i []))).Pairwise (· ≤ ·) := by
  obtain ⟨rows, h1, h2, h3⟩ := nearest_landmarks_spec Q ed hW hL hD
  exact ⟨rows, h1, h2, fun i row hrow => (h3 i row hrow).2.2.2.1⟩

/-- An instance of the ordering contract: four witnesses of the line, three
landmarks. -/
theorem nearest_landmarks_ascending_witness :
    [[(0 : ℚ)], [1], [-1], [5]][0]? = some [0] ∧
    (∀ l ∈ [(0 : ℤ), 1, 3], 0 ≤ l ∧ l < [[(0 : ℚ)], [1], [-1], [5]].length) ∧
    [(0 : ℚ)].length + 1 ≤ [(0 : ℤ), 1, 3].length ∧
    ∃ rows, nearest_landmarks list_queue line_distance [[0], [1], [-1], [5]] [0, 1, 3]
        = some rows ∧ rows.length = [[(0 : ℚ)], [1], [-1], [5]].length ∧
      ∀ (i : ℕ) (row : List ℤ), rows[i]? = some row →
        (row.map (landmark_distance line_distance [[0], [1], [-1], [5]] [0, 1, 3]
          (List.getD [[0], [1], [-1], [5]] i []))).Pairwise (· ≤ ·) :=
  ⟨by decide, by decide, by decide,
    nearest_landmarks_ascending list_queue line_distance [[0], [1], [-1], [5]] [0, 1, 3] [0]
      (by decide) (by decide) (by decide)⟩

/-- C18: top-`(D+1)` correctness of `nearest_landmarks`. For every queue which
keeps the contract of `std::priority_queue`, every non-empty witness set `W` of
points of dimension `D` (that of the first witness) and every set `L` of at least
`D + 1` landmarks, indices into `W`, `nearest_landmarks` returns one row for each
witness; each row has exactly `D + 1` pairwise distinct landmark ranks of
`[0, |L|)`, the rank being the position in the ordered set `L`, and every
landmark which is not in the row is at least as far from the witness as every
landmark of the row. -/
theorem nearest_landmarks_top (Q : Priority_queue dist_comp)
    (ed : List ℚ → List ℚ → ℚ) (W : List (List ℚ)) (L : List ℤ) (w0 : List ℚ)
    (hW : W[0]? = some w0) (hL : ∀ l ∈ L, 0 ≤ l ∧ l < W.length)
    (hD : w0.length + 1 ≤ L.length) :
    ∃ rows, nearest_landmarks Q ed W L = some rows ∧ rows.length = W.length ∧
      ∀ (i : ℕ) (row : List ℤ), rows[i]? = some row →
        row.length = w0.length + 1 ∧ row.Nodup ∧ (∀ r ∈ row, 0 ≤ r ∧ r < L.length) ∧
        ∀ r ∈ row, ∀ r' : ℤ, 0 ≤ r' → r' < L.length → r' ∉ row →
          landmark_distance ed W L (W.getD i []) r
            ≤ landmark_distance ed W L (W.getD i []) r' := by
  obtain ⟨rows, h1, h2, h3⟩ := nearest_landmarks_spec Q ed hW hL hD
  exact ⟨rows, h1, h2, fun i row hrow =>
    ⟨(h3 i row hrow).1, (h3 i row hrow).2.1, (h3 i row hrow).2.2.1, (h3 i row hrow).2.2.2.2⟩⟩

/-- An instance of the top-`(D+1)` correctness: four witnesses of the line, three
landmarks. -/
theorem nearest_landmarks_top_witness :
    [[(0 : ℚ)], [1], [-1], [5]][0]? = some [0] ∧
    (∀ l ∈ [(0 : ℤ), 1, 3], 0 ≤ l ∧ l < [[(0 : ℚ)], [1], [-1], [5]].length) ∧
    [(0 : ℚ)].length + 1 ≤ [(0 : ℤ), 1, 3].length ∧
    ∃ rows, nearest_landmarks list_queue line_distance [[0], [1], [-1], [5]] [0, 1, 3]
        = some rows ∧ rows.length = [[(0 : ℚ)], [1], [-1], [5]].length ∧
      ∀ (i : ℕ) (row : List ℤ), rows[i]? = some row →
        row.length = [(0 : ℚ)].length + 1 ∧ row.Nodup ∧
        (∀ r ∈ row, 0 ≤ r ∧ r < [(0 : ℤ), 1, 3].length) ∧
        ∀ r ∈ row, ∀ r' : ℤ, 0 ≤ r' → r' < [(0 : ℤ), 1, 3].length → r' ∉ row →
          landmark_distance line_distance [[0], [1], [-1], [5]] [0, 1, 3]
              (List.getD [[0], [1], [-1], [5]] i []) r
            ≤ landmark_distance line_distance [[0], [1], [-1], [5]] [0, 1, 3]
              (List.getD [[0], [1], [-1], [5]] i []) r' :=
  ⟨by decide, by decide, by decide,
    nearest_landmarks_top list_queue line_distance [[0], [1], [-1], [5]] [0, 1, 3] [0]
      (by decide) (by decide) (by decide)⟩

/-! ## The filtration values of the weak engine -/

theorem ZeroInserts.refl (c : Simplex_tree) : ZeroInserts c c :=
  ⟨[], by simp, by simp, fun h => h⟩

theorem ZeroInserts.trans {c₁ c₂ c₃ : Simplex_tree} (h₁ : ZeroInserts c₁ c₂)
    (h₂ : ZeroInserts c₂ c₃) : ZeroInserts c₁ c₃ := by
  obtain ⟨n₁, e₁, z₁, v₁⟩ := h₁
  obtain ⟨n₂, e₂, z₂, v₂⟩ := h₂
  refine ⟨n₁ ++ n₂, by rw [e₂, e₁, List.append_assoc], ?_, fun h => v₂ (v₁ h)⟩
  intro e he
  rcases List.mem_append.1 he with h | h
  · exact z₁ e h
  · exact z₂ e h

/-- A request `insert_simplex` with the value `0` is as `ZeroInserts` says. -/
theorem zeroInserts_insert_simplex (c : Simplex_tree) (vs : List ℤ) :
    ZeroInserts c (c.insert_simplex vs 0).1 := by
  refine ⟨[(Request.insert_simplex vs 0, (c.insert_simplex vs 0).1.simplices)],
    Simplex_tree.insert_simplex_log c vs 0, ?_, ?_⟩
  · intro e he
    rw [List.mem_singleton.1 he]
    exact ⟨vs, rfl⟩
  · intro h p hp
    simp only [Simplex_tree.insert_simplex, Simplex_tree.add] at hp
    split at hp
    · exact h p hp
    · rcases List.mem_append.1 hp with h1 | h1
      · exact h p h1
      · rw [List.mem_singleton.1 h1]

theorem zeroInserts_insert_landmarks (is : List ℕ) :
    ∀ c : Simplex_tree, ZeroInserts c (insert_landmarks c is) := by
  induction is with
  | nil => intro c; exact ZeroInserts.refl c
  | cons i is ih =>
    intro c
    exact (zeroInserts_insert_simplex c [(i : ℤ)]).trans (ih _)

theorem zeroInserts_insert_edges (rows : List (List ℤ)) :
    ∀ c c' : Simplex_tree, insert_edges c rows = some c' → ZeroInserts c c' := by
  induction rows with
  | nil =>
    intro c c' h
    simp only [insert_edges, Option.some.injEq] at h
    subst h
    exact ZeroInserts.refl c
  | cons row rows ih =>
    intro c c' h
    obtain ⟨u, v, -, -, h'⟩ := insert_edges_cons_inv h
    exact (zeroInserts_insert_simplex c [u, v]).trans (ih _ c' h')

theorem zeroInserts_witness_pass (knn : List (List ℤ)) (k : ℕ) (ws : List ℕ) :
    ∀ (c : Simplex_tree) (r : Simplex_tree × List ℕ),
      witness_pass knn k c ws = some r → ZeroInserts c r.1 := by
  induction ws with
  | nil =>
    intro c r h
    simp only [witness_pass, Option.some.injEq] at h
    subst h
    exact ZeroInserts.refl c
  | cons w ws ih =>
    intro c r h
    obtain ⟨row, xk, -, -, hcase⟩ := witness_pass_cons_inv h
    rcases hcase with ⟨-, h'⟩ | ⟨sv, r', -, -, h', rfl⟩
    · exact ih c r h'
    · exact (zeroInserts_insert_simplex c sv).trans (ih _ r' h')

theorem zeroInserts_witness_loop (knn : List (List ℤ)) (D : ℕ) :
    ∀ (fuel k : ℕ) (c : Simplex_tree) (active : List ℕ) (r : Simplex_tree × List ℕ),
      witness_loop knn D fuel k c active = some r → ZeroInserts c r.1 := by
  intro fuel
  induction fuel with
  | zero =>
    intro k c active r h
    by_cases hcond : active ≠ [] ∧ k < D
    · simp [witness_loop, hcond] at h
    · simp only [witness_loop, if_neg hcond, Option.some.injEq] at h
      subst h
      exact ZeroInserts.refl c
  | succ fuel ih =>
    intro k c active r h
    by_cases hcond : active ≠ [] ∧ k < D
    · cases hp : witness_pass knn k c active with
      | none => simp [witness_loop, hcond, hp] at h
      | some r1 =>
        simp only [witness_loop, if_pos hcond, hp] at h
        exact (zeroInserts_witness_pass knn k active c r1 hp).trans (ih _ _ _ r h)
    · simp only [witness_loop, if_neg hcond, Option.some.injEq] at h
      subst h
      exact ZeroInserts.refl c

/-- What a returning call of `witness_complex` went through: the landmarks, then,
with at least two landmarks, the edges and the ordering of the rows, then the
loop. -/
theorem witness_complex_steps {nbL : ℤ} {knn : List (List ℤ)} {c : Simplex_tree}
    {r : Witness_result} (h : witness_complex nbL knn c = some r) :
    0 ≤ nbL ∧ ∃ (row0 : List ℤ) (c1 : Simplex_tree),
      ((¬ 1 < nbL ∧ c1 = insert_landmarks c (List.range nbL.toNat) ∧ r.knn = knn) ∨
        (1 < nbL ∧ insert_edges (insert_landmarks c (List.range nbL.toNat)) knn = some c1 ∧
          order_rows knn = some r.knn)) ∧
      r.knn[0]? = some row0 ∧
      witness_loop r.knn row0.length row0.length 2 c1
        (if nbL > 1 then List.range knn.length else []) = some (r.complex, r.active_w) := by
  unfold witness_complex at h
  split at h
  · cases h
  · rename_i hneg
    refine ⟨not_lt.1 hneg, ?_⟩
    by_cases hL : nbL > 1
    · simp only [if_pos hL] at h ⊢
      cases he : insert_edges (insert_landmarks c (List.range nbL.toNat)) knn with
      | none => simp [he] at h
      | some c1 =>
        cases ho : order_rows knn with
        | none => simp [he, ho] at h
        | some knn1 =>
          cases h0 : knn1[0]? with
          | none => simp [he, ho, h0] at h
          | some row0 =>
            cases hl : witness_loop knn1 row0.length row0.length 2 c1
                (List.range knn.length) with
            | none => simp [he, ho, h0, hl] at h
            | some q =>
              simp only [he, ho, h0, hl, Option.some.injEq] at h
              subst h
              exact ⟨row0, c1, Or.inr ⟨hL, rfl, rfl⟩, h0, hl⟩
    · simp only [if_neg hL] at h ⊢
      cases h0 : knn[0]? with
      | none => simp [h0] at h
      | some row0 =>
        cases hl : witness_loop knn row0.length row0.length 2
            (insert_landmarks c (List.range nbL.toNat)) [] with
        | none => simp [h0, hl] at h
        | some q =>
          simp only [h0, hl, Option.some.injEq] at h
          subst h
          exact ⟨row0, _, Or.inl ⟨hL, rfl, rfl⟩, h0, hl⟩

/-- Whenever `witness_complex` returns, the store has only received requests
`insert_simplex` with the filtration value `0`. -/
theorem zeroInserts_witness_complex {nbL : ℤ} {knn : List (List ℤ)} {c : Simplex_tree}
    {r : Witness_result} (h : witness_complex nbL knn c = some r) :
    ZeroInserts c r.complex := by
  obtain ⟨-, row0, c1, hsetup, -, hloop⟩ := witness_complex_steps h
  have h1 : ZeroInserts c c1 := by
    rcases hsetup with ⟨-, rfl, -⟩ | ⟨-, he, -⟩
    · exact zeroInserts_insert_landmarks _ c
    · exact (zeroInserts_insert_landmarks _ c).trans (zeroInserts_insert_edges knn _ c1 he)
  exact h1.trans (zeroInserts_witness_loop _ _ _ _ _ _ _ hloop)

/-- C24: every simplex that `witness_complex` inserts is inserted with the
filtration value `0`. Whenever the call returns, the requests the store has
received during the call are requests `insert_simplex` with the value `0`
(landmark vertices, first edges and candidate simplices alike); in a complex
built from the empty store every simplex has the filtration value `0`; and the
call returns whenever its reads stay inside the table. -/
theorem witness_complex_filtration_zero (nbL : ℤ) (knn : List (List ℤ)) (c : Simplex_tree) :
    (∀ r, witness_complex nbL knn c = some r →
      ∃ new : List (Request × List (Finset ℤ × ℚ)), r.complex.log = c.log ++ new ∧
        ∀ e ∈ new, ∃ vs, e.1 = Request.insert_simplex vs 0) ∧
    (∀ r, witness_complex nbL knn Simplex_tree.empty = some r →
      (∀ p ∈ r.complex.simplices, p.2 = 0) ∧
      ∀ s v, r.complex.filtration s = some v → v = 0) ∧
    (ReadsInRange nbL knn → ∃ r, witness_complex nbL knn Simplex_tree.empty = some r) := by
  refine ⟨?_, ?_, fun h => witness_complex_total _ h⟩
  · intro r h
    obtain ⟨new, h1, h2, -⟩ := zeroInserts_witness_complex h
    exact ⟨new, h1, h2⟩
  · intro r h
    obtain ⟨new, -, -, h3⟩ := zeroInserts_witness_complex h
    have hall : ∀ p ∈ r.complex.simplices, p.2 = 0 :=
      h3 (fun p hp => by simp [Simplex_tree.empty] at hp)
    refine ⟨hall, ?_⟩
    intro s v hv
    rw [Simplex_tree.filtration_eq] at hv
    cases hf : r.complex.simplices.find? (fun p => decide (p.1 = s)) with
    | none => rw [hf] at hv; cases hv
    | some p =>
      rw [hf, Option.map_some', Option.some.injEq] at hv
      rw [← hv]
      exact hall p (List.mem_of_find?_eq_some hf)

/-! ## The weak engine: the table, the ids, the first scenario -/

/-- C22 (what the code does): on the table of one row `[1, 0]`, with two
landmarks, `witness_complex` returns and leaves the row `[0, 1]` in the table:
the third loop exchanges `knn[i][0]` and `knn[i][1]` when `knn[i][0] > knn[i][1]`. -/
theorem witness_complex_swaps_row :
    (witness_complex 2 [[1, 0]] Simplex_tree.empty).map (fun r => r.knn) = some [[0, 1]] ∧
    ([[0, 1]] : List (List ℤ)) ≠ [[1, 0]] := by
  decide

/-- C22 (amended): whenever `witness_complex` returns, the table has as many rows
as before the call; with at most one landmark it is unchanged; with at least two
landmarks every row holds the same entries in the same order, except that its
first two entries are exchanged when the first one is greater than the second
one. -/
theorem witness_complex_rows (nbL : ℤ) (knn : List (List ℤ)) (c : Simplex_tree)
    (r : Witness_result) (h : witness_complex nbL knn c = some r) :
    r.knn.length = knn.length ∧ (¬ 1 < nbL → r.knn = knn) ∧
    (1 < nbL → List.Forall₂ (fun row row1 : List ℤ => ∃ u v rest, row = u :: v :: rest ∧
      row1 = if u > v then v :: u :: rest else u :: v :: rest) knn r.knn) := by
  obtain ⟨-, row0, c1, hsetup, -, -⟩ := witness_complex_steps h
  rcases hsetup with ⟨hL, -, hk⟩ | ⟨hL, -, ho⟩
  · exact ⟨by rw [hk], fun _ => hk, fun h1 => absurd h1 hL⟩
  · have hF := order_rows_spec knn r.knn ho
    refine ⟨hF.length_eq.symm, fun h1 => absurd hL h1, fun _ => ?_⟩
    refine hF.imp ?_
    intro row row1 hrow
    match row, hrow with
    | u :: v :: rest, hrow =>
      refine ⟨u, v, rest, rfl, ?_⟩
      by_cases huv : u > v
      · simp only [order_first_two, if_pos huv, Option.some.injEq] at hrow
        rw [if_pos huv, hrow]
      · simp only [order_first_two, if_neg huv, Option.some.injEq] at hrow
        rw [if_neg huv, hrow]
    | [], hrow => simp [order_first_two] at hrow
    | [u], hrow => simp [order_first_two] at hrow

/-- An instance of the rows left in the table: three witnesses, three landmarks. -/
theorem witness_complex_rows_witness :
    ∃ r, witness_complex 3 [[0, 1, 2], [1, 0, 2], [2, 0, 1]] Simplex_tree.empty = some r ∧
      r.knn.length = [[(0 : ℤ), 1, 2], [1, 0, 2], [2, 0, 1]].length ∧
      (¬ (1 : ℤ) < 3 → r.knn = [[0, 1, 2], [1, 0, 2], [2, 0, 1]]) ∧
      ((1 : ℤ) < 3 → List.Forall₂ (fun row row1 : List ℤ => ∃ u v rest,
        row = u :: v :: rest ∧
        row1 = if u > v then v :: u :: rest else u :: v :: rest)
        [[0, 1, 2], [1, 0, 2], [2, 0, 1]] r.knn) :=
  let ⟨r, hr, _⟩ := witness_complex_table (D := 3) (by decide)
    (by decide : IsTable 3 3 [[0, 1, 2], [1, 0, 2], [2, 0, 1]])
  ⟨r, hr, witness_complex_rows 3 _ _ r hr⟩

/-- C25 (what the code does): with two landmarks and the row `[0, 5]`, whose
second id is outside `[0, 2)`, `witness_complex` returns and the edge `{0, 5}` is
in the complex. -/
theorem witness_complex_id_out_of_range :
    ¬ ((5 : ℤ) < 2) ∧
    (witness_complex 2 [[0, 5]] Simplex_tree.empty).map
      (fun r => decide (r.complex.Mem {0, 5})) = some true := by
  decide

/-- C25 (amended): `witness_complex` has no check on the landmark ids of the
table. Whatever the ids, inside `[0, nbL)` or not, the call returns whenever its
reads stay inside the table, and with at least two landmarks the edge of the
first two ids of every row is in the complex. -/
theorem witness_complex_no_bounds_check (nbL : ℤ) (knn : List (List ℤ)) (c : Simplex_tree)
    (h : ReadsInRange nbL knn) :
    ∃ r, witness_complex nbL knn c = some r ∧
      (1 < nbL → ∀ row ∈ knn, ∀ u v, row[0]? = some u → row[1]? = some v →
        r.complex.Mem {u, v}) := by
  obtain ⟨r, hr⟩ := witness_complex_total c h
  refine ⟨r, hr, ?_⟩
  intro hL row hrow u v hu hv
  obtain ⟨-, row0, c1, hsetup, -, hloop⟩ := witness_complex_steps hr
  rcases hsetup with ⟨hL', -, -⟩ | ⟨-, he, -⟩
  · exact absurd hL hL'
  · have hc1 : c1.Mem {u, v} := by
      rw [mem_insert_edges knn _ c1 he]
      refine Or.inr ⟨row, hrow, ?_⟩
      rw [← firsts_two_of_getElem? hu hv]
      simp
    exact (witness_loop_mono _ _ _ _ _ _ _ hloop).1 _ hc1

/-- An instance of the call on ids out of range: two landmarks, the row
`[0, 5]`. -/
theorem witness_complex_no_bounds_check_witness :
    ReadsInRange 2 [[0, 5]] ∧
    ∃ r, witness_complex 2 [[0, 5]] Simplex_tree.empty = some r ∧
      ((1 : ℤ) < 2 → ∀ row ∈ [[(0 : ℤ), 5]], ∀ u v, row[0]? = some u → row[1]? = some v →
        r.complex.Mem {u, v}) :=
  ⟨⟨by decide, [0, 5], [], rfl, fun _ row hrow => by
      rw [List.mem_singleton.1 hrow]; decide⟩,
    witness_complex_no_bounds_check 2 [[0, 5]] Simplex_tree.empty
      ⟨by decide, [0, 5], [], rfl, fun _ row hrow => by
        rw [List.mem_singleton.1 hrow]; decide⟩⟩

/-- C23 (what the code does): in Scenario A, with the witnesses and landmarks
`(0,0)`, `(1,0)`, `(0,1)` and the rows in ascending distance (`[0, 1, 2]` or
`[0, 2, 1]` for the first witness, at the same distance from the two other
landmarks, `[1, 0, 2]` and `[2, 0, 1]` for the others), `witness_complex` returns
and neither the edge `{1, 2}` nor the triangle `{0, 1, 2}` is in the complex: no
witness has the landmarks `1` and `2` as its two nearest ones. -/
theorem witness_complex_scenario_A_no_triangle :
    (witness_complex 3 [[0, 1, 2], [1, 0, 2], [2, 0, 1]] Simplex_tree.empty).map
      (fun r => (decide (r.complex.Mem {1, 2}), decide (r.complex.Mem {0, 1, 2})))
      = some (false, false) ∧
    (witness_complex 3 [[0, 2, 1], [1, 0, 2], [2, 0, 1]] Simplex_tree.empty).map
      (fun r => (decide (r.complex.Mem {1, 2}), decide (r.complex.Mem {0, 1, 2})))
      = some (false, false) := by
  decide

/-- C23 (amended): in Scenario A, for either order of the row of the first witness,
the complex built by `witness_complex` from the empty complex holds the three
vertices and the two edges `{0, 1}` and `{0, 2}`, and nothing else, every simplex
with the filtration value `0` (each simplex is shown as the increasing list of
its vertices, with its value). -/
theorem witness_complex_scenario_A :
    (witness_complex 3 [[0, 1, 2], [1, 0, 2], [2, 0, 1]] Simplex_tree.empty).map
      (fun r => r.complex.simplices.map (fun p => (p.1.sort (· ≤ ·), p.2)))
      = some [([0], 0), ([1], 0), ([2], 0), ([0, 1], 0), ([0, 2], 0)] ∧
    (witness_complex 3 [[0, 2, 1], [1, 0, 2], [2, 0, 1]] Simplex_tree.empty).map
      (fun r => r.complex.simplices.map (fun p => (p.1.sort (· ≤ ·), p.2)))
      = some [([0], 0), ([1], 0), ([2], 0), ([0, 2], 0), ([0, 1], 0)] := by
  decide!

/-- C21 (what the code does): in the complex made of the edges `{0, 2}` and
`{1, 2}`, for the row `[0, 1, 2]` and `k = 2`, `all_faces_in` returns `true` although
the facet `{0, 1}` of the candidate simplex `{0, 1, 2}` is not in the complex: the
facet without the inserted vertex is not looked up. -/
theorem all_faces_in_skips_facet :
    all_faces_in ((Simplex_tree.empty.insert_simplex [0, 2] 0).1.insert_simplex [1, 2] 0).1
      [[0, 1, 2]] 0 2 2 = some true ∧
    ¬ ((Simplex_tree.empty.insert_simplex [0, 2] 0).1.insert_simplex [1, 2] 0).1.Mem {0, 1} ∧
    (firsts [0, 1, 2] 3).erase 2 = {0, 1} := by
  decide

/-- C21 (amended): for every complex, every row `R` of pairwise distinct
landmarks and every `k` inside the row, `all_faces_in(knn, w, k, R[k])` returns, and
it returns `true` if and only if each of the `k` facets obtained by deleting
exactly one vertex other than `R[k]` from the candidate simplex
`{R[0], ..., R[k]}` is in the complex. The facet `{R[0], ..., R[k-1]}`, obtained by
deleting `R[k]`, is not looked up; when it is in the complex, the value returned
is `true` if and only if each of the `k + 1` facets is in the complex. -/
theorem all_faces_in_checks (c : Simplex_tree) (knn : List (List ℤ)) (w k : ℕ) (xk : ℤ)
    (row : List ℤ) (hrow : knn[w]? = some row) (hnd : row.Nodup) (hk : row[k]? = some xk) :
    ∃ b, all_faces_in c knn w k xk = some b ∧
      (b = true ↔ ∀ x ∈ firsts row (k + 1), x ≠ xk → c.Mem ((firsts row (k + 1)).erase x)) ∧
      (firsts row (k + 1)).erase xk = firsts row k ∧
      (c.Mem (firsts row k) →
        (b = true ↔ ∀ x ∈ firsts row (k + 1), c.Mem ((firsts row (k + 1)).erase x))) := by
  obtain ⟨b, hb, hiff⟩ := all_faces_in_spec c knn w k xk hrow hnd hk
  have hiff' : b = true ↔
      ∀ x ∈ firsts row (k + 1), x ≠ xk → c.Mem ((firsts row (k + 1)).erase x) := by
    rw [hiff]
    constructor
    · intro h x hx hne
      obtain ⟨j, hj, hjx⟩ := (mem_firsts row (k + 1) x).1 hx
      have hjk : j ≠ k := by
        intro hjk
        rw [hjk, hk, Option.some.injEq] at hjx
        exact hne hjx.symm
      exact h j (by omega) x hjx
    · intro h i hi xi hxi
      refine h xi ((mem_firsts row (k + 1) xi).2 ⟨i, by omega, hxi⟩) ?_
      intro hxx
      rw [hxx] at hxi
      have := getElem?_inj_of_nodup hnd hxi hk
      omega
  refine ⟨b, hb, hiff', firsts_succ_erase hnd hk, ?_⟩
  intro hface
  rw [hiff']
  constructor
  · intro h x hx
    by_cases hxk : x = xk
    · rw [hxk, firsts_succ_erase hnd hk]
      exact hface
    · exact h x hx hxk
  · intro h x hx _
    exact h x hx

/-- An instance of the check: the row `[0, 1, 2]`, `k = 2`, in the complex made
of the edges `{0, 2}` and `{1, 2}`. -/
theorem all_faces_in_checks_witness :
    [[(0 : ℤ), 1, 2]][0]? = some [0, 1, 2] ∧ [(0 : ℤ), 1, 2].Nodup ∧
    [(0 : ℤ), 1, 2][2]? = some 2 ∧
    ∃ b, all_faces_in
        ((Simplex_tree.empty.insert_simplex [0, 2] 0).1.insert_simplex [1, 2] 0).1
        [[0, 1, 2]] 0 2 2 = some b ∧
      (b = true ↔ ∀ x ∈ firsts [0, 1, 2] (2 + 1), x ≠ 2 →
        ((Simplex_tree.empty.insert_simplex [0, 2] 0).1.insert_simplex [1, 2] 0).1.Mem
          ((firsts [0, 1, 2] (2 + 1)).erase x)) ∧
      (firsts [0, 1, 2] (2 + 1)).erase 2 = firsts [0, 1, 2] 2 ∧
      (((Simplex_tree.empty.insert_simplex [0, 2] 0).1.insert_simplex [1, 2] 0).1.Mem
          (firsts [0, 1, 2] 2) →
        (b = true ↔ ∀ x ∈ firsts [0, 1, 2] (2 + 1),
          ((Simplex_tree.empty.insert_simplex [0, 2] 0).1.insert_simplex [1, 2] 0).1.Mem
            ((firsts [0, 1, 2] (2 + 1)).erase x))) :=
  ⟨by decide, by decide, by decide,
    all_faces_in_checks _ [[0, 1, 2]] 0 2 2 [0, 1, 2] (by decide) (by decide) (by decide)⟩

/-! ## The pruning of the weak engine is safe -/

/-- The requests of `add_all_faces_of_dimension`: closure-insert requests only,
with the filtration value given, each on the scratch vector followed by `dim` of
the vertices still to read, in their order, and by the new landmark; and every
such choice of vertices is requested. -/
theorem add_all_faces_of_dimension_requests (aw_first : ℤ) (filtration_value : ℚ)
    (next : List ℤ) :
    ∀ (dim : ℤ) (st : List ℤ × Simplex_tree),
      ∃ calls : List (List ℤ × ℚ),
        (add_all_faces_of_dimension aw_first filtration_value dim next st).2
          = calls.foldl (fun c p => c.insert_simplex_and_subfaces p.1 p.2) st.2 ∧
        ∀ p, p ∈ calls ↔ ∃ S : List ℤ, S.Sublist next ∧ (S.length : ℤ) = dim ∧
          p = (st.1 ++ S ++ [aw_first], filtration_value) := by
  induction next with
  | nil =>
    intro dim st
    by_cases h1 : dim > 0
    · refine ⟨[], by simp [add_all_faces_of_dimension, h1], ?_⟩
      intro p
      constructor
      · intro hp; simp at hp
      · rintro ⟨S, hS, hl, -⟩
        rw [List.sublist_nil.1 hS] at hl
        simp at hl
        omega
    · by_cases h2 : dim = 0
      · refine ⟨[(st.1 ++ [aw_first], filtration_value)],
          by simp [add_all_faces_of_dimension, h2], ?_⟩
        intro p
        constructor
        · intro hp
          exact ⟨[], List.Sublist.refl _, by simp [h2], by simpa using hp⟩
        · rintro ⟨S, hS, -, rfl⟩
          rw [List.sublist_nil.1 hS]
          simp
      · refine ⟨[], by simp [add_all_faces_of_dimension, h1, h2], ?_⟩
        intro p
        constructor
        · intro hp; simp at hp
        · rintro ⟨S, -, hl, -⟩
          have : (0 : ℤ) ≤ S.length := Int.ofNat_nonneg _
          omega
  | cons v next ih =>
    intro dim st
    by_cases h1 : dim > 0
    · have hs1 := add_all_faces_of_dimension_scratch aw_first filtration_value next
        (dim - 1) (st.1 ++ [v], st.2)
      have hd : (add_all_faces_of_dimension aw_first filtration_value (dim - 1) next
          (st.1 ++ [v], st.2)).1.dropLast = st.1 := by
        rw [hs1]; exact List.dropLast_concat
      obtain ⟨c1, hc1, hv1⟩ := ih (dim - 1) (st.1 ++ [v], st.2)
      obtain ⟨c2, hc2, hv2⟩ := ih dim
        ((add_all_faces_of_dimension aw_first filtration_value (dim - 1) next
          (st.1 ++ [v], st.2)).1.dropLast,
         (add_all_faces_of_dimension aw_first filtration_value (dim - 1) next
          (st.1 ++ [v], st.2)).2)
      have hs2 := add_all_faces_of_dimension_scratch aw_first filtration_value next dim
        ((add_all_faces_of_dimension aw_first filtration_value (dim - 1) next
          (st.1 ++ [v], st.2)).1.dropLast,
         (add_all_faces_of_dimension aw_first filtration_value (dim - 1) next
          (st.1 ++ [v], st.2)).2)
      obtain ⟨c3, hc3, hv3⟩ := ih dim
        (add_all_faces_of_dimension aw_first filtration_value dim next
          ((add_all_faces_of_dimension aw_first filtration_value (dim - 1) next
            (st.1 ++ [v], st.2)).1.dropLast,
           (add_all_faces_of_dimension aw_first filtration_value (dim - 1) next
            (st.1 ++ [v], st.2)).2))
      rw [hs2] at hv3
      simp only [hd] at hv2 hv3
      refine ⟨c1 ++ (c2 ++ c3), ?_, ?_⟩
      · simp only [add_all_faces_of_dimension, if_pos h1]
        rw [hc3, hc2, hc1, foldl_requests_append, foldl_requests_append]
      · intro p
        rw [List.mem_append, List.mem_append, hv1, hv2, hv3]
        constructor
        · rintro (⟨S, hS, hl, rfl⟩ | ⟨S, hS, hl, rfl⟩ | ⟨S, hS, hl, rfl⟩)
          · refine ⟨v :: S, hS.cons₂ v, ?_, by simp⟩
            rw [List.length_cons]
            push_cast
            omega
          · exact ⟨S, hS.cons v, hl, rfl⟩
          · exact ⟨S, hS.cons v, hl, rfl⟩
        · rintro ⟨S, hS, hl, rfl⟩
          rcases List.sublist_cons_iff.1 hS with h | ⟨r, rfl, hr⟩
          · exact Or.inr (Or.inl ⟨S, h, hl, rfl⟩)
          · refine Or.inl ⟨r, hr, ?_, by simp⟩
            rw [List.length_cons] at hl
            push_cast at hl
            omega
    · by_cases h2 : dim = 0
      · refine ⟨[(st.1 ++ [aw_first], filtration_value)],
          by simp [add_all_faces_of_dimension, h2], ?_⟩
        intro p
        constructor
        · intro hp
          exact ⟨[], List.nil_sublist _, by simp [h2], by simpa using hp⟩
        · rintro ⟨S, -, hl, rfl⟩
          rw [h2] at hl
          have hS : S = [] := List.length_eq_zero.1 (by exact_mod_cast hl)
          rw [hS]
          simp
      · refine ⟨[], by simp [add_all_faces_of_dimension, h1, h2], ?_⟩
        intro p
        constructor
        · intro hp; simp at hp
        · rintro ⟨S, -, hl, -⟩
          have : (0 : ℤ) ≤ S.length := Int.ofNat_nonneg _
          omega

/-- The vertices of a sublist of a list without repetition: a subset with as many
elements as the sublist has entries. -/
theorem sublist_toFinset {S vertices : List ℤ} (hS : S.Sublist vertices)
    (hnd : vertices.Nodup) :
    S.toFinset ⊆ vertices.toFinset ∧ S.toFinset.card = S.length :=
  ⟨fun _ hx => List.mem_toFinset.2 (hS.subset (List.mem_toFinset.1 hx)),
    List.toFinset_card_of_nodup (hS.nodup hnd)⟩

/-- Every subset of the vertices is the set of the entries of a sublist, with as
many entries as the subset has elements. -/
theorem exists_sublist_toFinset {vertices : List ℤ} (hnd : vertices.Nodup) {T : Finset ℤ}
    (hT : T ⊆ vertices.toFinset) :
    ∃ S : List ℤ, S.Sublist vertices ∧ S.toFinset = T ∧ S.length = T.card := by
  have hset : (vertices.filter (fun x => decide (x ∈ T))).toFinset = T := by
    ext x
    simp only [List.mem_toFinset, List.mem_filter, decide_eq_true_eq]
    exact ⟨fun h => h.2, fun h => ⟨List.mem_toFinset.1 (hT h), h⟩⟩
  refine ⟨vertices.filter (fun x => decide (x ∈ T)), List.filter_sublist _, hset, ?_⟩
  rw [← List.toFinset_card_of_nodup ((List.filter_sublist _).nodup hnd), hset]

/-- C28: bounded face enumeration. For every `dim`, every vector of pairwise
distinct vertices, every new landmark `x` and every value of the scratch vector
`simplex` at entry (empty in `create_complex`), `add_all_faces_of_dimension`
called at `vertices.begin()` serves closure-insert requests only, with the
filtration value it was given; the set of the simplices it passes is exactly
`{ simplex ∪ S ∪ {x} : S ⊆ vertices, |S| = dim }`; and on return the scratch
vector has its value at entry. -/
theorem add_all_faces_of_dimension_exact (aw_first : ℤ) (filtration_value : ℚ) (dim : ℤ)
    (vertices simplex : List ℤ) (c : Simplex_tree) (hnd : vertices.Nodup) :
    ∃ calls : List (List ℤ × ℚ),
      (add_all_faces_of_dimension aw_first filtration_value dim vertices (simplex, c)).2
        = calls.foldl (fun c p => c.insert_simplex_and_subfaces p.1 p.2) c ∧
      Simplex_tree.closure_requests
          (add_all_faces_of_dimension aw_first filtration_value dim vertices (simplex, c)).2.log
        = Simplex_tree.closure_requests c.log ++ calls ∧
      (∀ p ∈ calls, p.2 = filtration_value) ∧
      (∀ T : Finset ℤ, (∃ p ∈ calls, p.1.toFinset = T) ↔
        ∃ S : Finset ℤ, S ⊆ vertices.toFinset ∧ (S.card : ℤ) = dim ∧
          T = simplex.toFinset ∪ S ∪ {aw_first}) ∧
      (add_all_faces_of_dimension aw_first filtration_value dim vertices (simplex, c)).1
        = simplex := by
  obtain ⟨calls, hc, hmem⟩ :=
    add_all_faces_of_dimension_requests aw_first filtration_value vertices dim (simplex, c)
  refine ⟨calls, hc, ?_, ?_, ?_,
    add_all_faces_of_dimension_scratch aw_first filtration_value vertices dim (simplex, c)⟩
  · rw [hc, Simplex_tree.closure_requests_foldl]
  · intro p hp
    obtain ⟨S, -, -, rfl⟩ := (hmem p).1 hp
    rfl
  · intro T
    constructor
    · rintro ⟨p, hp, rfl⟩
      obtain ⟨S, hS, hl, rfl⟩ := (hmem p).1 hp
      obtain ⟨h1, h2⟩ := sublist_toFinset hS hnd
      refine ⟨S.toFinset, h1, by rw [h2]; exact hl, ?_⟩
      simp only [List.toFinset_append, List.toFinset_cons, List.toFinset_nil]
      rfl
    · rintro ⟨S, hS, hl, rfl⟩
      obtain ⟨L, hL, hLS, hlen⟩ := exists_sublist_toFinset hnd hS
      refine ⟨(simplex ++ L ++ [aw_first], filtration_value),
        (hmem _).2 ⟨L, hL, by rw [hlen]; exact hl, rfl⟩, ?_⟩
      simp only [List.toFinset_append, List.toFinset_cons, List.toFinset_nil, hLS]
      rfl

/-- An instance of the enumeration: the faces of dimension `2` on four vertices. -/
theorem add_all_faces_of_dimension_exact_witness :
    [(0 : ℤ), 1, 2, 3].Nodup ∧
    ∃ calls : List (List ℤ × ℚ),
      (add_all_faces_of_dimension 9 7 2 [0, 1, 2, 3] ([], Simplex_tree.empty)).2
        = calls.foldl (fun c p => c.insert_simplex_and_subfaces p.1 p.2) Simplex_tree.empty ∧
      Simplex_tree.closure_requests
          (add_all_faces_of_dimension 9 7 2 [0, 1, 2, 3] ([], Simplex_tree.empty)).2.log
        = Simplex_tree.closure_requests Simplex_tree.empty.log ++ calls ∧
      (∀ p ∈ calls, p.2 = 7) ∧
      (∀ T : Finset ℤ, (∃ p ∈ calls, p.1.toFinset = T) ↔
        ∃ S : Finset ℤ, S ⊆ [(0 : ℤ), 1, 2, 3].toFinset ∧ (S.card : ℤ) = 2 ∧
          T = ([] : List ℤ).toFinset ∪ S ∪ {9}) ∧
      (add_all_faces_of_dimension 9 7 2 [0, 1, 2, 3] ([], Simplex_tree.empty)).1 = [] :=
  ⟨by decide, add_all_faces_of_dimension_exact 9 7 2 [0, 1, 2, 3] [] Simplex_tree.empty
    (by decide)⟩

/-- C29 (what the code does): with `dim = 1`, the two vertices `0`, `1` and the new
landmark `2`, `add_all_faces_of_dimension` makes three closure-insert calls, on
`[0, 2]`, `[1, 2]` and `[1, 2]` again, and not `C(2, 1) = 2`: the remaining
iterations of the `while` loop repeat what the second recursive call has done. -/
theorem add_all_faces_of_dimension_repeats :
    Simplex_tree.closure_requests
        (add_all_faces_of_dimension 2 7 1 [0, 1] ([], Simplex_tree.empty)).2.log
      = [([0, 2], 7), ([1, 2], 7), ([1, 2], 7)] ∧
    ([([0, 2], 7), ([1, 2], 7), ([1, 2], 7)] : List (List ℤ × ℚ)).length
      ≠ Nat.choose [(0 : ℤ), 1].length 1 := by
  decide!

/-- C29 (amended): for every `dim ≥ 0` and every vector of `n` pairwise distinct
vertices, the sequence of the closure-insert calls of
`add_all_faces_of_dimension` contains each `dim`-element subset of the vertices
(in the order of the vector, after the scratch vector and before the new
landmark) at least once, and nothing else; so it makes at least `C(n, dim)`
calls. -/
theorem add_all_faces_of_dimension_count (aw_first : ℤ) (filtration_value : ℚ) (dim : ℤ)
    (vertices simplex : List ℤ) (c : Simplex_tree) (hdim : 0 ≤ dim) (hnd : vertices.Nodup) :
    ∃ calls : List (List ℤ × ℚ),
      Simplex_tree.closure_requests
          (add_all_faces_of_dimension aw_first filtration_value dim vertices (simplex, c)).2.log
        = Simplex_tree.closure_requests c.log ++ calls ∧
      (∀ S : Finset ℤ, S ⊆ vertices.toFinset → (S.card : ℤ) = dim →
        (simplex ++ vertices.filter (fun x => decide (x ∈ S)) ++ [aw_first], filtration_value)
          ∈ calls) ∧
      (∀ p ∈ calls, ∃ S : Finset ℤ, S ⊆ vertices.toFinset ∧ (S.card : ℤ) = dim ∧
        p = (simplex ++ vertices.filter (fun x => decide (x ∈ S)) ++ [aw_first],
          filtration_value)) ∧
      Nat.choose vertices.length dim.toNat ≤ calls.length := by
  obtain ⟨calls, hc, hmem⟩ :=
    add_all_faces_of_dimension_requests aw_first filtration_value vertices dim (simplex, c)
  have hfilter : ∀ S : Finset ℤ, S ⊆ vertices.toFinset →
      (vertices.filter (fun x => decide (x ∈ S))).toFinset = S ∧
      (vertices.filter (fun x => decide (x ∈ S))).length = S.card := by
    intro S hS
    have hset : (vertices.filter (fun x => decide (x ∈ S))).toFinset = S := by
      ext x
      simp only [List.mem_toFinset, List.mem_filter, decide_eq_true_eq]
      exact ⟨fun h => h.2, fun h => ⟨List.mem_toFinset.1 (hS h), h⟩⟩
    exact ⟨hset,
      by rw [← List.toFinset_card_of_nodup ((List.filter_sublist _).nodup hnd), hset]⟩
  have hall : ∀ S : Finset ℤ, S ⊆ vertices.toFinset → (S.card : ℤ) = dim →
      (simplex ++ vertices.filter (fun x => decide (x ∈ S)) ++ [aw_first], filtration_value)
        ∈ calls := by
    intro S hS hcard
    exact (hmem _).2 ⟨_, List.filter_sublist _, by rw [(hfilter S hS).2]; exact hcard, rfl⟩
  refine ⟨calls, by rw [hc, Simplex_tree.closure_requests_foldl], hall, ?_, ?_⟩
  · intro p hp
    obtain ⟨L, hL, hl, rfl⟩ := (hmem p).1 hp
    obtain ⟨h1, h2⟩ := sublist_toFinset hL hnd
    refine ⟨L.toFinset, h1, by rw [h2]; exact hl, ?_⟩
    -- a sublist of a list without repetition is the filter of the list by its entries
    have hperm : ∀ (V L : List ℤ), V.Nodup → L.Sublist V →
        V.filter (fun x => decide (x ∈ L.toFinset)) = L := by
      intro V
      induction V with
      | nil => intro L _ h; rw [List.sublist_nil.1 h]; rfl
      | cons a V ih =>
        intro L hV h
        obtain ⟨haV, hV'⟩ := List.nodup_cons.1 hV
        rcases List.sublist_cons_iff.1 h with h' | ⟨r, rfl, hr⟩
        · have ha : a ∉ L.toFinset := fun hm => haV (h'.subset (List.mem_toFinset.1 hm))
          rw [List.filter_cons_of_neg (by simpa using ha)]
          exact ih L hV' h'
        · have har : a ∉ r := fun hm => haV (hr.subset hm)
          rw [List.filter_cons_of_pos (by simp)]
          congr 1
          have hcongr : V.filter (fun x => decide (x ∈ (a :: r).toFinset))
              = V.filter (fun x => decide (x ∈ r.toFinset)) := by
            refine List.filter_congr ?_
            intro x hx
            have hxa : x ≠ a := fun hxa => haV (hxa ▸ hx)
            simp [hxa]
          rw [hcongr]
          exact ih r hV' hr
    rw [hperm vertices L hnd hL]
  · -- each subset is the middle part of a call
    have hsub : Finset.powersetCard dim.toNat vertices.toFinset
        ⊆ calls.toFinset.image
            (fun p => ((p.1.drop simplex.length).dropLast).toFinset) := by
      intro S hS
      obtain ⟨hSv, hScard⟩ := Finset.mem_powersetCard.1 hS
      rw [Finset.mem_image]
      refine ⟨_, List.mem_toFinset.2 (hall S hSv (by rw [hScard]; omega)), ?_⟩
      show (((simplex ++ vertices.filter (fun x => decide (x ∈ S)) ++ [aw_first]).drop
        simplex.length).dropLast).toFinset = S
      rw [List.append_assoc, List.drop_left, List.dropLast_concat]
      exact (hfilter S hSv).1
    have h1 := Finset.card_le_card hsub
    rw [Finset.card_powersetCard, List.toFinset_card_of_nodup hnd] at h1
    exact le_trans h1 (le_trans Finset.card_image_le (List.toFinset_card_le _))

/-- An instance of the count: the faces of dimension `2` on four vertices. -/
theorem add_all_faces_of_dimension_count_witness :
    (0 : ℤ) ≤ 2 ∧ [(0 : ℤ), 1, 2, 3].Nodup ∧
    ∃ calls : List (List ℤ × ℚ),
      Simplex_tree.closure_requests
          (add_all_faces_of_dimension 9 7 2 [0, 1, 2, 3] ([], Simplex_tree.empty)).2.log
        = Simplex_tree.closure_requests Simplex_tree.empty.log ++ calls ∧
      (∀ S : Finset ℤ, S ⊆ [(0 : ℤ), 1, 2, 3].toFinset → (S.card : ℤ) = 2 →
        ([] ++ [(0 : ℤ), 1, 2, 3].filter (fun x => decide (x ∈ S)) ++ [9], (7 : ℚ)) ∈ calls) ∧
      (∀ p ∈ calls, ∃ S : Finset ℤ, S ⊆ [(0 : ℤ), 1, 2, 3].toFinset ∧ (S.card : ℤ) = 2 ∧
        p = ([] ++ [(0 : ℤ), 1, 2, 3].filter (fun x => decide (x ∈ S)) ++ [9], (7 : ℚ))) ∧
      Nat.choose [(0 : ℤ), 1, 2, 3].length (2 : ℤ).toNat ≤ calls.length :=
  ⟨by decide, by decide,
    add_all_faces_of_dimension_count 9 7 2 [0, 1, 2, 3] [] Simplex_tree.empty (by decide)
      (by decide)⟩

/-! ## The filtration values of the strong engine -/

/-- The requests of the first loop over a witness: each is on a simplex which ends
with a landmark of the range below the bound, with the distance of this landmark
minus `d0`. -/
theorem grow_simplex_requests (lim_dist2 d0 : ℚ) (limit_dimension : ℤ) (aw : List (ℤ × ℚ)) :
    ∀ (simplex : List ℤ) (c : Simplex_tree),
      ∃ calls : List (List ℤ × ℚ),
        (grow_simplex lim_dist2 d0 limit_dimension aw simplex c).complex
          = calls.foldl (fun c p => c.insert_simplex_and_subfaces p.1 p.2) c ∧
        ∀ p ∈ calls, ∃ q ∈ aw, p.1.getLast? = some q.1 ∧ p.2 = q.2 - d0 ∧ q.2 < lim_dist2 := by
  induction aw with
  | nil => intro simplex c; exact ⟨[], rfl, by simp⟩
  | cons q rest ih =>
    intro simplex c
    by_cases hcond : (simplex.length : ℤ) ≤ limit_dimension + 1 ∧ q.2 < lim_dist2
    · obtain ⟨calls, hc, hall⟩ := ih (simplex ++ [q.1])
        (c.insert_simplex_and_subfaces (simplex ++ [q.1]) (q.2 - d0))
      refine ⟨(simplex ++ [q.1], q.2 - d0) :: calls, ?_, ?_⟩
      · simp only [grow_simplex, if_pos hcond, hc, List.foldl_cons]
      · intro p hp
        rcases List.mem_cons.1 hp with rfl | hp
        · exact ⟨q, List.mem_cons_self _ _, List.getLast?_concat _, rfl, hcond.2⟩
        · obtain ⟨q', hq', h⟩ := hall p hp
          exact ⟨q', List.mem_cons_of_mem _ hq', h⟩
    · exact ⟨[], by simp only [grow_simplex, if_neg hcond, List.foldl_nil], by simp⟩

/-- The requests of the second loop over a witness: each is on a simplex which
ends with a landmark of the range below the bound, with the distance of this
landmark minus `d0`. -/
theorem add_faces_requests (lim_dist2 d0 : ℚ) (limit_dimension : ℤ) (aw : List (ℤ × ℚ)) :
    ∀ (vertices : List ℤ) (c : Simplex_tree),
      ∃ calls : List (List ℤ × ℚ),
        (add_faces lim_dist2 d0 limit_dimension aw vertices c).complex
          = calls.foldl (fun c p => c.insert_simplex_and_subfaces p.1 p.2) c ∧
        ∀ p ∈ calls, ∃ q ∈ aw, p.1.getLast? = some q.1 ∧ p.2 = q.2 - d0 ∧ q.2 < lim_dist2 := by
  induction aw with
  | nil => intro vertices c; exact ⟨[], rfl, by simp⟩
  | cons q rest ih =>
    intro vertices c
    by_cases hcond : q.2 < lim_dist2
    · obtain ⟨calls1, hc1, hmem1⟩ := add_all_faces_of_dimension_requests q.1 (q.2 - d0)
        vertices limit_dimension ([], c)
      obtain ⟨calls2, hc2, hall2⟩ := ih (vertices ++ [q.1])
        (add_all_faces_of_dimension q.1 (q.2 - d0) limit_dimension vertices ([], c)).2
      refine ⟨calls1 ++ calls2, ?_, ?_⟩
      · simp only [add_faces, if_pos hcond, hc2]
        rw [hc1, foldl_requests_append]
      · intro p hp
        rcases List.mem_append.1 hp with h | h
        · obtain ⟨S, -, -, rfl⟩ := (hmem1 p).1 h
          exact ⟨q, List.mem_cons_self _ _, List.getLast?_concat _, rfl, hcond⟩
        · obtain ⟨q', hq', h'⟩ := hall2 p h
          exact ⟨q', List.mem_cons_of_mem _ hq', h'⟩
    · exact ⟨[], by simp only [add_faces, if_neg hcond, List.foldl_nil], by simp⟩

/-- The requests of the body of the loop over the witnesses, with an exact bound
and the landmarks of the witness in ascending order of distance: each is on a
simplex which ends with a landmark `q` of the witness, with the value
`dist(q) - dist(nearest)`, which is in `[0, max_alpha_square)`. -/
theorem witness_step_requests (narrow : ℚ → ℚ) (hexact : ∀ x, narrow x = x)
    (max_alpha_square : ℚ) (limit_dimension : ℤ) (aw : List (ℤ × ℚ))
    (hsorted : aw.Pairwise (fun p q => p.2 ≤ q.2)) (c : Simplex_tree) (s : Witness_state)
    (h : witness_step narrow max_alpha_square limit_dimension aw c = some s) :
    ∃ calls : List (List ℤ × ℚ),
      s.complex = calls.foldl (fun c p => c.insert_simplex_and_subfaces p.1 p.2) c ∧
      ∀ p ∈ calls, ∃ q ∈ aw, p.1.getLast? = some q.1 ∧
        p.2 = q.2 - nearest_distance aw ∧ 0 ≤ p.2 ∧ p.2 < max_alpha_square := by
  match aw, hsorted, h with
  | first :: rest, hsorted, h =>
    simp only [witness_step, Option.some.injEq, hexact] at h
    subst h
    obtain ⟨calls1, hc1, hall1⟩ := grow_simplex_requests (first.2 + max_alpha_square) first.2
      limit_dimension (first :: rest) [] c
    obtain ⟨consumed, hsplit, -⟩ := grow_simplex_spec (first.2 + max_alpha_square) first.2
      limit_dimension (first :: rest) [] c
    obtain ⟨calls2, hc2, hall2⟩ := add_faces_requests (first.2 + max_alpha_square) first.2
      limit_dimension
      (grow_simplex (first.2 + max_alpha_square) first.2 limit_dimension (first :: rest) [] c).aw
      (grow_simplex (first.2 + max_alpha_square) first.2 limit_dimension (first :: rest) []
        c).simplex
      (grow_simplex (first.2 + max_alpha_square) first.2 limit_dimension (first :: rest) []
        c).complex
    have hfirst : ∀ q ∈ first :: rest, first.2 ≤ q.2 := by
      intro q hq
      rcases List.mem_cons.1 hq with rfl | hq
      · exact le_refl _
      · exact (List.pairwise_cons.1 hsorted).1 q hq
    have hfin : ∀ (p : List ℤ × ℚ) (q : ℤ × ℚ), q ∈ first :: rest →
        p.1.getLast? = some q.1 → p.2 = q.2 - first.2 → q.2 < first.2 + max_alpha_square →
        ∃ q ∈ first :: rest, p.1.getLast? = some q.1 ∧
          p.2 = q.2 - nearest_distance (first :: rest) ∧ 0 ≤ p.2 ∧ p.2 < max_alpha_square := by
      intro p q hq h1 h2 h3
      have := hfirst q hq
      exact ⟨q, hq, h1, h2, by rw [h2]; linarith, by rw [h2]; linarith⟩
    refine ⟨calls1 ++ calls2, ?_, ?_⟩
    · rw [hc2, hc1, foldl_requests_append]
    · intro p hp
      rcases List.mem_append.1 hp with hp | hp
      · obtain ⟨q, hq, h1, h2, h3⟩ := hall1 p hp
        exact hfin p q hq h1 h2 h3
      · obtain ⟨q, hq, h1, h2, h3⟩ := hall2 p hp
        refine hfin p q ?_ h1 h2 h3
        rw [hsplit]
        exact List.mem_append_right _ hq

/-- The requests of the loop over the witnesses, with an exact bound and the
landmarks of every witness in ascending order of distance. -/
theorem witnesses_loop_requests (narrow : ℚ → ℚ) (hexact : ∀ x, narrow x = x)
    (max_alpha_square : ℚ) (limit_dimension : ℤ) (witnesses : List (List (ℤ × ℚ))) :
    (∀ aw ∈ witnesses, aw.Pairwise (fun p q => p.2 ≤ q.2)) →
    ∀ (c : Simplex_tree) (d : ℤ) (r : Simplex_tree × ℤ),
      witnesses_loop narrow max_alpha_square limit_dimension witnesses c d = some r →
      ∃ calls : List (List ℤ × ℚ),
        r.1 = calls.foldl (fun c p => c.insert_simplex_and_subfaces p.1 p.2) c ∧
        ∀ p ∈ calls, ∃ aw ∈ witnesses, ∃ q ∈ aw, p.1.getLast? = some q.1 ∧
          p.2 = q.2 - nearest_distance aw ∧ 0 ≤ p.2 ∧ p.2 < max_alpha_square := by
  induction witnesses with
  | nil =>
    intro _ c d r h
    simp only [witnesses_loop, Option.some.injEq] at h
    subst h
    exact ⟨[], rfl, by simp⟩
  | cons aw aws ih =>
    intro hsorted c d r h
    cases hs : witness_step narrow max_alpha_square limit_dimension aw c with
    | none => simp [witnesses_loop, hs] at h
    | some s =>
      simp only [witnesses_loop, hs] at h
      obtain ⟨calls1, hc1, hall1⟩ := witness_step_requests narrow hexact max_alpha_square
        limit_dimension aw (hsorted aw (List.mem_cons_self _ _)) c s hs
      obtain ⟨calls2, hc2, hall2⟩ := ih
        (fun a ha => hsorted a (List.mem_cons_of_mem _ ha)) _ _ r h
      refine ⟨calls1 ++ calls2, by rw [hc2, hc1, foldl_requests_append], ?_⟩
      intro p hp
      rcases List.mem_append.1 hp with hp | hp
      · exact ⟨aw, List.mem_cons_self _ _, hall1 p hp⟩
      · obtain ⟨a, ha, h'⟩ := hall2 p hp
        exact ⟨a, List.mem_cons_of_mem _ ha, h'⟩

/-- The first loop of `create_complex` serves no closure-insert request. -/
theorem closure_requests_insert_landmarks (is : List ℕ) :
    ∀ c : Simplex_tree,
      Simplex_tree.closure_requests (insert_landmarks c is).log
        = Simplex_tree.closure_requests c.log := by
  induction is with
  | nil => intro c; rfl
  | cons i is ih =>
    intro c
    simp only [insert_landmarks]
    rw [ih, Simplex_tree.insert_simplex_log, Simplex_tree.closure_requests_append]
    simp [Simplex_tree.closure_requests]

/-- The filtration range of the strong engine with an exact bound (`narrow` is
the identity, instead of the conversion to `float`) and the landmarks of every
witness in ascending order of distance: whenever `create_complex` returns, every
closure-insert request it has made is on a simplex whose newest landmark `q` (its
last vertex) is a landmark of a witness `aw`, and the filtration value passed is
`dist(aw, q) - dist(aw, nearest landmark)`, which is `≥ 0` and strictly less than
`max_alpha_square`. -/
theorem create_complex_exact_filtration_range (narrow : ℚ → ℚ) (hexact : ∀ x, narrow x = x)
    (nbL : ℕ) (witnesses : List (List (ℤ × ℚ))) (complex : Simplex_tree)
    (max_alpha_square : ℚ) (limit_dimension : ℤ) (b : Bool) (c : Simplex_tree)
    (hsorted : ∀ aw ∈ witnesses, aw.Pairwise (fun p q => p.2 ≤ q.2))
    (h : create_complex narrow nbL witnesses complex max_alpha_square limit_dimension
      = some (b, c)) :
    ∃ calls : List (List ℤ × ℚ),
      Simplex_tree.closure_requests c.log
        = Simplex_tree.closure_requests complex.log ++ calls ∧
      ∀ p ∈ calls, ∃ aw ∈ witnesses, ∃ q ∈ aw, p.1.getLast? = some q.1 ∧
        p.2 = q.2 - nearest_distance aw ∧ 0 ≤ p.2 ∧ p.2 < max_alpha_square := by
  by_cases hg : complex.num_vertices > 0 ∨ max_alpha_square < 0 ∨ limit_dimension < 0
  · rw [create_complex_of_guard _ _ _ _ _ _ hg, Option.some.injEq, Prod.mk.injEq] at h
    rw [← h.2]
    exact ⟨[], by simp, by simp⟩
  · rw [create_complex_of_not_guard _ _ _ _ _ _ hg] at h
    cases hr : witnesses_loop narrow max_alpha_square limit_dimension witnesses
        (insert_landmarks complex (List.range nbL)) 0 with
    | none => rw [hr] at h; cases h
    | some r =>
      rw [hr, Option.map_some', Option.some.injEq, Prod.mk.injEq] at h
      obtain ⟨calls, hc, hall⟩ := witnesses_loop_requests narrow hexact max_alpha_square
        limit_dimension witnesses hsorted _ _ r hr
      refine ⟨calls, ?_, hall⟩
      rw [← h.2]
      show Simplex_tree.closure_requests (r.1.log ++ [(Request.set_dimension r.2, r.1.simplices)])
        = _
      rw [Simplex_tree.closure_requests_append, hc, Simplex_tree.closure_requests_foldl,
        closure_requests_insert_landmarks]
      simp [Simplex_tree.closure_requests]

/-- An instance of the filtration range with an exact bound: four landmarks at
squared distances `0`, `1`, `2`, `3` from one witness, relaxation `4`,
`limit_dimension = 1`. -/
theorem create_complex_exact_filtration_range_instance :
    (∀ aw ∈ [[((0 : ℤ), (0 : ℚ)), (1, 1), (2, 2), (3, 3)]],
      aw.Pairwise (fun p q => p.2 ≤ q.2)) ∧
    ∃ (b : Bool) (c : Simplex_tree),
      create_complex id 4 [[(0, 0), (1, 1), (2, 2), (3, 3)]] Simplex_tree.empty 4 1
        = some (b, c) ∧
      ∃ calls : List (List ℤ × ℚ),
        Simplex_tree.closure_requests c.log
          = Simplex_tree.closure_requests Simplex_tree.empty.log ++ calls ∧
        ∀ p ∈ calls, ∃ aw ∈ [[((0 : ℤ), (0 : ℚ)), (1, 1), (2, 2), (3, 3)]], ∃ q ∈ aw,
          p.1.getLast? = some q.1 ∧ p.2 = q.2 - nearest_distance aw ∧ 0 ≤ p.2 ∧ p.2 < 4 :=
  let ⟨r, hr⟩ := witnesses_loop_total id 4 1 [[((0 : ℤ), (0 : ℚ)), (1, 1), (2, 2), (3, 3)]]
    (by decide) (insert_landmarks Simplex_tree.empty (List.range 4)) 0
  have h : create_complex id 4 [[(0, 0), (1, 1), (2, 2), (3, 3)]] Simplex_tree.empty 4 1
      = some (true, r.1.set_dimension r.2) := by
    rw [create_complex_of_not_guard _ _ _ _ _ _ (by decide!), hr]
    rfl
  ⟨by decide!, true, _, h,
    create_complex_exact_filtration_range id (fun _ => rfl) 4 _ Simplex_tree.empty 4 1 true _
      (by decide!) h⟩

/-- C30 (what the code does): with four landmarks at squared distances `0`, `1`, `2`,
`3` from one witness, all below the bound `0 + 4`, and `limit_dimension = 1`,
`create_complex` succeeds and passes `3` to `set_dimension`, while the largest
dimension of a simplex of the complex is `2`: the fourth landmark is pushed on
`vertices`, an alias of `simplex`, by the second loop, which inserts edges only,
and `simplex.size() - 1` is taken for the dimension. The bound is the same
converted to `float` or kept exact. -/
theorem create_complex_dimension_overshoot :
    (create_complex binary32 4 [[(0, 0), (1, 1), (2, 2), (3, 3)]] Simplex_tree.empty 4 1).map
      (fun r => (r.1, r.2.dimension, r.2.largest_dimension)) = some (true, 3, 2) ∧
    (create_complex id 4 [[(0, 0), (1, 1), (2, 2), (3, 3)]] Simplex_tree.empty 4 1).map
      (fun r => (r.1, r.2.dimension, r.2.largest_dimension)) = some (true, 3, 2) := by
  decide!

/-! ## Landmark selection by furthest points: the distance vectors and the ties -/

/-- The distances kept in the row of a point which satisfies the invariant are
the distances from the point to the landmarks chosen. -/
theorem PointInv.distances {ed : List ℚ → List ℚ → ℚ} {W : List (List ℚ)}
    {chosen : List ℕ} {w : List ℚ} {p : Point_state} (h : PointInv ed W chosen w p) :
    (p.row.map Prod.snd).Perm (chosen.map (fun l => ed w (W.getD l []))) := by
  have := h.1.map Prod.snd
  rw [List.map_map] at this
  have hf : (Prod.snd ∘ fun lc : ℕ × ℕ => ((lc.1 : ℤ), ed w (W.getD lc.2 [])))
      = (fun l => ed w (W.getD l [])) ∘ Prod.snd := rfl
  rw [hf, ← List.map_map, List.enum_map_snd] at this
  exact this

/-- The first entry of the row of a point which satisfies the invariant holds the
distance from the point to the set of the landmarks chosen. -/
theorem PointInv.head {ed : List ℚ → List ℚ → ℚ} {W : List (List ℚ)}
    {chosen : List ℕ} {w : List ℚ} {p : Point_state} (h : PointInv ed W chosen w p)
    (hne : chosen ≠ []) :
    ∃ e, p.row.head? = some e ∧ p.dist_to_L = ((e.2 : ℚ) : WithTop ℚ) := by
  have hlen := h.length_row
  cases hrow : p.row with
  | nil =>
    rw [hrow] at hlen
    exact absurd (List.length_eq_zero.1 hlen.symm) hne
  | cons e rest =>
    refine ⟨e, rfl, ?_⟩
    rw [h.2.2, dist_to_landmarks]
    have hperm := h.distances
    rw [hrow] at hperm
    have hpw := h.2.1
    rw [hrow] at hpw
    refine List.minimum_eq_coe_iff.2 ⟨?_, ?_⟩
    · exact hperm.mem_iff.1 (by simp)
    · intro a ha
      have ha' := hperm.mem_iff.2 ha
      rw [List.map_cons, List.mem_cons] at ha'
      rcases ha' with rfl | ha'
      · exact le_refl _
      · obtain ⟨b, hb, rfl⟩ := List.mem_map.1 ha'
        rcases List.rel_of_pairwise_cons hpw hb with h1 | h1
        · exact le_of_lt h1
        · exact le_of_eq h1.1

/-- C31: invariant of `landmark_choice_by_furthest_points`. For at least one
point, all of them in `W`, in a call with `nbL ≥ 0` landmarks, the state after
`t ≥ 1` iterations of the outer loop (`t ≤ nbL`) exists, its landmarks are the
first `t` landmarks of the call, and for every point `i`, `dist_to_L[i]` equals
the minimum of the distances from the point `i` to these `t` landmarks, and
equals the first entry of the sorted distance list `wit_land_dist[i]`. -/
theorem furthest_points_dist_to_L (ed : List ℚ → List ℚ → ℚ) (rand : ℕ) (nbL nbP : ℤ)
    (W : List (List ℚ)) (hP : 1 ≤ nbP) (hW : nbP ≤ W.length) (hL : 0 ≤ nbL)
    (t : ℕ) (ht : 1 ≤ t) (htL : t ≤ nbL.toNat) :
    ∃ s st, landmark_choice_by_furthest_points ed rand nbL W nbP = some s ∧
      furthest_loop ed W ⟨[], List.replicate nbP.toNat ⟨[], ⊤⟩, 0, rand % nbP.toNat⟩ t
        = some st ∧
      st.chosen_landmarks = s.chosen_landmarks.take t ∧ st.chosen_landmarks.length = t ∧
      st.dist_to_L.length = nbP.toNat ∧
      ∀ (i : ℕ) (d : WithTop ℚ), st.dist_to_L[i]? = some d →
        d = dist_to_landmarks ed W st.chosen_landmarks (W.getD i []) ∧
        ∃ (ds : List ℚ) (d0 : ℚ), st.wit_land_dist[i]? = some ds ∧ ds.head? = some d0 ∧
          d = ((d0 : ℚ) : WithTop ℚ) := by
  obtain ⟨s, hs, -⟩ := landmark_choice_by_furthest_points_inv ed rand hP hW hL
  have hs' := hs
  rw [landmark_choice_by_furthest_points_eq ed rand W hP hL] at hs'
  have hWn : nbP.toNat ≤ W.length := by omega
  obtain ⟨st, hst, hinv, htake, -⟩ := furthest_loop_take hWn
    (furthestInv_start ed W rand (by omega) (by omega)) nbL.toNat s hs' t htL
  refine ⟨s, st, hs, hst, htake, hinv.length_chosen, ?_, ?_⟩
  · rw [Furthest_state.dist_to_L, List.length_map, ← hinv.points.length_eq, List.length_take]
    exact min_eq_left hWn
  · intro i d hd
    rw [Furthest_state.dist_to_L, List.getElem?_map] at hd
    cases hp : st.points[i]? with
    | none => rw [hp] at hd; cases hd
    | some p =>
      rw [hp, Option.map_some', Option.some.injEq] at hd
      subst hd
      obtain ⟨w, hw, hpi⟩ := forall₂_getElem?_right hinv.points i p hp
      obtain ⟨-, rfl⟩ := getElem?_take_eq_getD hw
      have hne : st.chosen_landmarks ≠ [] := by
        intro h0
        have := hinv.length_chosen
        rw [h0] at this
        simp at this
        omega
      obtain ⟨e, he, hed⟩ := hpi.head hne
      refine ⟨hpi.2.2, p.row.map Prod.snd, e.2, ?_, ?_, hed⟩
      · rw [Furthest_state.wit_land_dist, List.getElem?_map, hp]
        rfl
      · rw [List.head?_map, he]
        rfl

/-- An instance of the invariant: six points of the line, four landmarks, after
two iterations. -/
theorem furthest_points_dist_to_L_witness :
    (1 : ℤ) ≤ 6 ∧ (6 : ℤ) ≤ [[(0 : ℚ)], [1], [2], [3], [4], [5]].length ∧ (0 : ℤ) ≤ 4 ∧
    1 ≤ 2 ∧ 2 ≤ (4 : ℤ).toNat ∧
    ∃ s st, landmark_choice_by_furthest_points line_distance 0 4
        [[0], [1], [2], [3], [4], [5]] 6 = some s ∧
      furthest_loop line_distance [[0], [1], [2], [3], [4], [5]]
        ⟨[], List.replicate (6 : ℤ).toNat ⟨[], ⊤⟩, 0, 0 % (6 : ℤ).toNat⟩ 2 = some st ∧
      st.chosen_landmarks = s.chosen_landmarks.take 2 ∧ st.chosen_landmarks.length = 2 ∧
      st.dist_to_L.length = (6 : ℤ).toNat ∧
      ∀ (i : ℕ) (d : WithTop ℚ), st.dist_to_L[i]? = some d →
        d = dist_to_landmarks line_distance [[0], [1], [2], [3], [4], [5]]
          st.chosen_landmarks (List.getD [[0], [1], [2], [3], [4], [5]] i []) ∧
        ∃ (ds : List ℚ) (d0 : ℚ), st.wit_land_dist[i]? = some ds ∧ ds.head? = some d0 ∧
          d = ((d0 : ℚ) : WithTop ℚ) :=
  ⟨by decide, by decide, by decide, by decide, by decide,
    furthest_points_dist_to_L line_distance 0 4 6 [[0], [1], [2], [3], [4], [5]]
      (by decide) (by decide) (by decide) 2 (by decide) (by decide)⟩

/-- C32: stable tie-breaking in the rows. For at least one point, all of them in
`W`, and `nbL ≥ 0`, `landmark_choice_by_furthest_points` returns, and in every row
`WL[i]` two landmarks at exactly the same distance from the point `i` appear
in increasing order of their ids, the landmark chosen earlier first. -/
theorem furthest_points_stable_ties (ed : List ℚ → List ℚ → ℚ) (rand : ℕ) (nbL nbP : ℤ)
    (W : List (List ℚ)) (hP : 1 ≤ nbP) (hW : nbP ≤ W.length) (hL : 0 ≤ nbL) :
    ∃ s, landmark_choice_by_furthest_points ed rand nbL W nbP = some s ∧
      ∀ (i : ℕ) (row : List ℤ), s.WL[i]? = some row →
        row.Pairwise (fun l l' =>
          ed (W.getD i []) (W.getD (s.chosen_landmarks.getD l.toNat 0) [])
            = ed (W.getD i []) (W.getD (s.chosen_landmarks.getD l'.toNat 0) []) → l < l') := by
  obtain ⟨s, hs, hinv⟩ := landmark_choice_by_furthest_points_inv ed rand hP hW hL
  refine ⟨s, hs, ?_⟩
  intro i row hrow
  rw [Furthest_state.WL, List.getElem?_map] at hrow
  cases hp : s.points[i]? with
  | none => rw [hp] at hrow; cases hrow
  | some p =>
    rw [hp, Option.map_some', Option.some.injEq] at hrow
    subst hrow
    obtain ⟨w, hw, hpi⟩ := forall₂_getElem?_right hinv.points i p hp
    obtain ⟨-, rfl⟩ := getElem?_take_eq_getD hw
    obtain ⟨-, h2⟩ := hpi.row_spec
    rw [List.pairwise_map]
    refine hpi.2.1.imp_of_mem ?_
    intro a b ha hb hab heq
    rw [← h2 a ha, ← h2 b hb] at heq
    rcases hab with h | h
    · exact absurd heq (ne_of_lt h)
    · exact h.2

/-- An instance of the stable ties: the points `0`, `1`, `-1` of the line, three
landmarks. -/
theorem furthest_points_stable_ties_witness :
    (1 : ℤ) ≤ 3 ∧ (3 : ℤ) ≤ [[(0 : ℚ)], [1], [-1]].length ∧ (0 : ℤ) ≤ 3 ∧
    ∃ s, landmark_choice_by_furthest_points line_distance 0 3 [[0], [1], [-1]] 3 = some s ∧
      ∀ (i : ℕ) (row : List ℤ), s.WL[i]? = some row →
        row.Pairwise (fun l l' =>
          line_distance (List.getD [[0], [1], [-1]] i [])
              (List.getD [[0], [1], [-1]] (s.chosen_landmarks.getD l.toNat 0) [])
            = line_distance (List.getD [[0], [1], [-1]] i [])
              (List.getD [[0], [1], [-1]] (s.chosen_landmarks.getD l'.toNat 0) []) → l < l') :=
  ⟨by decide, by decide, by decide,
    furthest_points_stable_ties line_distance 0 3 3 [[0], [1], [-1]]
      (by decide) (by decide) (by decide)⟩

/-! ## Landmark selection by furthest points: the row of a landmark -/

/-- When the landmarks chosen are pairwise distinct points at strictly positive
distance from one another, the row of the point which is the landmark of id `t`
starts with the id `t`. -/
theorem PointInv.own_id {ed : List ℚ → List ℚ → ℚ} {W : List (List ℚ)}
    {chosen : List ℕ} {pt : Point_state} {t p : ℕ}
    (h : PointInv ed W chosen (W.getD p []) pt) (hnd : chosen.Nodup)
    (ht : chosen[t]? = some p)
    (hpos : ∀ l ∈ chosen, l ≠ p → 0 < ed (W.getD p []) (W.getD l []))
    (hzero : ed (W.getD p []) (W.getD p []) ≤ 0) :
    (pt.row.map Prod.fst).head? = some (t : ℤ) := by
  have hown : ((t : ℤ), ed (W.getD p []) (W.getD p [])) ∈ pt.row := by
    refine h.1.mem_iff.2 (List.mem_map.2 ⟨(t, p), ?_, rfl⟩)
    exact List.mk_mem_enum_iff_getElem?.2 ht
  have hent : ∀ e ∈ pt.row, e.1 ≠ (t : ℤ) → 0 < e.2 := by
    intro e he hne
    obtain ⟨lc, hlc, rfl⟩ := List.mem_map.1 (h.1.mem_iff.1 he)
    have hget : chosen[lc.1]? = some lc.2 := List.mk_mem_enum_iff_getElem?.1 hlc
    have hmem : lc.2 ∈ chosen := List.getElem?_mem hget
    refine hpos lc.2 hmem ?_
    intro heq
    apply hne
    rw [heq, ← ht] at hget
    have h1 : lc.1 < chosen.length := by
      by_contra hc
      rw [List.getElem?_eq_none (by omega)] at hget
      rw [ht] at hget
      cases hget
    have h2 : t < chosen.length := by
      by_contra hc
      rw [List.getElem?_eq_none (by omega)] at ht
      cases ht
    rw [List.getElem?_eq_getElem h1, List.getElem?_eq_getElem h2, Option.some.injEq] at hget
    have := (hnd.getElem_inj_iff).1 hget
    show ((lc.1 : ℕ) : ℤ) = (t : ℤ)
    rw [this]
  cases hrow : pt.row with
  | nil => rw [hrow] at hown; cases hown
  | cons e rest =>
    rw [List.map_cons, List.head?_cons, Option.some.injEq]
    by_contra hne
    have hpw := h.2.1
    rw [hrow] at hpw hown hent
    have he0 := hent e (List.mem_cons_self _ _) hne
    rcases List.mem_cons.1 hown with heq | hin
    · apply hne
      rw [← heq]
    · have hro := List.rel_of_pairwise_cons hpw hin
      rcases hro with h1 | h1
      · exact absurd (lt_of_lt_of_le h1 hzero) (not_lt.2 (le_of_lt he0))
      · have : e.2 ≤ 0 := by rw [h1.1]; exact hzero
        exact absurd he0 (not_lt.2 this)

/-- C35: when the points of `W` are pairwise at strictly positive distance, each
of them at distance `0` from itself, and `1 ≤ nbL ≤ nbP`, then for every first
pick `landmark_choice_by_furthest_points` returns, the landmarks chosen are
pairwise distinct, and each chosen point `p`, landmark of id `t`, has the id `t`
as the first entry of its row `WL[p]`. -/
theorem furthest_points_own_id (ed : List ℚ → List ℚ → ℚ) (rand : ℕ) (nbL nbP : ℤ)
    (W : List (List ℚ)) (hW : nbP ≤ W.length) (hL : 1 ≤ nbL) (hLP : nbL ≤ nbP)
    (hpos : ∀ i, i < nbP.toNat → ∀ j, j < nbP.toNat → i ≠ j →
      0 < ed (W.getD i []) (W.getD j []))
    (hzero : ∀ i, i < nbP.toNat → ed (W.getD i []) (W.getD i []) ≤ 0) :
    ∃ s, landmark_choice_by_furthest_points ed rand nbL W nbP = some s ∧
      s.chosen_landmarks.Nodup ∧
      ∀ (t p : ℕ), s.chosen_landmarks[t]? = some p →
        ∃ row, s.WL[p]? = some row ∧ row.head? = some (t : ℤ) := by
  have hP : 1 ≤ nbP := by omega
  have hL0 : 0 ≤ nbL := by omega
  obtain ⟨s, hs, hinv⟩ := landmark_choice_by_furthest_points_inv ed rand hP hW hL0
  have hs' := hs
  rw [landmark_choice_by_furthest_points_eq ed rand W hP hL0] at hs'
  have hnd := (furthest_loop_nodup (by omega)
    (furthestInv_start ed W rand (by omega) (by omega))
    (fun i j hi hj => hpos i hi j hj) hzero nbL.toNat (by omega) s hs').1
  refine ⟨s, hs, hnd, ?_⟩
  intro t p htp
  have hp : p < nbP.toNat := hinv.chosen_lt p (List.getElem?_mem htp)
  have hlen : s.points.length = nbP.toNat := by
    rw [← hinv.points.length_eq, List.length_take]
    exact min_eq_left (by omega)
  have hget : s.points[p]? = some (s.points[p]) :=
    List.getElem?_eq_getElem (by omega)
  obtain ⟨w, hw, hpi⟩ := forall₂_getElem?_right hinv.points p _ hget
  obtain ⟨-, rfl⟩ := getElem?_take_eq_getD hw
  refine ⟨(s.points[p]).row.map Prod.fst, ?_, ?_⟩
  · rw [Furthest_state.WL, List.getElem?_map, hget]
    rfl
  · refine hpi.own_id hnd htp ?_ (hzero p hp)
    intro l hl hne
    exact hpos p hp l (hinv.chosen_lt l hl) (Ne.symm hne)

/-- An instance of the rows of the landmarks: four points of the line, three
landmarks. -/
theorem furthest_points_own_id_witness :
    ∃ s, landmark_choice_by_furthest_points line_distance 2 3 [[0], [1], [3], [7]] 4
        = some s ∧
      s.chosen_landmarks.Nodup ∧
      ∀ (t p : ℕ), s.chosen_landmarks[t]? = some p →
        ∃ row, s.WL[p]? = some row ∧ row.head? = some (t : ℤ) :=
  furthest_points_own_id line_distance 2 3 4 [[0], [1], [3], [7]] (by decide) (by decide)
    (by decide) (by decide!) (by decide!)

/-! ## Landmark selection by furthest points: the insertion radii -/

/-- One more landmark does not increase the distance from a point to the set of
the landmarks. -/
theorem dist_to_landmarks_concat (ed : List ℚ → List ℚ → ℚ) (W : List (List ℚ))
    (chosen : List ℕ) (l : ℕ) (w : List ℚ) :
    dist_to_landmarks ed W (chosen ++ [l]) w ≤ dist_to_landmarks ed W chosen w := by
  rw [dist_to_landmarks, dist_to_landmarks, List.map_append, List.map_singleton,
    List.minimum_concat]
  exact min_le_left _ _

/-- The two outcomes of the search of the furthest point: no distance is above
the starting value and the starting pair is kept, or the pair found is an entry of
the list with its index, above the starting value; in both cases the value found
bounds the starting value and the list. -/
theorem furthest_point_cases (ds : List (WithTop ℚ)) (acc : WithTop ℚ × ℕ) :
    (acc.1 ≤ (furthest_point 0 ds acc).1 ∧ ∀ d ∈ ds, d ≤ (furthest_point 0 ds acc).1) ∧
    (((∀ d ∈ ds, d ≤ acc.1) ∧ furthest_point 0 ds acc = acc) ∨
      (acc.1 < (furthest_point 0 ds acc).1 ∧
        ds[(furthest_point 0 ds acc).2]? = some (furthest_point 0 ds acc).1)) := by
  obtain ⟨h1, h2, h3⟩ := furthest_point_spec ds 0 acc
  refine ⟨h1, ?_⟩
  by_cases hall : ∀ d ∈ ds, d ≤ acc.1
  · exact Or.inl ⟨hall, h2 hall⟩
  · right
    push_neg at hall
    obtain ⟨d, hd, hlt⟩ := hall
    obtain ⟨-, h4, -⟩ := h3 ⟨d, hd, hlt⟩
    exact ⟨lt_of_lt_of_le hlt (h1.2 d hd), h4⟩

/-- The state after one more iteration of the outer loop, from the state before
it: the landmark found before is pushed, and the search of the furthest point
starts from the value `0` and this landmark. -/
theorem furthest_loop_succ {ed : List ℚ → List ℚ → ℚ} {W : List (List ℚ)} {n : ℕ}
    {s0 : Furthest_state} (hW : n ≤ W.length) (h0 : FurthestInv ed W n 0 s0)
    {t : ℕ} {st' : Furthest_state} (hst' : furthest_loop ed W s0 (t + 1) = some st') :
    ∃ st, furthest_loop ed W s0 t = some st ∧ FurthestInv ed W n t st ∧
      FurthestInv ed W n (t + 1) st' ∧
      st'.chosen_landmarks = st.chosen_landmarks ++ [st.curr_max_w] ∧
      (st'.curr_max_dist, st'.curr_max_w)
        = furthest_point 0 ((W.take n).map (dist_to_landmarks ed W st'.chosen_landmarks))
            (0, st.curr_max_w) := by
  obtain ⟨st, hst, hinv⟩ := furthest_loop_spec hW h0 t
  obtain ⟨s', hs', hch, hinv', hfp⟩ := furthest_step_spec hW hinv
  have : furthest_loop ed W s0 (t + 1) = some s' := by
    simp only [furthest_loop, hst, hs']
  rw [hst'] at this
  obtain rfl := Option.some.inj this
  exact ⟨st, hst, hinv, hinv', hch, hfp⟩

/-- After an iteration of the outer loop, either no point is at a strictly
positive distance from the landmarks, the value `curr_max_dist` is `0` and the
landmark found is the one found before; or `curr_max_dist` is strictly positive
and is the distance from the landmark found to the set of the landmarks. -/
theorem furthest_loop_found {ed : List ℚ → List ℚ → ℚ} {W : List (List ℚ)} {n : ℕ}
    {s0 : Furthest_state} (hW : n ≤ W.length) (h0 : FurthestInv ed W n 0 s0)
    {t : ℕ} {st st' : Furthest_state} (hst : furthest_loop ed W s0 t = some st)
    (hst' : furthest_loop ed W s0 (t + 1) = some st') :
    (st'.curr_max_dist = 0 ∧ st'.curr_max_w = st.curr_max_w) ∨
    (0 < st'.curr_max_dist ∧
      dist_to_landmarks ed W st'.chosen_landmarks (W.getD st'.curr_max_w [])
        = st'.curr_max_dist) := by
  obtain ⟨st1, hst1, -, hinv', -, hfp⟩ := furthest_loop_succ hW h0 hst'
  rw [hst] at hst1
  obtain rfl := Option.some.inj hst1
  obtain ⟨-, hc⟩ := furthest_point_cases
    ((W.take n).map (dist_to_landmarks ed W st'.chosen_landmarks)) (0, st.curr_max_w)
  rw [← hfp] at hc
  rcases hc with ⟨-, heq⟩ | ⟨hlt, hget⟩
  · left
    exact ⟨congrArg Prod.fst heq, congrArg Prod.snd heq⟩
  · right
    refine ⟨hlt, ?_⟩
    rw [dist_list_getElem? _ hW hinv'.curr_max_w_lt] at hget
    exact Option.some.inj hget

/-- From the first iteration on, the value `curr_max_dist` does not increase from
one iteration of the outer loop to the next. -/
theorem furthest_loop_radius {ed : List ℚ → List ℚ → ℚ} {W : List (List ℚ)} {n : ℕ}
    {s0 : Furthest_state} (hW : n ≤ W.length) (h0 : FurthestInv ed W n 0 s0)
    {t : ℕ} {st st' : Furthest_state} (hst : furthest_loop ed W s0 (t + 1) = some st)
    (hst' : furthest_loop ed W s0 (t + 2) = some st') :
    st'.curr_max_dist ≤ st.curr_max_dist := by
  obtain ⟨st1, hst1, -, -, hch', hfp'⟩ := furthest_loop_succ hW h0 hst'
  rw [hst] at hst1
  obtain rfl := Option.some.inj hst1
  obtain ⟨stp, -, -, -, -, hfp⟩ := furthest_loop_succ hW h0 hst
  obtain ⟨⟨hb0, hb⟩, -⟩ := furthest_point_cases
    ((W.take n).map (dist_to_landmarks ed W st.chosen_landmarks)) (0, stp.curr_max_w)
  rw [← hfp] at hb0 hb
  obtain ⟨-, hc⟩ := furthest_point_cases
    ((W.take n).map (dist_to_landmarks ed W st'.chosen_landmarks)) (0, st.curr_max_w)
  rw [← hfp'] at hc
  rcases hc with ⟨-, heq⟩ | ⟨-, hget⟩
  · have : st'.curr_max_dist = 0 := congrArg Prod.fst heq
    rw [this]
    exact hb0
  · rw [List.getElem?_map] at hget
    cases hw : (W.take n)[st'.curr_max_w]? with
    | none => rw [hw] at hget; cases hget
    | some w =>
      rw [hw, Option.map_some', Option.some.injEq] at hget
      have hget' : dist_to_landmarks ed W st'.chosen_landmarks w = st'.curr_max_dist := hget
      rw [← hget', hch']
      refine le_trans (dist_to_landmarks_concat ed W _ _ w) (hb _ ?_)
      exact List.mem_map.2 ⟨w, List.getElem?_mem hw, rfl⟩

/-- C36: non-increasing insertion radii. For at least one point, all of them in
`W`, and `t ≥ 1` with `t < nbL`: `landmark_choice_by_furthest_points` returns, the
states after `t` and after `t + 1` iterations of the outer loop exist, the value
`curr_max_dist` after iteration `t + 1` is at most its value after iteration `t`,
and the distance from the `(t+1)`-th landmark chosen `p` to the set of the first
`t` landmarks is at most the distance from the `t`-th landmark chosen `q` to the
set of the first `t - 1` landmarks (the distance to the empty set is `⊤`). -/
theorem furthest_points_radii (ed : List ℚ → List ℚ → ℚ) (rand : ℕ) (nbL nbP : ℤ)
    (W : List (List ℚ)) (hP : 1 ≤ nbP) (hW : nbP ≤ W.length) (hL : 0 ≤ nbL)
    (t : ℕ) (ht : 1 ≤ t) (htL : t < nbL.toNat) :
    ∃ s st st' q p, landmark_choice_by_furthest_points ed rand nbL W nbP = some s ∧
      furthest_loop ed W ⟨[], List.replicate nbP.toNat ⟨[], ⊤⟩, 0, rand % nbP.toNat⟩ t
        = some st ∧
      furthest_loop ed W ⟨[], List.replicate nbP.toNat ⟨[], ⊤⟩, 0, rand % nbP.toNat⟩ (t + 1)
        = some st' ∧
      st'.curr_max_dist ≤ st.curr_max_dist ∧
      s.chosen_landmarks[t - 1]? = some q ∧ s.chosen_landmarks[t]? = some p ∧
      dist_to_landmarks ed W (s.chosen_landmarks.take t) (W.getD p [])
        ≤ dist_to_landmarks ed W (s.chosen_landmarks.take (t - 1)) (W.getD q []) := by
  obtain ⟨s, hs, -⟩ := landmark_choice_by_furthest_points_inv ed rand hP hW hL
  have hs' := hs
  rw [landmark_choice_by_furthest_points_eq ed rand W hP hL] at hs'
  have hWn : nbP.toNat ≤ W.length := by omega
  have h0 := furthestInv_start ed W rand (by omega : 0 < nbP.toNat) hWn
  obtain ⟨u, rfl⟩ : ∃ u, t = u + 1 := ⟨t - 1, by omega⟩
  obtain ⟨stp, hstp, -, htakep, hnextp⟩ :=
    furthest_loop_take hWn h0 nbL.toNat s hs' u (by omega)
  obtain ⟨st, hst, -, htake, hnext⟩ :=
    furthest_loop_take hWn h0 nbL.toNat s hs' (u + 1) (by omega)
  obtain ⟨st', hst', -, -, -⟩ :=
    furthest_loop_take hWn h0 nbL.toNat s hs' (u + 2) (by omega)
  have hrad := furthest_loop_radius hWn h0 hst hst'
  refine ⟨s, st, st', stp.curr_max_w, st.curr_max_w, hs, hst, hst', hrad,
    hnextp (by omega), hnext htL, ?_⟩
  rw [Nat.add_sub_cancel, ← htake, ← htakep]
  obtain ⟨st1, hst1, -, -, hch, -⟩ := furthest_loop_succ hWn h0 hst
  rw [hstp] at hst1
  obtain rfl := Option.some.inj hst1
  rcases furthest_loop_found hWn h0 hstp hst with ⟨-, hw⟩ | ⟨hpos, hd⟩
  · rw [hw, hch]
    exact dist_to_landmarks_concat ed W _ _ _
  · rw [hd]
    cases u with
    | zero =>
      rw [htakep, List.take_zero, dist_to_landmarks, List.map_nil, List.minimum_nil]
      exact le_top
    | succ v =>
      obtain ⟨stpp, hstpp, -, -, -⟩ :=
        furthest_loop_take hWn h0 nbL.toNat s hs' v (by omega)
      have hrad' := furthest_loop_radius hWn h0 hstp hst
      rcases furthest_loop_found hWn h0 hstpp hstp with ⟨hz, -⟩ | ⟨-, hd'⟩
      · rw [hz] at hrad'
        exact absurd hpos (not_lt.2 hrad')
      · rw [hd']
        exact hrad'

/-- An instance of the insertion radii: four points of the line, four landmarks,
the second and the third iteration. -/
theorem furthest_points_radii_witness :
    ∃ s st st' q p, landmark_choice_by_furthest_points line_distance 2 4
        [[0], [1], [3], [7]] 4 = some s ∧
      furthest_loop line_distance [[0], [1], [3], [7]]
        ⟨[], List.replicate (4 : ℤ).toNat ⟨[], ⊤⟩, 0, 2 % (4 : ℤ).toNat⟩ 2 = some st ∧
      furthest_loop line_distance [[0], [1], [3], [7]]
        ⟨[], List.replicate (4 : ℤ).toNat ⟨[], ⊤⟩, 0, 2 % (4 : ℤ).toNat⟩ (2 + 1) = some st' ∧
      st'.curr_max_dist ≤ st.curr_max_dist ∧
      s.chosen_landmarks[2 - 1]? = some q ∧ s.chosen_landmarks[2]? = some p ∧
      dist_to_landmarks line_distance [[0], [1], [3], [7]] (s.chosen_landmarks.take 2)
          (List.getD [[0], [1], [3], [7]] p [])
        ≤ dist_to_landmarks line_distance [[0], [1], [3], [7]]
          (s.chosen_landmarks.take (2 - 1)) (List.getD [[0], [1], [3], [7]] q []) :=
  furthest_points_radii line_distance 2 4 4 [[0], [1], [3], [7]] (by decide) (by decide)
    (by decide) 2 (by decide) (by decide)

/-! ## The strong engine: the requests of a witness do not depend on the complex -/

/-- The simplices after a run of closure-insert requests: the former ones and the
non-empty faces of the simplices requested. -/
theorem foldl_requests_mem (calls : List (List ℤ × ℚ)) :
    ∀ (c : Simplex_tree) (t : Finset ℤ),
      (calls.foldl (fun c p => c.insert_simplex_and_subfaces p.1 p.2) c).Mem t ↔
        c.Mem t ∨ ∃ p ∈ calls, t ⊆ p.1.toFinset ∧ t.Nonempty := by
  induction calls with
  | nil => intro c t; simp
  | cons p calls ih =>
    intro c t
    rw [List.foldl_cons, ih, Simplex_tree.mem_insert_simplex_and_subfaces]
    simp only [List.mem_cons, exists_eq_or_imp]
    tauto

/-- The requests of `add_all_faces_of_dimension` and the scratch vector it leaves
are those of a list which depends on its arguments other than the complex. -/
theorem add_all_faces_of_dimension_uniform (aw_first : ℤ) (filtration_value : ℚ)
    (next : List ℤ) :
    ∀ (dim : ℤ) (scratch : List ℤ), ∃ (calls : List (List ℤ × ℚ)) (scratch' : List ℤ),
      ∀ c : Simplex_tree,
        add_all_faces_of_dimension aw_first filtration_value dim next (scratch, c)
          = (scratch', calls.foldl (fun c p => c.insert_simplex_and_subfaces p.1 p.2) c) := by
  induction next with
  | nil =>
    intro dim scratch
    by_cases h1 : dim > 0
    · exact ⟨[], scratch, fun c => by simp [add_all_faces_of_dimension, h1]⟩
    · by_cases h2 : dim = 0
      · exact ⟨[(scratch ++ [aw_first], filtration_value)], (scratch ++ [aw_first]).dropLast,
          fun c => by simp [add_all_faces_of_dimension, h2]⟩
      · exact ⟨[], scratch, fun c => by simp [add_all_faces_of_dimension, h1, h2]⟩
  | cons v next ih =>
    intro dim scratch
    by_cases h1 : dim > 0
    · obtain ⟨calls1, s1, e1⟩ := ih (dim - 1) (scratch ++ [v])
      obtain ⟨calls2, s2, e2⟩ := ih dim s1.dropLast
      obtain ⟨calls3, s3, e3⟩ := ih dim s2
      refine ⟨calls1 ++ (calls2 ++ calls3), s3, fun c => ?_⟩
      simp only [add_all_faces_of_dimension, if_pos h1, e1, e2, e3, List.foldl_append]
    · by_cases h2 : dim = 0
      · exact ⟨[(scratch ++ [aw_first], filtration_value)], (scratch ++ [aw_first]).dropLast,
          fun c => by simp [add_all_faces_of_dimension, h2]⟩
      · exact ⟨[], scratch, fun c => by simp [add_all_faces_of_dimension, h1, h2]⟩

/-- The first loop over a witness: the rest of the range, the vector `simplex` and
the requests do not depend on the complex. -/
theorem grow_simplex_uniform (lim_dist2 d0 : ℚ) (limit_dimension : ℤ) (aw : List (ℤ × ℚ)) :
    ∀ simplex : List ℤ, ∃ (calls : List (List ℤ × ℚ)) (aw' : List (ℤ × ℚ))
      (simplex' : List ℤ), ∀ c : Simplex_tree,
        grow_simplex lim_dist2 d0 limit_dimension aw simplex c
          = ⟨aw', simplex', calls.foldl (fun c p => c.insert_simplex_and_subfaces p.1 p.2) c⟩ := by
  induction aw with
  | nil => intro simplex; exact ⟨[], [], simplex, fun c => rfl⟩
  | cons q rest ih =>
    intro simplex
    by_cases hcond : (simplex.length : ℤ) ≤ limit_dimension + 1 ∧ q.2 < lim_dist2
    · obtain ⟨calls, aw', simplex', e⟩ := ih (simplex ++ [q.1])
      refine ⟨(simplex ++ [q.1], q.2 - d0) :: calls, aw', simplex', fun c => ?_⟩
      simp only [grow_simplex, if_pos hcond, e, List.foldl_cons]
    · exact ⟨[], q :: rest, simplex, fun c => by simp only [grow_simplex, if_neg hcond,
        List.foldl_nil]⟩

/-- The second loop over a witness: the rest of the range, the vector of vertices
and the requests do not depend on the complex. -/
theorem add_faces_uniform (lim_dist2 d0 : ℚ) (limit_dimension : ℤ) (aw : List (ℤ × ℚ)) :
    ∀ vertices : List ℤ, ∃ (calls : List (List ℤ × ℚ)) (aw' : List (ℤ × ℚ))
      (vertices' : List ℤ), ∀ c : Simplex_tree,
        add_faces lim_dist2 d0 limit_dimension aw vertices c
          = ⟨aw', vertices', calls.foldl (fun c p => c.insert_simplex_and_subfaces p.1 p.2) c⟩ := by
  induction aw with
  | nil => intro vertices; exact ⟨[], [], vertices, fun c => rfl⟩
  | cons q rest ih =>
    intro vertices
    by_cases hcond : q.2 < lim_dist2
    · obtain ⟨calls1, s1, e1⟩ := add_all_faces_of_dimension_uniform q.1 (q.2 - d0) vertices
        limit_dimension []
      obtain ⟨calls2, aw', vertices', e2⟩ := ih (vertices ++ [q.1])
      refine ⟨calls1 ++ calls2, aw', vertices', fun c => ?_⟩
      simp only [add_faces, if_pos hcond, e1, e2, List.foldl_append]
    · exact ⟨[], q :: rest, vertices, fun c => by simp only [add_faces, if_neg hcond,
        List.foldl_nil]⟩

/-- The body of the loop over the witnesses, for a non-empty range: the state it
leaves is made of a rest of the range, a vector `simplex` and a list of requests
which do not depend on the complex. -/
theorem witness_step_uniform (narrow : ℚ → ℚ) (max_alpha_square : ℚ) (limit_dimension : ℤ)
    {aw : List (ℤ × ℚ)} (h : aw ≠ []) :
    ∃ (calls : List (List ℤ × ℚ)) (aw' : List (ℤ × ℚ)) (simplex' : List ℤ),
      ∀ c : Simplex_tree, witness_step narrow max_alpha_square limit_dimension aw c
        = some ⟨aw', simplex',
            calls.foldl (fun c p => c.insert_simplex_and_subfaces p.1 p.2) c⟩ := by
  match aw, h with
  | first :: rest, _ =>
    obtain ⟨calls1, aw1, s1, e1⟩ := grow_simplex_uniform
      (narrow (first.2 + max_alpha_square)) first.2 limit_dimension (first :: rest) []
    obtain ⟨calls2, aw2, s2, e2⟩ := add_faces_uniform
      (narrow (first.2 + max_alpha_square)) first.2 limit_dimension aw1 s1
    refine ⟨calls1 ++ calls2, aw2, s2, fun c => ?_⟩
    simp only [witness_step, e1, e2, List.foldl_append]

/-- The simplices a witness adds to a complex are those it adds to the empty
complex, and the vector `simplex` it leaves is the same. -/
theorem witness_step_empty (narrow : ℚ → ℚ) (max_alpha_square : ℚ) (limit_dimension : ℤ)
    (aw : List (ℤ × ℚ)) (c : Simplex_tree) (s : Witness_state)
    (h : witness_step narrow max_alpha_square limit_dimension aw c = some s) :
    aw ≠ [] ∧
    ∃ s0, witness_step narrow max_alpha_square limit_dimension aw Simplex_tree.empty = some s0 ∧
      s.simplex = s0.simplex ∧ ∀ t, s.complex.Mem t ↔ c.Mem t ∨ s0.complex.Mem t := by
  have hne : aw ≠ [] := by
    rintro rfl
    simp [witness_step] at h
  obtain ⟨calls, aw', simplex', e⟩ :=
    witness_step_uniform narrow max_alpha_square limit_dimension hne
  rw [e c, Option.some.injEq] at h
  subst h
  refine ⟨hne, _, e Simplex_tree.empty, rfl, fun t => ?_⟩
  show (calls.foldl (fun c p => c.insert_simplex_and_subfaces p.1 p.2) c).Mem t ↔ c.Mem t ∨
    (calls.foldl (fun c p => c.insert_simplex_and_subfaces p.1 p.2) Simplex_tree.empty).Mem t
  rw [foldl_requests_mem, foldl_requests_mem]
  have := Simplex_tree.not_mem_empty t
  tauto

/-- The loop over the witnesses, when it returns: no range is empty, the simplices
of the complex are the former ones and those every witness adds to the empty
complex, and the running dimension is the largest of its starting value and of the
sizes, minus one, of the vectors `simplex` the witnesses leave. -/
theorem witnesses_loop_mem (narrow : ℚ → ℚ) (max_alpha_square : ℚ) (limit_dimension : ℤ)
    (witnesses : List (List (ℤ × ℚ))) :
    ∀ (c : Simplex_tree) (d : ℤ) (r : Simplex_tree × ℤ),
      witnesses_loop narrow max_alpha_square limit_dimension witnesses c d = some r →
      (∀ aw ∈ witnesses, aw ≠ []) ∧
      (∀ t, r.1.Mem t ↔ c.Mem t ∨ ∃ aw ∈ witnesses, ∃ s0,
        witness_step narrow max_alpha_square limit_dimension aw Simplex_tree.empty = some s0 ∧
        s0.complex.Mem t) ∧
      d ≤ r.2 ∧
      (∀ aw ∈ witnesses, ∀ s0,
        witness_step narrow max_alpha_square limit_dimension aw Simplex_tree.empty = some s0 →
        (s0.simplex.length : ℤ) - 1 ≤ r.2) ∧
      (r.2 = d ∨ ∃ aw ∈ witnesses, ∃ s0,
        witness_step narrow max_alpha_square limit_dimension aw Simplex_tree.empty = some s0 ∧
        r.2 = (s0.simplex.length : ℤ) - 1) := by
  induction witnesses with
  | nil =>
    intro c d r h
    simp only [witnesses_loop, Option.some.injEq] at h
    subst h
    simp
  | cons aw aws ih =>
    intro c d r h
    cases hs : witness_step narrow max_alpha_square limit_dimension aw c with
    | none => simp [witnesses_loop, hs] at h
    | some s =>
      simp only [witnesses_loop, hs] at h
      obtain ⟨hne, s0, hs0, hsim, hmem⟩ := witness_step_empty _ _ _ _ _ _ hs
      obtain ⟨h1, h2, h3, h4, h5⟩ := ih _ _ _ h
      rw [hsim] at h3 h5
      refine ⟨?_, ?_, ?_, ?_, ?_⟩
      · intro a ha
        rcases List.mem_cons.1 ha with rfl | ha
        · exact hne
        · exact h1 a ha
      · intro t
        rw [h2, hmem]
        constructor
        · rintro ((hc | h0) | ⟨a, ha, sa, hsa, hta⟩)
          · exact Or.inl hc
          · exact Or.inr ⟨aw, List.mem_cons_self _ _, s0, hs0, h0⟩
          · exact Or.inr ⟨a, List.mem_cons_of_mem _ ha, sa, hsa, hta⟩
        · rintro (hc | ⟨a, ha, sa, hsa, hta⟩)
          · exact Or.inl (Or.inl hc)
          · rcases List.mem_cons.1 ha with rfl | ha
            · rw [hs0, Option.some.injEq] at hsa
              subst hsa
              exact Or.inl (Or.inr hta)
            · exact Or.inr ⟨a, ha, sa, hsa, hta⟩
      · split_ifs at h3 with hgt <;> omega
      · intro a ha sa hsa
        rcases List.mem_cons.1 ha with rfl | ha
        · rw [hs0, Option.some.injEq] at hsa
          subst hsa
          split_ifs at h3 with hgt <;> omega
        · exact h4 a ha sa hsa
      · rcases h5 with h5 | ⟨a, ha, sa, hsa, h5⟩
        · split_ifs at h5 with hgt
          · exact Or.inr ⟨aw, List.mem_cons_self _ _, s0, hs0, h5⟩
          · exact Or.inl h5
        · exact Or.inr ⟨a, List.mem_cons_of_mem _ ha, sa, hsa, h5⟩

/-- C33: no cross-witness dependency in the strong engine. For two lists of
witnesses which are permutations of one another, and the same landmarks,
starting complex, `max_alpha_square` and `limit_dimension`: whenever
`create_complex` returns on the first list, it returns on the second with the
same Boolean, the two complexes have the same simplices, and the same dimension
is recorded. -/
theorem create_complex_witness_order (narrow : ℚ → ℚ) (nbL : ℕ)
    (witnesses witnesses' : List (List (ℤ × ℚ))) (complex : Simplex_tree)
    (max_alpha_square : ℚ) (limit_dimension : ℤ) (hperm : witnesses.Perm witnesses')
    (b : Bool) (c : Simplex_tree)
    (h : create_complex narrow nbL witnesses complex max_alpha_square limit_dimension
      = some (b, c)) :
    ∃ c', create_complex narrow nbL witnesses' complex max_alpha_square limit_dimension
        = some (b, c') ∧
      (∀ t, c.Mem t ↔ c'.Mem t) ∧ c.dimension = c'.dimension := by
  by_cases hg : complex.num_vertices > 0 ∨ max_alpha_square < 0 ∨ limit_dimension < 0
  · rw [create_complex_of_guard _ _ _ _ _ _ hg, Option.some.injEq, Prod.mk.injEq] at h
    obtain ⟨rfl, rfl⟩ := h
    exact ⟨complex, create_complex_of_guard _ _ _ _ _ _ hg, fun t => Iff.rfl, rfl⟩
  · rw [create_complex_of_not_guard _ _ _ _ _ _ hg] at h
    cases hr : witnesses_loop narrow max_alpha_square limit_dimension witnesses
        (insert_landmarks complex (List.range nbL)) 0 with
    | none => rw [hr] at h; cases h
    | some r =>
      rw [hr, Option.map_some', Option.some.injEq, Prod.mk.injEq] at h
      obtain ⟨rfl, rfl⟩ := h
      obtain ⟨h1, h2, h3, h4, h5⟩ := witnesses_loop_mem _ _ _ _ _ _ _ hr
      obtain ⟨r', hr'⟩ := witnesses_loop_total narrow max_alpha_square limit_dimension
        witnesses' (fun aw ha => h1 aw (hperm.mem_iff.2 ha))
        (insert_landmarks complex (List.range nbL)) 0
      obtain ⟨-, h2', h3', h4', h5'⟩ := witnesses_loop_mem _ _ _ _ _ _ _ hr'
      refine ⟨r'.1.set_dimension r'.2, ?_, ?_, ?_⟩
      · rw [create_complex_of_not_guard _ _ _ _ _ _ hg, hr']
        rfl
      · intro t
        show r.1.Mem t ↔ r'.1.Mem t
        rw [h2, h2']
        simp only [hperm.mem_iff]
      · show r.2 = r'.2
        apply le_antisymm
        · rcases h5 with h5 | ⟨a, ha, sa, hsa, h5⟩
          · rw [h5]; exact h3'
          · rw [h5]; exact h4' a (hperm.mem_iff.1 ha) sa hsa
        · rcases h5' with h5' | ⟨a, ha, sa, hsa, h5'⟩
          · rw [h5']; exact h3
          · rw [h5']; exact h4 a (hperm.mem_iff.2 ha) sa hsa

/-- An instance of the independence of the order: two witnesses, in both orders,
with two landmarks and relaxation `4`. -/
theorem create_complex_witness_order_witness :
    ([[((0 : ℤ), (0 : ℚ)), (1, 1)], [(1, 0), (0, 2)]]).Perm
      [[(1, 0), (0, 2)], [(0, 0), (1, 1)]] ∧
    ∃ c c', create_complex binary32 2 [[(0, 0), (1, 1)], [(1, 0), (0, 2)]]
        Simplex_tree.empty 4 1 = some (true, c) ∧
      create_complex binary32 2 [[(1, 0), (0, 2)], [(0, 0), (1, 1)]]
        Simplex_tree.empty 4 1 = some (true, c') ∧
      (∀ t, c.Mem t ↔ c'.Mem t) ∧ c.dimension = c'.dimension :=
  let ⟨r, hr⟩ := witnesses_loop_total binary32 4 1
    [[((0 : ℤ), (0 : ℚ)), (1, 1)], [(1, 0), (0, 2)]]
    (by decide) (insert_landmarks Simplex_tree.empty (List.range 2)) 0
  have h : create_complex binary32 2 [[(0, 0), (1, 1)], [(1, 0), (0, 2)]]
      Simplex_tree.empty 4 1 = some (true, r.1.set_dimension r.2) := by
    rw [create_complex_of_not_guard _ _ _ _ _ _ (by decide!), hr]
    rfl
  let ⟨c', h1, h2⟩ := create_complex_witness_order binary32 2
    [[(0, 0), (1, 1)], [(1, 0), (0, 2)]] [[(1, 0), (0, 2)], [(0, 0), (1, 1)]]
    Simplex_tree.empty 4 1 (List.Perm.swap _ _ []) true _ h
  ⟨List.Perm.swap _ _ [], _, c', h, h1, h2⟩

/-! ## Reads of an empty range and of an empty heap -/

/-- The loop over the witnesses does not return when a range of nearest landmarks
is empty, and returns otherwise. -/
theorem witnesses_loop_eq_none (narrow : ℚ → ℚ) (max_alpha_square : ℚ) (limit_dimension : ℤ)
    (witnesses : List (List (ℤ × ℚ))) (c : Simplex_tree) (d : ℤ) :
    witnesses_loop narrow max_alpha_square limit_dimension witnesses c d = none ↔
      ∃ aw ∈ witnesses, aw = [] := by
  constructor
  · intro h
    by_contra hne
    push_neg at hne
    obtain ⟨r, hr⟩ := witnesses_loop_total narrow max_alpha_square limit_dimension witnesses
      hne c d
    rw [h] at hr
    cases hr
  · rintro ⟨aw, ha, rfl⟩
    cases hr : witnesses_loop narrow max_alpha_square limit_dimension witnesses c d with
    | none => rfl
    | some r =>
      exact absurd rfl ((witnesses_loop_mem _ _ _ _ _ _ _ hr).1 [] ha)

/-- C38 (what the code does): a call of `create_complex` which passes the three
argument checks has no defined result exactly when the range of nearest landmarks
of some witness is empty, which is the case of every witness when there is no
landmark: `aw.begin()->second` is read before any test of the range. No other
read is out of range. -/
theorem create_complex_empty_range (narrow : ℚ → ℚ) (nbL : ℕ)
    (witnesses : List (List (ℤ × ℚ))) (complex : Simplex_tree) (max_alpha_square : ℚ)
    (limit_dimension : ℤ)
    (hg : ¬ (complex.num_vertices > 0 ∨ max_alpha_square < 0 ∨ limit_dimension < 0)) :
    create_complex narrow nbL witnesses complex max_alpha_square limit_dimension = none ↔
      ∃ aw ∈ witnesses, aw = [] := by
  rw [create_complex_of_not_guard _ _ _ _ _ _ hg, Option.map_eq_none', witnesses_loop_eq_none]

/-- The failing call: no landmark, one witness, relaxation `1`,
`limit_dimension = 1`, on the empty complex. -/
theorem create_complex_empty_range_witness :
    create_complex binary32 0 [[]] Simplex_tree.empty 1 1 = none :=
  (create_complex_empty_range binary32 0 [[]] Simplex_tree.empty 1 1 (by decide!)).2
    ⟨[], List.mem_singleton.2 rfl, rfl⟩

/-- With fewer elements on the heap than extractions asked, an extraction reads
the empty heap. -/
theorem drain_heap_none {comp : ℚ × ℤ → ℚ × ℤ → Bool} (Q : Priority_queue comp) :
    ∀ (n : ℕ) (h : Q.σ), Multiset.card (Q.content h) < n → drain_heap Q n h = none := by
  intro n
  induction n with
  | zero => intro h hn; omega
  | succ n ih =>
    intro h hn
    cases ht : Q.top h with
    | none => simp only [drain_heap, ht]
    | some d =>
      cases hp : Q.pop h with
      | none => simp only [drain_heap, ht, hp]
      | some h' =>
        have hc := Q.content_pop h d h' ht hp
        rw [hc, Multiset.card_cons] at hn
        simp only [drain_heap, ht, hp, ih h' (by omega)]

/-- C39 (what the code does): with one witness of dimension `1` and one landmark,
`nearest_landmarks` pushes one pair on the heap and makes two extractions: the
first one succeeds and leaves the heap empty, the second one reads the empty
heap, so that one extraction has a result, two have none, and the call has no
defined result. -/
theorem nearest_landmarks_empty_heap :
    (fill_heap list_queue line_distance [[0]] [0] [0] 0 list_queue.empty).map
      (fun h => (list_queue.top h, drain_heap list_queue 1 h, drain_heap list_queue 2 h))
      = some (some (0, 0), some [0], none) ∧
    list_top [((0 : ℚ), (0 : ℤ))] = some (0, 0) ∧
    list_remove ((0 : ℚ), (0 : ℤ)) [(0, 0)] = [] ∧
    list_top ([] : List (ℚ × ℤ)) = none ∧
    drain_heap list_queue 1 [((0 : ℚ), (0 : ℤ))] = some [0] ∧
    drain_heap list_queue 2 [((0 : ℚ), (0 : ℤ))] = none ∧
    nearest_landmarks list_queue line_distance [[0]] [0] = none := by
  decide!

/-- C39 (amended): for a set `W` of witnesses which is not empty, `D` the
dimension of its first point, and a set `L` of landmarks which are indices into
`W`, the `D + 1` extractions made for each witness are all made on a heap which is
not empty, and `nearest_landmarks` returns, exactly when there are at least
`D + 1` landmarks. -/
theorem nearest_landmarks_heap_safe (Q : Priority_queue dist_comp)
    (ed : List ℚ → List ℚ → ℚ) (W : List (List ℚ)) (L : List ℤ) (w0 : List ℚ)
    (hW : W[0]? = some w0) (hL : ∀ l ∈ L, 0 ≤ l ∧ l < W.length) :
    (∃ rows, nearest_landmarks Q ed W L = some rows) ↔ w0.length + 1 ≤ L.length := by
  constructor
  · rintro ⟨rows, hrows⟩
    by_contra hlt
    cases W with
    | nil => simp at hW
    | cons w ws =>
      obtain ⟨h, hh⟩ := fill_heap_total Q ed (w :: ws) w L 0 Q.empty hL
      have hc := fill_heap_spec Q ed (w :: ws) w L 0 Q.empty h hh
      rw [Q.content_empty, zero_add] at hc
      have hcard : Multiset.card (Q.content h) = L.length := by
        rw [hc, Multiset.coe_card, List.length_map, List.enumFrom_length]
      have hd := drain_heap_none Q (w0.length + 1) h (by omega)
      simp only [nearest_landmarks, hW, nearest_rows, hh, hd] at hrows
      cases hrows
  · intro hD
    obtain ⟨rows, h1, -⟩ := nearest_landmarks_spec Q ed hW hL hD
    exact ⟨rows, h1⟩

/-- An instance of the safe extractions: three points of the line, all of them
landmarks. -/
theorem nearest_landmarks_heap_safe_witness :
    (∃ rows, nearest_landmarks list_queue line_distance [[0], [1], [3]] [0, 1, 2]
      = some rows) ↔ [(0 : ℚ)].length + 1 ≤ [(0 : ℤ), 1, 2].length :=
  nearest_landmarks_heap_safe list_queue line_distance [[0], [1], [3]] [0, 1, 2] [0]
    (by decide) (by decide)

/-! ## The simplices the loop of the weak engine adds -/

/-- The set of the first `m` entries of a row has at most `m` elements. -/
theorem card_firsts_le (row : List ℤ) (m : ℕ) : (firsts row m).card ≤ m := by
  unfold firsts
  refine le_trans (List.toFinset_card_le _) ?_
  rw [List.length_take]
  exact min_le_left _ _

/-- A simplex a pass at the dimension `k` adds is the set of the first `k + 1`
entries of a row which has them. -/
theorem witness_pass_new (knn : List (List ℤ)) (k : ℕ) (ws : List ℕ) :
    ∀ (c : Simplex_tree) (r : Simplex_tree × List ℕ), witness_pass knn k c ws = some r →
      ∀ s, r.1.Mem s → c.Mem s ∨ ∃ row ∈ knn, k < row.length ∧ s = firsts row (k + 1) := by
  induction ws with
  | nil =>
    intro c r h s hs
    rw [witness_pass_nil] at h
    cases h
    exact Or.inl hs
  | cons w ws ih =>
    intro c r h s hs
    obtain ⟨row, xk, hrow, hxk, h1 | ⟨sv, r', -, hsv, hr', rfl⟩⟩ := witness_pass_cons_inv h
    · exact ih c r h1.2 s hs
    · have hk : k < row.length := (List.getElem?_eq_some.1 hxk).1
      rcases ih _ r' hr' s hs with h2 | h2
      · rcases (Simplex_tree.mem_insert_simplex c sv 0 s).1 h2 with h3 | h3
        · exact Or.inl h3
        · obtain ⟨sv', hsv', hfin⟩ := simplex_vector_toFinset row k hk
          rw [hsv, Option.some.injEq] at hsv'
          subst hsv'
          exact Or.inr ⟨row, mem_of_getElem?_eq_some hrow, hk, by rw [h3, hfin]⟩
      · exact Or.inr h2

/-- A simplex the loop entered at the dimension `k` adds is the set of the first
`j + 1` entries of a row which has them, for some `j` with `k ≤ j < D`. -/
theorem witness_loop_new (knn : List (List ℤ)) (D : ℕ) :
    ∀ (fuel k : ℕ) (c : Simplex_tree) (active : List ℕ) (r : Simplex_tree × List ℕ),
      witness_loop knn D fuel k c active = some r →
      ∀ s, r.1.Mem s → c.Mem s ∨
        ∃ row ∈ knn, ∃ j, k ≤ j ∧ j < D ∧ j < row.length ∧ s = firsts row (j + 1) := by
  intro fuel
  induction fuel with
  | zero =>
    intro k c active r h s hs
    simp only [witness_loop] at h
    split at h
    · cases h
    · cases h; exact Or.inl hs
  | succ fuel ih =>
    intro k c active r h s hs
    simp only [witness_loop] at h
    split at h
    · rename_i hcond
      cases hp : witness_pass knn k c active with
      | none => rw [hp] at h; cases h
      | some r1 =>
        rw [hp] at h
        rcases ih (k + 1) r1.1 r1.2 r h s hs with h1 | ⟨row, hrow, j, hj1, hj2, hj3, hsj⟩
        · rcases witness_pass_new knn k active c r1 hp s h1 with h2 | ⟨row, hrow, hk, hsk⟩
          · exact Or.inl h2
          · exact Or.inr ⟨row, hrow, k, le_refl _, hcond.2, hk, hsk⟩
        · exact Or.inr ⟨row, hrow, j, by omega, hj2, hj3, hsj⟩
    · cases h; exact Or.inl hs

/-- With no active witness the loop is left at once. -/
theorem witness_loop_nil (knn : List (List ℤ)) (D fuel k : ℕ) (c : Simplex_tree) :
    witness_loop knn D fuel k c [] = some (c, []) := by
  cases fuel <;> simp [witness_loop]

/-- The history of the active lists of the loop entered at the dimension `k` has
at most `D - k + 1` lists: the loop makes at most `D - k` passes. -/
theorem witness_loop_actives_length (knn : List (List ℤ)) (D : ℕ) :
    ∀ (fuel k : ℕ) (c : Simplex_tree) (active : List ℕ) (history : List (List ℕ)),
      witness_loop_actives knn D fuel k c active = some history →
      history.length ≤ (D - k) + 1 := by
  intro fuel
  induction fuel with
  | zero =>
    intro k c active history h
    simp only [witness_loop_actives] at h
    split at h
    · cases h
    · cases h; simp
  | succ fuel ih =>
    intro k c active history h
    simp only [witness_loop_actives] at h
    split at h
    · rename_i hcond
      cases hp : witness_pass knn k c active with
      | none => rw [hp] at h; cases h
      | some r1 =>
        rw [hp] at h
        cases hh : witness_loop_actives knn D fuel (k + 1) r1.1 r1.2 with
        | none => simp only [hh] at h; cases h
        | some history' =>
          simp only [hh, Option.some.injEq] at h
          subst h
          have := ih (k + 1) r1.1 r1.2 history' hh
          rw [List.length_cons]
          omega
    · cases h; simp

/-- The rows of the table a returning call of `witness_complex` leaves have the
length of the rows of the table it was given. -/
theorem witness_complex_rows_length {nbL : ℤ} {D : ℕ} {knn : List (List ℤ)}
    {c : Simplex_tree} {r : Witness_result} (h : witness_complex nbL knn c = some r)
    (hrows : ∀ row ∈ knn, row.length = D) : ∀ row ∈ r.knn, row.length = D := by
  obtain ⟨-, row0, c1, hcase, -, -⟩ := witness_complex_steps h
  rcases hcase with ⟨-, -, hk⟩ | ⟨-, -, ho⟩
  · rw [hk]; exact hrows
  · intro row1 hrow1
    obtain ⟨row, hrow, hf⟩ := forall₂_mem_right (order_rows_spec knn r.knn ho) hrow1
    rw [(order_first_two_spec hf).1]
    exact hrows row hrow

/-- C37: dimension bound of the weak engine. For a table `knn` which is not empty
and whose rows all have length `D ≥ 2`, and `nbL ≥ 0`, `witness_complex` started
on the empty complex returns; its loop runs on rows of length `D` and the history
of its active lists has at most `D - 1` lists, that is the loop makes at most
`D - 2` passes; and every simplex of the complex it builds has at most `D`
vertices. -/
theorem witness_complex_dimension_bound (nbL : ℤ) (D : ℕ) (knn : List (List ℤ))
    (hD : 2 ≤ D) (hne : knn ≠ []) (hrows : ∀ row ∈ knn, row.length = D) (hL : 0 ≤ nbL) :
    ∃ (r : Witness_result) (row0 : List ℤ) (c1 : Simplex_tree) (history : List (List ℕ)),
      witness_complex nbL knn Simplex_tree.empty = some r ∧
      r.knn[0]? = some row0 ∧ row0.length = D ∧
      witness_loop r.knn row0.length row0.length 2 c1
        (if nbL > 1 then List.range knn.length else []) = some (r.complex, r.active_w) ∧
      witness_loop_actives r.knn row0.length row0.length 2 c1
        (if nbL > 1 then List.range knn.length else []) = some history ∧
      history.length - 1 ≤ D - 2 ∧
      ∀ s, r.complex.Mem s → s.card ≤ D := by
  have hread : ReadsInRange nbL knn := by
    refine ⟨hL, ?_⟩
    match knn, hne, hrows with
    | row0 :: rest, _, hrows =>
      refine ⟨row0, rest, rfl, fun _ row hrow => ?_⟩
      rw [hrows row hrow, hrows row0 (List.mem_cons_self _ _)]
      exact ⟨hD, le_refl _⟩
  obtain ⟨r, hr⟩ := witness_complex_total Simplex_tree.empty hread
  obtain ⟨-, row0, c1, hcase, h0, hl⟩ := witness_complex_steps hr
  have hlen1 := witness_complex_rows_length hr hrows
  have hrow0 : row0.length = D := hlen1 row0 (List.getElem?_mem h0)
  obtain ⟨history, hh⟩ := (witness_loop_actives_spec r.knn row0.length row0.length 2 c1
    (if nbL > 1 then List.range knn.length else [])).2 _ hl
  have hhist := witness_loop_actives_length _ _ _ _ _ _ _ hh
  refine ⟨r, row0, c1, history, hr, h0, hrow0, hl, hh, by omega, ?_⟩
  intro s hs
  have hland : ∀ t, (insert_landmarks Simplex_tree.empty (List.range nbL.toNat)).Mem t →
      t.card ≤ D := by
    intro t ht
    rcases (mem_insert_landmarks _ _ t).1 ht with h | ⟨i, -, rfl⟩
    · exact absurd h (Simplex_tree.not_mem_empty t)
    · rw [Finset.card_singleton]; omega
  rcases witness_loop_new _ _ _ _ _ _ _ hl s hs with h1 | ⟨row, hrow, j, -, hj, -, rfl⟩
  · rcases hcase with ⟨-, hc1, -⟩ | ⟨-, he, -⟩
    · rw [hc1] at h1
      exact hland s h1
    · rcases (mem_insert_edges knn _ c1 he s).1 h1 with h2 | ⟨row, -, rfl⟩
      · exact hland s h2
      · exact le_trans (card_firsts_le row 2) hD
  · exact le_trans (card_firsts_le row (j + 1)) (by omega)

/-- An instance of the dimension bound: three witnesses with rows of length `3`,
three landmarks. -/
theorem witness_complex_dimension_bound_witness :
    ∃ (r : Witness_result) (row0 : List ℤ) (c1 : Simplex_tree) (history : List (List ℕ)),
      witness_complex 3 [[0, 1, 2], [1, 0, 2], [2, 0, 1]] Simplex_tree.empty = some r ∧
      r.knn[0]? = some row0 ∧ row0.length = 3 ∧
      witness_loop r.knn row0.length row0.length 2 c1
        (if (3 : ℤ) > 1 then List.range [[(0 : ℤ), 1, 2], [1, 0, 2], [2, 0, 1]].length
          else []) = some (r.complex, r.active_w) ∧
      witness_loop_actives r.knn row0.length row0.length 2 c1
        (if (3 : ℤ) > 1 then List.range [[(0 : ℤ), 1, 2], [1, 0, 2], [2, 0, 1]].length
          else []) = some history ∧
      history.length - 1 ≤ 3 - 2 ∧
      ∀ s, r.complex.Mem s → s.card ≤ 3 :=
  witness_complex_dimension_bound 3 3 [[0, 1, 2], [1, 0, 2], [2, 0, 1]] (by decide)
    (by decide) (by decide) (by decide)

/-! ## The weak engine does not depend on the order of the witnesses -/

/-- The simplices of the complex built by `witness_complex` from a table, on the
empty complex: the landmarks and the sets of `2` to `D` landmarks witnessed with
their faces. -/
theorem witness_complex_table_mem {nbL : ℤ} {D : ℕ} {knn : List (List ℤ)} (hD : 2 ≤ D)
    (hT : IsTable nbL D knn) :
    ∃ r, witness_complex nbL knn Simplex_tree.empty = some r ∧
      ∀ s : Finset ℤ, r.complex.Mem s ↔
        (∃ i ∈ List.range nbL.toNat, s = {(i : ℤ)}) ∨
        (2 ≤ s.card ∧ s.card ≤ D ∧ WitnessedWithFaces knn s) := by
  obtain ⟨r, hr, hiff, -⟩ := witness_complex_table hD hT
  have hL := one_lt_nbL_of_isTable hD hT
  have hdist : RowsDistinct D knn := fun row hrow => ⟨(hT.2 row hrow).1, (hT.2 row hrow).2.1⟩
  refine ⟨r, hr, fun s => ⟨fun hs => ?_, fun hs => ?_⟩⟩
  · obtain ⟨-, row0, c1, hcase, h0, hl⟩ := witness_complex_steps hr
    rcases hcase with ⟨hn, -, -⟩ | ⟨-, he, ho⟩
    · exact absurd hL hn
    · have hdist1 := rowsDistinct_order_rows (order_rows_spec knn r.knn ho) hdist
      have hrow0 : row0.length = D := (hdist1 row0 (List.getElem?_mem h0)).1
      have key : (∃ i ∈ List.range nbL.toNat, s = {(i : ℤ)}) ∨ (2 ≤ s.card ∧ s.card ≤ D) := by
        rcases witness_loop_new _ _ _ _ _ _ _ hl s hs with h1 | ⟨row, hrow, j, hj1, hj2, -, rfl⟩
        · rcases (mem_insert_edges knn _ c1 he s).1 h1 with h2 | ⟨row, hrow, rfl⟩
          · rcases (mem_insert_landmarks _ _ s).1 h2 with h3 | h3
            · exact absurd h3 (Simplex_tree.not_mem_empty s)
            · exact Or.inl h3
          · right
            rw [card_firsts (hdist row hrow).2 (by rw [(hdist row hrow).1]; exact hD)]
            exact ⟨le_refl _, hD⟩
        · right
          rw [card_firsts (hdist1 row hrow).2 (by rw [(hdist1 row hrow).1]; omega)]
          omega
      rcases key with h | ⟨h2, hD'⟩
      · exact Or.inl h
      · exact Or.inr ⟨h2, hD', (hiff s h2 hD').1 hs⟩
  · rcases hs with h | ⟨h2, hD', hw⟩
    · exact (witness_complex_mono hr).2 s ((mem_insert_landmarks _ _ s).2 (Or.inr h))
    · exact (hiff s h2 hD').2 hw

/-- Which sets of landmarks are witnessed with their faces does not depend on the
order of the rows of the table. -/
theorem witnessedWithFaces_perm {knn knn' : List (List ℤ)} (hperm : knn.Perm knn')
    (s : Finset ℤ) : WitnessedWithFaces knn s ↔ WitnessedWithFaces knn' s := by
  have hw : ∀ t, Witnessed knn t ↔ Witnessed knn' t := by
    intro t
    unfold Witnessed
    simp only [hperm.mem_iff]
  unfold WitnessedWithFaces
  simp only [hw]

/-- A permutation of the rows of a table is a table. -/
theorem isTable_perm {nbL : ℤ} {D : ℕ} {knn knn' : List (List ℤ)} (hperm : knn.Perm knn')
    (hT : IsTable nbL D knn) : IsTable nbL D knn' := by
  refine ⟨?_, fun row hrow => hT.2 row (hperm.mem_iff.2 hrow)⟩
  intro h
  rw [h] at hperm
  exact hT.1 hperm.eq_nil

/-- C34: witness-order independence of the weak engine. For a table `knn` whose
rows all have the same length `D` and list pairwise distinct landmark ids of
`[0, nbL)`, and a table `knn'` whose rows are those of `knn` in another order:
with `D ≥ 2` `witness_complex` started on the empty complex returns on `knn`, and
whenever it returns on `knn` it returns on `knn'` and the two complexes have the
same simplices. -/
theorem witness_complex_row_order (nbL : ℤ) (D : ℕ) (knn knn' : List (List ℤ))
    (hT : IsTable nbL D knn) (hperm : knn.Perm knn') :
    (2 ≤ D → ∃ r, witness_complex nbL knn Simplex_tree.empty = some r) ∧
    ∀ r, witness_complex nbL knn Simplex_tree.empty = some r →
      ∃ r', witness_complex nbL knn' Simplex_tree.empty = some r' ∧
        ∀ s, r.complex.Mem s ↔ r'.complex.Mem s := by
  have hT' := isTable_perm hperm hT
  constructor
  · intro hD
    obtain ⟨r, hr, -⟩ := witness_complex_table_mem hD hT
    exact ⟨r, hr⟩
  · intro r hr
    by_cases hD : 2 ≤ D
    · obtain ⟨r1, hr1, h1⟩ := witness_complex_table_mem hD hT
      obtain ⟨r', hr', h2⟩ := witness_complex_table_mem hD hT'
      rw [hr, Option.some.injEq] at hr1
      subst hr1
      refine ⟨r', hr', fun s => ?_⟩
      rw [h1, h2, witnessedWithFaces_perm hperm]
    · obtain ⟨hL0, row0, c1, hcase, h0, hl⟩ := witness_complex_steps hr
      rcases hcase with ⟨hn, hc1, -⟩ | ⟨-, he, -⟩
      · have hgt : ¬ nbL > 1 := hn
        rw [if_neg hgt, witness_loop_nil, Option.some.injEq, Prod.mk.injEq] at hl
        match knn', hT'.1 with
        | row0' :: rest', _ =>
          refine ⟨⟨insert_landmarks Simplex_tree.empty (List.range nbL.toNat),
            row0' :: rest', []⟩, ?_, fun s => ?_⟩
          · exact witness_complex_eq_small hL0 hn (List.getElem?_cons_zero)
              (witness_loop_nil _ _ _ _ _)
          · rw [← hl.1, hc1]
      · exfalso
        match knn, hT.1, hT.2, he with
        | row :: rows, _, hrows, he =>
          obtain ⟨u, v, -, hv, -⟩ := insert_edges_cons_inv he
          have h1 := (List.getElem?_eq_some.1 hv).1
          have h2 := (hrows row (List.mem_cons_self _ _)).1
          omega

/-- An instance of the independence of the order: three witnesses, three
landmarks, the rows in two orders. -/
theorem witness_complex_row_order_witness :
    (2 ≤ 3 → ∃ r, witness_complex 3 [[0, 1, 2], [1, 0, 2], [2, 0, 1]] Simplex_tree.empty
      = some r) ∧
    ∀ r, witness_complex 3 [[0, 1, 2], [1, 0, 2], [2, 0, 1]] Simplex_tree.empty = some r →
      ∃ r', witness_complex 3 [[2, 0, 1], [0, 1, 2], [1, 0, 2]] Simplex_tree.empty
          = some r' ∧
        ∀ s, r.complex.Mem s ↔ r'.complex.Mem s :=
  witness_complex_row_order 3 3 [[0, 1, 2], [1, 0, 2], [2, 0, 1]]
    [[2, 0, 1], [0, 1, 2], [1, 0, 2]] (by decide) (by decide)

/-! ## The three outcomes of `create_complex` -/

/-- C6 (what the code does): `create_complex` returns `false` if and only if, at
call start, the complex already has a vertex, or `max_alpha_square < 0`, or
`limit_dimension < 0`. It returns `true` if and only if none of these holds and
every witness has a nearest landmark to start from. In the remaining case, no
guard and a witness whose range of nearest landmarks is empty, as happens with
no landmark, the call has no defined result: `aw.begin()->second` is read on the
empty range. -/
theorem create_complex_fails_iff (narrow : ℚ → ℚ) (nbL : ℕ)
    (witnesses : List (List (ℤ × ℚ))) (complex : Simplex_tree) (max_alpha_square : ℚ)
    (limit_dimension : ℤ) :
    ((∃ c, create_complex narrow nbL witnesses complex max_alpha_square limit_dimension
        = some (false, c)) ↔
      (complex.num_vertices > 0 ∨ max_alpha_square < 0 ∨ limit_dimension < 0)) ∧
    ((∃ c, create_complex narrow nbL witnesses complex max_alpha_square limit_dimension
        = some (true, c)) ↔
      (¬ (complex.num_vertices > 0 ∨ max_alpha_square < 0 ∨ limit_dimension < 0) ∧
        ∀ aw ∈ witnesses, aw ≠ [])) ∧
    (create_complex narrow nbL witnesses complex max_alpha_square limit_dimension = none ↔
      (¬ (complex.num_vertices > 0 ∨ max_alpha_square < 0 ∨ limit_dimension < 0) ∧
        ∃ aw ∈ witnesses, aw = [])) := by
  by_cases hg : complex.num_vertices > 0 ∨ max_alpha_square < 0 ∨ limit_dimension < 0
  · have he := create_complex_of_guard narrow nbL witnesses complex max_alpha_square
      limit_dimension hg
    refine ⟨⟨fun _ => hg, fun _ => ⟨complex, he⟩⟩, ⟨?_, fun h => absurd hg h.1⟩,
      ⟨?_, fun h => absurd hg h.1⟩⟩
    · rintro ⟨c, hc⟩
      rw [he] at hc
      cases hc
    · intro hn
      rw [he] at hn
      cases hn
  · have he := create_complex_of_not_guard narrow nbL witnesses complex max_alpha_square
      limit_dimension hg
    cases hr : witnesses_loop narrow max_alpha_square limit_dimension witnesses
        (insert_landmarks complex (List.range nbL)) 0 with
    | none =>
      rw [hr] at he
      have hex : ∃ aw ∈ witnesses, aw = [] := by
        by_contra hne
        push_neg at hne
        obtain ⟨r, hr'⟩ := witnesses_loop_total narrow max_alpha_square limit_dimension
          witnesses hne (insert_landmarks complex (List.range nbL)) 0
        rw [hr] at hr'
        cases hr'
      refine ⟨⟨?_, fun h => absurd h hg⟩, ⟨?_, ?_⟩, ⟨fun _ => ⟨hg, hex⟩, fun _ => he⟩⟩
      · rintro ⟨c, hc⟩
        rw [he] at hc
        cases hc
      · rintro ⟨c, hc⟩
        rw [he] at hc
        cases hc
      · rintro ⟨-, hne⟩
        obtain ⟨aw, ha, h0⟩ := hex
        exact absurd h0 (hne aw ha)
    | some r =>
      rw [hr] at he
      have hne := (witnesses_loop_mem _ _ _ _ _ _ _ hr).1
      refine ⟨⟨?_, fun h => absurd h hg⟩, ⟨fun _ => ⟨hg, hne⟩, fun _ => ⟨_, he⟩⟩, ⟨?_, ?_⟩⟩
      · rintro ⟨c, hc⟩
        rw [he] at hc
        cases hc
      · intro hn
        rw [he] at hn
        cases hn
      · rintro ⟨-, aw, ha, h0⟩
        exact absurd h0 (hne aw ha)

/-- The failing call: no landmark, one witness, relaxation `1`,
`limit_dimension = 1`, on the empty complex. No guard holds and the call returns
neither `false` nor `true`. -/
theorem create_complex_fails_iff_witness :
    ¬ (Simplex_tree.empty.num_vertices > 0 ∨ (1 : ℚ) < 0 ∨ (1 : ℤ) < 0) ∧
    (¬ ∃ c, create_complex binary32 0 [[]] Simplex_tree.empty 1 1 = some (false, c)) ∧
    (¬ ∃ c, create_complex binary32 0 [[]] Simplex_tree.empty 1 1 = some (true, c)) ∧
    create_complex binary32 0 [[]] Simplex_tree.empty 1 1 = none :=
  have h := create_complex_fails_iff binary32 0 [[]] Simplex_tree.empty 1 1
  have hg : ¬ (Simplex_tree.empty.num_vertices > 0 ∨ (1 : ℚ) < 0 ∨ (1 : ℤ) < 0) := by
    decide!
  ⟨hg, fun hf => hg (h.1.1 hf),
    fun ht => (h.2.1.1 ht).2 [] (List.mem_singleton.2 rfl) rfl,
    h.2.2.2 ⟨hg, [], List.mem_singleton.2 rfl, rfl⟩⟩

/-! ## The filtration values passed with the bound converted to `float` -/

/-- C26 (what the code does): with two landmarks, a witness at squared distance
`0` from landmark `0` and `0.09` from landmark `1` (ascending), and
`max_alpha_square = 0.09`, `create_complex` passes the edge `[0, 1]` to the store
with the filtration value `0.09 - 0`, which is not strictly less than
`max_alpha_square`: the bound stored in the `float` variable `lim_dist2` is
rounded up, and the landmark at distance `0.09` passes the test. With an exact
conversion the only request is on the vertex `[0]`, with the value `0`. -/
theorem create_complex_filtration_at_bound :
    (create_complex binary32 2 [[(0, 0), (1, 3242591731706757 / 36028797018963968)]]
        Simplex_tree.empty (3242591731706757 / 36028797018963968) 2).map
      (fun r => (r.1, Simplex_tree.closure_requests r.2.log))
      = some (true, [([0], 0), ([0, 1], 3242591731706757 / 36028797018963968)]) ∧
    ¬ ((3242591731706757 / 36028797018963968 : ℚ) - 0
        < 3242591731706757 / 36028797018963968) ∧
    (create_complex id 2 [[(0, 0), (1, 3242591731706757 / 36028797018963968)]]
        Simplex_tree.empty (3242591731706757 / 36028797018963968) 2).map
      (fun r => (r.1, Simplex_tree.closure_requests r.2.log))
      = some (true, [([0], 0)]) := by
  decide!

end Gudhi
